import Mathlib

/-!
# arduino-cli: hardware loader and build orchestrator

A shallow embedding of `legacy/builder/builder.go` (the staged build pipeline
`Builder.Run`) and of `arduino/cores/packagemanager/loader.go` (the hardware
directory loader), followed by theorems about them.

Go code mutates a `*types.Context` / a `*Builder` in place; here every
operation takes the state and returns the new state together with its error
(`none` stands for Go's `nil` error).  External collaborators (compilers,
recipe runner, file system) are explicit parameters.
-/

/-- Go `error` values.  `ext` is an error produced by an external collaborator,
`new` is `errors.New(msg)` or `fmt.Errorf` without cause, `wrap` is
`fmt.Errorf("%s: %w", msg, cause)`, `withStack` is `errors.WithStack(cause)` and
`invalidVersion` is `&arduino.InvalidVersionError{Cause: cause}`. -/
inductive Error where
  | ext (msg : String)
  | new (msg : String)
  | wrap (msg : String) (cause : Error)
  | withStack (cause : Error)
  | invalidVersion (cause : Error)
  deriving DecidableEq, Repr

/-- The text of an error (Go `err.message()`). -/
def Error.message : Error → String
  | .ext msg => msg
  | .new msg => msg
  | .wrap msg cause => msg ++ ": " ++ cause.message
  | .withStack cause => cause.message
  | .invalidVersion cause => "invalid version: " ++ cause.message

namespace builder

/-- The commands that `Builder.Run` puts in its two `[]types.Command` lists, one
constructor per distinct closure of the source.  `recipeHook pfx sfx skip` is
the closure `recipeByPrefixSuffixRunner(ctx, pfx, sfx, skip)`; the boolean of
the three secondary commands is the value of `mainErr != nil` that the closure
reads when it runs. -/
inductive Command where
  | containerBuildOptions
  | recipeHook (pfx sfx : String) (skipIfOnlyUpdatingCompilationDatabase : Bool)
  | prepareSketchBuildPath
  | logIfVerbose (warn : Bool) (msg : String)
  | findIncludes
  | warnAboutArchIncompatibleLibraries
  | preprocessSketchCommand
  | sketchBuilder
  | unusedCompiledLibrariesRemover
  | librariesBuilder
  | coreBuilder
  | linker
  | mergeSketchWithBootloader
  | printUsedAndNotUsedLibraries (mainFailed : Bool)
  | printUsedLibrariesIfVerbose
  | exportProjectCMake (mainFailed : Bool)
  | sizer (mainFailed : Bool)
  deriving DecidableEq, Repr

/-- What a run leaves observable on the context: the debug line of
`PrintRingNameIfDebug` (one per command started), the messages sent to
`ctx.Info` / `ctx.Warn`, the progress calls and the flush of the compilation
database. -/
inductive Event where
  | running (c : Command)
  | info (msg : String)
  | warn (msg : String)
  | addSubSteps (n : Nat)
  | removeSubSteps
  | completeStep
  | pushProgress
  | saveToFile
  deriving DecidableEq, Repr

/-- The part of `types.Context` that `Builder.Run` itself reads, plus the list of
events produced so far (oldest first).  `CompilationDatabase` is `true` when
`ctx.CompilationDatabase != nil`. -/
structure Context where
  Verbose : Bool
  OnlyUpdateCompilationDatabase : Bool
  CompilationDatabase : Bool
  events : List Event
  deriving DecidableEq, Repr

/-- Append one event to the context. -/
def Context.emit (ctx : Context) (e : Event) : Context :=
  { ctx with events := ctx.events ++ [e] }

/-- The outcomes of the collaborators that the commands call and that are not
defined in `builder.go`.  Each one sees the context it is called with (hence the
whole history of the run) and returns the error of the call; the ones whose
textual output `Builder.Run` forwards to `ctx.Info` also return that text. -/
structure World where
  MkdirAll : Context → Option Error
  ContainerBuildOptions : Context → String × Option Error
  RecipeByPrefixSuffixRunner : String → String → Bool → Bool → Bool → Context → Option Error
  PrepareSketchBuildPath : Context → Option Error
  FindIncludes : Context → Option Error
  PreprocessSketch : Context → Option Error
  SketchBuilder : Context → Option Error
  UnusedCompiledLibrariesRemover : Context → Option Error
  LibrariesBuilder : Context → Option Error
  CoreBuilder : Context → Option Error
  Linker : Context → String × Option Error
  MergeSketchWithBootloader : Context → Option Error
  PrintUsedLibrariesIfVerbose : Context → String
  ExportProjectCMake : Bool → Context → Option Error
  Sizer : Bool → Bool → Bool → Context → Option Error

/-- The wrapper `recipeByPrefixSuffixRunner` of `builder.go`: it forwards its three
arguments, followed by `ctx.OnlyUpdateCompilationDatabase` and `ctx.Verbose`, to
`RecipeByPrefixSuffixRunner`. -/
def recipeByPrefixSuffixRunner (w : World) (ctx : Context) (pfx sfx : String)
    (skipIfOnlyUpdatingCompilationDatabase : Bool) : Option Error :=
  w.RecipeByPrefixSuffixRunner pfx sfx skipIfOnlyUpdatingCompilationDatabase
    ctx.OnlyUpdateCompilationDatabase ctx.Verbose ctx

/-- The function `logIfVerbose(warn, msg)`: silent unless the context is verbose,
never fails. -/
def logIfVerbose (warn : Bool) (msg : String) (ctx : Context) : Context × Option Error :=
  if !ctx.Verbose then (ctx, none)
  else if warn then (ctx.emit (.warn msg), none)
  else (ctx.emit (.info msg), none)

/-- The function `containerBuildOptions`: the info message is printed when it is not
empty, then the error (if any) is returned. -/
def containerBuildOptions (w : World) (ctx : Context) : Context × Option Error :=
  let r := w.ContainerBuildOptions ctx
  let ctx1 := if r.1 ≠ "" then ctx.emit (.info r.1) else ctx
  (ctx1, r.2)

/-- The method `command.Run(ctx)` for each command of the two lists. -/
def Command.Run (w : World) : Command → Context → Context × Option Error
  | .containerBuildOptions, ctx => builder.containerBuildOptions w ctx
  | .recipeHook pfx sfx skip, ctx => (ctx, recipeByPrefixSuffixRunner w ctx pfx sfx skip)
  | .prepareSketchBuildPath, ctx => (ctx, w.PrepareSketchBuildPath ctx)
  | .logIfVerbose warn msg, ctx => builder.logIfVerbose warn msg ctx
  | .findIncludes, ctx => (ctx, w.FindIncludes ctx)
  | .warnAboutArchIncompatibleLibraries, ctx => (ctx, none)
  | .preprocessSketchCommand, ctx => (ctx, w.PreprocessSketch ctx)
  | .sketchBuilder, ctx => (ctx, w.SketchBuilder ctx)
  | .unusedCompiledLibrariesRemover, ctx => (ctx, w.UnusedCompiledLibrariesRemover ctx)
  | .librariesBuilder, ctx => (ctx, w.LibrariesBuilder ctx)
  | .coreBuilder, ctx => (ctx, w.CoreBuilder ctx)
  | .linker, ctx =>
    let r := w.Linker ctx
    (if ctx.Verbose then ctx.emit (.info r.1) else ctx, r.2)
  | .mergeSketchWithBootloader, ctx => (ctx, w.MergeSketchWithBootloader ctx)
  | .printUsedAndNotUsedLibraries _, ctx => (ctx, none)
  | .printUsedLibrariesIfVerbose, ctx => (ctx.emit (.info (w.PrintUsedLibrariesIfVerbose ctx)), none)
  | .exportProjectCMake failed, ctx => (ctx, w.ExportProjectCMake failed ctx)
  | .sizer failed, ctx =>
    (ctx, w.Sizer ctx.OnlyUpdateCompilationDatabase failed ctx.Verbose ctx)

/-- The first `commands` list of `Builder.Run`, in source order. -/
def primaryCommands : List Command :=
  [ .containerBuildOptions,
    .recipeHook "recipe.hooks.prebuild" ".pattern" false,
    .prepareSketchBuildPath,
    .logIfVerbose false "Detecting libraries used...",
    .findIncludes,
    .warnAboutArchIncompatibleLibraries,
    .logIfVerbose false "Generating function prototypes...",
    .preprocessSketchCommand,
    .logIfVerbose false "Compiling sketch...",
    .recipeHook "recipe.hooks.sketch.prebuild" ".pattern" false,
    .sketchBuilder,
    .recipeHook "recipe.hooks.sketch.postbuild" ".pattern" true,
    .logIfVerbose false "Compiling libraries...",
    .recipeHook "recipe.hooks.libraries.prebuild" ".pattern" false,
    .unusedCompiledLibrariesRemover,
    .librariesBuilder,
    .recipeHook "recipe.hooks.libraries.postbuild" ".pattern" true,
    .logIfVerbose false "Compiling core...",
    .recipeHook "recipe.hooks.core.prebuild" ".pattern" false,
    .coreBuilder,
    .recipeHook "recipe.hooks.core.postbuild" ".pattern" true,
    .logIfVerbose false "Linking everything together...",
    .recipeHook "recipe.hooks.linking.prelink" ".pattern" false,
    .linker,
    .recipeHook "recipe.hooks.linking.postlink" ".pattern" true,
    .recipeHook "recipe.hooks.objcopy.preobjcopy" ".pattern" false,
    .recipeHook "recipe.objcopy." ".pattern" true,
    .recipeHook "recipe.hooks.objcopy.postobjcopy" ".pattern" true,
    .mergeSketchWithBootloader,
    .recipeHook "recipe.hooks.postbuild" ".pattern" true ]

/-- The second `commands` list of `Builder.Run`; `mainFailed` is `mainErr != nil`. -/
def secondaryCommands (mainFailed : Bool) : List Command :=
  [ .printUsedAndNotUsedLibraries mainFailed,
    .printUsedLibrariesIfVerbose,
    .exportProjectCMake mainFailed,
    .sizer mainFailed ]

/-- The loop `for _, command := range commands` of `Builder.Run`: print the debug
line, run the command, on error remember `errors.WithStack(err)` and `break`,
otherwise complete the progress step and go on. -/
def runLoop (w : World) : List Command → Context → Context × Option Error
  | [], ctx => (ctx, none)
  | c :: cs, ctx =>
    let r := c.Run w (ctx.emit (.running c))
    match r.2 with
    | some err => (r.1, some (.withStack err))
    | none => runLoop w cs ((r.1.emit .completeStep).emit .pushProgress)

/-- The context at the start of the first loop, once the build directory exists. -/
def afterMkdir (ctx : Context) : Context :=
  ctx.emit (.addSubSteps (primaryCommands.length + 5))

/-- The flush of the compilation database between the two loops. -/
def saveCompilationDatabase (ctx : Context) : Context :=
  if ctx.CompilationDatabase then ctx.emit .saveToFile else ctx

/-- The method `Builder.Run`.  It returns the final context and the returned error. -/
def Builder.Run (w : World) (ctx : Context) : Context × Option Error :=
  match w.MkdirAll ctx with
  | some err => (ctx, some err)
  | none =>
    let p := runLoop w primaryCommands (afterMkdir ctx)
    let s := runLoop w (secondaryCommands p.2.isSome) (saveCompilationDatabase p.1)
    (s.1.emit .removeSubSteps, if p.2.isSome then p.2 else s.2)

/-- The commands started so far, in order (the `running` events of the context). -/
def Context.started (ctx : Context) : List Command :=
  ctx.events.filterMap fun e => match e with
    | .running c => some c
    | _ => none

/-- A world in which every collaborator succeeds, except that creating the build
directory fails when `mkdirFails` and the recipe runner fails on the hook family
`failingHook`. -/
def sampleWorld (mkdirFails : Bool) (failingHook : String) : World where
  MkdirAll := fun _ => if mkdirFails then some (.ext "mkdir") else none
  ContainerBuildOptions := fun _ => ("", none)
  RecipeByPrefixSuffixRunner := fun pfx _ _ _ _ _ =>
    if pfx = failingHook then some (.ext "hook failed") else none
  PrepareSketchBuildPath := fun _ => none
  FindIncludes := fun _ => none
  PreprocessSketch := fun _ => none
  SketchBuilder := fun _ => none
  UnusedCompiledLibrariesRemover := fun _ => none
  LibrariesBuilder := fun _ => none
  CoreBuilder := fun _ => none
  Linker := fun _ => ("", none)
  MergeSketchWithBootloader := fun _ => none
  PrintUsedLibrariesIfVerbose := fun _ => ""
  ExportProjectCMake := fun _ _ => none
  Sizer := fun _ _ _ _ => none

/-- A quiet context with no history. -/
def sampleContext : Context :=
  { Verbose := false, OnlyUpdateCompilationDatabase := false, CompilationDatabase := true,
    events := [] }

end builder

/-! ## Package manager: strings, property maps, catalog -/

namespace strings

/-- Go `strings.HasPrefix`. -/
def HasPrefix (s pfx : String) : Bool := pfx.data.isPrefixOf s.data

/-- Split a list of characters at every occurrence of `sep`; the result is never
empty (an input without separator gives one piece). -/
def splitChars (sep : Char) : List Char → List (List Char)
  | [] => [[]]
  | c :: cs =>
    if c = sep then [] :: splitChars sep cs
    else match splitChars sep cs with
      | [] => [[c]]
      | h :: t => (c :: h) :: t

/-- Go `strings.Split(s, sep)` for a separator of one character. -/
def Split (s : String) (sep : Char) : List String :=
  (splitChars sep s.data).map String.mk

/-- Go `strings.SplitN(s, sep, 2)` when `s` contains `sep`: the text before the
first separator and the text after it; `none` when there is no separator. -/
def cutChars (sep : Char) : List Char → Option (List Char × List Char)
  | [] => none
  | c :: cs =>
    if c = sep then some ([], cs)
    else match cutChars sep cs with
      | none => none
      | some (a, b) => some (c :: a, b)

/-- Does `sub` occur in `s` (Go `strings.Contains`)? -/
def containsChars (sub : List Char) : List Char → Bool
  | [] => sub.isEmpty
  | c :: cs => sub.isPrefixOf (c :: cs) || containsChars sub cs

/-- Go `strings.Contains`. -/
def Contains (s sub : String) : Bool := containsChars sub.data s.data

/-- Replace the non-overlapping occurrences of `old` from left to right; `skip` is
the number of characters of the occurrence just replaced that are still to be
dropped. -/
def replaceChars (old new : List Char) : Nat → List Char → List Char
  | _, [] => []
  | skip + 1, _ :: cs => replaceChars old new skip cs
  | 0, c :: cs =>
    if old.isPrefixOf (c :: cs) then new ++ replaceChars old new (old.length - 1) cs
    else c :: replaceChars old new 0 cs

/-- Go `strings.ReplaceAll(s, old, new)` for a non-empty `old`. -/
def ReplaceAll (s old new : String) : String :=
  ⟨replaceChars old.data new.data 0 s.data⟩

/-- Go `strings.Join`. -/
def Join : List String → String → String
  | [], _ => ""
  | [a], _ => a
  | a :: b :: rest, sep => a ++ sep ++ Join (b :: rest) sep

end strings

/-- Association lists stand for Go maps with string keys; `assocGet` is `m[k]` with
its `ok` flag. -/
def assocGet {α : Type} : List (String × α) → String → Option α
  | [], _ => none
  | (k', v) :: rest, k => if k' = k then some v else assocGet rest k

/-- The assignment `m[k] = v`: replaces the value of an existing key where it
stands, otherwise adds the entry at the end. -/
def assocSet {α : Type} : List (String × α) → String → α → List (String × α)
  | [], k, v => [(k, v)]
  | (k', v') :: rest, k, v =>
    if k' = k then (k, v) :: rest else (k', v') :: assocSet rest k v

/-- The statement `delete(m, k)`. -/
def assocErase {α : Type} (m : List (String × α)) (k : String) : List (String × α) :=
  m.filter fun e => e.1 ≠ k

namespace properties

/-- Modelled from the spec: the type `properties.Map` of the library
go-properties-orderedmap, which is not part of the sources: "an ordered mapping
from dotted string keys to string values, preserving insertion order". -/
abbrev Map := List (String × String)

/-- Modelled from the spec: `properties.NewMap()`. -/
def NewMap : Map := []

/-- Modelled from the spec: `get` with its presence flag (`GetOk`). -/
def Map.GetOk (m : Map) (key : String) : Option String := assocGet m key

/-- Modelled from the spec: `get`; a missing key reads as the empty string. -/
def Map.Get (m : Map) (key : String) : String := (assocGet m key).getD ""

/-- Modelled from the spec: `contains`. -/
def Map.ContainsKey (m : Map) (key : String) : Bool := (assocGet m key).isSome

/-- Modelled from the spec: `set`; the order of first-seen keys is preserved. -/
def Map.Set (m : Map) (key value : String) : Map := assocSet m key value

/-- Modelled from the spec: removal of a key. -/
def Map.Remove (m : Map) (key : String) : Map := assocErase m key

/-- Modelled from the spec: `merge(other)`, "other overwrites on key conflict,
preserves order of first-seen keys". -/
def Map.Merge (m other : Map) : Map := other.foldl (fun acc e => acc.Set e.1 e.2) m

/-- Modelled from the spec: the keys in order. -/
def Map.Keys (m : Map) : List String := m.map Prod.fst

/-- Modelled from the spec: the number of entries. -/
def Map.Size (m : Map) : Nat := m.length

/-- Modelled from the spec: `clone`. -/
def Map.Clone (m : Map) : Map := m

/-- Modelled from the spec: `asMap`, the entries as a Go map (iterated here in the
order of the keys; Go leaves the order of a map iteration open). -/
def Map.AsMap (m : Map) : List (String × String) := m

/-- Modelled from the spec: `subTree(root)`, the "entries whose key starts with
`root.`, prefix stripped". -/
def Map.SubTree (m : Map) (root : String) : Map :=
  m.foldl (fun acc e =>
    if strings.HasPrefix e.1 (root ++ ".")
    then acc.Set ⟨e.1.data.drop (root ++ ".").data.length⟩ e.2 else acc) NewMap

/-- Modelled from the spec: `firstLevelOf`, "group by top-level key segment,
returning a mapping from that segment to the sub-map rooted there with the prefix
stripped"; keys without a dot belong to no group. -/
def Map.FirstLevelOf (m : Map) : List (String × Map) :=
  m.foldl (fun acc e =>
    match strings.cutChars '.' e.1.data with
    | none => acc
    | some (a, b) =>
      assocSet acc ⟨a⟩ (((assocGet acc ⟨a⟩).getD NewMap).Set ⟨b⟩ e.2)) []

end properties

namespace paths

/-- Go `paths.Path`: the components of an absolute path. -/
abbrev Path := List String

/-- The text of a path, as it appears in messages. -/
def Path.render (p : Path) : String := strings.Join p "/"

/-- Go `path.Join(name)`. -/
def Path.Join (p : Path) (name : String) : Path := p ++ [name]

/-- Go `path.Base()`. -/
def Path.Base (p : Path) : String := p.getLastD ""

/-- Go `path.Parent()`. -/
def Path.Parent (p : Path) : Path := p.dropLast

end paths

namespace cores

/-- The entity `cores.Board`. -/
structure Board where
  BoardID : String
  Properties : properties.Map
  deriving DecidableEq, Repr

/-- The entity `cores.Programmer`. -/
structure Programmer where
  Name : String
  Properties : properties.Map
  deriving DecidableEq, Repr

/-- The entity `cores.MonitorDependency`. -/
structure MonitorDependency where
  Packager : String
  Name : String
  deriving DecidableEq, Repr

/-- The entity `cores.PlatformRelease`; versions are kept as their canonical text,
which is also the key of the release in its platform. -/
structure PlatformRelease where
  Version : String
  InstallDir : Option paths.Path
  Properties : properties.Map
  Programmers : List (String × Programmer)
  Boards : List (String × Board)
  Menus : properties.Map
  Monitors : List (String × MonitorDependency)
  MonitorsDevRecipes : List (String × String)
  PluggableDiscoveryAware : Bool
  IsIDEBundled : Bool
  deriving DecidableEq, Repr

/-- The entity `cores.Platform`. -/
structure Platform where
  Architecture : String
  Name : String
  ManuallyInstalled : Bool
  Releases : List (String × PlatformRelease)
  deriving DecidableEq, Repr

/-- The entity `cores.ToolRelease`. -/
structure ToolRelease where
  Version : String
  InstallDir : Option paths.Path
  deriving DecidableEq, Repr

/-- The entity `cores.Tool`. -/
structure Tool where
  Name : String
  Releases : List (String × ToolRelease)
  deriving DecidableEq, Repr

/-- The entity `cores.Package`. -/
structure Package where
  Name : String
  Platforms : List (String × Platform)
  Tools : List (String × Tool)
  deriving DecidableEq, Repr

/-- The catalog `cores.Packages`: packager name to package. -/
abbrev Packages := List (String × Package)

/-- Modelled from the spec: the board that `GetOrCreateBoard(boardID)` returns when
the release has none with this id ("entities are created on demand"). -/
def newBoard (boardID : String) : Board :=
  { BoardID := boardID, Properties := properties.NewMap }

/-- Modelled from the spec: the release created on demand by `GetOrCreateRelease`. -/
def newPlatformRelease (version : String) : PlatformRelease :=
  { Version := version, InstallDir := none, Properties := properties.NewMap,
    Programmers := [], Boards := [], Menus := properties.NewMap, Monitors := [],
    MonitorsDevRecipes := [], PluggableDiscoveryAware := false, IsIDEBundled := false }

/-- Modelled from the spec: the platform created on demand by `GetOrCreatePlatform`. -/
def newPlatform (architecture : String) : Platform :=
  { Architecture := architecture, Name := "", ManuallyInstalled := false, Releases := [] }

/-- Modelled from the spec: the tool created on demand by `GetOrCreateTool`. -/
def newTool (name : String) : Tool := { Name := name, Releases := [] }

/-- Modelled from the spec: the package created on demand by `GetOrCreatePackage`. -/
def newPackage (name : String) : Package := { Name := name, Platforms := [], Tools := [] }

/-- Modelled from the spec: `release.GetOrCreateBoard(boardID)` followed by an update
`f` of the board it returns; "`GetOrCreate*` is idempotent: repeated calls with
equal keys return the same entity". With `f = id` this is the bare call. -/
def PlatformRelease.GetOrCreateBoard (release : PlatformRelease) (boardID : String)
    (f : Board → Board) : PlatformRelease :=
  { release with
    Boards := assocSet release.Boards boardID
      (f ((assocGet release.Boards boardID).getD (newBoard boardID))) }

/-- Modelled from the spec: `platform.GetOrCreateRelease(version)` followed by an
update `f` of the release it returns. -/
def Platform.GetOrCreateRelease (platform : Platform) (version : String)
    (f : PlatformRelease → PlatformRelease) : Platform :=
  { platform with
    Releases := assocSet platform.Releases version
      (f ((assocGet platform.Releases version).getD (newPlatformRelease version))) }

/-- Modelled from the spec: `tool.GetOrCreateRelease(version)` followed by an update
`f` of the tool release it returns. -/
def Tool.GetOrCreateRelease (tool : Tool) (version : String)
    (f : ToolRelease → ToolRelease) : Tool :=
  { tool with
    Releases := assocSet tool.Releases version
      (f ((assocGet tool.Releases version).getD { Version := version, InstallDir := none })) }

/-- Modelled from the spec: `targetPackage.GetOrCreatePlatform(architecture)`
followed by an update `f` of the platform it returns. -/
def Package.GetOrCreatePlatform (pkg : Package) (architecture : String)
    (f : Platform → Platform) : Package :=
  { pkg with
    Platforms := assocSet pkg.Platforms architecture
      (f ((assocGet pkg.Platforms architecture).getD (newPlatform architecture))) }

/-- Modelled from the spec: `targetPackage.GetOrCreateTool(name)` followed by an
update `f` of the tool it returns. -/
def Package.GetOrCreateTool (pkg : Package) (name : String) (f : Tool → Tool) : Package :=
  { pkg with Tools := assocSet pkg.Tools name (f ((assocGet pkg.Tools name).getD (newTool name))) }

/-- Modelled from the spec: `packages.GetOrCreatePackage(packager)` followed by an
update `f` of the package it returns. -/
def Packages.GetOrCreatePackage (packages : Packages) (packager : String)
    (f : Package → Package) : Packages :=
  assocSet packages packager (f ((assocGet packages packager).getD (newPackage packager)))

/-- The package a `*cores.Package` obtained from `GetOrCreatePackage(packager)`
points to. -/
def Packages.package (packages : Packages) (packager : String) : Package :=
  (assocGet packages packager).getD (newPackage packager)

/-- The platform a pointer obtained from `GetOrCreatePlatform(architecture)` points
to. -/
def Package.platform (pkg : Package) (architecture : String) : Platform :=
  (assocGet pkg.Platforms architecture).getD (newPlatform architecture)

/-- The release a pointer obtained from `GetOrCreateRelease(version)` points to. -/
def Platform.release (platform : Platform) (version : String) : PlatformRelease :=
  (assocGet platform.Releases version).getD (newPlatformRelease version)

end cores

namespace packageindex

/-- One platform release of a JSON package index. -/
structure indexPlatformRelease where
  Name : String
  Architecture : String
  Version : String
  deriving DecidableEq, Repr

/-- One tool release of a JSON package index. -/
structure indexToolRelease where
  Name : String
  Version : String
  deriving DecidableEq, Repr

/-- One package of a JSON package index. -/
structure indexPackage where
  Name : String
  Tools : List indexToolRelease
  Platforms : List indexPlatformRelease
  deriving DecidableEq, Repr

/-- A parsed JSON package index (`installed.json`, `package_index_bundled.json`). -/
abbrev Index := List indexPackage

/-- Modelled from the spec: `index.MergeIntoPackages(out)`, which is not in the
sources; "parse it as a package-index fragment and merge into the catalog": every
package, tool release and platform release of the index is created on demand in
the catalog, and the platform takes the name given by the index. -/
def Index.MergeIntoPackages (index : Index) (out : cores.Packages) : cores.Packages :=
  index.foldl (fun acc inPackage =>
    acc.GetOrCreatePackage inPackage.Name fun outPackage =>
      let p1 := inPackage.Tools.foldl (fun (pk : cores.Package) inTool =>
        pk.GetOrCreateTool inTool.Name fun t => t.GetOrCreateRelease inTool.Version id) outPackage
      inPackage.Platforms.foldl (fun (pk : cores.Package) inPlatform =>
        pk.GetOrCreatePlatform inPlatform.Architecture fun pl =>
          ({ pl with Name := inPlatform.Name } : cores.Platform).GetOrCreateRelease
            inPlatform.Version id) p1) out

end packageindex

namespace packagemanager

open paths

/-- What a file holds, as far as the loader can tell: a property file that parses,
a JSON package index that parses, or anything else. -/
inductive FileContent where
  | properties (m : properties.Map)
  | index (idx : packageindex.Index)
  | other
  deriving Repr

/-- A file-system tree; the entries of a directory are in directory order. -/
inductive Node where
  | file (content : FileContent)
  | dir (entries : List (String × Node))
  deriving Repr

/-- The node found at a path below a node. -/
def Node.lookup : Node → Path → Option Node
  | n, [] => some n
  | .dir es, p :: ps =>
    match assocGet es p with
    | some n => n.lookup ps
    | none => none
  | .file _, _ :: _ => none

/-- Everything the loader takes from outside `loader.go`: the file system with its
possible failures, the configured directories, and the functions of the libraries
`relaxed-semver` (`Parse`, `ParseRelaxed`, the order of versions) and
go-properties-orderedmap (`ExpandPropsInString`). -/
structure Env where
  root : Node
  ToAbsErr : Path → Option Error
  ReadDirErr : Path → Option Error
  ExistCheckErr : Path → Option Error
  FollowSymLinkErr : Path → Option Error
  HardwareDirectories : List Path
  BuiltinToolsDirectories : List Path
  Parse : String → Except Error String
  ParseRelaxed : String → String
  LessThan : String → String → Bool
  ExpandPropsInString : properties.Map → String → String

/-- Go `path.Exist()`. -/
def Exist (env : Env) (p : Path) : Bool := (env.root.lookup p).isSome

/-- Go `path.IsDir()`. -/
def IsDir (env : Env) (p : Path) : Bool :=
  match env.root.lookup p with
  | some (.dir _) => true
  | _ => false

/-- Go `path.IsNotDir()`: the path exists and is not a directory. -/
def IsNotDir (env : Env) (p : Path) : Bool :=
  match env.root.lookup p with
  | some (.file _) => true
  | _ => false

/-- Go `path.ExistCheck()`. -/
def ExistCheck (env : Env) (p : Path) : Except Error Bool :=
  match env.ExistCheckErr p with
  | some err => .error err
  | none => .ok (Exist env p)

/-- Go `path.ReadDir()`: the entries of a directory, in directory order. -/
def ReadDir (env : Env) (p : Path) : Except Error (List Path) :=
  match env.ReadDirErr p with
  | some err => .error err
  | none =>
    match env.root.lookup p with
    | some (.dir es) => .ok (es.map fun e => p.Join e.1)
    | _ => .error (.ext ("cannot read directory " ++ p.render))

/-- Go `list.FilterDirs()`. -/
def FilterDirs (env : Env) (l : List Path) : List Path := l.filter (IsDir env)

/-- Go `list.FilterOutPrefix(pfx)`. -/
def FilterOutPrefix (l : List Path) (pfx : String) : List Path :=
  l.filter fun p => !strings.HasPrefix p.Base pfx

/-- Go `list.FilterOutHiddenFiles()`. -/
def FilterOutHiddenFiles (l : List Path) : List Path := FilterOutPrefix l "."

/-- Go `properties.LoadFromPath` / `properties.Load`: the file must exist and
parse. -/
def LoadFromPath (env : Env) (p : Path) : Except Error properties.Map :=
  match env.root.lookup p with
  | some (.file (.properties m)) => .ok m
  | some _ => .error (.ext ("cannot parse " ++ p.render))
  | none => .error (.ext ("cannot open " ++ p.render))

/-- Go `properties.SafeLoad` / `properties.SafeLoadFromPath`: a missing file gives
an empty map. -/
def SafeLoad (env : Env) (p : Path) : Except Error properties.Map :=
  match env.root.lookup p with
  | none => .ok properties.NewMap
  | some (.file (.properties m)) => .ok m
  | some _ => .error (.ext ("cannot parse " ++ p.render))

/-- The function `packageindex.LoadIndex`. -/
def LoadIndex (env : Env) (p : Path) : Except Error packageindex.Index :=
  match env.root.lookup p with
  | some (.file (.index idx)) => .ok idx
  | some _ => .error (.ext ("cannot parse " ++ p.render))
  | none => .error (.ext ("cannot open " ++ p.render))

/-- The state of `packagemanager.Builder` that the loader changes. -/
structure Builder where
  packages : cores.Packages
  packagesCustomGlobalProperties : properties.Map
  deriving Repr

/-- Modelled from the spec: `pm.LoadPackageIndexFromFile(indexPath)`, which is not
in the sources: "parse it as a package-index fragment and merge into the
catalog". -/
def Builder.LoadPackageIndexFromFile (env : Env) (pm : Builder) (indexPath : Path) :
    Builder × Except Error packageindex.Index :=
  match LoadIndex env indexPath with
  | .error err => (pm, .error (.new ("loading json index file " ++ indexPath.render ++ ": "
      ++ err.message)))
  | .ok index => ({ pm with packages := index.MergeIntoPackages pm.packages }, .ok index)

/-- Modelled from the spec: `platform.GetLatestRelease()`, the release with the
greatest version, `none` for a platform without releases. -/
def GetLatestRelease (env : Env) (platform : cores.Platform) : Option cores.PlatformRelease :=
  platform.Releases.foldl (fun best e =>
    match best with
    | none => some e.2
    | some b => if env.LessThan b.Version e.2.Version then some e.2 else some b) none

/-- Go `strconv.ParseUint(s, 10, 64)`: a non-empty run of decimal digits whose
value fits in 64 bits. -/
def ParseUint (s : String) : Option Nat :=
  if s.data.isEmpty || !s.data.all Char.isDigit then none
  else
    let v := s.data.foldl (fun acc c => 10 * acc + (c.toNat - 48)) 0
    if v < 2 ^ 64 then some v else none

/-- The closure `outputVidPid` of the VID/PID conversion; the state is the map and
the counter `n`. -/
def outputVidPid (st : properties.Map × Nat) (vid pid : String) : properties.Map × Nat :=
  ((st.1.Set ("upload_port." ++ toString st.2 ++ ".vid") vid).Set
      ("upload_port." ++ toString st.2 ++ ".pid") pid, st.2 + 1)

/-- The function `convertVidPidIdentificationPropertiesToPluggableDiscovery`. -/
def convertVidPidIdentificationPropertiesToPluggableDiscovery
    (boardProperties : properties.Map) : properties.Map :=
  let st0 : properties.Map × Nat :=
    if boardProperties.ContainsKey "vid" && boardProperties.ContainsKey "pid"
    then outputVidPid (boardProperties, 0) (boardProperties.Get "vid") (boardProperties.Get "pid")
    else (boardProperties, 0)
  (st0.1.Keys.foldl (fun st k =>
    if strings.HasPrefix k "vid." then
      match ParseUint ⟨k.data.drop 4⟩ with
      | none => st
      | some idx =>
        match st.1.GetOk ("vid." ++ toString idx), st.1.GetOk ("pid." ++ toString idx) with
        | some vid, some pid => outputVidPid st vid pid
        | _, _ => st
    else st) st0).1

/-- The function `convertUploadToolsToPluggableDiscovery`. -/
def convertUploadToolsToPluggableDiscovery (props : properties.Map) : properties.Map :=
  let propsToAdd := ["upload", "bootloader", "program"].foldl (fun toAdd action0 =>
    let action := action0 ++ ".tool"
    let defaultAction := action ++ ".default"
    if !props.ContainsKey defaultAction then
      let toAdd1 := props.AsMap.foldl (fun (acc : properties.Map) e =>
        if !strings.HasPrefix e.1 "menu." then acc
        else
          let split := strings.Split e.1 '.'
          if split.length ≠ 5 || split.getD 3 "" ++ "." ++ split.getD 4 "" ≠ action then acc
          else
            acc.Set (split.getD 0 "" ++ "." ++ split.getD 1 "" ++ "." ++ split.getD 2 "" ++ "."
              ++ defaultAction) e.2) toAdd
      match props.GetOk action with
      | none => toAdd1
      | some tool => toAdd1.Set defaultAction tool
    else toAdd) properties.NewMap
  props.Merge propsToAdd

/-- The first match of `netPropRegexp`, the regular expression
`\{upload\.network\.([^}]+)\}`: the captured property name of the leftmost
occurrence of `\x7bupload.network.` that is followed by at least one character
other than the closing brace and then by a closing brace. -/
def findNetProp : List Char → Option (List Char)
  | [] => none
  | c :: cs =>
    let rest := (c :: cs).drop 16
    let name := rest.takeWhile fun x => x ≠ '\x7d'
    if "\x7bupload.network.".data.isPrefixOf (c :: cs) && !name.isEmpty
        && (rest.drop name.length).head? = some '\x7d'
    then some name
    else findNetProp cs

/-- The loop `for netPropRegexp.MatchString(pattern)`; `fuel` bounds the number of
rounds and is the length of the pattern at the call. -/
def replaceNetProps : Nat → String → String
  | 0, pattern => pattern
  | fuel + 1, pattern =>
    match findNetProp pattern.data with
    | none => pattern
    | some netProp =>
      replaceNetProps fuel (strings.ReplaceAll pattern
        ("\x7bupload.network." ++ String.mk netProp ++ "\x7d")
        ("\x7bupload.port.properties." ++ String.mk netProp ++ "\x7d"))

/-- The function `convertLegacyNetworkPatternToPluggableDiscovery`; `none` is its
`nil` result. -/
def convertLegacyNetworkPatternToPluggableDiscovery (props : properties.Map)
    (newToolName : String) : Option properties.Map :=
  match props.GetOk "upload.network_pattern" with
  | none => none
  | some pattern0 =>
    let props1 := props.Remove "upload.network_pattern"
    let pattern1 := strings.ReplaceAll pattern0 "\x7bserial.port\x7d" "\x7bupload.port.address\x7d"
    let pattern2 := strings.ReplaceAll pattern1 "\x7bnetwork.port\x7d"
      "\x7bupload.port.properties.port\x7d"
    let withPassword := strings.Contains pattern2 "\x7bnetwork.password\x7d"
    let props2 :=
      if withPassword
      then (props1.Set "upload.field.password" "Password").Set "upload.field.password.secret" "true"
      else props1
    let pattern3 :=
      if withPassword
      then strings.ReplaceAll pattern2 "\x7bnetwork.password\x7d" "\x7bupload.field.password\x7d"
      else pattern2
    let pattern4 := replaceNetProps pattern3.data.length pattern3
    let props3 := props2.Set "upload.pattern" pattern4
    let pfx := "tools." ++ newToolName ++ "."
    some (props3.Keys.foldl (fun (res : properties.Map) k => res.Set (pfx ++ k) (props3.Get k))
      properties.NewMap)

/-- The search `for \x7b if !ContainsKey(upload_port.i.vid) \x7b break \x7d; i++ \x7d` for the
first free index, starting at `i`; `fuel` bounds the number of rounds. -/
def firstFreeIndex (props : properties.Map) : Nat → Nat → Nat
  | 0, i => i
  | fuel + 1, i =>
    if !props.ContainsKey ("upload_port." ++ toString i ++ ".vid") then i
    else firstFreeIndex props fuel (i + 1)

/-- The body of the loop over `platform.Boards` in
`convertLegacyPlatformToPluggableDiscovery`. -/
def addNetworkUpload (toolName convertedToolName : String) (board : cores.Board) : cores.Board :=
  if board.Properties.Get "upload.tool" = toolName
      && !board.Properties.ContainsKey "upload.tool.network" then
    let props1 := board.Properties.Set "upload.tool.network" convertedToolName
    let i := firstFreeIndex props1 (props1.Size + 1) 0
    { board with Properties := props1.Set ("upload_port." ++ toString i ++ ".board") board.BoardID }
  else board

/-- The function `convertLegacyPlatformToPluggableDiscovery`. -/
def convertLegacyPlatformToPluggableDiscovery (platform : cores.PlatformRelease) :
    cores.PlatformRelease :=
  let toolsProps := (platform.Properties.SubTree "tools").FirstLevelOf
  toolsProps.foldl (fun (pl : cores.PlatformRelease) e =>
    if !e.2.ContainsKey "upload.network_pattern" then pl
    else
      let convertedToolName := e.1 ++ "__pluggable_network"
      let convertedProps :=
        (convertLegacyNetworkPatternToPluggableDiscovery e.2 convertedToolName).getD
          properties.NewMap
      { pl with
        Properties := pl.Properties.Merge convertedProps
        Boards := pl.Boards.map fun b => (b.1, addNetworkUpload e.1 convertedToolName b.2) })
    platform

/-- The method `loadProgrammer`. -/
def loadProgrammer (programmerProperties : properties.Map) : cores.Programmer :=
  { Name := programmerProperties.Get "name", Properties := programmerProperties }

/-- The scan of the keys of one board definition in `loadBoards`: is there a key
starting with `menu.` whose second segment is not a menu of the platform?  (The
scan stops at the first such key with `goto next_board`.) -/
def hasUnknownMenu (menus boardProperties : properties.Map) : Bool :=
  boardProperties.AsMap.any fun e =>
    strings.HasPrefix e.1 "menu." && !menus.ContainsKey ((strings.Split e.1 '.').getD 1 "")

/-- The properties that `loadBoards` merges into a board: for a platform that is
not pluggable-discovery aware the two legacy conversions are applied, then `_id` is
set to the board id. -/
def preparedBoardProperties (aware : Bool) (boardID : String)
    (boardProperties : properties.Map) : properties.Map :=
  let props1 :=
    if !aware then
      convertUploadToolsToPluggableDiscovery
        (convertVidPidIdentificationPropertiesToPluggableDiscovery boardProperties)
    else boardProperties
  props1.Set "_id" boardID

/-- The body of the loop over `propertiesByBoard` in `loadBoards`; the state is the
release and the list `skippedBoards`. -/
def loadBoard (packageName architecture : String) (st : cores.PlatformRelease × List String)
    (boardID : String) (boardProperties : properties.Map) : cores.PlatformRelease × List String :=
  if hasUnknownMenu st.1.Menus boardProperties then
    (st.1, st.2 ++ [packageName ++ ":" ++ architecture ++ ":" ++ boardID])
  else
    (st.1.GetOrCreateBoard boardID fun board =>
      { board with
        Properties := board.Properties.Merge
          (preparedBoardProperties st.1.PluggableDiscoveryAware boardID boardProperties) },
      st.2)

/-- The method `loadBoards`; `packageName` and `architecture` are
`platform.Platform.Package.Name` and `platform.Platform.Architecture`.  The boards
are visited in the order of `boards.txt` (Go leaves the order open). -/
def loadBoards (env : Env) (packageName architecture : String)
    (platform : cores.PlatformRelease) : cores.PlatformRelease × Option Error :=
  match platform.InstallDir with
  | none => (platform, some (.new "platform not installed"))
  | some installDir =>
    match LoadFromPath env (installDir.Join "boards.txt") with
    | .error err => (platform, some err)
    | .ok boardsProperties0 =>
      match SafeLoad env (installDir.Join "boards.local.txt") with
      | .error err => (platform, some err)
      | .ok localProperties =>
        let boardsProperties := boardsProperties0.Merge localProperties
        let propertiesByBoard0 := boardsProperties.FirstLevelOf
        let platform1 : cores.PlatformRelease :=
          { platform with Menus := (assocGet propertiesByBoard0 "menu").getD properties.NewMap }
        let propertiesByBoard := assocErase propertiesByBoard0 "menu"
        let r := propertiesByBoard.foldl
          (fun st e => loadBoard packageName architecture st e.1 e.2) (platform1, [])
        if r.2.length > 0 then
          (r.1, some (.new ("skipping loading of boards " ++ strings.Join r.2 ", "
            ++ ": malformed custom board options")))
        else (r.1, none)

/-- The loop that builds `platform.Monitors` in `loadPlatformRelease`; it returns at
the first malformed reference. -/
def loadMonitors : List (String × String) → List (String × cores.MonitorDependency) →
    List (String × cores.MonitorDependency) × Option Error
  | [], acc => (acc, none)
  | (protocol, ref) :: rest, acc =>
    let split := strings.Split ref ':'
    if split.length ≠ 2 then
      (acc, some (.new ("invalid pluggable monitor reference: " ++ ref)))
    else
      loadMonitors rest
        (assocSet acc protocol { Packager := split.getD 0 "", Name := split.getD 1 "" })

/-- The block `if platform.Properties.SubTree("pluggable_discovery").Size() > 0` of
`loadPlatformRelease`: the release is marked pluggable-discovery aware, or else the
three default entries are set. -/
def markAwareOrInjectDefaults (platform : cores.PlatformRelease) : cores.PlatformRelease :=
  if (platform.Properties.SubTree "pluggable_discovery").Size > 0 then
    { platform with PluggableDiscoveryAware := true }
  else
    { platform with
      Properties :=
        ((platform.Properties.Set "pluggable_discovery.required.0"
            "builtin:serial-discovery").Set "pluggable_discovery.required.1"
            "builtin:mdns-discovery").Set "pluggable_monitor.required.serial"
            "builtin:serial-monitor" }

/-- The loop `for programmerID, programmerProps := range programmersProperties.FirstLevelOf()`
of `loadPlatformRelease`. -/
def loadProgrammers (platform : cores.PlatformRelease) (programmersProperties : properties.Map) :
    cores.PlatformRelease :=
  programmersProperties.FirstLevelOf.foldl
    (fun (rel : cores.PlatformRelease) e =>
      let programmerProps :=
        if !rel.PluggableDiscoveryAware then convertUploadToolsToPluggableDiscovery e.2
        else e.2
      { rel with Programmers := assocSet rel.Programmers e.1 (loadProgrammer programmerProps) })
    platform

/-- The body of `loadPlatformRelease` from `// Create platform properties` on,
acting on what the pointer `platform` reaches: the release, and the name of its
platform (`platform.Platform.Name`); `packageName` and `architecture` are
`platform.Platform.Package.Name` and `platform.Platform.Architecture`. -/
def loadPlatformReleaseFiles (env : Env) (packageName architecture : String) (name : String)
    (platform0 : cores.PlatformRelease) (path : Path) :
    (String × cores.PlatformRelease) × Option Error :=
  let platformTxtPath := path.Join "platform.txt"
  let platformTxtLocalPath := path.Join "platform.local.txt"
  let programmersTxtPath := path.Join "programmers.txt"
  let platform1 : cores.PlatformRelease :=
    { platform0 with Properties := platform0.Properties.Clone }
  match SafeLoad env platformTxtPath with
  | .error err =>
    ((name, platform1), some (.new ("loading " ++ platformTxtPath.render ++ ": " ++ err.message)))
  | .ok p =>
    let platform2 : cores.PlatformRelease :=
      { platform1 with Properties := platform1.Properties.Merge p }
    match SafeLoad env platformTxtLocalPath with
    | .error err =>
      ((name, platform2),
        some (.new ("loading " ++ platformTxtLocalPath.render ++ ": " ++ err.message)))
    | .ok pl =>
      let platform3 : cores.PlatformRelease :=
        { platform2 with Properties := platform2.Properties.Merge pl }
      let platform4 := markAwareOrInjectDefaults platform3
      let name1 :=
        if name = "" then
          match platform4.Properties.GetOk "name" with
          | some n => n
          | none => packageName ++ "-" ++ architecture
        else name
      match SafeLoad env programmersTxtPath with
      | .error err => ((name1, platform4), some err)
      | .ok programmersProperties =>
        let platform5 := loadProgrammers platform4 programmersProperties
        match loadBoards env packageName architecture platform5 with
        | (platform6, some err) =>
          ((name1, platform6), some (.new ("loading boards: " ++ err.message)))
        | (platform6, none) =>
          let platform7 :=
            if !platform6.PluggableDiscoveryAware then
              convertLegacyPlatformToPluggableDiscovery platform6
            else platform6
          let m := loadMonitors (platform7.Properties.SubTree "pluggable_monitor.required").AsMap []
          match m.2 with
          | some err => ((name1, { platform7 with Monitors := m.1 }), some err)
          | none =>
            ((name1, { platform7 with
                Monitors := m.1
                MonitorsDevRecipes := (platform7.Properties.SubTree "pluggable_monitor.pattern").AsMap }),
              none)

/-- An update `f` of the package behind a pointer obtained with
`pm.packages.GetOrCreatePackage(packager)`. -/
def Builder.updatePackage (pm : Builder) (packager : String)
    (f : cores.Package → cores.Package) : Builder :=
  { pm with packages := pm.packages.GetOrCreatePackage packager f }

/-- An update of the platform behind `targetPackage.GetOrCreatePlatform(architecture)`. -/
def Builder.updatePlatform (pm : Builder) (packager architecture : String)
    (f : cores.Platform → cores.Platform) : Builder :=
  pm.updatePackage packager fun pk => pk.GetOrCreatePlatform architecture f

/-- An update of the release behind `platform.GetOrCreateRelease(version)`. -/
def Builder.updateRelease (pm : Builder) (packager architecture version : String)
    (f : cores.PlatformRelease → cores.PlatformRelease) : Builder :=
  pm.updatePlatform packager architecture fun pl => pl.GetOrCreateRelease version f

/-- The method `loadPlatformRelease(platform, path)`; the pointer `platform` is the
release `version` of the platform `architecture` of the package `packager`. -/
def loadPlatformRelease (env : Env) (pm : Builder) (packager architecture version : String)
    (path : Path) : Builder × Option Error :=
  let pm1 := pm.updateRelease packager architecture version fun r =>
    { r with InstallDir := some path }
  let installedJSONPath := path.Join "installed.json"
  let r : Builder × Except Error packageindex.Index :=
    if Exist env installedJSONPath then pm1.LoadPackageIndexFromFile env installedJSONPath
    else (pm1, .ok [])
  match r.2 with
  | .error err =>
    (r.1, some (.new ("loading " ++ installedJSONPath.render ++ ": " ++ err.message)))
  | .ok _ =>
    let pkg := r.1.packages.package packager
    let platform := pkg.platform architecture
    let out := loadPlatformReleaseFiles env pkg.Name platform.Architecture platform.Name
      (platform.release version) path
    (r.1.updatePlatform packager architecture fun pl =>
      ({ pl with Name := out.1.1 } : cores.Platform).GetOrCreateRelease version fun _ => out.1.2,
      out.2)

/-- The version that `loadPlatform` takes from `package_index_bundled.json`: the
index is merged into a temporary catalog and the latest release of the platform
there, if any, replaces the version of `platform.txt`. -/
def bundledVersion (env : Env) (index : packageindex.Index) (packageName architecture : String)
    (version : String) : String :=
  let tmp := index.MergeIntoPackages []
  let tmpPlatform := ((tmp.GetOrCreatePackage packageName id).package packageName
    |>.GetOrCreatePlatform architecture id).platform architecture
  match GetLatestRelease env tmpPlatform with
  | none => version
  | some tmpPlatformRelease => tmpPlatformRelease.Version

/-- The block `if packageBundledIndexPath.Exist()` of `loadPlatform`: the catalog
after the bundled index has been merged, the version to register and the flag
`isIDEBundled`, or the error of the index. -/
def bundledIndexStep (env : Env) (pm : Builder) (packager architecture : String)
    (packageBundledIndexPath : Path) (version0 : String) :
    (Builder × String × Bool) × Option Error :=
  if Exist env packageBundledIndexPath then
    match pm.LoadPackageIndexFromFile env packageBundledIndexPath with
    | (pm1, .error err) =>
      ((pm1, version0, false), some (.wrap "parsing IDE bundled index" err))
    | (pm1, .ok index) =>
      ((pm1, bundledVersion env index (pm1.packages.package packager).Name architecture
        version0, true), none)
  else ((pm, version0, false), none)

/-- The loop over `versionDirs` in `loadPlatform` (layout
`ARCHITECTURE/VERSION/boards.txt`). -/
def loadVersionDirs (env : Env) (packager architecture : String) :
    List Path → Builder → Builder × Option Error
  | [], pm => (pm, none)
  | versionDir :: rest, pm =>
    match ExistCheck env (versionDir.Join "boards.txt") with
    | .error err => (pm, some (.wrap "opening boards.txt" err))
    | .ok false => loadVersionDirs env packager architecture rest pm
    | .ok true =>
      match env.Parse versionDir.Base with
      | .error err => (pm, some (.wrap ("invalid version directory " ++ versionDir.render) err))
      | .ok version =>
        let pm1 := pm.updateRelease packager architecture version id
        match loadPlatformRelease env pm1 packager architecture version versionDir with
        | (pm2, some err) => (pm2, some (.wrap ("loading platform release " ++ version) err))
        | (pm2, none) => loadVersionDirs env packager architecture rest pm2

/-- The method `loadPlatform(targetPackage, architecture, platformPath)`;
`targetPackage` is the package `packager` of the catalog. -/
def loadPlatform (env : Env) (pm : Builder) (packager architecture : String)
    (platformPath : Path) : Builder × Option Error :=
  if IsNotDir env platformPath then
    (pm, some (.new ("path is not a platform directory: " ++ platformPath.render)))
  else
    let possibleBoardTxtPath := platformPath.Join "boards.txt"
    match ExistCheck env possibleBoardTxtPath with
    | .error err =>
      (pm, some (.wrap ("looking for boards.txt in " ++ possibleBoardTxtPath.render) err))
    | .ok true =>
      let platformTxtPath := platformPath.Join "platform.txt"
      match SafeLoad env platformTxtPath with
      | .error err => (pm, some (.wrap "loading platform.txt" err))
      | .ok platformProperties =>
        let versionString :=
          env.ExpandPropsInString platformProperties (platformProperties.Get "version")
        match env.Parse versionString with
        | .error err =>
          (pm, some (.invalidVersion (.new (platformTxtPath.render ++ ": " ++ err.message))))
        | .ok version0 =>
          let packageBundledIndexPath :=
            platformPath.Parent.Parent.Join "package_index_bundled.json"
          let b := bundledIndexStep env pm packager architecture packageBundledIndexPath version0
          match b.2 with
          | some err => (b.1.1, some err)
          | none =>
            let isIDEBundled := b.1.2.2
            let version := b.1.2.1
            let pm2 := b.1.1.updatePlatform packager architecture fun pl =>
              if !isIDEBundled then { pl with ManuallyInstalled := true } else pl
            let pm3 := pm2.updateRelease packager architecture version fun r =>
              { r with IsIDEBundled := isIDEBundled }
            match loadPlatformRelease env pm3 packager architecture version platformPath with
            | (pm4, some err) => (pm4, some (.wrap ("loading platform release " ++ version) err))
            | (pm4, none) => (pm4, none)
    | .ok false =>
      match ReadDir env platformPath with
      | .error err => (pm, some (.wrap ("reading directory " ++ platformPath.render) err))
      | .ok versionDirs =>
        loadVersionDirs env packager architecture
          (FilterOutHiddenFiles (FilterDirs env versionDirs)) pm

/-- The loop over `platformsDirs` in `loadPlatforms`. -/
def loadPlatformsLoop (env : Env) (packager : String) :
    List Path → Builder × List Error → Builder × List Error
  | [], st => st
  | platformPath :: rest, st =>
    let targetArchitecture := platformPath.Base
    if targetArchitecture = "tools" then loadPlatformsLoop env packager rest st
    else
      match loadPlatform env st.1 packager targetArchitecture platformPath with
      | (pm1, some err) => loadPlatformsLoop env packager rest (pm1, st.2 ++ [err])
      | (pm1, none) => loadPlatformsLoop env packager rest (pm1, st.2)

/-- The method `loadPlatforms(targetPackage, packageDir)`. -/
def loadPlatforms (env : Env) (pm : Builder) (packager : String) (packageDir : Path) :
    Builder × List Error :=
  match ReadDir env packageDir with
  | .error err => (pm, [.wrap ("reading directory " ++ packageDir.render) err])
  | .ok platformsDirs =>
    loadPlatformsLoop env packager (FilterOutPrefix (FilterDirs env platformsDirs) ".") (pm, [])

/-- The method `loadToolReleaseFromDirectory`. -/
def loadToolReleaseFromDirectory (env : Env) (tool : cores.Tool) (version : String)
    (toolReleasePath : Path) : cores.Tool × Option Error :=
  match env.ToAbsErr toolReleasePath with
  | some _ => (tool, some (.new ("error opening " ++ toolReleasePath.render)))
  | none =>
    if !IsDir env toolReleasePath then
      (tool, some (.new (toolReleasePath.render ++ " is not a directory")))
    else
      (tool.GetOrCreateRelease version fun r => { r with InstallDir := some toolReleasePath },
        none)

/-- The loop over `toolVersions` in `loadToolReleasesFromTool`. -/
def loadToolVersions (env : Env) : List Path → cores.Tool → cores.Tool × Option Error
  | [], tool => (tool, none)
  | versionPath :: rest, tool =>
    match loadToolReleaseFromDirectory env tool (env.ParseRelaxed versionPath.Base) versionPath with
    | (tool1, some err) => (tool1, some err)
    | (tool1, none) => loadToolVersions env rest tool1

/-- The method `loadToolReleasesFromTool`. -/
def loadToolReleasesFromTool (env : Env) (tool : cores.Tool) (toolPath : Path) :
    cores.Tool × Option Error :=
  match ReadDir env toolPath with
  | .error err => (tool, some err)
  | .ok toolVersions =>
    loadToolVersions env (FilterOutHiddenFiles (FilterDirs env toolVersions)) tool

/-- The method `LoadToolsFromPackageDir(targetPackage, toolsPath)`. -/
def LoadToolsFromPackageDir (env : Env) (targetPackage : cores.Package) (toolsPath : Path) :
    cores.Package × List Error :=
  match ReadDir env toolsPath with
  | .error err => (targetPackage, [.wrap ("reading directory " ++ toolsPath.render) err])
  | .ok toolsPaths =>
    (FilterOutHiddenFiles (FilterDirs env toolsPaths)).foldl
      (fun (st : cores.Package × List Error) toolPath =>
        let name := toolPath.Base
        let tool := (assocGet st.1.Tools name).getD (cores.newTool name)
        let r := loadToolReleasesFromTool env tool toolPath
        (st.1.GetOrCreateTool name fun _ => r.1,
          match r.2 with
          | some err => st.2 ++ [.wrap ("loading tool release in " ++ toolPath.render) err]
          | none => st.2))
      (targetPackage, [])

/-- The body of the loop over `packagersPaths` in `LoadHardwareFromDirectory`;
`path` is the hardware directory. -/
def loadPackager (env : Env) (path : Path) (st : Builder × List Error) (packagerPath : Path) :
    Builder × List Error :=
  let packager := packagerPath.Base
  if packager = "tools" then st
  else
    match env.FollowSymLinkErr packagerPath with
    | some err => (st.1, st.2 ++ [.wrap ("following symlink " ++ path.render) err])
    | none =>
      let hardwareSubdirPath := packagerPath.Join "hardware"
      let architectureParentPath :=
        if IsDir env hardwareSubdirPath then hardwareSubdirPath else packagerPath
      let pm1 := st.1.updatePackage packager id
      let r := loadPlatforms env pm1 packager architectureParentPath
      let toolsSubdirPath := packagerPath.Join "tools"
      let t : Builder × List Error :=
        if IsDir env toolsSubdirPath then
          let l := LoadToolsFromPackageDir env (r.1.packages.package packager) toolsSubdirPath
          (r.1.updatePackage packager fun _ => l.1, l.2)
        else (r.1, [])
      let targetPackage := t.1.packages.package packager
      let pm4 : Builder :=
        if targetPackage.Platforms.length = 0 && targetPackage.Tools.length = 0 then
          { t.1 with packages := assocErase t.1.packages packager }
        else t.1
      (pm4, st.2 ++ r.2 ++ t.2)

/-- The method `LoadHardwareFromDirectory`. -/
def LoadHardwareFromDirectory (env : Env) (pm : Builder) (path : Path) : Builder × List Error :=
  match env.ToAbsErr path with
  | some err => (pm, [.wrap ("finding absolute path of " ++ path.render) err])
  | none =>
    if IsNotDir env path then (pm, [.new (path.render ++ " is not a directory")])
    else
      match ReadDir env path with
      | .error err => (pm, [.wrap ("reading directory " ++ path.render) err])
      | .ok packagersPaths0 =>
        let packagersPaths := FilterDirs env (FilterOutHiddenFiles packagersPaths0)
        let globalPlatformTxt := path.Join "platform.txt"
        let pm1 : Builder :=
          if Exist env globalPlatformTxt then
            match LoadFromPath env globalPlatformTxt with
            | .error _ => pm
            | .ok p =>
              { pm with
                packagesCustomGlobalProperties := pm.packagesCustomGlobalProperties.Merge p }
          else pm
        packagersPaths.foldl (loadPackager env path) (pm1, [])

/-- The method `LoadHardwareFromDirectories`. -/
def LoadHardwareFromDirectories (env : Env) (pm : Builder) (hardwarePaths : List Path) :
    Builder × List Error :=
  hardwarePaths.foldl (fun (st : Builder × List Error) path =>
    let r := LoadHardwareFromDirectory env st.1 path
    (r.1, st.2 ++ r.2)) (pm, [])

mutual
/-- The walk of `filepath.Walk` with the callback `findBuiltInToolsVersionsTxt`: the
first entry, in walk order (a directory before its content, the content in
directory order), whose name is `name`; `p` is the path of the node and `base` its
name.  A directory that cannot be read is reported to the callback, which ignores
the error, and its content is not visited. -/
def findNamed (env : Env) (name : String) : Node → Path → String → Option Path
  | .file _, p, base => if base = name then some p else none
  | .dir es, p, base =>
    if base = name then some p
    else if (env.ReadDirErr p).isSome then none
    else findNamedIn env name es p
/-- The walk through the entries of the directory `p`. -/
def findNamedIn (env : Env) (name : String) : List (String × Node) → Path → Option Path
  | [], _ => none
  | (n, node) :: rest, p =>
    match findNamed env name node (p.Join n) n with
    | some found => some found
    | none => findNamedIn env name rest p
end

/-- The method `LoadToolsFromBundleDirectory`. -/
def LoadToolsFromBundleDirectory (env : Env) (pm : Builder) (toolsPath : Path) :
    Builder × Option Error :=
  let builtinToolsVersionsTxtPath : Option Path :=
    match env.root.lookup toolsPath with
    | none => none
    | some node => findNamed env "builtin_tools_versions.txt" node toolsPath toolsPath.Base
  match builtinToolsVersionsTxtPath with
  | some found =>
    match env.ToAbsErr found.Parent with
    | some err =>
      (pm, some (.new ("getting parent dir of " ++ found.render ++ ": " ++ err.message)))
    | none =>
      match LoadFromPath env found with
      | .error err => (pm, some (.new ("reading " ++ found.render ++ ": " ++ err.message)))
      | .ok all =>
        (all.FirstLevelOf.foldl (fun (acc : Builder) e =>
          acc.updatePackage e.1 fun targetPackage =>
            e.2.AsMap.foldl (fun (pk : cores.Package) t =>
              pk.GetOrCreateTool t.1 fun tool =>
                tool.GetOrCreateRelease (env.ParseRelaxed t.2) fun release =>
                  { release with InstallDir := some found.Parent }) targetPackage) pm, none)
  | none =>
    (pm.updatePackage "" fun unnamedPackage =>
      (LoadToolsFromPackageDir env unnamedPackage toolsPath).1, none)

/-- The method `LoadToolsFromBundleDirectories`. -/
def LoadToolsFromBundleDirectories (env : Env) (pm : Builder) (dirs : List Path) :
    Builder × List Error :=
  dirs.foldl (fun (st : Builder × List Error) dir =>
    match LoadToolsFromBundleDirectory env st.1 dir with
    | (pm1, some err) => (pm1, st.2 ++ [.wrap ("loading bundled tools from " ++ dir.render) err])
    | (pm1, none) => (pm1, st.2)) (pm, [])

/-- The method `LoadHardware`. -/
def LoadHardware (env : Env) (pm : Builder) : Builder × List Error :=
  let h := LoadHardwareFromDirectories env pm env.HardwareDirectories
  let t := LoadToolsFromBundleDirectories env h.1 env.BuiltinToolsDirectories
  (t.1, h.2 ++ t.2)

/-- A version parser for the examples: three dot-separated decimal numbers. -/
def sampleParse (s : String) : Except Error String :=
  if (strings.Split s '.').length = 3 && (strings.Split s '.').all fun x => (ParseUint x).isSome
  then .ok s else .error (.ext ("no major version found in " ++ s))

/-- The order of the numbers of two versions, for the examples. -/
def sampleLess : List Nat → List Nat → Bool
  | [], [] => false
  | [], _ :: _ => true
  | _ :: _, [] => false
  | a :: as, b :: bs => a < b || (a = b && sampleLess as bs)

/-- An environment for the examples: the given tree, no failure of the file system,
properties without placeholders. -/
def sampleEnv (root : Node) (hardware bundle : List Path) : Env where
  root := root
  ToAbsErr := fun _ => none
  ReadDirErr := fun _ => none
  ExistCheckErr := fun _ => none
  FollowSymLinkErr := fun _ => none
  HardwareDirectories := hardware
  BuiltinToolsDirectories := bundle
  Parse := sampleParse
  ParseRelaxed := fun s => s
  LessThan := fun a b =>
    sampleLess ((strings.Split a '.').map fun x => (ParseUint x).getD 0)
      ((strings.Split b '.').map fun x => (ParseUint x).getD 0)
  ExpandPropsInString := fun _ s => s

/-- The empty catalog. -/
def emptyBuilder : Builder := { packages := [], packagesCustomGlobalProperties := [] }

/-- The board definitions that `loadBoards` visits: the first-level groups of
`boards.txt` merged with `boards.local.txt`, without the group `menu`
(`propertiesByBoard` after `delete(propertiesByBoard, "menu")`). -/
def boardDefinitions (boardsTxt boardsLocalTxt : properties.Map) : List (String × properties.Map) :=
  assocErase (boardsTxt.Merge boardsLocalTxt).FirstLevelOf "menu"

/-- The menus that `loadBoards` stores on the release: the group `menu`, or an empty
map. -/
def declaredMenus (boardsTxt boardsLocalTxt : properties.Map) : properties.Map :=
  (assocGet (boardsTxt.Merge boardsLocalTxt).FirstLevelOf "menu").getD properties.NewMap

/-- The names `packager:architecture:boardID` of the board definitions that use an
undeclared menu, in the order of the definitions. -/
def skippedBoards (packageName architecture : String) (boardsTxt boardsLocalTxt : properties.Map) :
    List String :=
  ((boardDefinitions boardsTxt boardsLocalTxt).filter fun e =>
    hasUnknownMenu (declaredMenus boardsTxt boardsLocalTxt) e.2).map
    fun e => packageName ++ ":" ++ architecture ++ ":" ++ e.1

/-- Does the catalog hold a release `version` of the platform `architecture` of the
package `packager`? -/
def Builder.hasRelease (pm : Builder) (packager architecture version : String) : Bool :=
  match assocGet pm.packages packager with
  | none => false
  | some pkg =>
    match assocGet pkg.Platforms architecture with
    | none => false
    | some pl => (assocGet pl.Releases version).isSome

/-- The `boards.txt` of the examples: the board `uno`, the menu `cpu`, and the board
`due`, which uses the menu `speed` that is not declared. -/
def sampleBoardsTxt : properties.Map :=
  [("uno.name", "Uno"), ("uno.upload.tool", "avrdude"), ("uno.vid.0", "0x2341"),
   ("uno.pid.0", "0x0043"), ("menu.cpu", "Processor"),
   ("due.menu.speed.fast.build.f_cpu", "84000000"), ("due.name", "Due")]

/-- The `platform.txt` of the examples, with a legacy network upload tool. -/
def samplePlatformTxt : properties.Map :=
  [("name", "Acme AVR"), ("version", "1.2.3"),
   ("pluggable_monitor.required.serial", "acme:custom-monitor"),
   ("tools.avrdude.upload.network_pattern", "avrdude -P\x7bnetwork.port\x7d")]

/-- A release directory for the examples. -/
def sampleReleaseDir (boardsTxt : properties.Map) : Node :=
  .dir [("boards.txt", .file (.properties boardsTxt)),
        ("platform.txt", .file (.properties samplePlatformTxt))]

/-- A fresh release whose install directory is `dir`. -/
def sampleRelease (dir : Path) : cores.PlatformRelease :=
  { cores.newPlatformRelease "1.2.3" with InstallDir := some dir }

/-- A hardware directory `hw` for the examples: the flat platform `hw/acme/avr` with
the given `platform.txt`, and the index `hw/package_index_bundled.json` that
declares the release `9.9.9` of `acme:avr`. -/
def sampleBundledRoot (platformTxt : properties.Map) : Node :=
  .dir [("hw", .dir [
    ("package_index_bundled.json", .file (.index [
      { Name := "acme", Tools := [],
        Platforms := [{ Name := "Acme AVR", Architecture := "avr", Version := "9.9.9" }] }])),
    ("acme", .dir [("avr", .dir [
      ("boards.txt", .file (.properties [("uno.name", "Uno")])),
      ("platform.txt", .file (.properties platformTxt))])])])]

/-- The pair that the key `k` of a board contributes to the VID/PID conversion: for
a key `vid.N` with `N` a decimal number of value `idx` that fits in 64 bits, the
values of `vid.<idx>` and `pid.<idx>` (with `idx` written in decimal) when both keys
are present; nothing otherwise. -/
def indexedVidPid (m : properties.Map) (k : String) : Option (String × String) :=
  if strings.HasPrefix k "vid." then
    match ParseUint ⟨k.data.drop 4⟩ with
    | none => none
    | some idx =>
      match m.GetOk ("vid." ++ toString idx), m.GetOk ("pid." ++ toString idx) with
      | some vid, some pid => some (vid, pid)
      | _, _ => none
  else none

/-- The key that the loop over the entries in `convertUploadToolsToPluggableDiscovery`
sets for the entry with the key `key`, for the action `action` (`upload.tool`,
...): for a key `menu.X.Y.<action>` of five segments the key
`menu.X.Y.<action>.default`, nothing for any other key. -/
def menuToolDefaultKey (action key : String) : Option String :=
  if !strings.HasPrefix key "menu." then none
  else
    let split := strings.Split key '.'
    if split.length ≠ 5 || split.getD 3 "" ++ "." ++ split.getD 4 "" ≠ action then none
    else
      some (split.getD 0 "" ++ "." ++ split.getD 1 "" ++ "." ++ split.getD 2 "" ++ "."
        ++ (action ++ ".default"))

/-- The body of the loop over the actions in `convertUploadToolsToPluggableDiscovery`,
acting on `propsToAdd`. -/
def toolDefaultsToAdd (props toAdd : properties.Map) (action0 : String) : properties.Map :=
  if !props.ContainsKey (action0 ++ ".tool" ++ ".default") then
    let toAdd1 := props.AsMap.foldl (fun (acc : properties.Map) e =>
      match menuToolDefaultKey (action0 ++ ".tool") e.1 with
      | none => acc
      | some k => acc.Set k e.2) toAdd
    match props.GetOk (action0 ++ ".tool") with
    | none => toAdd1
    | some tool => toAdd1.Set (action0 ++ ".tool" ++ ".default") tool
  else toAdd

/-- The pattern that `convertLegacyNetworkPatternToPluggableDiscovery` stores as
`upload.pattern`, computed from the value of `upload.network_pattern`: the three
`ReplaceAll` (the third one under its `Contains` test) and the loop over
`netPropRegexp`. -/
def networkUploadPattern (pattern0 : String) : String :=
  let pattern1 := strings.ReplaceAll pattern0 "\x7bserial.port\x7d" "\x7bupload.port.address\x7d"
  let pattern2 := strings.ReplaceAll pattern1 "\x7bnetwork.port\x7d"
    "\x7bupload.port.properties.port\x7d"
  let pattern3 :=
    if strings.Contains pattern2 "\x7bnetwork.password\x7d"
    then strings.ReplaceAll pattern2 "\x7bnetwork.password\x7d" "\x7bupload.field.password\x7d"
    else pattern2
  replaceNetProps pattern3.data.length pattern3

/-- The properties of the tool in `convertLegacyNetworkPatternToPluggableDiscovery`
when the loop that prefixes the keys starts: `upload.network_pattern` removed, the
password field set if the pattern has a `network.password` placeholder after the
first two replacements, `upload.pattern` set. -/
def networkToolProperties (props : properties.Map) (pattern0 : String) : properties.Map :=
  let props1 := props.Remove "upload.network_pattern"
  let pattern2 := strings.ReplaceAll
    (strings.ReplaceAll pattern0 "\x7bserial.port\x7d" "\x7bupload.port.address\x7d")
    "\x7bnetwork.port\x7d" "\x7bupload.port.properties.port\x7d"
  let props2 :=
    if strings.Contains pattern2 "\x7bnetwork.password\x7d"
    then (props1.Set "upload.field.password" "Password").Set "upload.field.password.secret" "true"
    else props1
  props2.Set "upload.pattern" (networkUploadPattern pattern0)

/-- A rewriting scan of a text from left to right: at each position where `D` gives
`(n, e)` for the text that remains, `e` is written and `n` characters are consumed;
at any other position the character is copied.  `skip` is the number of characters
still to be consumed. -/
def scanRewrite (D : List Char → Option (Nat × List Char)) : Nat → List Char → List Char
  | _, [] => []
  | skip + 1, _ :: cs => scanRewrite D skip cs
  | 0, c :: cs =>
    match D (c :: cs) with
    | some (n, e) => e ++ scanRewrite D (n - 1) cs
    | none => c :: scanRewrite D 0 cs

/-- The text made of the given blocks, each preceded by an opening brace. -/
def braceBlocks : List (List Char) → List Char
  | [] => []
  | b :: bs => '\x7b' :: (b ++ braceBlocks bs)

/-- What `scanRewrite` does to each block of a text cut at its opening braces, when
`D` rewrites only the beginning of a block. -/
def rewriteBlocks (D : List Char → Option (Nat × List Char)) : List (List Char) → List (List Char)
  | [] => []
  | b :: rest =>
    (match D ('\x7b' :: (b ++ braceBlocks rest)) with
      | some (n, e) => e.tail ++ b.drop (n - 1)
      | none => b) :: rewriteBlocks D rest

/-- Does the text begin with a character other than the closing brace and have a
closing brace further on?  (What `([^\x7d]+)\x7d` of `netPropRegexp` asks of the text
after `\x7bupload.network.`.) -/
def closesAfter (r : List Char) : Bool :=
  match r with
  | [] => false
  | x :: _ => decide (x ≠ '\x7d') && decide ('\x7d' ∈ r)

/-- Does `netPropRegexp` match at the very beginning of the text?  The captured
property name if so. -/
def netPropAt (s : List Char) : Option (List Char) :=
  let rest := s.drop 16
  let name := rest.takeWhile fun x => x ≠ '\x7d'
  if "\x7bupload.network.".data.isPrefixOf s && !name.isEmpty
      && (rest.drop name.length).head? = some '\x7d'
  then some name
  else none

/-- The text with every `\x7bupload.network.X\x7d` (`X` not empty, without closing
brace) replaced by `\x7bupload.port.properties.X\x7d`, in one scan. -/
def replaceEveryNetProp (s : List Char) : List Char :=
  scanRewrite (fun t =>
    if (netPropAt t).isSome then some (16, "\x7bupload.port.properties.".data) else none) 0 s

/-- The network pattern `p` with every `\x7bserial.port\x7d` replaced by
`\x7bupload.port.address\x7d`, then every `\x7bnetwork.port\x7d` by
`\x7bupload.port.properties.port\x7d`, every `\x7bnetwork.password\x7d` by
`\x7bupload.field.password\x7d` and every `\x7bupload.network.X\x7d` by
`\x7bupload.port.properties.X\x7d`. -/
def replacedNetworkPattern (p : String) : String :=
  ⟨replaceEveryNetProp
    (strings.ReplaceAll
      (strings.ReplaceAll
        (strings.ReplaceAll p "\x7bserial.port\x7d" "\x7bupload.port.address\x7d")
        "\x7bnetwork.port\x7d" "\x7bupload.port.properties.port\x7d")
      "\x7bnetwork.password\x7d" "\x7bupload.field.password\x7d").data⟩

/-- The names of the tools of a platform that have `upload.network_pattern`, in the
order in which `convertLegacyPlatformToPluggableDiscovery` visits them. -/
def networkUploadTools (platform : cores.PlatformRelease) : List String :=
  ((platform.Properties.SubTree "tools").FirstLevelOf.filter fun e =>
    e.2.ContainsKey "upload.network_pattern").map Prod.fst

/-- The list `P` of the VID/PID pairs of a board: the pair of the unindexed keys
`vid` and `pid` if both are present, followed by the pairs of the keys `vid.N` in
key order. -/
def vidPidPairs (m : properties.Map) : List (String × String) :=
  (match m.GetOk "vid", m.GetOk "pid" with
    | some vid, some pid => [(vid, pid)]
    | _, _ => []) ++ m.Keys.filterMap (indexedVidPid m)

end packagemanager

namespace builder

/-- The build directory as `WipeoutBuildPathIfBuildOptionsChanged` and its test see
it: whether it exists (`ExistCheck`) and the names of its entries (`ReadDir`). -/
structure BuildPath where
  exist : Bool
  entries : List String
  deriving DecidableEq, Repr

/-- Modelled from the spec: the function `WipeoutBuildPathIfBuildOptionsChanged`, which
is not part of the sources (only its test and `containerBuildOptions`, whose
collaborator runs it, are): "compare with the prior summary stored in the build
directory; if options changed (and not already clean), wipe the build directory's
contents", and "if no previous options file exists, nothing is deleted".  The
previous summary is the empty text when there is none.  The result is the error and
the directory afterwards (the text returned first is not described and is left
out); wiping removes every entry and keeps the directory. -/
def WipeoutBuildPathIfBuildOptionsChanged (clean : Bool) (buildPath : BuildPath)
    (buildOptionsJson buildOptionsJsonPrevious : String) (_buildProperties : properties.Map) :
    Option Error × BuildPath :=
  if !clean && buildOptionsJsonPrevious ≠ "" && buildOptionsJsonPrevious ≠ buildOptionsJson then
    (none, { buildPath with entries := [] })
  else (none, buildPath)

end builder

namespace packagemanager

/-- The number of positions of a text at which `sub` occurs. -/
def occurrences (sub : List Char) : List Char → Nat
  | [] => 0
  | c :: cs => (if sub.isPrefixOf (c :: cs) then 1 else 0) + occurrences sub cs

end packagemanager

namespace packageindex

/-- The name that a package index gives to the platform `architecture` of the package
`packager`: that of the last platform release of the index for this package and
architecture, `none` when the index has no such release. -/
def Index.platformName (index : Index) (packager architecture : String) : Option String :=
  index.foldl (fun acc inPackage =>
    if inPackage.Name = packager then
      inPackage.Platforms.foldl (fun acc inPlatform =>
        if inPlatform.Architecture = architecture then some inPlatform.Name else acc) acc
    else acc) none

end packageindex

/-! ## Theorems: the build orchestrator -/

namespace builder

theorem started_emit_running (ctx : Context) (c : Command) :
    (ctx.emit (.running c)).started = ctx.started ++ [c] := by
  simp [Context.emit, Context.started, List.filterMap_append]

theorem started_emit_other (ctx : Context) (e : Event) (h : ∀ c, e ≠ .running c) :
    (ctx.emit e).started = ctx.started := by
  cases e <;> simp_all [Context.emit, Context.started, List.filterMap_append]

/-- Running one command starts no other command. -/
theorem started_Run (w : World) (c : Command) (ctx : Context) :
    (c.Run w ctx).1.started = ctx.started := by
  cases c <;> simp only [Command.Run, containerBuildOptions, logIfVerbose] <;>
    (try split_ifs) <;> (try rfl) <;> exact started_emit_other _ _ (by intro c h; cases h)

theorem started_step (ctx : Context) :
    ((ctx.emit .completeStep).emit .pushProgress).started = ctx.started := by
  rw [started_emit_other _ _ (by intro c h; cases h), started_emit_other _ _ (by intro c h; cases h)]

/-- A loop over `pre ++ cs` whose commands `pre` all succeed continues with `cs`. -/
theorem runLoop_append_ok (w : World) (pre cs : List Command) (ctx ctx1 : Context)
    (h : runLoop w pre ctx = (ctx1, none)) :
    runLoop w (pre ++ cs) ctx = runLoop w cs ctx1 := by
  induction pre generalizing ctx with
  | nil => simp [runLoop] at h; simp [h]
  | cons a pre ih =>
    simp only [runLoop, List.cons_append] at h ⊢
    cases hr : (a.Run w (ctx.emit (.running a))).2 with
    | some err => rw [hr] at h; simp at h
    | none => rw [hr] at h; simpa using ih _ h

/-- A loop stops at a failing command and remembers its error. -/
theorem runLoop_cons_fail (w : World) (c : Command) (post : List Command) (ctx ctx2 : Context)
    (e : Error) (h : c.Run w (ctx.emit (.running c)) = (ctx2, some e)) :
    runLoop w (c :: post) ctx = (ctx2, some (.withStack e)) := by
  simp [runLoop, h]

theorem runLoop_first_failure (w : World) (pre post : List Command) (c : Command)
    (ctx ctx1 ctx2 : Context) (e : Error) (hpre : runLoop w pre ctx = (ctx1, none))
    (hc : c.Run w (ctx1.emit (.running c)) = (ctx2, some e)) :
    runLoop w (pre ++ c :: post) ctx = (ctx2, some (.withStack e)) := by
  rw [runLoop_append_ok w pre _ ctx ctx1 hpre]
  exact runLoop_cons_fail w c post ctx1 ctx2 e hc

/-- The commands started by a loop are a leading part of its list; all of it when
the loop succeeds. -/
theorem runLoop_started (w : World) (cs : List Command) (ctx : Context) :
    ∃ k, k ≤ cs.length ∧ (runLoop w cs ctx).1.started = ctx.started ++ cs.take k ∧
      ((runLoop w cs ctx).2 = none → k = cs.length) ∧ (cs ≠ [] → 0 < k) := by
  induction cs generalizing ctx with
  | nil => exact ⟨0, by simp [runLoop]⟩
  | cons a cs ih =>
    simp only [runLoop]
    cases hr : (a.Run w (ctx.emit (.running a))).2 with
    | some err =>
      refine ⟨1, by simp, ?_, by simp, by simp⟩
      simp [started_Run, started_emit_running]
    | none =>
      obtain ⟨k, hk, hs, hn, -⟩ := ih (((a.Run w (ctx.emit (.running a))).1.emit
        .completeStep).emit .pushProgress)
      refine ⟨k + 1, by simpa using hk, ?_, ?_, by simp⟩
      · simp only [hs, started_step, started_Run, started_emit_running]
        simp
      · intro h
        simpa using hn h

theorem runLoop_started_ok (w : World) (cs : List Command) (ctx ctx1 : Context)
    (h : runLoop w cs ctx = (ctx1, none)) : ctx1.started = ctx.started ++ cs := by
  obtain ⟨k, -, hs, hn, -⟩ := runLoop_started w cs ctx
  rw [h] at hs hn
  have hk := hn rfl
  simpa [hk] using hs

theorem started_afterMkdir (ctx : Context) : (afterMkdir ctx).started = ctx.started :=
  started_emit_other _ _ (by intro c h; cases h)

theorem started_saveCompilationDatabase (ctx : Context) :
    (saveCompilationDatabase ctx).started = ctx.started := by
  unfold saveCompilationDatabase
  split_ifs
  · exact started_emit_other _ _ (by intro c h; cases h)
  · rfl

/-- The secondary loop: the two library reports never fail, the CMake export is
always started, and the sizer is started when the export returned no error. -/
theorem secondary_started (w : World) (f : Bool) (ctx0 : Context) :
    ∃ ctx2, runLoop w ((secondaryCommands f).take 2) ctx0 = (ctx2, none) ∧
      (runLoop w (secondaryCommands f) ctx0).1.started = ctx0.started ++
        (if w.ExportProjectCMake f (ctx2.emit (.running (.exportProjectCMake f))) = none
         then secondaryCommands f else (secondaryCommands f).take 3) := by
  refine ⟨_, rfl, ?_⟩
  simp only [secondaryCommands, List.take, runLoop, Command.Run]
  cases hc : w.ExportProjectCMake f _ with
  | some err =>
    simp [started_step, started_emit_running,
      started_emit_other _ (Event.info _) (by intro c h; cases h)]
  | none =>
    cases hs : w.Sizer _ _ _ _ <;> simp [started_step, started_emit_running,
      started_emit_other _ (Event.info _) (by intro c h; cases h)]

/-- C1: `Builder.Run` returns the error of the primary pipeline whenever one of its
steps failed (the creation of the build directory, or the first failing command of
the first list, whatever the second list does), and otherwise the error of the
secondary loop, which is `none` when no secondary command failed. -/
theorem Run_returns_primary_error_else_secondary (w : World) (ctx : Context) :
    (∀ e, w.MkdirAll ctx = some e → (Builder.Run w ctx).2 = some e) ∧
    (w.MkdirAll ctx = none →
      (∀ pre c post ctx1 ctx2 e, primaryCommands = pre ++ c :: post →
        runLoop w pre (afterMkdir ctx) = (ctx1, none) →
        c.Run w (ctx1.emit (.running c)) = (ctx2, some e) →
        (Builder.Run w ctx).2 = some (.withStack e)) ∧
      (∀ ctx1, runLoop w primaryCommands (afterMkdir ctx) = (ctx1, none) →
        (∀ pre c post ctx2 ctx3 e, secondaryCommands false = pre ++ c :: post →
          runLoop w pre (saveCompilationDatabase ctx1) = (ctx2, none) →
          c.Run w (ctx2.emit (.running c)) = (ctx3, some e) →
          (Builder.Run w ctx).2 = some (.withStack e)) ∧
        (∀ ctx3, runLoop w (secondaryCommands false) (saveCompilationDatabase ctx1)
            = (ctx3, none) →
          (Builder.Run w ctx).2 = none))) := by
  refine ⟨fun e h => by simp [Builder.Run, h], fun hmk => ⟨?_, ?_⟩⟩
  · intro pre c post ctx1 ctx2 e hsplit hpre hc
    have h := runLoop_first_failure w pre post c _ ctx1 ctx2 e hpre hc
    rw [← hsplit] at h
    simp [Builder.Run, hmk, h]
  · intro ctx1 hp
    refine ⟨?_, ?_⟩
    · intro pre c post ctx2 ctx3 e hsplit hpre hc
      have h := runLoop_first_failure w pre post c _ ctx2 ctx3 e hpre hc
      rw [← hsplit] at h
      simp [Builder.Run, hmk, hp, h]
    · intro ctx3 hs
      simp [Builder.Run, hmk, hp, hs]

/-- Witness of C1: the sketch post-build hook fails, and its error is returned. -/
theorem Run_returns_primary_error_else_secondary_witness :
    (Builder.Run (sampleWorld false "recipe.hooks.sketch.postbuild") sampleContext).2
      = some (.withStack (.ext "hook failed")) :=
  ((Run_returns_primary_error_else_secondary
      (sampleWorld false "recipe.hooks.sketch.postbuild") sampleContext).2 (by decide)).1
    (primaryCommands.take 11) (.recipeHook "recipe.hooks.sketch.postbuild" ".pattern" true)
    (primaryCommands.drop 12)
    (runLoop (sampleWorld false "recipe.hooks.sketch.postbuild") (primaryCommands.take 11)
      (afterMkdir sampleContext)).1
    ((runLoop (sampleWorld false "recipe.hooks.sketch.postbuild") (primaryCommands.take 11)
      (afterMkdir sampleContext)).1.emit
        (.running (.recipeHook "recipe.hooks.sketch.postbuild" ".pattern" true)))
    (.ext "hook failed") (by decide) (by decide) (by decide)

/-- Counterexample to C2: when the build directory cannot be created, `Builder.Run`
returns at once and none of the secondary commands is started. -/
theorem Run_mkdir_failure_skips_secondary :
    (sampleWorld true "").MkdirAll sampleContext = some (.ext "mkdir") ∧
    (Builder.Run (sampleWorld true "") sampleContext).2 = some (.ext "mkdir") ∧
    ∀ b, ∀ c ∈ secondaryCommands b,
      c ∉ (Builder.Run (sampleWorld true "") sampleContext).1.started := by
  decide

/-- C2 (amended): once the build directory has been created, whatever the outcome
of the primary loop, the secondary loop is run after it: the two library reports
and the CMake export are started in this order, and the sizer after them exactly
when the CMake export returned no error.  When the build directory cannot be
created, the error is returned with the context untouched. -/
theorem Run_secondary_runs_once_build_dir_exists (w : World) (ctx : Context) :
    (∀ e, w.MkdirAll ctx = some e → Builder.Run w ctx = (ctx, some e)) ∧
    (w.MkdirAll ctx = none →
      ∀ p, p = runLoop w primaryCommands (afterMkdir ctx) →
      ∃ ctx2, runLoop w ((secondaryCommands p.2.isSome).take 2) (saveCompilationDatabase p.1)
          = (ctx2, none) ∧
        (Builder.Run w ctx).1.started = p.1.started ++
          (if w.ExportProjectCMake p.2.isSome
                (ctx2.emit (.running (.exportProjectCMake p.2.isSome))) = none
           then secondaryCommands p.2.isSome
           else (secondaryCommands p.2.isSome).take 3)) := by
  refine ⟨fun e h => by simp [Builder.Run, h], fun hmk p hp => ?_⟩
  obtain ⟨ctx2, h1, h2⟩ := secondary_started w p.2.isSome (saveCompilationDatabase p.1)
  refine ⟨ctx2, h1, ?_⟩
  have hrun : (Builder.Run w ctx).1 = (runLoop w (secondaryCommands p.2.isSome)
      (saveCompilationDatabase p.1)).1.emit .removeSubSteps := by
    simp only [Builder.Run, hmk, hp]
  rw [hrun, started_emit_other _ _ (by intro c h; cases h), h2,
    started_saveCompilationDatabase]

/-- Witness of C2 (amended): in a world without failures the four secondary commands
follow the thirty primary ones. -/
theorem Run_secondary_runs_once_build_dir_exists_witness :
    (Builder.Run (sampleWorld false "") sampleContext).1.started
      = primaryCommands ++ secondaryCommands false := by
  obtain ⟨ctx2, h1, h2⟩ := (Run_secondary_runs_once_build_dir_exists
    (sampleWorld false "") sampleContext).2 (by decide) _ rfl
  have hc := (congrArg Prod.fst h1).symm
  simp only at hc
  subst hc
  rw [h2]
  decide

/-- C3: the primary loop of `Builder.Run` stops at the first command that returns an
error.  If the primary list splits as `pre ++ c :: post`, the commands of `pre` all
return no error and `c` returns `e`, then the commands started by the primary loop
are exactly `pre` followed by `c`, in this order, the remembered primary error is
`e` (with its stack), and in the whole run nothing of `post` is started: what
follows `c` is a leading part of the secondary list. -/
theorem Run_primary_stops_at_first_error (w : World) (ctx ctx1 ctx2 : Context)
    (pre post : List Command) (c : Command) (e : Error)
    (hmk : w.MkdirAll ctx = none)
    (hsplit : primaryCommands = pre ++ c :: post)
    (hpre : runLoop w pre (afterMkdir ctx) = (ctx1, none))
    (hc : c.Run w (ctx1.emit (.running c)) = (ctx2, some e)) :
    runLoop w primaryCommands (afterMkdir ctx) = (ctx2, some (.withStack e)) ∧
    ctx2.started = ctx.started ++ pre ++ [c] ∧
    (Builder.Run w ctx).2 = some (.withStack e) ∧
    ∃ k, (Builder.Run w ctx).1.started
      = ctx.started ++ pre ++ [c] ++ (secondaryCommands true).take k := by
  have h := runLoop_first_failure w pre post c _ ctx1 ctx2 e hpre hc
  rw [← hsplit] at h
  have hst : ctx2.started = ctx.started ++ pre ++ [c] := by
    have h1 := runLoop_started_ok w pre _ ctx1 hpre
    have h2 := started_Run w c (ctx1.emit (.running c))
    rw [hc] at h2
    simp only at h2
    rw [h2, started_emit_running, h1, started_afterMkdir]
  refine ⟨h, hst, by simp [Builder.Run, hmk, h], ?_⟩
  obtain ⟨k, -, hk, -, -⟩ := runLoop_started w (secondaryCommands true)
    (saveCompilationDatabase ctx2)
  refine ⟨k, ?_⟩
  have hrun : (Builder.Run w ctx).1 = (runLoop w (secondaryCommands true)
      (saveCompilationDatabase ctx2)).1.emit .removeSubSteps := by
    simp only [Builder.Run, hmk, h, Option.isSome_some]
  rw [hrun, started_emit_other _ _ (by intro c h; cases h), hk,
    started_saveCompilationDatabase, hst]

/-- Witness of C3: the core builder (position 19) fails. -/
theorem Run_primary_stops_at_first_error_witness :
    (Builder.Run { sampleWorld false "" with CoreBuilder := fun _ => some (.ext "core") }
      sampleContext).2 = some (.withStack (.ext "core")) :=
  (Run_primary_stops_at_first_error
    { sampleWorld false "" with CoreBuilder := fun _ => some (.ext "core") } sampleContext
    (runLoop { sampleWorld false "" with CoreBuilder := fun _ => some (.ext "core") }
      (primaryCommands.take 19) (afterMkdir sampleContext)).1
    ((runLoop { sampleWorld false "" with CoreBuilder := fun _ => some (.ext "core") }
      (primaryCommands.take 19) (afterMkdir sampleContext)).1.emit (.running .coreBuilder))
    (primaryCommands.take 19) (primaryCommands.drop 20) .coreBuilder (.ext "core")
    (by decide) (by decide) (by decide) (by decide)).2.2.1

/-- Counterexample to C4: the hook `recipe.hooks.sketch.postbuild` is called with
`true`; when it returns an error the primary loop does not continue: the commands
that follow it (the log line and the libraries pre-build hook, the libraries
builder) are never started and the hook error is the result of the run. -/
theorem Run_postbuild_hook_error_aborts :
    Command.recipeHook "recipe.hooks.sketch.postbuild" ".pattern" true ∈ primaryCommands ∧
    (Command.recipeHook "recipe.hooks.sketch.postbuild" ".pattern" true).Run
      (sampleWorld false "recipe.hooks.sketch.postbuild") sampleContext
      = (sampleContext, some (.ext "hook failed")) ∧
    Command.logIfVerbose false "Compiling libraries..." ∉
      (Builder.Run (sampleWorld false "recipe.hooks.sketch.postbuild") sampleContext).1.started ∧
    Command.recipeHook "recipe.hooks.libraries.prebuild" ".pattern" false ∉
      (Builder.Run (sampleWorld false "recipe.hooks.sketch.postbuild") sampleContext).1.started ∧
    Command.librariesBuilder ∉
      (Builder.Run (sampleWorld false "recipe.hooks.sketch.postbuild") sampleContext).1.started ∧
    (Builder.Run (sampleWorld false "recipe.hooks.sketch.postbuild") sampleContext).2
      = some (.withStack (.ext "hook failed")) := by
  decide

/-- C4 (amended): the boolean of a hook call site is handed over unchanged to
`RecipeByPrefixSuffixRunner` as `skipIfOnlyUpdatingCompilationDatabase`, next to
`ctx.OnlyUpdateCompilationDatabase` and `ctx.Verbose`; it selects no policy on
errors.  Whatever the boolean `b`, when the hook at some position of the primary
list returns an error `e`, the primary loop stops there: its error is `e` and the
commands started are those before the hook and the hook. -/
theorem Run_hook_error_aborts_for_both_flags (w : World) (ctx ctx1 : Context)
    (pre post : List Command) (pfx sfx : String) (b : Bool) (e : Error)
    (hsplit : primaryCommands = pre ++ .recipeHook pfx sfx b :: post)
    (hpre : runLoop w pre (afterMkdir ctx) = (ctx1, none))
    (hc : w.RecipeByPrefixSuffixRunner pfx sfx b ctx1.OnlyUpdateCompilationDatabase
      ctx1.Verbose (ctx1.emit (.running (.recipeHook pfx sfx b))) = some e) :
    runLoop w primaryCommands (afterMkdir ctx)
      = (ctx1.emit (.running (.recipeHook pfx sfx b)), some (.withStack e)) ∧
    (runLoop w primaryCommands (afterMkdir ctx)).1.started
      = ctx.started ++ pre ++ [.recipeHook pfx sfx b] := by
  have hrun : (Command.recipeHook pfx sfx b).Run w (ctx1.emit (.running (.recipeHook pfx sfx b)))
      = (ctx1.emit (.running (.recipeHook pfx sfx b)), some e) := by
    simp only [Command.Run, recipeByPrefixSuffixRunner]
    rw [← hc]
    rfl
  have h := runLoop_first_failure w pre post _ _ ctx1 _ e hpre hrun
  rw [← hsplit] at h
  refine ⟨h, ?_⟩
  rw [h, started_emit_running, runLoop_started_ok w pre _ ctx1 hpre, started_afterMkdir]

/-- Witness of C4 (amended): the hook `recipe.hooks.postbuild`, called with `true`,
fails as last primary command. -/
theorem Run_hook_error_aborts_for_both_flags_witness :
    (runLoop (sampleWorld false "recipe.hooks.postbuild") primaryCommands
      (afterMkdir sampleContext)).1.started = sampleContext.started ++ primaryCommands.take 29
        ++ [.recipeHook "recipe.hooks.postbuild" ".pattern" true] :=
  (Run_hook_error_aborts_for_both_flags (sampleWorld false "recipe.hooks.postbuild")
    sampleContext
    (runLoop (sampleWorld false "recipe.hooks.postbuild") (primaryCommands.take 29)
      (afterMkdir sampleContext)).1
    (primaryCommands.take 29) [] "recipe.hooks.postbuild" ".pattern" true (.ext "hook failed")
    (by decide) (by decide) (by decide)).2

end builder

/-! ## Theorems: association lists and property maps -/

theorem assocGet_assocSet {α : Type} (m : List (String × α)) (k k' : String) (v : α) :
    assocGet (assocSet m k v) k' = if k = k' then some v else assocGet m k' := by
  induction m with
  | nil => simp [assocSet, assocGet]
  | cons e m ih =>
    obtain ⟨a, b⟩ := e
    simp only [assocSet]
    by_cases h : a = k
    · subst h
      by_cases h' : a = k' <;> simp [assocGet, h']
    · by_cases h' : k = k'
      · subst h'
        simp [assocGet, h, ih]
      · by_cases h2 : a = k'
        · subst h2
          simp [assocGet, h, h']
        · simp [assocGet, h, h', h2, ih]

theorem assocGet_assocSet_self {α : Type} (m : List (String × α)) (k : String) (v : α) :
    assocGet (assocSet m k v) k = some v := by
  simp [assocGet_assocSet]

theorem assocGet_assocSet_ne {α : Type} (m : List (String × α)) (k k' : String) (v : α)
    (h : k ≠ k') : assocGet (assocSet m k v) k' = assocGet m k' := by
  simp [assocGet_assocSet, h]

theorem assocGet_eq_some_mem {α : Type} (m : List (String × α)) (k : String) (v : α)
    (h : assocGet m k = some v) : (k, v) ∈ m := by
  induction m with
  | nil => simp [assocGet] at h
  | cons e m ih =>
    obtain ⟨a, b⟩ := e
    by_cases hk : a = k
    · simp [assocGet, hk] at h
      simp [hk, h]
    · simp [assocGet, hk] at h
      exact List.mem_cons_of_mem _ (ih h)

theorem assocGet_eq_none_iff {α : Type} (m : List (String × α)) (k : String) :
    assocGet m k = none ↔ k ∉ m.map Prod.fst := by
  induction m with
  | nil => simp [assocGet]
  | cons e m ih =>
    obtain ⟨a, b⟩ := e
    by_cases hk : a = k
    · simp [assocGet, hk]
    · simp only [assocGet, hk, if_false, ih, List.map_cons, List.mem_cons, not_or]
      exact ⟨fun h => ⟨fun h' => hk h'.symm, h⟩, fun h => h.2⟩

theorem assocSet_keys {α : Type} (m : List (String × α)) (k : String) (v : α) :
    (assocSet m k v).map Prod.fst =
      if k ∈ m.map Prod.fst then m.map Prod.fst else m.map Prod.fst ++ [k] := by
  induction m with
  | nil => simp [assocSet]
  | cons e m ih =>
    obtain ⟨a, b⟩ := e
    by_cases hk : a = k
    · simp [assocSet, hk]
    · have hk' : ¬ k = a := fun h => hk h.symm
      simp only [assocSet, hk, if_false, List.map_cons, ih, List.mem_cons, hk', false_or]
      split_ifs <;> simp

theorem assocSet_nodupKeys {α : Type} (m : List (String × α)) (k : String) (v : α)
    (h : (m.map Prod.fst).Nodup) : ((assocSet m k v).map Prod.fst).Nodup := by
  rw [assocSet_keys]
  split_ifs with hk
  · exact h
  · exact List.Nodup.append h (by simp) (by simpa using hk)

theorem assocGet_of_mem_nodup {α : Type} (m : List (String × α)) (k : String) (v : α)
    (hn : (m.map Prod.fst).Nodup) (h : (k, v) ∈ m) : assocGet m k = some v := by
  induction m with
  | nil => simp at h
  | cons e m ih =>
    obtain ⟨a, b⟩ := e
    simp only [List.map_cons, List.nodup_cons] at hn
    rcases List.mem_cons.1 h with h | h
    · cases h
      simp [assocGet]
    · have : a ≠ k := by
        intro hk
        subst hk
        exact hn.1 (List.mem_map.2 ⟨(a, v), h, rfl⟩)
      simp [assocGet, this, ih hn.2 h]

theorem assocErase_mem {α : Type} (m : List (String × α)) (k : String) (e : String × α) :
    e ∈ assocErase m k ↔ e ∈ m ∧ e.1 ≠ k := by
  simp [assocErase]

theorem assocErase_nodupKeys {α : Type} (m : List (String × α)) (k : String)
    (h : (m.map Prod.fst).Nodup) : ((assocErase m k).map Prod.fst).Nodup := by
  unfold assocErase
  exact (List.Nodup.sublist (List.Sublist.map _ (List.filter_sublist m)) h)

theorem foldl_invariant {α β : Type} (P : β → Prop) (f : β → α → β) (l : List α) (init : β)
    (h0 : P init) (hstep : ∀ b a, a ∈ l → P b → P (f b a)) : P (l.foldl f init) := by
  induction l generalizing init with
  | nil => exact h0
  | cons a l ih =>
    simp only [List.foldl_cons]
    exact ih _ (hstep _ _ (List.mem_cons_self _ _) h0)
      (fun b a' ha hb => hstep b a' (List.mem_cons_of_mem _ ha) hb)

theorem assocGet_append {α : Type} (m n : List (String × α)) (k : String) :
    assocGet (m ++ n) k = (assocGet m k).orElse fun _ => assocGet n k := by
  induction m with
  | nil => simp [assocGet]
  | cons e m ih =>
    obtain ⟨a, b⟩ := e
    by_cases h : a = k <;> simp [assocGet, h, ih]

theorem assocGet_reverse_nodup {α : Type} (m : List (String × α)) (k : String)
    (hn : (m.map Prod.fst).Nodup) : assocGet m.reverse k = assocGet m k := by
  have hn' : (m.reverse.map Prod.fst).Nodup := by
    rw [List.map_reverse]
    exact List.nodup_reverse.2 hn
  cases h : assocGet m k with
  | none =>
    rw [assocGet_eq_none_iff] at h ⊢
    simpa using h
  | some v =>
    exact assocGet_of_mem_nodup _ _ _ hn' (List.mem_reverse.2 (assocGet_eq_some_mem _ _ _ h))

namespace properties

theorem Merge_nodupKeys (m other : Map) (h : (m.map Prod.fst).Nodup) :
    ((m.Merge other).map Prod.fst).Nodup := by
  unfold Map.Merge
  exact foldl_invariant (fun acc : Map => (acc.map Prod.fst).Nodup) _ _ _ h
    (fun b a _ hb => assocSet_nodupKeys b a.1 a.2 hb)

theorem GetOk_Merge (m other : Map) (k : String) :
    (m.Merge other).GetOk k = (assocGet other.reverse k).orElse fun _ => m.GetOk k := by
  unfold Map.Merge Map.GetOk
  induction other generalizing m with
  | nil => simp [assocGet]
  | cons e other ih =>
    simp only [List.foldl_cons, List.reverse_cons, assocGet_append, ih]
    cases h : assocGet other.reverse k with
    | some v => simp
    | none =>
      simp only [Option.orElse_none' , Map.Set, assocGet_assocSet, assocGet]
      by_cases hk : e.1 = k <;> simp [hk]

end properties

theorem mem_assocSet {α : Type} (m : List (String × α)) (k : String) (v : α) (e : String × α)
    (h : e ∈ assocSet m k v) : e ∈ m ∨ e = (k, v) := by
  induction m with
  | nil => simpa [assocSet] using h
  | cons x m ih =>
    obtain ⟨a, b⟩ := x
    by_cases hk : a = k
    · simp only [assocSet, hk, if_true, List.mem_cons] at h
      rcases h with h | h
      · exact Or.inr h
      · exact Or.inl (List.mem_cons_of_mem _ h)
    · simp only [assocSet, hk, if_false, List.mem_cons] at h
      rcases h with h | h
      · exact Or.inl (h ▸ List.mem_cons_self _ _)
      · rcases ih h with h | h
        · exact Or.inl (List.mem_cons_of_mem _ h)
        · exact Or.inr h

namespace properties

theorem Set_nodupKeys (m : Map) (k v : String) (h : (m.map Prod.fst).Nodup) :
    ((m.Set k v).map Prod.fst).Nodup := assocSet_nodupKeys m k v h

theorem FirstLevelOf_nodupKeys (m : Map) : (m.FirstLevelOf.map Prod.fst).Nodup := by
  unfold Map.FirstLevelOf
  refine foldl_invariant (fun acc : List (String × Map) => (acc.map Prod.fst).Nodup) _ _ _
    (by simp) ?_
  intro b a _ hb
  dsimp only
  split
  · exact hb
  · exact assocSet_nodupKeys _ _ _ hb

theorem FirstLevelOf_groups_nodupKeys (m : Map) (e : String × Map) (he : e ∈ m.FirstLevelOf) :
    (e.2.map Prod.fst).Nodup := by
  revert e
  unfold Map.FirstLevelOf
  refine foldl_invariant
    (fun acc : List (String × Map) => ∀ e ∈ acc, (e.2.map Prod.fst).Nodup) _ _ _ (by simp) ?_
  intro b a _ hb e he
  split at he
  · exact hb e he
  · rename_i x y hcut
    rcases mem_assocSet _ _ _ _ he with h | h
    · exact hb e h
    · subst h
      apply Set_nodupKeys
      cases hg : assocGet b ⟨x⟩ with
      | none => simp [NewMap]
      | some g => exact hb _ (assocGet_eq_some_mem _ _ _ hg)

end properties

namespace packagemanager

theorem outputVidPid_nodupKeys (st : properties.Map × Nat) (vid pid : String)
    (h : (st.1.map Prod.fst).Nodup) : ((outputVidPid st vid pid).1.map Prod.fst).Nodup := by
  unfold outputVidPid
  exact properties.Set_nodupKeys _ _ _ (properties.Set_nodupKeys _ _ _ h)

theorem convertVidPid_nodupKeys (m : properties.Map) (h : (m.map Prod.fst).Nodup) :
    ((convertVidPidIdentificationPropertiesToPluggableDiscovery m).map Prod.fst).Nodup := by
  unfold convertVidPidIdentificationPropertiesToPluggableDiscovery
  refine foldl_invariant (fun st : properties.Map × Nat => (st.1.map Prod.fst).Nodup) _ _ _ ?_ ?_
  · split_ifs
    · exact outputVidPid_nodupKeys _ _ _ h
    · exact h
  · intro b a _ hb
    dsimp only
    split_ifs
    · split
      · exact hb
      · split
        · exact outputVidPid_nodupKeys _ _ _ hb
        · exact hb
    · exact hb

theorem convertUploadTools_nodupKeys (m : properties.Map) (h : (m.map Prod.fst).Nodup) :
    ((convertUploadToolsToPluggableDiscovery m).map Prod.fst).Nodup := by
  unfold convertUploadToolsToPluggableDiscovery
  exact properties.Merge_nodupKeys _ _ h

theorem loadBoard_frame (pk arch : String) (st : cores.PlatformRelease × List String)
    (k : String) (p : properties.Map) :
    (loadBoard pk arch st k p).1 = { st.1 with Boards := (loadBoard pk arch st k p).1.Boards } := by
  unfold loadBoard
  split_ifs <;> rfl

theorem loadBoard_boards (pk arch : String) (st : cores.PlatformRelease × List String)
    (k k' : String) (p : properties.Map) :
    assocGet (loadBoard pk arch st k p).1.Boards k' =
      if hasUnknownMenu st.1.Menus p = false ∧ k = k' then
        some { (assocGet st.1.Boards k).getD (cores.newBoard k) with
          Properties := ((assocGet st.1.Boards k).getD (cores.newBoard k)).Properties.Merge
            (preparedBoardProperties st.1.PluggableDiscoveryAware k p) }
      else assocGet st.1.Boards k' := by
  unfold loadBoard
  by_cases h : hasUnknownMenu st.1.Menus p = true
  · simp [h]
  · simp at h
    simp [h, cores.PlatformRelease.GetOrCreateBoard, assocGet_assocSet]

theorem loadBoard_skipped (pk arch : String) (st : cores.PlatformRelease × List String)
    (k : String) (p : properties.Map) :
    (loadBoard pk arch st k p).2 = st.2 ++
      (if hasUnknownMenu st.1.Menus p then [pk ++ ":" ++ arch ++ ":" ++ k] else []) := by
  unfold loadBoard
  split_ifs <;> simp

theorem loadBoard_fold_frame (pk arch : String) (l : List (String × properties.Map))
    (st : cores.PlatformRelease × List String) :
    (l.foldl (fun st e => loadBoard pk arch st e.1 e.2) st).1 =
      { st.1 with Boards := (l.foldl (fun st e => loadBoard pk arch st e.1 e.2) st).1.Boards } := by
  induction l generalizing st with
  | nil => rfl
  | cons e l ih =>
    simp only [List.foldl_cons]
    rw [ih]
    conv_lhs => rw [loadBoard_frame]

theorem loadBoard_fold_skipped (pk arch : String) (l : List (String × properties.Map))
    (st : cores.PlatformRelease × List String) :
    (l.foldl (fun st e => loadBoard pk arch st e.1 e.2) st).2 = st.2 ++
      (l.filter fun e => hasUnknownMenu st.1.Menus e.2).map
        fun e => pk ++ ":" ++ arch ++ ":" ++ e.1 := by
  induction l generalizing st with
  | nil => simp
  | cons e l ih =>
    simp only [List.foldl_cons]
    rw [ih, loadBoard_skipped]
    have hm : (loadBoard pk arch st e.1 e.2).1.Menus = st.1.Menus := by
      rw [loadBoard_frame]
    rw [hm]
    by_cases h : hasUnknownMenu st.1.Menus e.2 = true
    · simp [h, List.filter_cons]
    · simp [h, List.filter_cons]

theorem loadBoard_fold_untouched (pk arch : String) (l : List (String × properties.Map))
    (st : cores.PlatformRelease × List String) (k : String)
    (hk : ∀ e ∈ l, e.1 = k → hasUnknownMenu st.1.Menus e.2 = true) :
    assocGet (l.foldl (fun st e => loadBoard pk arch st e.1 e.2) st).1.Boards k
      = assocGet st.1.Boards k := by
  induction l generalizing st with
  | nil => rfl
  | cons e l ih =>
    simp only [List.foldl_cons]
    have hm : (loadBoard pk arch st e.1 e.2).1.Menus = st.1.Menus := by
      rw [loadBoard_frame]
    rw [ih, loadBoard_boards]
    · by_cases h : e.1 = k
      · have := hk e (List.mem_cons_self _ _) h
        simp [this]
      · simp [h]
    · intro e' he' hk'
      rw [hm]
      exact hk e' (List.mem_cons_of_mem _ he') hk'

theorem loadBoard_fold_loaded (pk arch : String) (l : List (String × properties.Map))
    (st : cores.PlatformRelease × List String) (hn : (l.map Prod.fst).Nodup)
    (e : String × properties.Map) (he : e ∈ l) (hok : hasUnknownMenu st.1.Menus e.2 = false) :
    assocGet (l.foldl (fun st e => loadBoard pk arch st e.1 e.2) st).1.Boards e.1 =
      some { (assocGet st.1.Boards e.1).getD (cores.newBoard e.1) with
        Properties := ((assocGet st.1.Boards e.1).getD (cores.newBoard e.1)).Properties.Merge
          (preparedBoardProperties st.1.PluggableDiscoveryAware e.1 e.2) } := by
  induction l generalizing st with
  | nil => simp at he
  | cons x l ih =>
    simp only [List.foldl_cons]
    simp only [List.map_cons, List.nodup_cons] at hn
    have hm : (loadBoard pk arch st x.1 x.2).1.Menus = st.1.Menus := by
      rw [loadBoard_frame]
    have ha : (loadBoard pk arch st x.1 x.2).1.PluggableDiscoveryAware
        = st.1.PluggableDiscoveryAware := by
      rw [loadBoard_frame]
    rcases List.mem_cons.1 he with h | h
    · subst h
      rw [loadBoard_fold_untouched, loadBoard_boards]
      · simp [hok]
      · intro e' he' hk'
        exact absurd (List.mem_map.2 ⟨e', he', hk'⟩) hn.1
    · have hne : x.1 ≠ e.1 := by
        intro hx
        exact hn.1 (hx ▸ List.mem_map.2 ⟨e, h, rfl⟩)
      rw [ih _ hn.2 h (by rw [hm]; exact hok), ha, loadBoard_boards]
      simp [hne]

end packagemanager

theorem upload_port_key_ne_id (x y : String) : "upload_port." ++ x ++ y ≠ "_id" := by
  intro h
  have h2 := congrArg (fun s => s.data.head?) h
  simp [String.data_append] at h2

theorem assocGet_map_values {α : Type} (m : List (String × α)) (f : String → α → α) (k : String) :
    assocGet (m.map fun b => (b.1, f b.1 b.2)) k = (assocGet m k).map (f k) := by
  induction m with
  | nil => simp [assocGet]
  | cons e m ih =>
    obtain ⟨a, b⟩ := e
    by_cases h : a = k
    · subst h
      simp [assocGet]
    · simp [assocGet, h, ih]

namespace packagemanager

theorem addNetworkUpload_keeps_id (toolName converted : String) (b : cores.Board) :
    (addNetworkUpload toolName converted b).BoardID = b.BoardID ∧
    (addNetworkUpload toolName converted b).Properties.GetOk "_id" = b.Properties.GetOk "_id" := by
  unfold addNetworkUpload
  split_ifs
  · refine ⟨rfl, ?_⟩
    simp only [properties.Map.GetOk, properties.Map.Set]
    rw [assocGet_assocSet_ne _ _ _ _ (upload_port_key_ne_id _ _),
      assocGet_assocSet_ne _ _ _ _ (by decide)]
  · exact ⟨rfl, rfl⟩

theorem convertLegacyPlatform_keeps_id (platform : cores.PlatformRelease) (k : String)
    (b : cores.Board) (h : assocGet platform.Boards k = some b) :
    ∃ b', assocGet (convertLegacyPlatformToPluggableDiscovery platform).Boards k = some b' ∧
      b'.BoardID = b.BoardID ∧ b'.Properties.GetOk "_id" = b.Properties.GetOk "_id" := by
  unfold convertLegacyPlatformToPluggableDiscovery
  refine foldl_invariant (fun pl : cores.PlatformRelease =>
    ∃ b', assocGet pl.Boards k = some b' ∧
      b'.BoardID = b.BoardID ∧ b'.Properties.GetOk "_id" = b.Properties.GetOk "_id") _ _ _
    ⟨b, h, rfl, rfl⟩ ?_
  intro pl e _ hpl
  obtain ⟨b1, h1, h2, h3⟩ := hpl
  dsimp only
  split_ifs
  · exact ⟨b1, h1, h2, h3⟩
  · refine ⟨addNetworkUpload e.1 (e.1 ++ "__pluggable_network") b1, ?_, ?_, ?_⟩
    · have := assocGet_map_values pl.Boards
        (fun _ b => addNetworkUpload e.1 (e.1 ++ "__pluggable_network") b) k
      simp only [h1, Option.map_some'] at this
      exact this
    · rw [(addNetworkUpload_keeps_id _ _ _).1, h2]
    · rw [(addNetworkUpload_keeps_id _ _ _).2, h3]

theorem preparedBoardProperties_id (aware : Bool) (k : String) (p : properties.Map)
    (hn : (p.map Prod.fst).Nodup) :
    assocGet (preparedBoardProperties aware k p).reverse "_id" = some k := by
  have hnd : ((preparedBoardProperties aware k p).map Prod.fst).Nodup := by
    unfold preparedBoardProperties
    apply properties.Set_nodupKeys
    split_ifs
    · exact convertUploadTools_nodupKeys _ (convertVidPid_nodupKeys _ hn)
    · exact hn
  rw [assocGet_reverse_nodup _ _ hnd]
  unfold preparedBoardProperties
  exact assocGet_assocSet_self _ _ _

theorem loadBoards_eq (env : Env) (pk arch : String) (platform : cores.PlatformRelease)
    (installDir : paths.Path) (bp lp : properties.Map)
    (hdir : platform.InstallDir = some installDir)
    (hb : LoadFromPath env (installDir.Join "boards.txt") = .ok bp)
    (hl : SafeLoad env (installDir.Join "boards.local.txt") = .ok lp) :
    loadBoards env pk arch platform =
      let r := (assocErase (bp.Merge lp).FirstLevelOf "menu").foldl
        (fun st e => loadBoard pk arch st e.1 e.2)
        (({ platform with
            Menus := (assocGet (bp.Merge lp).FirstLevelOf "menu").getD properties.NewMap } :
          cores.PlatformRelease), [])
      if r.2.length > 0 then
        (r.1, some (.new ("skipping loading of boards " ++ strings.Join r.2 ", "
          ++ ": malformed custom board options")))
      else (r.1, none) := by
  unfold loadBoards
  simp only [hdir, hb, hl]

theorem loadBoards_fst (env : Env) (pk arch : String) (platform : cores.PlatformRelease)
    (installDir : paths.Path) (bp lp : properties.Map)
    (hdir : platform.InstallDir = some installDir)
    (hb : LoadFromPath env (installDir.Join "boards.txt") = .ok bp)
    (hl : SafeLoad env (installDir.Join "boards.local.txt") = .ok lp) :
    (loadBoards env pk arch platform).1 =
      ((assocErase (bp.Merge lp).FirstLevelOf "menu").foldl
        (fun st e => loadBoard pk arch st e.1 e.2)
        (({ platform with
            Menus := (assocGet (bp.Merge lp).FirstLevelOf "menu").getD properties.NewMap } :
          cores.PlatformRelease), [])).1 := by
  rw [loadBoards_eq env pk arch platform installDir bp lp hdir hb hl]
  dsimp only
  split_ifs <;> rfl

/-- C5: every board definition of `boards.txt` (merged with `boards.local.txt`) that
`loadBoards` does not skip gives a board of the release, created or updated, whose
properties map `_id` to the board's own `BoardID`, the id of the definition.  This
holds whether or not the legacy VID/PID and upload-tool conversions were applied
(they run before `_id` is set), and it still holds after
`convertLegacyPlatformToPluggableDiscovery` has been applied to the release.  The
boards already in the release are assumed to be stored under their own id. -/
theorem loadBoards_sets_id_of_every_loaded_board (env : Env) (pk arch : String)
    (platform : cores.PlatformRelease) (installDir : paths.Path) (bp lp : properties.Map)
    (hdir : platform.InstallDir = some installDir)
    (hb : LoadFromPath env (installDir.Join "boards.txt") = .ok bp)
    (hl : SafeLoad env (installDir.Join "boards.local.txt") = .ok lp)
    (hkeyed : ∀ k b, assocGet platform.Boards k = some b → b.BoardID = k)
    (boardID : String) (boardProperties : properties.Map)
    (hdef : (boardID, boardProperties) ∈ assocErase (bp.Merge lp).FirstLevelOf "menu")
    (hmenu : hasUnknownMenu ((assocGet (bp.Merge lp).FirstLevelOf "menu").getD properties.NewMap)
      boardProperties = false) :
    (∃ board, assocGet (loadBoards env pk arch platform).1.Boards boardID = some board ∧
      board.BoardID = boardID ∧ board.Properties.GetOk "_id" = some board.BoardID) ∧
    (∃ board, assocGet (convertLegacyPlatformToPluggableDiscovery
        (loadBoards env pk arch platform).1).Boards boardID = some board ∧
      board.BoardID = boardID ∧ board.Properties.GetOk "_id" = some board.BoardID) := by
  have hfirst : ∃ board, assocGet (loadBoards env pk arch platform).1.Boards boardID = some board ∧
      board.BoardID = boardID ∧ board.Properties.GetOk "_id" = some board.BoardID := by
    have hn := assocErase_nodupKeys _ "menu" (properties.FirstLevelOf_nodupKeys (bp.Merge lp))
    have hload := loadBoard_fold_loaded pk arch _
      (({ platform with
          Menus := (assocGet (bp.Merge lp).FirstLevelOf "menu").getD properties.NewMap } :
        cores.PlatformRelease), []) hn (boardID, boardProperties) hdef hmenu
    have hbid : ((assocGet platform.Boards boardID).getD (cores.newBoard boardID)).BoardID
        = boardID := by
      cases hg : assocGet platform.Boards boardID with
      | none => rfl
      | some b => exact hkeyed _ _ hg
    have hgroup : (boardProperties.map Prod.fst).Nodup :=
      properties.FirstLevelOf_groups_nodupKeys _ _ ((assocErase_mem _ _ _).1 hdef).1
    rw [loadBoards_fst env pk arch platform installDir bp lp hdir hb hl, hload]
    refine ⟨_, rfl, hbid, ?_⟩
    dsimp only
    rw [properties.GetOk_Merge, preparedBoardProperties_id _ _ _ hgroup, hbid]
    rfl
  refine ⟨hfirst, ?_⟩
  obtain ⟨board, h1, h2, h3⟩ := hfirst
  obtain ⟨b', h4, h5, h6⟩ := convertLegacyPlatform_keeps_id _ _ _ h1
  exact ⟨b', h4, h5 ▸ h2, by rw [h6, h3, h5]⟩

/-- Witness of C5: the board `uno` of the sample `boards.txt`. -/
theorem loadBoards_sets_id_of_every_loaded_board_witness :
    ∃ board, assocGet (convertLegacyPlatformToPluggableDiscovery
        (loadBoards (sampleEnv (.dir [("p", sampleReleaseDir sampleBoardsTxt)]) [] []) "acme" "avr"
          (sampleRelease ["p"])).1).Boards "uno" = some board ∧
      board.BoardID = "uno" ∧ board.Properties.GetOk "_id" = some board.BoardID :=
  (loadBoards_sets_id_of_every_loaded_board
    (sampleEnv (.dir [("p", sampleReleaseDir sampleBoardsTxt)]) [] []) "acme" "avr"
    (sampleRelease ["p"]) ["p"] sampleBoardsTxt [] rfl rfl rfl
    (by intro k b h; cases h) "uno"
    [("name", "Uno"), ("upload.tool", "avrdude"), ("vid.0", "0x2341"), ("pid.0", "0x0043")]
    (by decide) (by decide)).2

end packagemanager

theorem tools_key_ne (x k : String) (hk : k.data.head? ≠ some 't') : "tools." ++ x ≠ k := by
  intro h
  apply hk
  rw [← h]
  simp [String.data_append]

namespace packagemanager

theorem loadBoards_frame (env : Env) (pk arch : String) (platform : cores.PlatformRelease) :
    (loadBoards env pk arch platform).1.Properties = platform.Properties ∧
    (loadBoards env pk arch platform).1.PluggableDiscoveryAware
      = platform.PluggableDiscoveryAware := by
  unfold loadBoards
  split
  · exact ⟨rfl, rfl⟩
  · split
    · exact ⟨rfl, rfl⟩
    · split
      · exact ⟨rfl, rfl⟩
      · dsimp only
        split_ifs <;> (rw [loadBoard_fold_frame]; exact ⟨rfl, rfl⟩)

theorem convertedProps_keys (props : properties.Map) (newToolName : String)
    (res : properties.Map)
    (h : convertLegacyNetworkPatternToPluggableDiscovery props newToolName = some res) :
    ∀ k ∈ res.map Prod.fst, ∃ x, k = "tools." ++ x := by
  unfold convertLegacyNetworkPatternToPluggableDiscovery at h
  split at h
  · cases h
  · simp only [Option.some.injEq] at h
    subst h
    refine foldl_invariant (fun res : properties.Map => ∀ k ∈ res.map Prod.fst, ∃ x, k = "tools." ++ x)
      _ _ _ (by simp [properties.NewMap]) ?_
    intro b a _ hb k hk
    simp only [properties.Map.Set, assocSet_keys] at hk
    split_ifs at hk
    · exact hb k hk
    · rcases List.mem_append.1 hk with hk | hk
      · exact hb k hk
      · simp only [List.mem_singleton] at hk
        exact ⟨newToolName ++ "." ++ a, by rw [hk]; simp only [String.append_assoc]⟩

theorem convertLegacyPlatform_frame (platform : cores.PlatformRelease) (k : String)
    (hk : k.data.head? ≠ some 't') :
    (convertLegacyPlatformToPluggableDiscovery platform).Properties.GetOk k
      = platform.Properties.GetOk k ∧
    (convertLegacyPlatformToPluggableDiscovery platform).PluggableDiscoveryAware
      = platform.PluggableDiscoveryAware := by
  unfold convertLegacyPlatformToPluggableDiscovery
  refine foldl_invariant (fun pl : cores.PlatformRelease =>
    pl.Properties.GetOk k = platform.Properties.GetOk k ∧
      pl.PluggableDiscoveryAware = platform.PluggableDiscoveryAware) _ _ _ ⟨rfl, rfl⟩ ?_
  intro pl e _ hpl
  dsimp only
  split_ifs
  · exact hpl
  · refine ⟨?_, hpl.2⟩
    rw [properties.GetOk_Merge]
    have hnone : assocGet (List.reverse ((convertLegacyNetworkPatternToPluggableDiscovery e.2
        (e.1 ++ "__pluggable_network")).getD properties.NewMap)) k = none := by
      rw [assocGet_eq_none_iff, List.map_reverse, List.mem_reverse]
      cases hc : convertLegacyNetworkPatternToPluggableDiscovery e.2 (e.1 ++ "__pluggable_network") with
      | none => simp [properties.NewMap]
      | some res =>
        intro hmem
        obtain ⟨x, hx⟩ := convertedProps_keys _ _ _ hc k hmem
        exact tools_key_ne x k hk hx.symm
    rw [hnone]
    exact hpl.1

theorem programmers_fold_frame (l : List (String × properties.Map))
    (platform : cores.PlatformRelease) :
    (l.foldl (fun (rel : cores.PlatformRelease) e =>
      { rel with Programmers := assocSet rel.Programmers e.1 (loadProgrammer
          (if !rel.PluggableDiscoveryAware then convertUploadToolsToPluggableDiscovery e.2
           else e.2)) }) platform).Properties = platform.Properties ∧
    (l.foldl (fun (rel : cores.PlatformRelease) e =>
      { rel with Programmers := assocSet rel.Programmers e.1 (loadProgrammer
          (if !rel.PluggableDiscoveryAware then convertUploadToolsToPluggableDiscovery e.2
           else e.2)) }) platform).PluggableDiscoveryAware = platform.PluggableDiscoveryAware := by
  induction l generalizing platform with
  | nil => exact ⟨rfl, rfl⟩
  | cons e l ih =>
    simp only [List.foldl_cons]
    exact ⟨(ih _).1, (ih _).2⟩

/-- What `loadPlatformReleaseFiles` leaves once both platform files have been read:
the flag and every property whose key does not start with `t` are those of the
release right after the block that marks it aware or sets the defaults. -/
theorem loadPlatformReleaseFiles_after_defaults (env : Env) (pk arch name : String)
    (platform0 : cores.PlatformRelease) (path : paths.Path) (p pl : properties.Map)
    (h1 : SafeLoad env (path.Join "platform.txt") = .ok p)
    (h2 : SafeLoad env (path.Join "platform.local.txt") = .ok pl) (k : String)
    (hk : k.data.head? ≠ some 't') :
    (loadPlatformReleaseFiles env pk arch name platform0 path).1.2.Properties.GetOk k =
      (markAwareOrInjectDefaults { platform0 with
        Properties := (platform0.Properties.Clone.Merge p).Merge pl }).Properties.GetOk k ∧
    (loadPlatformReleaseFiles env pk arch name platform0 path).1.2.PluggableDiscoveryAware =
      (markAwareOrInjectDefaults { platform0 with
        Properties := (platform0.Properties.Clone.Merge p).Merge pl }).PluggableDiscoveryAware := by
  unfold loadPlatformReleaseFiles loadProgrammers
  simp only [h1, h2]
  split
  · exact ⟨rfl, rfl⟩
  · rename_i programmersProperties _
    have hprog := programmers_fold_frame programmersProperties.FirstLevelOf
      (markAwareOrInjectDefaults { platform0 with
        Properties := (platform0.Properties.Clone.Merge p).Merge pl })
    split
    · rename_i platform6 err heq
      have hfst := congrArg Prod.fst heq
      dsimp only at hfst ⊢
      subst hfst
      rw [(loadBoards_frame _ _ _ _).1, (loadBoards_frame _ _ _ _).2]
      exact ⟨by rw [hprog.1], hprog.2⟩
    · rename_i platform6 heq
      have hfst := congrArg Prod.fst heq
      dsimp only at hfst
      subst hfst
      have hframe := loadBoards_frame env pk arch
        (programmersProperties.FirstLevelOf.foldl (fun (rel : cores.PlatformRelease) e =>
          { rel with Programmers := assocSet rel.Programmers e.1 (loadProgrammer
              (if !rel.PluggableDiscoveryAware then convertUploadToolsToPluggableDiscovery e.2
               else e.2)) })
          (markAwareOrInjectDefaults { platform0 with
            Properties := (platform0.Properties.Clone.Merge p).Merge pl }))
      generalize (loadBoards env pk arch _).1 = platform6 at hframe ⊢
      have hconv := convertLegacyPlatform_frame platform6 k hk
      have h7 : (if (!platform6.PluggableDiscoveryAware) = true
          then convertLegacyPlatformToPluggableDiscovery platform6 else platform6).Properties.GetOk k
            = platform6.Properties.GetOk k ∧
          (if (!platform6.PluggableDiscoveryAware) = true
          then convertLegacyPlatformToPluggableDiscovery platform6
          else platform6).PluggableDiscoveryAware = platform6.PluggableDiscoveryAware := by
        split_ifs
        · exact hconv
        · exact ⟨rfl, rfl⟩
      split
      · dsimp only
        rw [h7.1, h7.2, hframe.1, hframe.2]
        exact ⟨by rw [hprog.1], hprog.2⟩
      · dsimp only
        rw [h7.1, h7.2, hframe.1, hframe.2]
        exact ⟨by rw [hprog.1], hprog.2⟩

theorem markAwareOrInjectDefaults_spec (platform : cores.PlatformRelease)
    (h : (markAwareOrInjectDefaults platform).PluggableDiscoveryAware = false) :
    (markAwareOrInjectDefaults platform).Properties.GetOk "pluggable_discovery.required.0"
      = some "builtin:serial-discovery" ∧
    (markAwareOrInjectDefaults platform).Properties.GetOk "pluggable_discovery.required.1"
      = some "builtin:mdns-discovery" ∧
    (markAwareOrInjectDefaults platform).Properties.GetOk "pluggable_monitor.required.serial"
      = some "builtin:serial-monitor" := by
  unfold markAwareOrInjectDefaults at h ⊢
  split_ifs at h ⊢ with hs
  dsimp only [properties.Map.GetOk, properties.Map.Set]
  refine ⟨?_, ?_, ?_⟩
  · rw [assocGet_assocSet_ne _ _ _ _ (by decide), assocGet_assocSet_ne _ _ _ _ (by decide),
      assocGet_assocSet_self]
  · rw [assocGet_assocSet_ne _ _ _ _ (by decide), assocGet_assocSet_self]
  · rw [assocGet_assocSet_self]

theorem platform_updatePlatform (pm : Builder) (packager arch : String)
    (f : cores.Platform → cores.Platform) :
    ((pm.updatePlatform packager arch f).packages.package packager).platform arch
      = f ((pm.packages.package packager).platform arch) := by
  simp [Builder.updatePlatform, Builder.updatePackage, cores.Packages.GetOrCreatePackage,
    cores.Packages.package, cores.Package.GetOrCreatePlatform, cores.Package.platform,
    assocGet_assocSet_self]

theorem release_GetOrCreateRelease (pl : cores.Platform) (version : String)
    (f : cores.PlatformRelease → cores.PlatformRelease) :
    (pl.GetOrCreateRelease version f).release version = f (pl.release version) := by
  simp [cores.Platform.GetOrCreateRelease, cores.Platform.release, assocGet_assocSet_self]

/-- The release that `loadPlatformRelease` leaves in the catalog when `installed.json`
is absent or parses: the one computed by `loadPlatformReleaseFiles` from the
catalog reached after the index has been merged. -/
theorem loadPlatformRelease_release (env : Env) (pm : Builder) (packager arch version : String)
    (path : paths.Path)
    (hinst : Exist env (path.Join "installed.json") = true →
      ∃ idx, LoadIndex env (path.Join "installed.json") = .ok idx) :
    ∃ pmr : Builder,
      (((loadPlatformRelease env pm packager arch version path).1.packages.package
          packager).platform arch).release version =
        (loadPlatformReleaseFiles env (pmr.packages.package packager).Name
          ((pmr.packages.package packager).platform arch).Architecture
          ((pmr.packages.package packager).platform arch).Name
          (((pmr.packages.package packager).platform arch).release version) path).1.2 ∧
      (loadPlatformRelease env pm packager arch version path).2 =
        (loadPlatformReleaseFiles env (pmr.packages.package packager).Name
          ((pmr.packages.package packager).platform arch).Architecture
          ((pmr.packages.package packager).platform arch).Name
          (((pmr.packages.package packager).platform arch).release version) path).2 := by
  unfold loadPlatformRelease
  by_cases hex : Exist env (path.Join "installed.json") = true
  · obtain ⟨idx, hidx⟩ := hinst hex
    simp only [hex, if_true, Builder.LoadPackageIndexFromFile, hidx]
    refine ⟨{ (pm.updateRelease packager arch version fun r =>
        { r with InstallDir := some path }) with
      packages := idx.MergeIntoPackages (pm.updateRelease packager arch version fun r =>
        { r with InstallDir := some path }).packages }, ?_, rfl⟩
    rw [platform_updatePlatform, release_GetOrCreateRelease]
  · have hex' : Exist env (path.Join "installed.json") = false := by simpa using hex
    simp only [hex', Bool.false_eq_true, if_false]
    refine ⟨pm.updateRelease packager arch version fun r =>
        { r with InstallDir := some path }, ?_, rfl⟩
    rw [platform_updatePlatform, release_GetOrCreateRelease]

/-- C6: when `installed.json` is absent or parses and `platform.txt` and
`platform.local.txt` have been read, every release that `loadPlatformRelease` leaves
with `PluggableDiscoveryAware = false` holds, in its properties as they stand at
the end of the call (whether the later steps succeeded or one of them failed),
`pluggable_discovery.required.0 = builtin:serial-discovery`,
`pluggable_discovery.required.1 = builtin:mdns-discovery` and
`pluggable_monitor.required.serial = builtin:serial-monitor`, whatever
`platform.txt` gave for these keys: no later step of the loading changes them. -/
theorem loadPlatformRelease_nonaware_has_defaults (env : Env) (pm : Builder)
    (packager arch version : String) (path : paths.Path) (p pl : properties.Map)
    (hinst : Exist env (path.Join "installed.json") = true →
      ∃ idx, LoadIndex env (path.Join "installed.json") = .ok idx)
    (h1 : SafeLoad env (path.Join "platform.txt") = .ok p)
    (h2 : SafeLoad env (path.Join "platform.local.txt") = .ok pl)
    (haware : ((((loadPlatformRelease env pm packager arch version path).1.packages.package
      packager).platform arch).release version).PluggableDiscoveryAware = false) :
    ((((loadPlatformRelease env pm packager arch version path).1.packages.package
      packager).platform arch).release version).Properties.GetOk
        "pluggable_discovery.required.0" = some "builtin:serial-discovery" ∧
    ((((loadPlatformRelease env pm packager arch version path).1.packages.package
      packager).platform arch).release version).Properties.GetOk
        "pluggable_discovery.required.1" = some "builtin:mdns-discovery" ∧
    ((((loadPlatformRelease env pm packager arch version path).1.packages.package
      packager).platform arch).release version).Properties.GetOk
        "pluggable_monitor.required.serial" = some "builtin:serial-monitor" := by
  obtain ⟨pmr, hrel, -⟩ := loadPlatformRelease_release env pm packager arch version path hinst
  rw [hrel] at haware ⊢
  have hd := fun k hk => loadPlatformReleaseFiles_after_defaults env
    (pmr.packages.package packager).Name
    ((pmr.packages.package packager).platform arch).Architecture
    ((pmr.packages.package packager).platform arch).Name
    (((pmr.packages.package packager).platform arch).release version) path p pl h1 h2 k hk
  have hspec := markAwareOrInjectDefaults_spec _
    (((hd "pluggable_discovery.required.0" (by decide)).2).symm.trans haware)
  exact ⟨(hd _ (by decide)).1.trans hspec.1, (hd _ (by decide)).1.trans hspec.2.1,
    (hd _ (by decide)).1.trans hspec.2.2⟩

/-- Witness of C6: a release that loads without error and whose `platform.txt` names
another serial monitor. -/
theorem loadPlatformRelease_nonaware_has_defaults_witness :
    ((((loadPlatformRelease (sampleEnv (.dir [("p", sampleReleaseDir [("uno.name", "Uno")])]) [] [])
        emptyBuilder "acme" "avr" "1.2.3" ["p"]).1.packages.package
      "acme").platform "avr").release "1.2.3").Properties.GetOk
        "pluggable_monitor.required.serial" = some "builtin:serial-monitor" :=
  (loadPlatformRelease_nonaware_has_defaults
    (sampleEnv (.dir [("p", sampleReleaseDir [("uno.name", "Uno")])]) [] [])
    emptyBuilder "acme" "avr" "1.2.3" ["p"] samplePlatformTxt []
    (fun h => absurd h (by decide)) rfl rfl (by decide)).2.2

theorem hasRelease_updatePlatform (pm : Builder) (packager arch version : String)
    (g : cores.Platform → cores.Platform) (f : cores.PlatformRelease → cores.PlatformRelease) :
    (pm.updatePlatform packager arch fun pl => (g pl).GetOrCreateRelease version f).hasRelease
      packager arch version = true := by
  simp [Builder.hasRelease, Builder.updatePlatform, Builder.updatePackage,
    cores.Packages.GetOrCreatePackage, cores.Package.GetOrCreatePlatform,
    cores.Platform.GetOrCreateRelease, assocGet_assocSet_self]

theorem loadPlatformRelease_hasRelease (env : Env) (pm : Builder) (packager arch version : String)
    (path : paths.Path) :
    (loadPlatformRelease env pm packager arch version path).1.hasRelease packager arch version
      = true := by
  unfold loadPlatformRelease
  dsimp only
  split
  · rename_i err heq
    split_ifs at heq ⊢ with hex
    · unfold Builder.LoadPackageIndexFromFile at heq ⊢
      split at heq
      · rename_i e hl
        simp only [hl]
        exact hasRelease_updatePlatform pm packager arch version id _
      · cases heq
  · exact hasRelease_updatePlatform _ packager arch version _ _

theorem loadVersionDirs_append_ok (env : Env) (packager arch : String) (pre rest : List paths.Path)
    (pm pm1 : Builder) (h : loadVersionDirs env packager arch pre pm = (pm1, none)) :
    loadVersionDirs env packager arch (pre ++ rest) pm
      = loadVersionDirs env packager arch rest pm1 := by
  induction pre generalizing pm with
  | nil => simp [loadVersionDirs] at h; simp [h]
  | cons d pre ih =>
    simp only [loadVersionDirs, List.cons_append] at h ⊢
    split
    · rename_i err hc
      simp only [hc] at h
      cases h
    · rename_i hc
      simp only [hc] at h
      exact ih _ h
    · rename_i hc
      simp only [hc] at h
      split
      · rename_i err hp
        simp only [hp] at h
        cases h
      · rename_i version hp
        simp only [hp] at h
        split
        · rename_i pm2 err hr
          simp only [hr] at h
          cases h
        · rename_i pm2 hr
          simp only [hr] at h
          exact ih _ h

theorem loadVersionDirs_failed_release (env : Env) (packager arch : String)
    (versionDir : paths.Path) (post : List paths.Path) (pm1 : Builder) (version : String)
    (err : Error)
    (hex : ExistCheck env (versionDir.Join "boards.txt") = .ok true)
    (hparse : env.Parse versionDir.Base = .ok version)
    (hfail : (loadPlatformRelease env (pm1.updateRelease packager arch version id) packager arch
      version versionDir).2 = some err) :
    (loadVersionDirs env packager arch (versionDir :: post) pm1).2
      = some (.wrap ("loading platform release " ++ version) err) ∧
    (loadVersionDirs env packager arch (versionDir :: post) pm1).1.hasRelease packager arch version
      = true := by
  simp only [loadVersionDirs, hex, hparse]
  have hh := loadPlatformRelease_hasRelease env (pm1.updateRelease packager arch version id)
    packager arch version versionDir
  split
  · rename_i pm2 e hr
    rw [hr] at hfail hh
    simp only [Option.some.injEq] at hfail
    subst hfail
    exact ⟨rfl, hh⟩
  · rename_i pm2 hr
    rw [hr] at hfail
    cases hfail

/-- C7, the code at the failing input: with no hardware directory and one bundle
directory that is empty (no `builtin_tools_versions.txt`, no tool), `LoadHardware`
on the empty catalog reports no error and leaves the unnamed package, which has
no platform and no tool; a packager directory of a hardware root in which nothing
is found, by contrast, leaves no package. -/
theorem LoadHardware_keeps_empty_unnamed_package :
    (LoadHardware (sampleEnv (.dir [("bundle", .dir [])]) [] [["bundle"]]) emptyBuilder).1.packages
      = [("", { Name := "", Platforms := [], Tools := [] })] ∧
    (LoadHardware (sampleEnv (.dir [("bundle", .dir [])]) [] [["bundle"]]) emptyBuilder).2 = [] ∧
    (LoadHardware (sampleEnv (.dir [("hw", .dir [("acme", .dir [])])]) [["hw"]] [])
      emptyBuilder).1.packages = [] := by
  decide

/-- Counterexample to C8: in the flat layout `hw/acme/avr`, `boards.txt` defines a
board with an undeclared menu, so `loadPlatformRelease` fails; `loadPlatform`
returns that error, and the package `acme`, which had no platform before the call,
now has the platform `avr` with the release `1.2.3`. -/
theorem loadPlatform_failed_release_is_not_rolled_back :
    (loadPlatform (sampleEnv (.dir [("hw", .dir [("acme", .dir [("avr",
        sampleReleaseDir sampleBoardsTxt)])])]) [] [])
      (emptyBuilder.updatePackage "acme" id) "acme" "avr" ["hw", "acme", "avr"]).2
      = some (.wrap "loading platform release 1.2.3" (.new ("loading boards: skipping loading "
          ++ "of boards acme:avr:due: malformed custom board options"))) ∧
    ((emptyBuilder.updatePackage "acme" id).packages.package "acme").Platforms = [] ∧
    ((loadPlatform (sampleEnv (.dir [("hw", .dir [("acme", .dir [("avr",
        sampleReleaseDir sampleBoardsTxt)])])]) [] [])
      (emptyBuilder.updatePackage "acme" id) "acme" "avr" ["hw", "acme", "avr"]).1.packages.package
        "acme").Platforms.map Prod.fst = ["avr"] ∧
    (((loadPlatform (sampleEnv (.dir [("hw", .dir [("acme", .dir [("avr",
        sampleReleaseDir sampleBoardsTxt)])])]) [] [])
      (emptyBuilder.updatePackage "acme" id) "acme" "avr" ["hw", "acme", "avr"]).1.packages.package
        "acme").platform "avr").Releases.map Prod.fst = ["1.2.3"] := by
  decide

/-- C8 (amended): `loadPlatform` registers the platform and the release before it
calls `loadPlatformRelease` and removes nothing afterwards.  In the flat layout
and in the versioned layout alike, when `loadPlatformRelease` fails for a release,
`loadPlatform` returns that error wrapped as "loading platform release" and the
release is still registered under its platform in the catalog. -/
theorem loadPlatform_keeps_release_when_loading_fails (env : Env) (pm : Builder)
    (packager arch : String) (platformPath : paths.Path) :
    (∀ platformProperties version0 b err,
      IsNotDir env platformPath = false →
      ExistCheck env (platformPath.Join "boards.txt") = .ok true →
      SafeLoad env (platformPath.Join "platform.txt") = .ok platformProperties →
      env.Parse (env.ExpandPropsInString platformProperties (platformProperties.Get "version"))
        = .ok version0 →
      bundledIndexStep env pm packager arch
        (platformPath.Parent.Parent.Join "package_index_bundled.json") version0 = (b, none) →
      (loadPlatformRelease env
        ((b.1.updatePlatform packager arch fun pl =>
            if !b.2.2 then { pl with ManuallyInstalled := true } else pl).updateRelease
          packager arch b.2.1 fun r => { r with IsIDEBundled := b.2.2 })
        packager arch b.2.1 platformPath).2 = some err →
      (loadPlatform env pm packager arch platformPath).2
        = some (.wrap ("loading platform release " ++ b.2.1) err) ∧
      (loadPlatform env pm packager arch platformPath).1.hasRelease packager arch b.2.1 = true) ∧
    (∀ versionDirs pre versionDir post pm1 version err,
      IsNotDir env platformPath = false →
      ExistCheck env (platformPath.Join "boards.txt") = .ok false →
      ReadDir env platformPath = .ok versionDirs →
      FilterOutHiddenFiles (FilterDirs env versionDirs) = pre ++ versionDir :: post →
      loadVersionDirs env packager arch pre pm = (pm1, none) →
      ExistCheck env (versionDir.Join "boards.txt") = .ok true →
      env.Parse versionDir.Base = .ok version →
      (loadPlatformRelease env (pm1.updateRelease packager arch version id) packager arch version
        versionDir).2 = some err →
      (loadPlatform env pm packager arch platformPath).2
        = some (.wrap ("loading platform release " ++ version) err) ∧
      (loadPlatform env pm packager arch platformPath).1.hasRelease packager arch version
        = true) := by
  refine ⟨?_, ?_⟩
  · intro platformProperties version0 b err hdir hex hprops hver hb hfail
    have hh := loadPlatformRelease_hasRelease env
      ((b.1.updatePlatform packager arch fun pl =>
          if !b.2.2 then { pl with ManuallyInstalled := true } else pl).updateRelease
        packager arch b.2.1 fun r => { r with IsIDEBundled := b.2.2 })
      packager arch b.2.1 platformPath
    unfold loadPlatform
    simp only [hdir, hex, hprops, hver, hb, Bool.false_eq_true, if_false]
    split
    · rename_i pm4 e hr
      rw [hr] at hfail hh
      simp only [Option.some.injEq] at hfail
      subst hfail
      exact ⟨rfl, hh⟩
    · rename_i pm4 hr
      rw [hr] at hfail
      cases hfail
  · intro versionDirs pre versionDir post pm1 version err hdir hex hread hsplit hpre hex2 hparse
      hfail
    unfold loadPlatform
    simp only [hdir, hex, hread, hsplit, Bool.false_eq_true, if_false]
    rw [loadVersionDirs_append_ok env packager arch pre _ pm pm1 hpre]
    exact loadVersionDirs_failed_release env packager arch versionDir post pm1 version err hex2
      hparse hfail

/-- Witness of C8 (amended): the flat sample platform whose `boards.txt` has a board
with an undeclared menu. -/
theorem loadPlatform_keeps_release_when_loading_fails_witness :
    (loadPlatform (sampleEnv (.dir [("hw", .dir [("acme", .dir [("avr",
        sampleReleaseDir sampleBoardsTxt)])])]) [] [])
      (emptyBuilder.updatePackage "acme" id) "acme" "avr" ["hw", "acme", "avr"]).1.hasRelease
        "acme" "avr" "1.2.3" = true :=
  ((loadPlatform_keeps_release_when_loading_fails
    (sampleEnv (.dir [("hw", .dir [("acme", .dir [("avr",
      sampleReleaseDir sampleBoardsTxt)])])]) [] [])
    (emptyBuilder.updatePackage "acme" id) "acme" "avr" ["hw", "acme", "avr"]).1
    samplePlatformTxt "1.2.3" (emptyBuilder.updatePackage "acme" id, "1.2.3", false)
    (.new ("loading boards: skipping loading "
          ++ "of boards acme:avr:due: malformed custom board options"))
    (by decide) rfl rfl rfl rfl (by decide)).2

theorem loadPlatformsLoop_acc (env : Env) (packager : String) (l : List paths.Path)
    (pm : Builder) (acc : List Error) :
    loadPlatformsLoop env packager l (pm, acc) =
      ((loadPlatformsLoop env packager l (pm, [])).1,
        acc ++ (loadPlatformsLoop env packager l (pm, [])).2) := by
  induction l generalizing pm acc with
  | nil => simp [loadPlatformsLoop]
  | cons d l ih =>
    simp only [loadPlatformsLoop]
    split_ifs
    · exact ih pm acc
    · split
      · rename_i pm1 err hr
        rw [ih pm1 (acc ++ [err]), ih pm1 ([] ++ [err])]
        simp
      · rename_i pm1 hr
        exact ih pm1 acc

theorem loadPlatformsLoop_append (env : Env) (packager : String) (pre rest : List paths.Path)
    (st : Builder × List Error) :
    loadPlatformsLoop env packager (pre ++ rest) st
      = loadPlatformsLoop env packager rest (loadPlatformsLoop env packager pre st) := by
  induction pre generalizing st with
  | nil => simp [loadPlatformsLoop]
  | cons d pre ih =>
    simp only [loadPlatformsLoop, List.cons_append]
    split_ifs
    · exact ih st
    · split
      · exact ih _
      · exact ih _

theorem loadPlatformsLoop_filter_tools (env : Env) (packager : String) (l : List paths.Path)
    (st : Builder × List Error) :
    loadPlatformsLoop env packager l st
      = loadPlatformsLoop env packager (l.filter fun p => p.Base ≠ "tools") st := by
  induction l generalizing st with
  | nil => rfl
  | cons d l ih =>
    by_cases h : d.Base = "tools"
    · simp only [loadPlatformsLoop, h, if_true, List.filter_cons, ne_eq, not_true_eq_false,
        decide_False, Bool.false_eq_true, if_false]
      exact ih st
    · simp only [loadPlatformsLoop, h, if_false, List.filter_cons, ne_eq, not_false_eq_true,
        decide_True, if_true]
      split
      · exact ih _
      · exact ih _

theorem LoadHardwareFromDirectories_acc (env : Env) (l : List paths.Path) (pm : Builder)
    (acc : List Error) :
    l.foldl (fun (st : Builder × List Error) path =>
        ((LoadHardwareFromDirectory env st.1 path).1,
          st.2 ++ (LoadHardwareFromDirectory env st.1 path).2)) (pm, acc) =
      ((LoadHardwareFromDirectories env pm l).1, acc ++ (LoadHardwareFromDirectories env pm l).2) := by
  unfold LoadHardwareFromDirectories
  induction l generalizing pm acc with
  | nil => simp
  | cons d l ih =>
    simp only [List.foldl_cons]
    rw [ih, ih (LoadHardwareFromDirectory env pm d).1 ([] ++ _)]
    simp

/-- C9: once the package directory has been listed, `loadPlatforms` calls
`loadPlatform` on every architecture subdirectory (the directories of the listing
whose name does not start with a dot and is not `tools`), in directory order and
whatever happened to the earlier ones: for every such directory `d`, with `pre`
before it and `post` after it, the result is the catalog and the errors of `pre`,
then the outcome of `loadPlatform` on `d` in the catalog reached (one error when it
fails, none otherwise), then the catalog and the errors of `post`.
`LoadHardwareFromDirectories` likewise runs `LoadHardwareFromDirectory` on every
root and concatenates the error lists, a failing root not stopping the others. -/
theorem loadPlatforms_accumulates_errors (env : Env) (pm : Builder) (packager : String)
    (packageDir : paths.Path) (platformsDirs : List paths.Path)
    (hread : ReadDir env packageDir = .ok platformsDirs) :
    (∀ pre d post,
      (FilterOutPrefix (FilterDirs env platformsDirs) ".").filter (fun p => p.Base ≠ "tools")
        = pre ++ d :: post →
      loadPlatforms env pm packager packageDir =
        ((loadPlatformsLoop env packager post
            ((loadPlatform env (loadPlatformsLoop env packager pre (pm, [])).1 packager d.Base
              d).1, [])).1,
          (loadPlatformsLoop env packager pre (pm, [])).2 ++
          (loadPlatform env (loadPlatformsLoop env packager pre (pm, [])).1 packager d.Base
            d).2.toList ++
          (loadPlatformsLoop env packager post
            ((loadPlatform env (loadPlatformsLoop env packager pre (pm, [])).1 packager d.Base
              d).1, [])).2)) ∧
    (∀ pm0 pre root post,
      LoadHardwareFromDirectories env pm0 (pre ++ root :: post) =
        ((LoadHardwareFromDirectories env
            (LoadHardwareFromDirectory env (LoadHardwareFromDirectories env pm0 pre).1 root).1
            post).1,
          (LoadHardwareFromDirectories env pm0 pre).2 ++
          (LoadHardwareFromDirectory env (LoadHardwareFromDirectories env pm0 pre).1 root).2 ++
          (LoadHardwareFromDirectories env
            (LoadHardwareFromDirectory env (LoadHardwareFromDirectories env pm0 pre).1 root).1
            post).2)) := by
  refine ⟨?_, ?_⟩
  · intro pre d post hsplit
    have hd : d.Base ≠ "tools" := by
      have hmem : d ∈ (FilterOutPrefix (FilterDirs env platformsDirs) ".").filter
          (fun p => p.Base ≠ "tools") := by
        rw [hsplit]
        simp
      simpa using (List.mem_filter.1 hmem).2
    unfold loadPlatforms
    simp only [hread]
    rw [loadPlatformsLoop_filter_tools, hsplit, loadPlatformsLoop_append]
    generalize loadPlatformsLoop env packager pre (pm, []) = s
    obtain ⟨pm1, errs1⟩ := s
    simp only [loadPlatformsLoop, hd, if_false]
    split
    · rename_i pm2 err hr
      rw [loadPlatformsLoop_acc, hr]
      simp
    · rename_i pm2 hr
      rw [loadPlatformsLoop_acc, hr]
      simp
  · intro pm0 pre root post
    have hfold : ∀ (l : List paths.Path) (st : Builder × List Error),
        l.foldl (fun (st : Builder × List Error) path =>
          ((LoadHardwareFromDirectory env st.1 path).1,
            st.2 ++ (LoadHardwareFromDirectory env st.1 path).2)) st =
        ((LoadHardwareFromDirectories env st.1 l).1,
          st.2 ++ (LoadHardwareFromDirectories env st.1 l).2) :=
      fun l st => LoadHardwareFromDirectories_acc env l st.1 st.2
    conv_lhs => unfold LoadHardwareFromDirectories
    rw [List.foldl_append, List.foldl_cons, hfold pre, hfold post]
    simp

/-- Witness of C9: the platform `avr` fails to load, `sam` after it is loaded, and
the directory `tools` is not taken for a platform. -/
theorem loadPlatforms_accumulates_errors_witness :
    (loadPlatforms (sampleEnv (.dir [("acme", .dir [
        ("avr", sampleReleaseDir sampleBoardsTxt),
        ("sam", sampleReleaseDir [("due.name", "Due")]),
        ("tools", .dir [])])]) [] [])
      (emptyBuilder.updatePackage "acme" id) "acme" ["acme"]).2.length = 1 ∧
    ((loadPlatforms (sampleEnv (.dir [("acme", .dir [
        ("avr", sampleReleaseDir sampleBoardsTxt),
        ("sam", sampleReleaseDir [("due.name", "Due")]),
        ("tools", .dir [])])]) [] [])
      (emptyBuilder.updatePackage "acme" id) "acme" ["acme"]).1.packages.package
        "acme").Platforms.map Prod.fst = ["avr", "sam"] := by
  have h := (loadPlatforms_accumulates_errors
    (sampleEnv (.dir [("acme", .dir [
        ("avr", sampleReleaseDir sampleBoardsTxt),
        ("sam", sampleReleaseDir [("due.name", "Due")]),
        ("tools", .dir [])])]) [] [])
    (emptyBuilder.updatePackage "acme" id) "acme" ["acme"]
    [["acme", "avr"], ["acme", "sam"], ["acme", "tools"]] rfl).1
    [] ["acme", "avr"] [["acme", "sam"]] (by decide)
  rw [h]
  decide

end packagemanager

theorem Join_contains (l : List String) (sep x : String) (h : x ∈ l) :
    ∃ a b, strings.Join l sep = a ++ x ++ b := by
  induction l with
  | nil => simp at h
  | cons y l ih =>
    cases l with
    | nil =>
      simp only [List.mem_singleton] at h
      subst h
      exact ⟨"", "", by simp [strings.Join]⟩
    | cons z rest =>
      rcases List.mem_cons.1 h with h | h
      · subst h
        exact ⟨"", sep ++ strings.Join (z :: rest) sep, by simp [strings.Join, String.append_assoc]⟩
      · obtain ⟨a, b, hab⟩ := ih h
        exact ⟨y ++ sep ++ a, b, by simp [strings.Join, hab, String.append_assoc]⟩

theorem mem_nodupKeys_unique {α : Type} (l : List (String × α)) (hn : (l.map Prod.fst).Nodup)
    (e e' : String × α) (he : e ∈ l) (he' : e' ∈ l) (hk : e'.1 = e.1) : e' = e := by
  have h1 := assocGet_of_mem_nodup l e.1 e.2 hn he
  have h2 := assocGet_of_mem_nodup l e'.1 e'.2 hn he'
  rw [hk, h1] at h2
  simp only [Option.some.injEq] at h2
  exact Prod.ext hk h2.symm

namespace packagemanager

theorem hasUnknownMenu_iff (menus props : properties.Map) :
    hasUnknownMenu menus props = true ↔
      ∃ kv ∈ props, strings.HasPrefix kv.1 "menu." = true ∧
        menus.ContainsKey ((strings.Split kv.1 '.').getD 1 "") = false := by
  simp [hasUnknownMenu, properties.Map.AsMap, List.any_eq_true]

theorem loadBoards_snd (env : Env) (pk arch : String) (platform : cores.PlatformRelease)
    (installDir : paths.Path) (bp lp : properties.Map)
    (hdir : platform.InstallDir = some installDir)
    (hb : LoadFromPath env (installDir.Join "boards.txt") = .ok bp)
    (hl : SafeLoad env (installDir.Join "boards.local.txt") = .ok lp) :
    (loadBoards env pk arch platform).2 =
      if ((assocErase (bp.Merge lp).FirstLevelOf "menu").filter fun e =>
          hasUnknownMenu ((assocGet (bp.Merge lp).FirstLevelOf "menu").getD properties.NewMap)
            e.2) = [] then none
      else some (.new ("skipping loading of boards " ++ strings.Join
        (((assocErase (bp.Merge lp).FirstLevelOf "menu").filter fun e =>
          hasUnknownMenu ((assocGet (bp.Merge lp).FirstLevelOf "menu").getD properties.NewMap)
            e.2).map fun e => pk ++ ":" ++ arch ++ ":" ++ e.1) ", "
          ++ ": malformed custom board options")) := by
  rw [loadBoards_eq env pk arch platform installDir bp lp hdir hb hl]
  dsimp only
  rw [loadBoard_fold_skipped]
  dsimp only
  simp only [List.nil_append, List.length_map]
  split_ifs with h1 h2 h2
  · simp [h2] at h1
  · rfl
  · rfl
  · exfalso
    apply h2
    exact List.length_eq_zero.1 (by omega)

/-- C10: once `boards.txt` and `boards.local.txt` have been read, `loadBoards`
returns the error "skipping loading of boards ...: malformed custom board options"
if and only if some board definition has a key starting with `menu.` whose second
dot-separated segment is not a key of the menus of the release, and it returns no
error otherwise.  Every such board is left as it was in the release (not created,
not merged) and its name `packager:architecture:boardID` is in the list of skipped
boards and occurs in the text of the error; every other board definition is loaded:
its prepared properties are merged into the board of that id. -/
theorem loadBoards_skips_exactly_the_boards_with_unknown_menu (env : Env) (pk arch : String)
    (platform : cores.PlatformRelease) (installDir : paths.Path) (bp lp : properties.Map)
    (hdir : platform.InstallDir = some installDir)
    (hb : LoadFromPath env (installDir.Join "boards.txt") = .ok bp)
    (hl : SafeLoad env (installDir.Join "boards.local.txt") = .ok lp) :
    ((loadBoards env pk arch platform).2 = some (.new ("skipping loading of boards "
        ++ strings.Join (skippedBoards pk arch bp lp) ", "
        ++ ": malformed custom board options")) ↔
      ∃ e ∈ boardDefinitions bp lp, ∃ kv ∈ e.2, strings.HasPrefix kv.1 "menu." = true ∧
        (declaredMenus bp lp).ContainsKey ((strings.Split kv.1 '.').getD 1 "") = false) ∧
    ((loadBoards env pk arch platform).2 = none ↔
      ¬ ∃ e ∈ boardDefinitions bp lp, ∃ kv ∈ e.2, strings.HasPrefix kv.1 "menu." = true ∧
        (declaredMenus bp lp).ContainsKey ((strings.Split kv.1 '.').getD 1 "") = false) ∧
    (∀ e ∈ boardDefinitions bp lp,
      (∃ kv ∈ e.2, strings.HasPrefix kv.1 "menu." = true ∧
        (declaredMenus bp lp).ContainsKey ((strings.Split kv.1 '.').getD 1 "") = false) →
      assocGet (loadBoards env pk arch platform).1.Boards e.1 = assocGet platform.Boards e.1 ∧
      pk ++ ":" ++ arch ++ ":" ++ e.1 ∈ skippedBoards pk arch bp lp ∧
      ∃ a b, "skipping loading of boards " ++ strings.Join (skippedBoards pk arch bp lp) ", "
        ++ ": malformed custom board options" = a ++ (pk ++ ":" ++ arch ++ ":" ++ e.1) ++ b) ∧
    (∀ e ∈ boardDefinitions bp lp,
      (¬ ∃ kv ∈ e.2, strings.HasPrefix kv.1 "menu." = true ∧
        (declaredMenus bp lp).ContainsKey ((strings.Split kv.1 '.').getD 1 "") = false) →
      assocGet (loadBoards env pk arch platform).1.Boards e.1 =
        some { (assocGet platform.Boards e.1).getD (cores.newBoard e.1) with
          Properties := ((assocGet platform.Boards e.1).getD (cores.newBoard e.1)).Properties.Merge
            (preparedBoardProperties platform.PluggableDiscoveryAware e.1 e.2) }) := by
  have hsnd := loadBoards_snd env pk arch platform installDir bp lp hdir hb hl
  have hfst := loadBoards_fst env pk arch platform installDir bp lp hdir hb hl
  have hn : ((boardDefinitions bp lp).map Prod.fst).Nodup :=
    assocErase_nodupKeys _ "menu" (properties.FirstLevelOf_nodupKeys (bp.Merge lp))
  have hfilter : ((boardDefinitions bp lp).filter fun e =>
      hasUnknownMenu (declaredMenus bp lp) e.2) ≠ [] ↔
      ∃ e ∈ boardDefinitions bp lp, ∃ kv ∈ e.2, strings.HasPrefix kv.1 "menu." = true ∧
        (declaredMenus bp lp).ContainsKey ((strings.Split kv.1 '.').getD 1 "") = false := by
    constructor
    · intro hne
      obtain ⟨e, he⟩ := List.exists_mem_of_ne_nil _ hne
      rw [List.mem_filter] at he
      exact ⟨e, he.1, (hasUnknownMenu_iff _ _).1 he.2⟩
    · rintro ⟨e, he, hkv⟩
      exact List.ne_nil_of_mem (List.mem_filter.2 ⟨he, (hasUnknownMenu_iff _ _).2 hkv⟩)
  change (loadBoards env pk arch platform).2 =
    if ((boardDefinitions bp lp).filter fun e =>
      hasUnknownMenu (declaredMenus bp lp) e.2) = [] then none
    else some (.new ("skipping loading of boards "
        ++ strings.Join (skippedBoards pk arch bp lp) ", "
        ++ ": malformed custom board options")) at hsnd
  refine ⟨?_, ?_, ?_, ?_⟩
  · rw [hsnd, ← hfilter]
    split_ifs with h <;> simp [h]
  · rw [hsnd, ← hfilter]
    split_ifs with h <;> simp [h]
  · intro e he hkv
    have hskip : hasUnknownMenu (declaredMenus bp lp) e.2 = true := (hasUnknownMenu_iff _ _).2 hkv
    have hmem : pk ++ ":" ++ arch ++ ":" ++ e.1 ∈ skippedBoards pk arch bp lp :=
      List.mem_map.2 ⟨e, List.mem_filter.2 ⟨he, hskip⟩, rfl⟩
    refine ⟨?_, hmem, ?_⟩
    · rw [hfst]
      refine loadBoard_fold_untouched pk arch _ _ e.1 ?_
      intro e' he' hk'
      have := mem_nodupKeys_unique _ hn e e' he he' hk'
      subst this
      exact hskip
    · obtain ⟨a, b, hab⟩ := Join_contains _ ", " _ hmem
      exact ⟨"skipping loading of boards " ++ a, b ++ ": malformed custom board options",
        by rw [hab]; simp only [String.append_assoc]⟩
  · intro e he hkv
    have hok : hasUnknownMenu (declaredMenus bp lp) e.2 = false := by
      cases h : hasUnknownMenu (declaredMenus bp lp) e.2 with
      | false => rfl
      | true => exact absurd ((hasUnknownMenu_iff _ _).1 h) hkv
    rw [hfst]
    exact loadBoard_fold_loaded pk arch _ _ hn e he hok

/-- Witness of C10: in the sample `boards.txt` the board `due` uses the undeclared
menu `speed`; it is reported and `uno` is loaded. -/
theorem loadBoards_skips_exactly_the_boards_with_unknown_menu_witness :
    (loadBoards (sampleEnv (.dir [("p", sampleReleaseDir sampleBoardsTxt)]) [] []) "acme" "avr"
      (sampleRelease ["p"])).2 = some (.new
        "skipping loading of boards acme:avr:due: malformed custom board options") ∧
    assocGet (loadBoards (sampleEnv (.dir [("p", sampleReleaseDir sampleBoardsTxt)]) [] [])
      "acme" "avr" (sampleRelease ["p"])).1.Boards "due" = none :=
  ⟨((loadBoards_skips_exactly_the_boards_with_unknown_menu
      (sampleEnv (.dir [("p", sampleReleaseDir sampleBoardsTxt)]) [] []) "acme" "avr"
      (sampleRelease ["p"]) ["p"] sampleBoardsTxt [] rfl rfl rfl).1.2
      ⟨("due", [("menu.speed.fast.build.f_cpu", "84000000"), ("name", "Due")]), by decide,
        ("menu.speed.fast.build.f_cpu", "84000000"), by decide, by decide, by decide⟩),
    ((loadBoards_skips_exactly_the_boards_with_unknown_menu
      (sampleEnv (.dir [("p", sampleReleaseDir sampleBoardsTxt)]) [] []) "acme" "avr"
      (sampleRelease ["p"]) ["p"] sampleBoardsTxt [] rfl rfl rfl).2.2.1
      ("due", [("menu.speed.fast.build.f_cpu", "84000000"), ("name", "Due")]) (by decide)
      ⟨("menu.speed.fast.build.f_cpu", "84000000"), by decide, by decide, by decide⟩).1⟩

end packagemanager

theorem assocGet_assocSet_isSome {α : Type} (m : List (String × α)) (k k' : String) (x : α)
    (h : (assocGet m k').isSome = true) : (assocGet (assocSet m k x) k').isSome = true := by
  rw [assocGet_assocSet]
  split_ifs
  · rfl
  · exact h

namespace cores

theorem Platform.GetOrCreateRelease_present (pl : Platform) (v v' : String)
    (f : PlatformRelease → PlatformRelease)
    (h : (assocGet pl.Releases v').isSome = true) :
    (assocGet (pl.GetOrCreateRelease v f).Releases v').isSome = true :=
  assocGet_assocSet_isSome _ _ _ _ h

theorem Package.GetOrCreatePlatform_present (pk : Package) (a a' v' : String)
    (f : Platform → Platform)
    (hf : ∀ pl : Platform, (assocGet pl.Releases v').isSome = true →
      (assocGet (f pl).Releases v').isSome = true)
    (h : ∃ pl, assocGet pk.Platforms a' = some pl ∧ (assocGet pl.Releases v').isSome = true) :
    ∃ pl, assocGet (pk.GetOrCreatePlatform a f).Platforms a' = some pl ∧
      (assocGet pl.Releases v').isSome = true := by
  obtain ⟨pl, hpl, hrel⟩ := h
  simp only [Package.GetOrCreatePlatform, assocGet_assocSet]
  split_ifs with ha
  · subst ha
    rw [hpl]
    exact ⟨_, rfl, hf _ hrel⟩
  · exact ⟨pl, hpl, hrel⟩

theorem Package.GetOrCreateTool_platforms (pk : Package) (n : String) (f : Tool → Tool) :
    (pk.GetOrCreateTool n f).Platforms = pk.Platforms := rfl

end cores

namespace packagemanager

theorem hasRelease_iff (pm : Builder) (p a v : String) :
    pm.hasRelease p a v = true ↔
      ∃ pkg, assocGet pm.packages p = some pkg ∧
        ∃ pl, assocGet pkg.Platforms a = some pl ∧ (assocGet pl.Releases v).isSome = true := by
  unfold Builder.hasRelease
  cases h1 : assocGet pm.packages p with
  | none => simp
  | some pkg =>
    cases h2 : assocGet pkg.Platforms a with
    | none => simp [h2]
    | some pl => simp [h2]

theorem packages_GetOrCreatePackage_present (packages : cores.Packages) (p p' a' v' : String)
    (f : cores.Package → cores.Package)
    (hf : ∀ pk : cores.Package,
      (∃ pl, assocGet pk.Platforms a' = some pl ∧ (assocGet pl.Releases v').isSome = true) →
      ∃ pl, assocGet (f pk).Platforms a' = some pl ∧ (assocGet pl.Releases v').isSome = true)
    (h : ∃ pkg, assocGet packages p' = some pkg ∧
        ∃ pl, assocGet pkg.Platforms a' = some pl ∧ (assocGet pl.Releases v').isSome = true) :
    ∃ pkg, assocGet (packages.GetOrCreatePackage p f) p' = some pkg ∧
        ∃ pl, assocGet pkg.Platforms a' = some pl ∧ (assocGet pl.Releases v').isSome = true := by
  obtain ⟨pkg, hpkg, hrest⟩ := h
  simp only [cores.Packages.GetOrCreatePackage, assocGet_assocSet]
  split_ifs with hp
  · subst hp
    rw [hpkg]
    exact ⟨_, rfl, hf _ hrest⟩
  · exact ⟨pkg, hpkg, hrest⟩

theorem MergeIntoPackages_present (index : packageindex.Index) (packages : cores.Packages)
    (p' a' v' : String)
    (h : ∃ pkg, assocGet packages p' = some pkg ∧
        ∃ pl, assocGet pkg.Platforms a' = some pl ∧ (assocGet pl.Releases v').isSome = true) :
    ∃ pkg, assocGet (index.MergeIntoPackages packages) p' = some pkg ∧
        ∃ pl, assocGet pkg.Platforms a' = some pl ∧ (assocGet pl.Releases v').isSome = true := by
  unfold packageindex.Index.MergeIntoPackages
  refine foldl_invariant (fun acc : cores.Packages => ∃ pkg, assocGet acc p' = some pkg ∧
        ∃ pl, assocGet pkg.Platforms a' = some pl ∧ (assocGet pl.Releases v').isSome = true)
    _ _ _ h ?_
  intro acc inPackage _ hacc
  refine packages_GetOrCreatePackage_present acc _ p' a' v' _ ?_ hacc
  intro pk hpk
  refine foldl_invariant (fun pk : cores.Package =>
      ∃ pl, assocGet pk.Platforms a' = some pl ∧ (assocGet pl.Releases v').isSome = true)
    _ _ _ ?_ ?_
  · refine foldl_invariant (fun pk : cores.Package =>
      ∃ pl, assocGet pk.Platforms a' = some pl ∧ (assocGet pl.Releases v').isSome = true)
      _ _ _ hpk ?_
    intro pk1 inTool _ h1
    exact h1
  · intro pk1 inPlatform _ h1
    refine cores.Package.GetOrCreatePlatform_present pk1 _ a' v' _ ?_ h1
    intro pl hpl
    exact cores.Platform.GetOrCreateRelease_present _ _ _ _ hpl

theorem updatePlatform_present (pm : Builder) (p a p' a' v' : String)
    (f : cores.Platform → cores.Platform)
    (hf : ∀ pl : cores.Platform, (assocGet pl.Releases v').isSome = true →
      (assocGet (f pl).Releases v').isSome = true)
    (h : pm.hasRelease p' a' v' = true) :
    (pm.updatePlatform p a f).hasRelease p' a' v' = true := by
  rw [hasRelease_iff] at h ⊢
  exact packages_GetOrCreatePackage_present _ _ _ _ _ _
    (fun pk hpk => cores.Package.GetOrCreatePlatform_present pk _ _ _ _ hf hpk) h

theorem updateRelease_present (pm : Builder) (p a v p' a' v' : String)
    (f : cores.PlatformRelease → cores.PlatformRelease)
    (h : pm.hasRelease p' a' v' = true) :
    (pm.updateRelease p a v f).hasRelease p' a' v' = true :=
  updatePlatform_present pm p a p' a' v' _
    (fun pl hpl => cores.Platform.GetOrCreateRelease_present pl _ _ _ hpl) h

theorem loadPlatformRelease_present (env : Env) (pm : Builder) (p a v : String)
    (path : paths.Path) (p' a' v' : String) (h : pm.hasRelease p' a' v' = true) :
    (loadPlatformRelease env pm p a v path).1.hasRelease p' a' v' = true := by
  have h1 := updateRelease_present pm p a v p' a' v'
    (fun r => { r with InstallDir := some path }) h
  unfold loadPlatformRelease
  dsimp only
  by_cases hex : Exist env (path.Join "installed.json") = true
  · simp only [hex, if_true]
    unfold Builder.LoadPackageIndexFromFile
    cases hl : LoadIndex env (path.Join "installed.json") with
    | error e => exact h1
    | ok index =>
      dsimp only
      refine updatePlatform_present _ p a p' a' v' _ ?_ ?_
      · intro pl hpl
        exact cores.Platform.GetOrCreateRelease_present _ _ _ _ hpl
      · rw [hasRelease_iff] at h1 ⊢
        exact MergeIntoPackages_present index _ p' a' v' h1
  · have hex' : Exist env (path.Join "installed.json") = false := by simpa using hex
    simp only [hex', Bool.false_eq_true, if_false]
    refine updatePlatform_present _ p a p' a' v' _ ?_ h1
    intro pl hpl
    exact cores.Platform.GetOrCreateRelease_present _ _ _ _ hpl

theorem loadVersionDirs_present (env : Env) (p a : String) (dirs : List paths.Path)
    (pm : Builder) (p' a' v' : String) (h : pm.hasRelease p' a' v' = true) :
    (loadVersionDirs env p a dirs pm).1.hasRelease p' a' v' = true := by
  induction dirs generalizing pm with
  | nil => exact h
  | cons d dirs ih =>
    simp only [loadVersionDirs]
    split
    · exact h
    · exact ih pm h
    · split
      · exact h
      · rename_i version hparse
        have h2 := loadPlatformRelease_present env (pm.updateRelease p a version id) p a version d
          p' a' v' (updateRelease_present pm p a version p' a' v' id h)
        split
        · rename_i pm2 err hr
          rw [hr] at h2
          exact h2
        · rename_i pm2 hr
          rw [hr] at h2
          exact ih pm2 h2

end packagemanager

namespace packagemanager

/-- Counterexample to C18: the architecture directory `avr` has the version
directories `0.x` and `1.6.0`, both with a `boards.txt`.  The name `0.x` does not
parse as a version: `loadPlatform` returns the error "invalid version directory"
and the release `1.6.0`, whose directory comes after, is not loaded. -/
theorem loadPlatform_unparsable_version_dir_is_an_error :
    Exist (sampleEnv (.dir [("avr", .dir [("0.x", sampleReleaseDir [("uno.name", "Uno")]),
        ("1.6.0", sampleReleaseDir [("uno.name", "Uno")])])]) [] []) ["avr", "boards.txt"] = false ∧
    (sampleParse "0.x").toOption = none ∧
    (sampleParse "1.6.0").toOption = some "1.6.0" ∧
    (loadPlatform (sampleEnv (.dir [("avr", .dir [("0.x", sampleReleaseDir [("uno.name", "Uno")]),
        ("1.6.0", sampleReleaseDir [("uno.name", "Uno")])])]) [] [])
      (emptyBuilder.updatePackage "acme" id) "acme" "avr" ["avr"]).2
      = some (.wrap "invalid version directory avr/0.x" (.ext "no major version found in 0.x")) ∧
    (loadPlatform (sampleEnv (.dir [("avr", .dir [("0.x", sampleReleaseDir [("uno.name", "Uno")]),
        ("1.6.0", sampleReleaseDir [("uno.name", "Uno")])])]) [] [])
      (emptyBuilder.updatePackage "acme" id) "acme" "avr" ["avr"]).1.hasRelease
        "acme" "avr" "1.6.0" = false := by
  decide

/-- C18 (amended): in the versioned layout `loadPlatform` visits the version
directories in order.  When the directories before `versionDir` were handled
without error: if `versionDir` has no `boards.txt` it is silently ignored and the
loading goes on with the directories after it; if it has a `boards.txt` and its
name parses as a version, a release of that version is registered in the catalog
(and stays registered whatever follows); if it has a `boards.txt` and its name does
not parse as a version, `loadPlatform` returns the error "invalid version
directory" at once, with the catalog as it stood, and the directories after it
are not visited. -/
theorem loadPlatform_versioned_layout (env : Env) (pm pm1 : Builder) (packager arch : String)
    (platformPath versionDir : paths.Path) (versionDirs pre post : List paths.Path)
    (hdir : IsNotDir env platformPath = false)
    (hex : ExistCheck env (platformPath.Join "boards.txt") = .ok false)
    (hread : ReadDir env platformPath = .ok versionDirs)
    (hsplit : FilterOutHiddenFiles (FilterDirs env versionDirs) = pre ++ versionDir :: post)
    (hpre : loadVersionDirs env packager arch pre pm = (pm1, none)) :
    (ExistCheck env (versionDir.Join "boards.txt") = .ok false →
      loadPlatform env pm packager arch platformPath
        = loadVersionDirs env packager arch post pm1) ∧
    (∀ version, ExistCheck env (versionDir.Join "boards.txt") = .ok true →
      env.Parse versionDir.Base = .ok version →
      (loadPlatform env pm packager arch platformPath).1.hasRelease packager arch version
        = true) ∧
    (∀ err, ExistCheck env (versionDir.Join "boards.txt") = .ok true →
      env.Parse versionDir.Base = .error err →
      loadPlatform env pm packager arch platformPath
        = (pm1, some (.wrap ("invalid version directory " ++ versionDir.render) err))) := by
  have hlp : loadPlatform env pm packager arch platformPath
      = loadVersionDirs env packager arch (versionDir :: post) pm1 := by
    unfold loadPlatform
    simp only [hdir, hex, hread, hsplit, Bool.false_eq_true, if_false]
    exact loadVersionDirs_append_ok env packager arch pre _ pm pm1 hpre
  refine ⟨?_, ?_, ?_⟩
  · intro hno
    rw [hlp]
    simp only [loadVersionDirs, hno]
  · intro version hyes hparse
    rw [hlp]
    simp only [loadVersionDirs, hyes, hparse]
    have h2 := loadPlatformRelease_hasRelease env (pm1.updateRelease packager arch version id)
      packager arch version versionDir
    split
    · rename_i pm2 err hr
      rw [hr] at h2
      exact h2
    · rename_i pm2 hr
      rw [hr] at h2
      exact loadVersionDirs_present env packager arch post pm2 _ _ _ h2
  · intro err hyes hparse
    rw [hlp]
    simp only [loadVersionDirs, hyes, hparse]

/-- Witness of C18 (amended): the directory `1.5.0` has no `boards.txt` and is
ignored, the release `1.6.0` after it is registered. -/
theorem loadPlatform_versioned_layout_witness :
    (loadPlatform (sampleEnv (.dir [("avr", .dir [("1.5.0", .dir []),
        ("1.6.0", sampleReleaseDir [("uno.name", "Uno")])])]) [] [])
      (emptyBuilder.updatePackage "acme" id) "acme" "avr" ["avr"]).1.hasRelease
        "acme" "avr" "1.6.0" = true := by
  have h := (loadPlatform_versioned_layout
    (sampleEnv (.dir [("avr", .dir [("1.5.0", .dir []),
        ("1.6.0", sampleReleaseDir [("uno.name", "Uno")])])]) [] [])
    (emptyBuilder.updatePackage "acme" id) (emptyBuilder.updatePackage "acme" id) "acme" "avr"
    ["avr"] ["avr", "1.5.0"] [["avr", "1.5.0"], ["avr", "1.6.0"]] [] [["avr", "1.6.0"]]
    (by decide) rfl rfl (by decide) rfl).1 rfl
  rw [h]
  decide

end packagemanager

/-! ## Theorems: strings and decimal numbers -/

theorem digitChar_value (k : Nat) (hk : k < 10) :
    (Nat.digitChar k).toNat - 48 = k ∧ (Nat.digitChar k).isDigit = true := by
  interval_cases k <;> decide

theorem toDigitsCore_value (fuel n : Nat) (ds : List Char) (h : n < fuel) :
    ∃ xs, Nat.toDigitsCore 10 fuel n ds = xs ++ ds ∧
      xs.foldl (fun acc c => 10 * acc + (c.toNat - 48)) 0 = n ∧
      xs.all Char.isDigit = true ∧ xs ≠ [] := by
  induction fuel generalizing n ds with
  | zero => omega
  | succ fuel ih =>
    simp only [Nat.toDigitsCore]
    have hd := digitChar_value (n % 10) (Nat.mod_lt _ (by decide))
    split_ifs with h0
    · refine ⟨[Nat.digitChar (n % 10)], rfl, ?_, ?_, by simp⟩
      · simp only [List.foldl_cons, List.foldl_nil, hd.1]
        omega
      · simp [hd.2]
    · obtain ⟨xs, hxs, hval, hall, -⟩ := ih (n / 10) (Nat.digitChar (n % 10) :: ds) (by omega)
      refine ⟨xs ++ [Nat.digitChar (n % 10)], by simp [hxs], ?_, ?_, by simp⟩
      · simp only [List.foldl_append, List.foldl_cons, List.foldl_nil, hval, hd.1]
        omega
      · simp [hall, hd.2]

theorem toString_nat_value (n : Nat) :
    (toString n).data.foldl (fun acc c => 10 * acc + (c.toNat - 48)) 0 = n ∧
    (toString n).data.all Char.isDigit = true ∧ (toString n).data ≠ [] := by
  obtain ⟨xs, hxs, hval, hall, hne⟩ := toDigitsCore_value (n + 1) n [] (by omega)
  have hdata : (toString n).data = xs := by
    show (Nat.repr n).data = xs
    simp [Nat.repr, Nat.toDigits, hxs, List.asString]
  rw [hdata]
  exact ⟨hval, hall, hne⟩

theorem toString_nat_injective (a b : Nat) (h : toString a = toString b) : a = b := by
  have ha := (toString_nat_value a).1
  have hb := (toString_nat_value b).1
  rw [h] at ha
  exact ha.symm.trans hb

theorem string_append_left_cancel (p a b : String) (h : p ++ a = p ++ b) : a = b := by
  have h2 := congrArg String.data h
  simp only [String.data_append] at h2
  exact String.ext (List.append_cancel_left h2)

theorem string_append_right_cancel (a b s : String) (h : a ++ s = b ++ s) : a = b := by
  have h2 := congrArg String.data h
  simp only [String.data_append] at h2
  exact String.ext (List.append_cancel_right h2)

namespace strings

theorem HasPrefix_iff (s pfx : String) : HasPrefix s pfx = true ↔ ∃ t, s = pfx ++ t := by
  unfold HasPrefix
  rw [List.isPrefixOf_iff_prefix]
  constructor
  · rintro ⟨t, ht⟩
    exact ⟨⟨t⟩, String.ext (by simp [String.data_append, ht])⟩
  · rintro ⟨t, rfl⟩
    exact ⟨t.data, by simp [String.data_append]⟩

theorem HasPrefix_append (pfx t : String) : HasPrefix (pfx ++ t) pfx = true :=
  (HasPrefix_iff _ _).2 ⟨t, rfl⟩

theorem drop_of_HasPrefix (s pfx : String) (h : HasPrefix s pfx = true) :
    s = pfx ++ ⟨s.data.drop pfx.data.length⟩ := by
  obtain ⟨t, rfl⟩ := (HasPrefix_iff _ _).1 h
  congr 1
  exact String.ext (by simp [String.data_append])

theorem splitChars_ne_nil (sep : Char) (s : List Char) : splitChars sep s ≠ [] := by
  cases s with
  | nil => simp [splitChars]
  | cons c cs =>
    simp only [splitChars]
    split_ifs
    · simp
    · split <;> simp

theorem splitChars_singleton (sep : Char) (s a : List Char) (h : splitChars sep s = [a]) :
    s = a ∧ sep ∉ a := by
  induction s generalizing a with
  | nil =>
    simp only [splitChars, List.cons.injEq, and_true] at h
    subst h
    simp
  | cons c cs ih =>
    simp only [splitChars] at h
    split_ifs at h with hc
    · simp only [List.cons.injEq] at h
      exact absurd h.2 (splitChars_ne_nil sep cs)
    · split at h
      · rename_i hnil
        exact absurd hnil (splitChars_ne_nil sep cs)
      · rename_i hd tl hcs
        simp only [List.cons.injEq] at h
        obtain ⟨ha, htl⟩ := h
        subst htl
        obtain ⟨h1, h2⟩ := ih hd hcs
        subst ha
        subst h1
        refine ⟨rfl, ?_⟩
        simp only [List.mem_cons, not_or]
        exact ⟨fun hx => hc hx.symm, h2⟩

theorem splitChars_cons (sep : Char) (s a : List Char) (rest : List (List Char))
    (hrest : rest ≠ []) (h : splitChars sep s = a :: rest) :
    ∃ t, s = a ++ sep :: t ∧ splitChars sep t = rest ∧ sep ∉ a := by
  induction s generalizing a with
  | nil =>
    simp only [splitChars, List.cons.injEq] at h
    exact absurd h.2.symm hrest
  | cons c cs ih =>
    simp only [splitChars] at h
    split_ifs at h with hc
    · simp only [List.cons.injEq] at h
      obtain ⟨ha, hr⟩ := h
      subst ha
      subst hc
      exact ⟨cs, rfl, hr, by simp⟩
    · split at h
      · rename_i hnil
        exact absurd hnil (splitChars_ne_nil sep cs)
      · rename_i hd tl hcs
        simp only [List.cons.injEq] at h
        obtain ⟨ha, htl⟩ := h
        subst htl
        obtain ⟨t, h1, h2, h3⟩ := ih hd hcs
        subst ha
        refine ⟨t, by rw [h1]; rfl, h2, ?_⟩
        simp only [List.mem_cons, not_or]
        exact ⟨fun hx => hc hx.symm, h3⟩

theorem splitChars_of_not_mem (sep : Char) (a : List Char) (h : sep ∉ a) :
    splitChars sep a = [a] := by
  induction a with
  | nil => rfl
  | cons c cs ih =>
    simp only [List.mem_cons, not_or] at h
    simp only [splitChars, ih h.2]
    rw [if_neg (fun hx => h.1 hx.symm)]

theorem splitChars_append (sep : Char) (a b : List Char) (h : sep ∉ a) :
    splitChars sep (a ++ sep :: b) = a :: splitChars sep b := by
  induction a with
  | nil => simp [splitChars]
  | cons c cs ih =>
    simp only [List.mem_cons, not_or] at h
    have hc : ¬ c = sep := fun hx => h.1 hx.symm
    show splitChars sep (c :: (cs ++ sep :: b)) = _
    rw [splitChars, if_neg hc, ih h.2]

theorem cutChars_append (sep : Char) (a b : List Char) (h : sep ∉ a) :
    cutChars sep (a ++ sep :: b) = some (a, b) := by
  induction a with
  | nil => simp [cutChars]
  | cons c cs ih =>
    simp only [List.mem_cons, not_or] at h
    have hc : ¬ c = sep := fun hx => h.1 hx.symm
    show cutChars sep (c :: (cs ++ sep :: b)) = _
    rw [cutChars, if_neg hc, ih h.2]

theorem cutChars_some (sep : Char) (s a b : List Char) (h : cutChars sep s = some (a, b)) :
    s = a ++ sep :: b ∧ sep ∉ a := by
  induction s generalizing a with
  | nil => simp [cutChars] at h
  | cons c cs ih =>
    simp only [cutChars] at h
    split_ifs at h with hc
    · simp only [Option.some.injEq, Prod.mk.injEq] at h
      obtain ⟨ha, hb⟩ := h
      subst ha hb hc
      simp
    · split at h
      · cases h
      · rename_i a' b' hcut
        simp only [Option.some.injEq, Prod.mk.injEq] at h
        obtain ⟨ha, hb⟩ := h
        subst ha hb
        obtain ⟨h1, h2⟩ := ih a' hcut
        refine ⟨by rw [h1]; rfl, ?_⟩
        simp only [List.mem_cons, not_or]
        exact ⟨fun hx => hc hx.symm, h2⟩

theorem cutChars_none (sep : Char) (s : List Char) (h : sep ∉ s) : cutChars sep s = none := by
  induction s with
  | nil => rfl
  | cons c cs ih =>
    simp only [List.mem_cons, not_or] at h
    simp only [cutChars, ih h.2]
    rw [if_neg (fun hx => h.1 hx.symm)]

end strings

theorem string_eq_append_iff_drop (s pfx k : String) (h : strings.HasPrefix s pfx = true) :
    (⟨s.data.drop pfx.data.length⟩ : String) = k ↔ s = pfx ++ k := by
  have hs := strings.drop_of_HasPrefix s pfx h
  constructor
  · intro hk
    rw [← hk]
    exact hs
  · intro hk
    rw [hs] at hk
    exact string_append_left_cancel _ _ _ hk

theorem dotted_key_eq_iff (a a' b b' : String) (ha : '.' ∉ a.data) (ha' : '.' ∉ a'.data) :
    a' ++ "." ++ b' = a ++ "." ++ b ↔ a' = a ∧ b' = b := by
  constructor
  · intro h
    have h2 := congrArg (fun s => strings.cutChars '.' s.data) h
    simp only [String.data_append] at h2
    have e1 : strings.cutChars '.' (a'.data ++ ".".data ++ b'.data) = some (a'.data, b'.data) := by
      rw [List.append_assoc]
      exact strings.cutChars_append '.' a'.data b'.data ha'
    have e2 : strings.cutChars '.' (a.data ++ ".".data ++ b.data) = some (a.data, b.data) := by
      rw [List.append_assoc]
      exact strings.cutChars_append '.' a.data b.data ha
    rw [e1, e2] at h2
    simp only [Option.some.injEq, Prod.mk.injEq] at h2
    exact ⟨String.ext h2.1, String.ext h2.2⟩
  · rintro ⟨rfl, rfl⟩
    rfl

namespace properties

theorem SubTree_nodupKeys (m : Map) (root : String) : ((m.SubTree root).map Prod.fst).Nodup := by
  unfold Map.SubTree
  refine foldl_invariant (fun acc : Map => (acc.map Prod.fst).Nodup) _ _ _ (by simp [NewMap]) ?_
  intro b a _ hb
  dsimp only
  split_ifs
  · exact Set_nodupKeys _ _ _ hb
  · exact hb

theorem SubTree_fold_GetOk (m acc : Map) (root k : String) :
    (m.foldl (fun (acc : Map) e =>
      if strings.HasPrefix e.1 (root ++ ".")
      then acc.Set ⟨e.1.data.drop (root ++ ".").data.length⟩ e.2 else acc) acc).GetOk k =
      (assocGet m.reverse (root ++ "." ++ k)).orElse fun _ => acc.GetOk k := by
  induction m generalizing acc with
  | nil => simp [assocGet]
  | cons e m ih =>
    simp only [List.foldl_cons, List.reverse_cons, assocGet_append, ih]
    cases h : assocGet m.reverse (root ++ "." ++ k) with
    | some v => simp
    | none =>
      simp only [Option.orElse_none', assocGet]
      by_cases hp : strings.HasPrefix e.1 (root ++ ".") = true
      · simp only [hp, if_true, Map.GetOk, Map.Set, assocGet_assocSet,
          string_eq_append_iff_drop _ _ k hp]
        by_cases hk : e.1 = root ++ "." ++ k <;> simp [hk]
      · have hne : ¬ e.1 = root ++ "." ++ k := by
          intro hk
          exact hp (hk ▸ strings.HasPrefix_append _ _)
        simp [hp, hne]

theorem SubTree_GetOk (m : Map) (root k : String) (hn : (m.map Prod.fst).Nodup) :
    (m.SubTree root).GetOk k = m.GetOk (root ++ "." ++ k) := by
  unfold Map.SubTree
  rw [SubTree_fold_GetOk, assocGet_reverse_nodup _ _ hn]
  simp [Map.GetOk, NewMap, assocGet]

theorem FirstLevelOf_fold_GetOk (m : Map) (acc : List (String × Map)) (a b : String)
    (ha : '.' ∉ a.data) :
    ((assocGet (m.foldl (fun (acc : List (String × Map)) e =>
      match strings.cutChars '.' e.1.data with
      | none => acc
      | some (x, y) => assocSet acc ⟨x⟩ (((assocGet acc ⟨x⟩).getD NewMap).Set ⟨y⟩ e.2)) acc)
        a).getD NewMap).GetOk b =
      (assocGet m.reverse (a ++ "." ++ b)).orElse
        fun _ => ((assocGet acc a).getD NewMap).GetOk b := by
  induction m generalizing acc with
  | nil => simp [assocGet]
  | cons e m ih =>
    simp only [List.foldl_cons, List.reverse_cons, assocGet_append, ih]
    cases h : assocGet m.reverse (a ++ "." ++ b) with
    | some v => simp
    | none =>
      simp only [Option.orElse_none', assocGet]
      split
      · rename_i hcut
        have hne : ¬ e.1 = a ++ "." ++ b := by
          intro hk
          rw [hk] at hcut
          have hc := strings.cutChars_append '.' a.data b.data ha
          simp only [String.data_append, List.append_assoc] at hcut
          rw [show ".".data ++ b.data = '.' :: b.data from rfl, hc] at hcut
          cases hcut
        simp [hne]
      · rename_i x y hcut
        obtain ⟨hx, hdot⟩ := strings.cutChars_some _ _ _ _ hcut
        have he : e.1 = (⟨x⟩ : String) ++ "." ++ ⟨y⟩ := String.ext (by simp [String.data_append, hx])
        have hiff := dotted_key_eq_iff a ⟨x⟩ b ⟨y⟩ ha hdot
        rw [← he] at hiff
        simp only [assocGet_assocSet]
        by_cases hxa : (⟨x⟩ : String) = a
        · subst hxa
          simp only [if_true, Option.getD_some, Map.GetOk, Map.Set, assocGet_assocSet]
          by_cases hyb : (⟨y⟩ : String) = b
          · subst hyb
            simp [hiff]
          · have : ¬ e.1 = (⟨x⟩ : String) ++ "." ++ b := fun hk => hyb (hiff.1 hk).2
            simp [hyb, this, Map.GetOk]
        · have : ¬ e.1 = a ++ "." ++ b := fun hk => hxa (hiff.1 hk).1
          simp [hxa, this]

theorem FirstLevelOf_GetOk (m : Map) (a b : String) (ha : '.' ∉ a.data)
    (hn : (m.map Prod.fst).Nodup) :
    ((assocGet m.FirstLevelOf a).getD NewMap).GetOk b = m.GetOk (a ++ "." ++ b) := by
  have h := FirstLevelOf_fold_GetOk m [] a b ha
  rw [assocGet_reverse_nodup _ _ hn] at h
  refine h.trans ?_
  simp [Map.GetOk, NewMap, assocGet]

theorem FirstLevelOf_keys_dotfree (m : Map) (e : String × Map) (he : e ∈ m.FirstLevelOf) :
    '.' ∉ e.1.data := by
  revert e
  unfold Map.FirstLevelOf
  refine foldl_invariant (fun acc : List (String × Map) => ∀ e ∈ acc, '.' ∉ e.1.data) _ _ _
    (by simp) ?_
  intro acc x _ hacc e he
  split at he
  · exact hacc e he
  · rename_i a b hcut
    rcases mem_assocSet _ _ _ _ he with h | h
    · exact hacc e h
    · subst h
      exact (strings.cutChars_some _ _ _ _ hcut).2

end properties

theorem assocSet_of_not_mem {α : Type} (m : List (String × α)) (k : String) (v : α)
    (h : k ∉ m.map Prod.fst) : assocSet m k v = m ++ [(k, v)] := by
  induction m with
  | nil => rfl
  | cons e m ih =>
    obtain ⟨a, b⟩ := e
    simp only [List.map_cons, List.mem_cons, not_or] at h
    have hne : ¬ a = k := fun hx => h.1 hx.symm
    simp only [assocSet, if_neg hne, ih h.2, List.cons_append]

namespace strings

theorem Split_length_two (ref : String) (h : (Split ref ':').length = 2) :
    ref = (Split ref ':').getD 0 "" ++ ":" ++ (Split ref ':').getD 1 "" := by
  unfold Split at h ⊢
  rw [List.length_map] at h
  match hs : splitChars ':' ref.data, h with
  | [a, b], _ =>
    obtain ⟨t, h1, h2, -⟩ := splitChars_cons ':' ref.data a [b] (by simp) hs
    obtain ⟨h3, -⟩ := splitChars_singleton ':' t b h2
    subst h3
    exact String.ext (by simp [String.data_append, h1])

end strings

namespace packagemanager

theorem loadMonitors_ok (l : List (String × String)) (acc : List (String × cores.MonitorDependency))
    (hall : ∀ e ∈ l, (strings.Split e.2 ':').length = 2)
    (hn : (l.map Prod.fst).Nodup) (hdisj : ∀ e ∈ l, e.1 ∉ acc.map Prod.fst) :
    loadMonitors l acc = (acc ++ l.map (fun e => (e.1,
      ({ Packager := (strings.Split e.2 ':').getD 0 "",
         Name := (strings.Split e.2 ':').getD 1 "" } : cores.MonitorDependency))), none) := by
  induction l generalizing acc with
  | nil => simp [loadMonitors]
  | cons e l ih =>
    obtain ⟨protocol, ref⟩ := e
    simp only [List.map_cons, List.nodup_cons] at hn
    have h2 : (strings.Split ref ':').length = 2 := hall (protocol, ref) (List.mem_cons_self _ _)
    simp only [loadMonitors, h2, ne_eq, not_true_eq_false, if_false]
    rw [assocSet_of_not_mem _ _ _ (hdisj (protocol, ref) (List.mem_cons_self _ _)), ih]
    · simp
    · exact fun e he => hall e (List.mem_cons_of_mem _ he)
    · exact hn.2
    · intro e he
      simp only [List.map_append, List.map_cons, List.map_nil, List.mem_append,
        List.mem_singleton, not_or]
      refine ⟨hdisj e (List.mem_cons_of_mem _ he), ?_⟩
      intro hx
      exact hn.1 (hx ▸ List.mem_map.2 ⟨e, he, rfl⟩)

theorem loadMonitors_error_iff (l : List (String × String))
    (acc : List (String × cores.MonitorDependency)) :
    ((∃ ref, (loadMonitors l acc).2 =
        some (.new ("invalid pluggable monitor reference: " ++ ref))) ↔
      ∃ e ∈ l, (strings.Split e.2 ':').length ≠ 2) ∧
    ((loadMonitors l acc).2 = none ↔ ∀ e ∈ l, (strings.Split e.2 ':').length = 2) := by
  induction l generalizing acc with
  | nil => simp [loadMonitors]
  | cons e l ih =>
    obtain ⟨protocol, ref⟩ := e
    simp only [loadMonitors]
    by_cases h2 : (strings.Split ref ':').length = 2
    · simp only [h2, ne_eq, not_true_eq_false, if_false, List.mem_cons, exists_eq_or_imp,
        false_or, forall_eq_or_imp, true_and]
      exact ih _
    · simp only [h2, ne_eq, not_false_eq_true, if_true, List.mem_cons, exists_eq_or_imp,
        true_or, iff_true, forall_eq_or_imp, false_and, iff_false]
      exact ⟨⟨ref, rfl⟩, by simp⟩

end packagemanager

namespace packagemanager

theorem loadProgrammers_frame (platform : cores.PlatformRelease) (pp : properties.Map) :
    (loadProgrammers platform pp).Properties = platform.Properties ∧
    (loadProgrammers platform pp).PluggableDiscoveryAware = platform.PluggableDiscoveryAware :=
  programmers_fold_frame pp.FirstLevelOf platform

theorem markAwareOrInjectDefaults_nodupKeys (platform : cores.PlatformRelease)
    (hn : (platform.Properties.map Prod.fst).Nodup) :
    ((markAwareOrInjectDefaults platform).Properties.map Prod.fst).Nodup := by
  unfold markAwareOrInjectDefaults
  split_ifs
  · exact hn
  · exact properties.Set_nodupKeys _ _ _ (properties.Set_nodupKeys _ _ _
      (properties.Set_nodupKeys _ _ _ hn))

theorem convertLegacyPlatform_nodupKeys (platform : cores.PlatformRelease)
    (hn : (platform.Properties.map Prod.fst).Nodup) :
    ((convertLegacyPlatformToPluggableDiscovery platform).Properties.map Prod.fst).Nodup := by
  unfold convertLegacyPlatformToPluggableDiscovery
  refine foldl_invariant (fun pl : cores.PlatformRelease => (pl.Properties.map Prod.fst).Nodup)
    _ _ _ hn ?_
  intro pl e _ hpl
  dsimp only
  split_ifs
  · exact hpl
  · exact properties.Merge_nodupKeys _ _ hpl

/-- The release and the error that `loadPlatformReleaseFiles` returns when the
platform files and `programmers.txt` have been read and `loadBoards` returned no
error: the monitor step decides. -/
theorem loadPlatformReleaseFiles_at_monitors (env : Env) (pk arch name : String)
    (platform0 platform6 : cores.PlatformRelease) (path : paths.Path)
    (p pl pp : properties.Map)
    (h1 : SafeLoad env (path.Join "platform.txt") = .ok p)
    (h2 : SafeLoad env (path.Join "platform.local.txt") = .ok pl)
    (h3 : SafeLoad env (path.Join "programmers.txt") = .ok pp)
    (h4 : loadBoards env pk arch (loadProgrammers (markAwareOrInjectDefaults { platform0 with
        Properties := (platform0.Properties.Clone.Merge p).Merge pl }) pp) = (platform6, none)) :
    (loadPlatformReleaseFiles env pk arch name platform0 path).2 =
      (loadMonitors ((if !platform6.PluggableDiscoveryAware
        then convertLegacyPlatformToPluggableDiscovery platform6
        else platform6).Properties.SubTree "pluggable_monitor.required").AsMap []).2 ∧
    (loadPlatformReleaseFiles env pk arch name platform0 path).1.2.Monitors =
      (loadMonitors ((if !platform6.PluggableDiscoveryAware
        then convertLegacyPlatformToPluggableDiscovery platform6
        else platform6).Properties.SubTree "pluggable_monitor.required").AsMap []).1 ∧
    (loadPlatformReleaseFiles env pk arch name platform0 path).1.2.Properties =
      (if !platform6.PluggableDiscoveryAware
        then convertLegacyPlatformToPluggableDiscovery platform6
        else platform6).Properties ∧
    (loadPlatformReleaseFiles env pk arch name platform0 path).1.2.MonitorsDevRecipes =
      (if (loadPlatformReleaseFiles env pk arch name platform0 path).2 = none
       then ((if !platform6.PluggableDiscoveryAware
        then convertLegacyPlatformToPluggableDiscovery platform6
        else platform6).Properties.SubTree "pluggable_monitor.pattern").AsMap
       else platform6.MonitorsDevRecipes) := by
  unfold loadPlatformReleaseFiles
  simp only [h1, h2, h3, h4]
  have hdev : (if (!platform6.PluggableDiscoveryAware) = true
        then convertLegacyPlatformToPluggableDiscovery platform6
        else platform6).MonitorsDevRecipes = platform6.MonitorsDevRecipes := by
    split_ifs
    · unfold convertLegacyPlatformToPluggableDiscovery
      exact foldl_invariant (fun pl : cores.PlatformRelease =>
        pl.MonitorsDevRecipes = platform6.MonitorsDevRecipes) _ _ _ rfl
        (fun pl e _ hpl => by dsimp only; split_ifs <;> exact hpl)
    · rfl
  split
  · rename_i err herr
    simp only [herr, hdev]
    simp
  · rename_i herr
    simp only [herr]
    simp

end packagemanager

theorem assocGet_map_snd {α β : Type} (m : List (String × α)) (g : α → β) (k : String) :
    assocGet (m.map fun e => (e.1, g e.2)) k = (assocGet m k).map g := by
  induction m with
  | nil => simp [assocGet]
  | cons e m ih =>
    obtain ⟨a, b⟩ := e
    by_cases h : a = k
    · subst h
      simp [assocGet]
    · simp [assocGet, h, ih]

namespace packagemanager

/-- C17: when `loadPlatformRelease` reaches the monitor step (the platform files and
`programmers.txt` have been read and `loadBoards` returned no error), it fails with
"invalid pluggable monitor reference" if and only if some value under
`pluggable_monitor.required.` does not split on `:` into exactly two parts, and it
succeeds otherwise.  When it succeeds `Monitors` has exactly one entry per protocol
key, with `Packager` the text before the colon and `Name` the text after it; in
particular a release loaded as non-aware has `Monitors["serial"]` equal to
`builtin`, `serial-monitor`.  (The properties of the release are assumed to have no
key twice.) -/
theorem loadPlatformRelease_monitor_step (env : Env) (pk arch name : String)
    (platform0 platform6 : cores.PlatformRelease) (path : paths.Path)
    (p pl pp : properties.Map)
    (hn : (platform0.Properties.map Prod.fst).Nodup)
    (h1 : SafeLoad env (path.Join "platform.txt") = .ok p)
    (h2 : SafeLoad env (path.Join "platform.local.txt") = .ok pl)
    (h3 : SafeLoad env (path.Join "programmers.txt") = .ok pp)
    (h4 : loadBoards env pk arch (loadProgrammers (markAwareOrInjectDefaults { platform0 with
        Properties := (platform0.Properties.Clone.Merge p).Merge pl }) pp) = (platform6, none))
    (out : (String × cores.PlatformRelease) × Option Error)
    (hout : out = loadPlatformReleaseFiles env pk arch name platform0 path)
    (required : properties.Map)
    (hreq : required = out.1.2.Properties.SubTree "pluggable_monitor.required") :
    ((∃ ref, out.2 = some (.new ("invalid pluggable monitor reference: " ++ ref))) ↔
      ∃ e ∈ required, (strings.Split e.2 ':').length ≠ 2) ∧
    (out.2 = none ↔ ∀ e ∈ required, (strings.Split e.2 ':').length = 2) ∧
    (out.2 = none →
      out.1.2.Monitors.map Prod.fst = required.map Prod.fst ∧
      (required.map Prod.fst).Nodup ∧
      ∀ e ∈ required, ∃ a b, e.2 = a ++ ":" ++ b ∧
        assocGet out.1.2.Monitors e.1 = some { Packager := a, Name := b }) ∧
    (out.2 = none → out.1.2.PluggableDiscoveryAware = false →
      assocGet out.1.2.Monitors "serial" = some { Packager := "builtin", Name := "serial-monitor" }) := by
  obtain ⟨herr, hmon, hprops, -⟩ := loadPlatformReleaseFiles_at_monitors env pk arch name
    platform0 platform6 path p pl pp h1 h2 h3 h4
  rw [← hout] at herr hmon hprops
  rw [← hprops] at herr hmon
  rw [← hreq] at herr hmon
  have hiff := loadMonitors_error_iff required.AsMap []
  rw [← herr] at hiff
  have hnodup : (required.map Prod.fst).Nodup := by
    rw [hreq]
    exact properties.SubTree_nodupKeys _ _
  have hok : out.2 = none → out.1.2.Monitors = required.map (fun e => (e.1,
      ({ Packager := (strings.Split e.2 ':').getD 0 "",
         Name := (strings.Split e.2 ':').getD 1 "" } : cores.MonitorDependency))) := by
    intro hnone
    rw [hmon, loadMonitors_ok required.AsMap [] (hiff.2.1 hnone) hnodup (by simp)]
    simp [properties.Map.AsMap]
  have hget : out.2 = none → ∀ e ∈ required, assocGet out.1.2.Monitors e.1
      = some { Packager := (strings.Split e.2 ':').getD 0 "",
               Name := (strings.Split e.2 ':').getD 1 "" } := by
    intro hnone e he
    rw [hok hnone]
    refine (assocGet_map_snd required (fun v => (⟨(strings.Split v ':').getD 0 "",
      (strings.Split v ':').getD 1 ""⟩ : cores.MonitorDependency)) e.1).trans ?_
    rw [assocGet_of_mem_nodup required e.1 e.2 hnodup he]
    rfl
  refine ⟨hiff.1, hiff.2, ?_, ?_⟩
  · intro hnone
    refine ⟨?_, hnodup, ?_⟩
    · rw [hok hnone]
      simp [Function.comp]
    · intro e he
      exact ⟨_, _, strings.Split_length_two e.2 (hiff.2.1 hnone e he), hget hnone e he⟩
  · intro hnone haware
    have hd := loadPlatformReleaseFiles_after_defaults env pk arch name platform0 path p pl h1 h2
      "pluggable_monitor.required.serial" (by decide)
    rw [← hout] at hd
    have hspec := markAwareOrInjectDefaults_spec _ (hd.2.symm.trans haware)
    have hserial := hd.1.trans hspec.2.2
    have hnd : (out.1.2.Properties.map Prod.fst).Nodup := by
      rw [hprops]
      have h6 : (platform6.Properties.map Prod.fst).Nodup := by
        have hf := loadBoards_frame env pk arch (loadProgrammers (markAwareOrInjectDefaults
          { platform0 with Properties := (platform0.Properties.Clone.Merge p).Merge pl }) pp)
        rw [h4] at hf
        rw [hf.1, (loadProgrammers_frame _ _).1]
        exact markAwareOrInjectDefaults_nodupKeys _
          (properties.Merge_nodupKeys _ _ (properties.Merge_nodupKeys _ _ hn))
      split_ifs
      · exact convertLegacyPlatform_nodupKeys _ h6
      · exact h6
    have hsub : required.GetOk "serial" = some "builtin:serial-monitor" := by
      rw [hreq, properties.SubTree_GetOk _ _ _ hnd]
      exact hserial
    have hmem := assocGet_eq_some_mem _ _ _ hsub
    rw [hget hnone _ hmem]
    decide

/-- Witness of C17: the sample release is loaded as non-aware and gets the builtin
serial monitor. -/
theorem loadPlatformRelease_monitor_step_witness :
    assocGet (loadPlatformReleaseFiles
        (sampleEnv (.dir [("p", sampleReleaseDir [("uno.name", "Uno")])]) [] []) "acme" "avr" ""
        (sampleRelease ["p"]) ["p"]).1.2.Monitors "serial"
      = some { Packager := "builtin", Name := "serial-monitor" } :=
  (loadPlatformRelease_monitor_step
    (sampleEnv (.dir [("p", sampleReleaseDir [("uno.name", "Uno")])]) [] []) "acme" "avr" ""
    (sampleRelease ["p"])
    (loadBoards (sampleEnv (.dir [("p", sampleReleaseDir [("uno.name", "Uno")])]) [] [])
      "acme" "avr" (loadProgrammers (markAwareOrInjectDefaults { sampleRelease ["p"] with
        Properties := ((sampleRelease ["p"]).Properties.Clone.Merge samplePlatformTxt).Merge [] })
        [])).1
    ["p"] samplePlatformTxt [] [] (by decide) rfl rfl rfl
    (Prod.ext rfl (by decide)) _ rfl _ rfl).2.2.2 (by decide) (by decide)

end packagemanager

namespace packagemanager

theorem markAwareOrInjectDefaults_GetOk (platform : cores.PlatformRelease) (k : String)
    (h0 : k ≠ "pluggable_discovery.required.0") (h1 : k ≠ "pluggable_discovery.required.1")
    (h2 : k ≠ "pluggable_monitor.required.serial") :
    (markAwareOrInjectDefaults platform).Properties.GetOk k = platform.Properties.GetOk k := by
  unfold markAwareOrInjectDefaults
  split_ifs
  · rfl
  · dsimp only [properties.Map.GetOk, properties.Map.Set]
    rw [assocGet_assocSet_ne _ _ _ _ (Ne.symm h2), assocGet_assocSet_ne _ _ _ _ (Ne.symm h1),
      assocGet_assocSet_ne _ _ _ _ (Ne.symm h0)]

/-- The name that `loadPlatformReleaseFiles` leaves once both platform files have been
read, whatever the later steps do. -/
theorem loadPlatformReleaseFiles_name (env : Env) (pk arch name : String)
    (platform0 : cores.PlatformRelease) (path : paths.Path) (p pl : properties.Map)
    (h1 : SafeLoad env (path.Join "platform.txt") = .ok p)
    (h2 : SafeLoad env (path.Join "platform.local.txt") = .ok pl) :
    (loadPlatformReleaseFiles env pk arch name platform0 path).1.1 =
      if name = "" then
        match ((platform0.Properties.Merge p).Merge pl).GetOk "name" with
        | some n => n
        | none => pk ++ "-" ++ arch
      else name := by
  have hk := markAwareOrInjectDefaults_GetOk { platform0 with
    Properties := (platform0.Properties.Clone.Merge p).Merge pl } "name"
    (by decide) (by decide) (by decide)
  unfold loadPlatformReleaseFiles
  simp only [h1, h2]
  rw [hk]
  split
  · rfl
  · split
    · rfl
    · split <;> rfl

end packagemanager

namespace packagemanager

theorem loadBoards_IsIDEBundled (env : Env) (pk arch : String) (platform : cores.PlatformRelease) :
    (loadBoards env pk arch platform).1.IsIDEBundled = platform.IsIDEBundled := by
  unfold loadBoards
  split
  · rfl
  · split
    · rfl
    · split
      · rfl
      · dsimp only
        split_ifs <;> (rw [loadBoard_fold_frame])

theorem loadProgrammers_IsIDEBundled (platform : cores.PlatformRelease) (pp : properties.Map) :
    (loadProgrammers platform pp).IsIDEBundled = platform.IsIDEBundled := by
  unfold loadProgrammers
  exact foldl_invariant (fun rel : cores.PlatformRelease =>
    rel.IsIDEBundled = platform.IsIDEBundled) _ _ _ rfl (fun rel e _ h => h)

theorem convertLegacyPlatform_IsIDEBundled (platform : cores.PlatformRelease) :
    (convertLegacyPlatformToPluggableDiscovery platform).IsIDEBundled = platform.IsIDEBundled := by
  unfold convertLegacyPlatformToPluggableDiscovery
  exact foldl_invariant (fun pl : cores.PlatformRelease =>
    pl.IsIDEBundled = platform.IsIDEBundled) _ _ _ rfl
    (fun pl e _ hpl => by dsimp only; split_ifs <;> exact hpl)

theorem markAwareOrInjectDefaults_IsIDEBundled (platform : cores.PlatformRelease) :
    (markAwareOrInjectDefaults platform).IsIDEBundled = platform.IsIDEBundled := by
  unfold markAwareOrInjectDefaults
  split_ifs <;> rfl

/-- No step of `loadPlatformReleaseFiles` writes the flag `IsIDEBundled`. -/
theorem loadPlatformReleaseFiles_IsIDEBundled (env : Env) (pk arch name : String)
    (platform0 : cores.PlatformRelease) (path : paths.Path) :
    (loadPlatformReleaseFiles env pk arch name platform0 path).1.2.IsIDEBundled
      = platform0.IsIDEBundled := by
  unfold loadPlatformReleaseFiles
  dsimp only
  split
  · rfl
  · split
    · rfl
    · split
      · exact markAwareOrInjectDefaults_IsIDEBundled _
      · rename_i pp _
        split
        · rename_i platform6 err heq
          have hfst := congrArg Prod.fst heq
          dsimp only at hfst ⊢
          rw [← hfst, loadBoards_IsIDEBundled, loadProgrammers_IsIDEBundled]
          exact markAwareOrInjectDefaults_IsIDEBundled _
        · rename_i platform6 heq
          have hfst := congrArg Prod.fst heq
          dsimp only at hfst
          have h6 : platform6.IsIDEBundled = platform0.IsIDEBundled := by
            rw [← hfst, loadBoards_IsIDEBundled, loadProgrammers_IsIDEBundled]
            exact markAwareOrInjectDefaults_IsIDEBundled _
          have h7 : (if (!platform6.PluggableDiscoveryAware) = true
              then convertLegacyPlatformToPluggableDiscovery platform6
              else platform6).IsIDEBundled = platform0.IsIDEBundled := by
            split_ifs
            · rw [convertLegacyPlatform_IsIDEBundled, h6]
            · exact h6
          split <;> exact h7

end packagemanager

namespace cores

theorem Packages.package_GetOrCreatePackage (packages : Packages) (n p : String)
    (f : Package → Package) :
    (packages.GetOrCreatePackage n f).package p =
      if n = p then f (packages.package n) else packages.package p := by
  simp only [Packages.GetOrCreatePackage, Packages.package, assocGet_assocSet]
  split_ifs with h
  · rfl
  · rfl

theorem Package.platform_GetOrCreatePlatform (pk : Package) (a' a : String)
    (g : Platform → Platform) :
    (pk.GetOrCreatePlatform a' g).platform a =
      if a' = a then g (pk.platform a') else pk.platform a := by
  simp only [Package.GetOrCreatePlatform, Package.platform, assocGet_assocSet]
  split_ifs with h
  · rfl
  · rfl

theorem Platform.release_after_GetOrCreateRelease (pl : Platform) (v' v : String)
    (f : PlatformRelease → PlatformRelease) :
    (pl.GetOrCreateRelease v' f).release v =
      if v' = v then f (pl.release v') else pl.release v := by
  simp only [Platform.GetOrCreateRelease, Platform.release, assocGet_assocSet]
  split_ifs with h
  · rfl
  · rfl

end cores

namespace packagemanager

/-- Merging an index creates entities on demand and renames platforms; what the
pointers of the loader reach keeps the name of the package, the flag
`ManuallyInstalled` of the platform and every release. -/
theorem MergeIntoPackages_frame (index : packageindex.Index) (packages : cores.Packages)
    (p a : String) :
    ((index.MergeIntoPackages packages).package p).Name = (packages.package p).Name ∧
    (((index.MergeIntoPackages packages).package p).platform a).ManuallyInstalled
      = ((packages.package p).platform a).ManuallyInstalled ∧
    (((index.MergeIntoPackages packages).package p).platform a).Architecture
      = ((packages.package p).platform a).Architecture ∧
    ∀ v, (((index.MergeIntoPackages packages).package p).platform a).release v
      = ((packages.package p).platform a).release v := by
  unfold packageindex.Index.MergeIntoPackages
  refine foldl_invariant (fun acc : cores.Packages =>
    (acc.package p).Name = (packages.package p).Name ∧
    ((acc.package p).platform a).ManuallyInstalled
      = ((packages.package p).platform a).ManuallyInstalled ∧
    ((acc.package p).platform a).Architecture
      = ((packages.package p).platform a).Architecture ∧
    ∀ v, ((acc.package p).platform a).release v = ((packages.package p).platform a).release v)
    _ _ _ ⟨rfl, rfl, rfl, fun _ => rfl⟩ ?_
  intro acc inPackage _ hacc
  rw [cores.Packages.package_GetOrCreatePackage]
  split_ifs with hn
  · subst hn
    refine foldl_invariant (fun pk : cores.Package =>
      pk.Name = (packages.package inPackage.Name).Name ∧
      (pk.platform a).ManuallyInstalled
        = ((packages.package inPackage.Name).platform a).ManuallyInstalled ∧
      (pk.platform a).Architecture
        = ((packages.package inPackage.Name).platform a).Architecture ∧
      ∀ v, (pk.platform a).release v = ((packages.package inPackage.Name).platform a).release v)
      _ _ _ ?_ ?_
    · exact foldl_invariant (fun pk : cores.Package =>
        pk.Name = (packages.package inPackage.Name).Name ∧
        (pk.platform a).ManuallyInstalled
          = ((packages.package inPackage.Name).platform a).ManuallyInstalled ∧
        (pk.platform a).Architecture
          = ((packages.package inPackage.Name).platform a).Architecture ∧
        ∀ v, (pk.platform a).release v = ((packages.package inPackage.Name).platform a).release v)
        _ _ _ hacc (fun pk inTool _ h => h)
    · intro pk inPlatform _ hpk
      rw [cores.Package.platform_GetOrCreatePlatform]
      split_ifs with ha
      · subst ha
        refine ⟨hpk.1, hpk.2.1, hpk.2.2.1, fun v => ?_⟩
        rw [cores.Platform.release_after_GetOrCreateRelease]
        split_ifs with hv
        · subst hv
          exact hpk.2.2.2 _
        · exact hpk.2.2.2 v
      · exact hpk
  · exact hacc

end packagemanager

namespace packagemanager

/-- The release and the platform that the pointer of `loadPlatformRelease` reaches keep
their flags `IsIDEBundled` and `ManuallyInstalled` through the whole call, on every
path. -/
theorem loadPlatformRelease_flags (env : Env) (pm : Builder) (packager arch version : String)
    (path : paths.Path) :
    ((((loadPlatformRelease env pm packager arch version path).1.packages.package
        packager).platform arch).release version).IsIDEBundled =
      (((pm.packages.package packager).platform arch).release version).IsIDEBundled ∧
    (((loadPlatformRelease env pm packager arch version path).1.packages.package
        packager).platform arch).ManuallyInstalled =
      ((pm.packages.package packager).platform arch).ManuallyInstalled := by
  have h1 : ((((pm.updateRelease packager arch version fun r =>
        { r with InstallDir := some path }).packages.package packager).platform arch).release
          version).IsIDEBundled =
        (((pm.packages.package packager).platform arch).release version).IsIDEBundled ∧
      (((pm.updateRelease packager arch version fun r =>
        { r with InstallDir := some path }).packages.package packager).platform
          arch).ManuallyInstalled =
        ((pm.packages.package packager).platform arch).ManuallyInstalled := by
    unfold Builder.updateRelease
    rw [platform_updatePlatform, release_GetOrCreateRelease]
    exact ⟨rfl, rfl⟩
  unfold loadPlatformRelease
  dsimp only
  by_cases hex : Exist env (path.Join "installed.json") = true
  · simp only [hex, if_true]
    unfold Builder.LoadPackageIndexFromFile
    cases hl : LoadIndex env (path.Join "installed.json") with
    | error e => exact h1
    | ok index =>
      dsimp only
      rw [platform_updatePlatform, release_GetOrCreateRelease]
      have hm := MergeIntoPackages_frame index (pm.updateRelease packager arch version fun r =>
        { r with InstallDir := some path }).packages packager arch
      refine ⟨?_, ?_⟩
      · rw [loadPlatformReleaseFiles_IsIDEBundled, hm.2.2.2 version]
        exact h1.1
      · exact hm.2.1.trans h1.2
  · have hex' : Exist env (path.Join "installed.json") = false := by simpa using hex
    simp only [hex', Bool.false_eq_true, if_false]
    rw [platform_updatePlatform, release_GetOrCreateRelease]
    refine ⟨?_, ?_⟩
    · rw [loadPlatformReleaseFiles_IsIDEBundled]
      exact h1.1
    · exact h1.2

/-- The catalog that `loadPlatform` returns in the flat layout once `platform.txt` has
been read, its version parses and the bundled-index step gave no error: the one left
by `loadPlatformRelease`. -/
theorem loadPlatform_flat_catalog (env : Env) (pm : Builder) (packager arch : String)
    (platformPath : paths.Path) (platformProperties : properties.Map) (version0 : String)
    (hdir : IsNotDir env platformPath = false)
    (hex : ExistCheck env (platformPath.Join "boards.txt") = .ok true)
    (hload : SafeLoad env (platformPath.Join "platform.txt") = .ok platformProperties)
    (hparse : env.Parse (env.ExpandPropsInString platformProperties
      (platformProperties.Get "version")) = .ok version0)
    (b : Builder × String × Bool)
    (hb : bundledIndexStep env pm packager arch
      (platformPath.Parent.Parent.Join "package_index_bundled.json") version0 = (b, none)) :
    (loadPlatform env pm packager arch platformPath).1 =
      (loadPlatformRelease env
        ((b.1.updatePlatform packager arch fun pl =>
          if !b.2.2 then { pl with ManuallyInstalled := true } else pl).updateRelease
            packager arch b.2.1 fun r => { r with IsIDEBundled := b.2.2 })
        packager arch b.2.1 platformPath).1 := by
  unfold loadPlatform
  simp only [hdir, hex, hload, hparse, hb, Bool.false_eq_true, if_false]
  split
  · rename_i pm4 err heq
    rw [heq]
  · rename_i pm4 heq
    rw [heq]

end packagemanager

namespace packagemanager

/-- Counterexample to C19: the flat platform `hw/acme/avr` has a bundled index that
parses and declares the latest release `9.9.9` of `acme:avr`, and its `platform.txt`
has `version=unknown`.  `loadPlatform` fails with an invalid-version error before it
looks at the bundled index, and no release `9.9.9` is registered. -/
theorem loadPlatform_bundled_index_needs_parsable_version :
    Exist (sampleEnv (sampleBundledRoot [("name", "Acme AVR"), ("version", "unknown")]) [] [])
      ["hw", "package_index_bundled.json"] = true ∧
    (bundledVersion (sampleEnv (sampleBundledRoot [("name", "Acme AVR"), ("version", "unknown")])
        [] [])
      [{ Name := "acme", Tools := [],
         Platforms := [{ Name := "Acme AVR", Architecture := "avr", Version := "9.9.9" }] }]
      "acme" "avr" "unknown") = "9.9.9" ∧
    (loadPlatform (sampleEnv (sampleBundledRoot [("name", "Acme AVR"), ("version", "unknown")])
        [] [])
      (emptyBuilder.updatePackage "acme" id) "acme" "avr" ["hw", "acme", "avr"]).2
      = some (.invalidVersion
          (.new "hw/acme/avr/platform.txt: no major version found in unknown")) ∧
    (loadPlatform (sampleEnv (sampleBundledRoot [("name", "Acme AVR"), ("version", "unknown")])
        [] [])
      (emptyBuilder.updatePackage "acme" id) "acme" "avr" ["hw", "acme", "avr"]).1.hasRelease
        "acme" "avr" "9.9.9" = false := by
  decide

/-- C19 (amended): for a flat-layout platform whose `platform.txt` has been read and
whose expanded `version` property parses as the version `version0`:  if
`package_index_bundled.json` exists, parses, and the temporary catalog built from it
has a latest release `rel` for this package and architecture, `loadPlatform` leaves
a release registered under `rel.Version` with `IsIDEBundled = true`, whatever
`version0` is;  if `package_index_bundled.json` does not exist, it leaves a release
registered under `version0` with `IsIDEBundled = false` and the platform has
`ManuallyInstalled = true`.  Both hold whether or not the loading of the release
itself then succeeds. -/
theorem loadPlatform_flat_layout_version (env : Env) (pm : Builder) (packager arch : String)
    (platformPath : paths.Path) (platformProperties : properties.Map) (version0 : String)
    (hdir : IsNotDir env platformPath = false)
    (hex : ExistCheck env (platformPath.Join "boards.txt") = .ok true)
    (hload : SafeLoad env (platformPath.Join "platform.txt") = .ok platformProperties)
    (hparse : env.Parse (env.ExpandPropsInString platformProperties
      (platformProperties.Get "version")) = .ok version0) :
    (∀ (index : packageindex.Index) (rel : cores.PlatformRelease),
      Exist env (platformPath.Parent.Parent.Join "package_index_bundled.json") = true →
      LoadIndex env (platformPath.Parent.Parent.Join "package_index_bundled.json") = .ok index →
      GetLatestRelease env
        ((((index.MergeIntoPackages []).GetOrCreatePackage
          (pm.packages.package packager).Name id).package
            (pm.packages.package packager).Name
          |>.GetOrCreatePlatform arch id).platform arch) = some rel →
      (loadPlatform env pm packager arch platformPath).1.hasRelease packager arch rel.Version
        = true ∧
      ((((loadPlatform env pm packager arch platformPath).1.packages.package packager).platform
        arch).release rel.Version).IsIDEBundled = true) ∧
    (Exist env (platformPath.Parent.Parent.Join "package_index_bundled.json") = false →
      (loadPlatform env pm packager arch platformPath).1.hasRelease packager arch version0
        = true ∧
      ((((loadPlatform env pm packager arch platformPath).1.packages.package packager).platform
        arch).release version0).IsIDEBundled = false ∧
      (((loadPlatform env pm packager arch platformPath).1.packages.package packager).platform
        arch).ManuallyInstalled = true) := by
  constructor
  · intro index rel hexist hidx hlatest
    have hname := (MergeIntoPackages_frame index pm.packages packager arch).1
    have hb : bundledIndexStep env pm packager arch
        (platformPath.Parent.Parent.Join "package_index_bundled.json") version0 =
        (({ pm with packages := index.MergeIntoPackages pm.packages }, rel.Version, true),
          none) := by
      unfold bundledIndexStep Builder.LoadPackageIndexFromFile
      simp only [hexist, if_true, hidx]
      unfold bundledVersion
      dsimp only
      rw [hname, hlatest]
    rw [loadPlatform_flat_catalog env pm packager arch platformPath platformProperties version0
      hdir hex hload hparse _ hb]
    refine ⟨loadPlatformRelease_hasRelease _ _ _ _ _ _, ?_⟩
    rw [(loadPlatformRelease_flags _ _ _ _ _ _).1]
    unfold Builder.updateRelease
    rw [platform_updatePlatform, release_GetOrCreateRelease]
  · intro hexist
    have hb : bundledIndexStep env pm packager arch
        (platformPath.Parent.Parent.Join "package_index_bundled.json") version0 =
        ((pm, version0, false), none) := by
      unfold bundledIndexStep
      simp only [hexist, Bool.false_eq_true, if_false]
    rw [loadPlatform_flat_catalog env pm packager arch platformPath platformProperties version0
      hdir hex hload hparse _ hb]
    refine ⟨loadPlatformRelease_hasRelease _ _ _ _ _ _, ?_, ?_⟩
    · rw [(loadPlatformRelease_flags _ _ _ _ _ _).1]
      unfold Builder.updateRelease
      rw [platform_updatePlatform, release_GetOrCreateRelease]
    · rw [(loadPlatformRelease_flags _ _ _ _ _ _).2]
      unfold Builder.updateRelease
      rw [platform_updatePlatform, platform_updatePlatform]
      rfl

/-- Witness of C19 (amended): with `version=1.2.3` in `platform.txt` and a bundled
index that declares `9.9.9`, the release `9.9.9` is registered and IDE-bundled. -/
theorem loadPlatform_flat_layout_version_witness :
    (loadPlatform (sampleEnv (sampleBundledRoot samplePlatformTxt) [] [])
      (emptyBuilder.updatePackage "acme" id) "acme" "avr" ["hw", "acme", "avr"]).1.hasRelease
        "acme" "avr" "9.9.9" = true ∧
    ((((loadPlatform (sampleEnv (sampleBundledRoot samplePlatformTxt) [] [])
      (emptyBuilder.updatePackage "acme" id) "acme" "avr"
        ["hw", "acme", "avr"]).1.packages.package "acme").platform
        "avr").release "9.9.9").IsIDEBundled = true :=
  (loadPlatform_flat_layout_version (sampleEnv (sampleBundledRoot samplePlatformTxt) [] [])
    (emptyBuilder.updatePackage "acme" id) "acme" "avr" ["hw", "acme", "avr"]
    samplePlatformTxt "1.2.3" (by decide) rfl rfl rfl).1
    [{ Name := "acme", Tools := [],
       Platforms := [{ Name := "Acme AVR", Architecture := "avr", Version := "9.9.9" }] }]
    (cores.newPlatformRelease "9.9.9") (by decide) rfl (by decide)

end packagemanager

/-! ## Theorems: the VID/PID conversion -/

theorem upload_port_key_inj (i j : Nat) (s : String)
    (h : "upload_port." ++ toString i ++ s = "upload_port." ++ toString j ++ s) : i = j := by
  have h1 := string_append_right_cancel _ _ _ h
  exact toString_nat_injective _ _ (string_append_left_cancel _ _ _ h1)

theorem upload_port_vid_ne_pid (x y : String) :
    "upload_port." ++ x ++ ".vid" ≠ "upload_port." ++ y ++ ".pid" := by
  intro h
  have h2 := congrArg String.data h
  simp only [String.data_append] at h2
  have h3 := (List.append_inj' h2 rfl).2
  exact absurd h3 (by decide)

theorem upload_port_key_head (x y : String) :
    ("upload_port." ++ x ++ y).data.head? = some 'u' := by
  simp [String.data_append]

namespace packagemanager

/-- The pairs emitted one after the other by the closure `outputVidPid`. -/
theorem outputVidPid_fold_spec (pairs : List (String × String)) (st : properties.Map × Nat) :
    (∀ (j : Nat) (hj : j < pairs.length),
      (pairs.foldl (fun st e => outputVidPid st e.1 e.2) st).1.GetOk
          ("upload_port." ++ toString (st.2 + j) ++ ".vid") = some (pairs.get ⟨j, hj⟩).1 ∧
      (pairs.foldl (fun st e => outputVidPid st e.1 e.2) st).1.GetOk
          ("upload_port." ++ toString (st.2 + j) ++ ".pid") = some (pairs.get ⟨j, hj⟩).2) ∧
    (∀ key : String,
      (∀ j, j < pairs.length → key ≠ "upload_port." ++ toString (st.2 + j) ++ ".vid" ∧
        key ≠ "upload_port." ++ toString (st.2 + j) ++ ".pid") →
      (pairs.foldl (fun st e => outputVidPid st e.1 e.2) st).1.GetOk key = st.1.GetOk key) := by
  induction pairs generalizing st with
  | nil =>
    refine ⟨fun j hj => absurd hj (Nat.not_lt_zero _), fun key _ => rfl⟩
  | cons e rest ih =>
    simp only [List.foldl_cons]
    have ih' := ih (outputVidPid st e.1 e.2)
    have hst2 : (outputVidPid st e.1 e.2).2 = st.2 + 1 := rfl
    have hfirst : (outputVidPid st e.1 e.2).1.GetOk ("upload_port." ++ toString st.2 ++ ".vid")
          = some e.1 ∧
        (outputVidPid st e.1 e.2).1.GetOk ("upload_port." ++ toString st.2 ++ ".pid")
          = some e.2 := by
      simp only [outputVidPid, properties.Map.GetOk, properties.Map.Set]
      constructor
      · rw [assocGet_assocSet_ne _ _ _ _ (Ne.symm (upload_port_vid_ne_pid _ _)),
          assocGet_assocSet_self]
      · rw [assocGet_assocSet_self]
    have hother : ∀ key : String, key ≠ "upload_port." ++ toString st.2 ++ ".vid" →
        key ≠ "upload_port." ++ toString st.2 ++ ".pid" →
        (outputVidPid st e.1 e.2).1.GetOk key = st.1.GetOk key := by
      intro key h1 h2
      simp only [outputVidPid, properties.Map.GetOk, properties.Map.Set]
      rw [assocGet_assocSet_ne _ _ _ _ (Ne.symm h2), assocGet_assocSet_ne _ _ _ _ (Ne.symm h1)]
    constructor
    · intro j hj
      cases j with
      | zero =>
        have hfar : ∀ s : String, (s = ".vid" ∨ s = ".pid") → ∀ j, j < rest.length →
            "upload_port." ++ toString st.2 ++ s ≠
                "upload_port." ++ toString ((outputVidPid st e.1 e.2).2 + j) ++ ".vid" ∧
            "upload_port." ++ toString st.2 ++ s ≠
                "upload_port." ++ toString ((outputVidPid st e.1 e.2).2 + j) ++ ".pid" := by
          intro s hs j _
          rw [hst2]
          rcases hs with hs | hs <;> subst hs
          · refine ⟨fun h => ?_, upload_port_vid_ne_pid _ _⟩
            have := upload_port_key_inj _ _ _ h
            omega
          · refine ⟨Ne.symm (upload_port_vid_ne_pid _ _), fun h => ?_⟩
            have := upload_port_key_inj _ _ _ h
            omega
        simp only [Nat.add_zero, List.get_eq_getElem, List.getElem_cons_zero]
        rw [ih'.2 _ (hfar ".vid" (Or.inl rfl)), ih'.2 _ (hfar ".pid" (Or.inr rfl))]
        exact hfirst
      | succ j =>
        have hj' : j < rest.length := Nat.lt_of_succ_lt_succ hj
        have h := ih'.1 j hj'
        rw [hst2, show st.2 + 1 + j = st.2 + (j + 1) by omega] at h
        simpa using h
    · intro key hkey
      rw [ih'.2 key ?_]
      · have h0 := hkey 0 (Nat.succ_pos _)
        exact hother key h0.1 h0.2
      · intro j hj
        have h := hkey (j + 1) (Nat.succ_lt_succ hj)
        rw [hst2, show st.2 + 1 + j = st.2 + (j + 1) by omega]
        exact h

end packagemanager

namespace packagemanager

theorem outputVidPid_agrees (m : properties.Map) (st : properties.Map × Nat) (vid pid : String)
    (h : ∀ key : String, key.data.head? ≠ some 'u' → st.1.GetOk key = m.GetOk key) :
    ∀ key : String, key.data.head? ≠ some 'u' →
      (outputVidPid st vid pid).1.GetOk key = m.GetOk key := by
  intro key hkey
  simp only [outputVidPid, properties.Map.GetOk, properties.Map.Set]
  rw [assocGet_assocSet_ne, assocGet_assocSet_ne]
  · exact h key hkey
  · intro heq
    exact hkey (heq ▸ upload_port_key_head _ _)
  · intro heq
    exact hkey (heq ▸ upload_port_key_head _ _)

/-- The loop over the keys emits, in key order, the pairs of `indexedVidPid`. -/
theorem vidPid_loop_eq (m : properties.Map) (ks : List String) (st : properties.Map × Nat)
    (h : ∀ key : String, key.data.head? ≠ some 'u' → st.1.GetOk key = m.GetOk key) :
    ks.foldl (fun st k =>
      if strings.HasPrefix k "vid." then
        match ParseUint ⟨k.data.drop 4⟩ with
        | none => st
        | some idx =>
          match st.1.GetOk ("vid." ++ toString idx), st.1.GetOk ("pid." ++ toString idx) with
          | some vid, some pid => outputVidPid st vid pid
          | _, _ => st
      else st) st =
    (ks.filterMap (indexedVidPid m)).foldl (fun st e => outputVidPid st e.1 e.2) st := by
  induction ks generalizing st with
  | nil => rfl
  | cons k ks ih =>
    simp only [List.foldl_cons, List.filterMap_cons]
    unfold indexedVidPid
    by_cases hp : strings.HasPrefix k "vid." = true
    · simp only [hp, if_true]
      cases hparse : ParseUint ⟨k.data.drop 4⟩ with
      | none => exact ih st h
      | some idx =>
        dsimp only
        have hv : st.1.GetOk ("vid." ++ toString idx) = m.GetOk ("vid." ++ toString idx) :=
          h _ (by simp [String.data_append])
        have hq : st.1.GetOk ("pid." ++ toString idx) = m.GetOk ("pid." ++ toString idx) :=
          h _ (by simp [String.data_append])
        rw [hv, hq]
        cases hvid : m.GetOk ("vid." ++ toString idx) with
        | none => exact ih st h
        | some vid =>
          cases hpid : m.GetOk ("pid." ++ toString idx) with
          | none => exact ih st h
          | some pid =>
            dsimp only
            rw [List.foldl_cons]
            exact ih _ (outputVidPid_agrees m st vid pid h)
    · simp only [hp, Bool.false_eq_true, if_false]
      exact ih st h

theorem filterMap_indexedVidPid_keys (m : properties.Map) (ks extra : List String)
    (h : ∀ k ∈ extra, strings.HasPrefix k "vid." = false) :
    (ks ++ extra).filterMap (indexedVidPid m) = ks.filterMap (indexedVidPid m) := by
  rw [List.filterMap_append]
  have : extra.filterMap (indexedVidPid m) = [] := by
    rw [List.filterMap_eq_nil_iff]
    intro k hk
    simp [indexedVidPid, h k hk]
  rw [this, List.append_nil]

theorem upload_port_not_vid (x y : String) :
    strings.HasPrefix ("upload_port." ++ x ++ y) "vid." = false := by
  simp [strings.HasPrefix, String.data_append, List.isPrefixOf]

theorem outputVidPid_keys (m : properties.Map) (n : Nat) (vid pid : String) :
    ∃ extra : List String, (outputVidPid (m, n) vid pid).1.Keys = m.Keys ++ extra ∧
      ∀ k ∈ extra, strings.HasPrefix k "vid." = false := by
  simp only [outputVidPid, properties.Map.Keys, properties.Map.Set, assocSet_keys]
  split_ifs
  · exact ⟨[], by simp, by simp⟩
  · exact ⟨[_], rfl, by simp [upload_port_not_vid]⟩
  · exact ⟨[_], rfl, by simp [upload_port_not_vid]⟩
  · exact ⟨["upload_port." ++ toString n ++ ".vid", "upload_port." ++ toString n ++ ".pid"],
      by simp, by simp [upload_port_not_vid]⟩

/-- The conversion as one emission of the list `vidPidPairs`. -/
theorem convertVidPid_eq_emit (m : properties.Map) :
    convertVidPidIdentificationPropertiesToPluggableDiscovery m =
      ((vidPidPairs m).foldl (fun st e => outputVidPid st e.1 e.2) (m, 0)).1 := by
  unfold convertVidPidIdentificationPropertiesToPluggableDiscovery vidPidPairs
  rw [List.foldl_append]
  cases hvid : m.GetOk "vid" with
  | none =>
    have hc : m.ContainsKey "vid" = false := by
      simp only [properties.Map.ContainsKey, properties.Map.GetOk] at hvid ⊢
      rw [hvid]; rfl
    simp only [hc, Bool.false_and, Bool.false_eq_true, if_false, List.foldl_nil]
    exact congrArg Prod.fst (vidPid_loop_eq m m.Keys (m, 0) (fun _ _ => rfl))
  | some vid =>
    cases hpid : m.GetOk "pid" with
    | none =>
      have hc : m.ContainsKey "pid" = false := by
        simp only [properties.Map.ContainsKey, properties.Map.GetOk] at hpid ⊢
        rw [hpid]; rfl
      simp only [hc, Bool.and_false, Bool.false_eq_true, if_false, List.foldl_nil]
      exact congrArg Prod.fst (vidPid_loop_eq m m.Keys (m, 0) (fun _ _ => rfl))
    | some pid =>
      have hc1 : m.ContainsKey "vid" = true := by
        simp only [properties.Map.ContainsKey, properties.Map.GetOk] at hvid ⊢
        rw [hvid]; rfl
      have hc2 : m.ContainsKey "pid" = true := by
        simp only [properties.Map.ContainsKey, properties.Map.GetOk] at hpid ⊢
        rw [hpid]; rfl
      have hg1 : m.Get "vid" = vid := by
        simp only [properties.Map.Get, properties.Map.GetOk] at hvid ⊢
        rw [hvid]; rfl
      have hg2 : m.Get "pid" = pid := by
        simp only [properties.Map.Get, properties.Map.GetOk] at hpid ⊢
        rw [hpid]; rfl
      simp only [hc1, hc2, Bool.and_self, if_true, hg1, hg2, List.foldl_cons, List.foldl_nil]
      obtain ⟨extra, hk, hextra⟩ := outputVidPid_keys m 0 vid pid
      refine (congrArg Prod.fst (vidPid_loop_eq m (outputVidPid (m, 0) vid pid).1.Keys
        (outputVidPid (m, 0) vid pid)
        (outputVidPid_agrees m (m, 0) vid pid (fun _ _ => rfl)))).trans ?_
      rw [hk, filterMap_indexedVidPid_keys m _ _ hextra]

/-- Counterexample to C11: the keys `vid.01` and `pid.01` are both present and `01` is
an unsigned decimal number, so the claim has the pair at index 0; the code looks up
`vid.1` and `pid.1`, finds neither, and emits nothing. -/
theorem convertVidPid_noncanonical_index_emits_nothing :
    ParseUint "01" = some 1 ∧
    (convertVidPidIdentificationPropertiesToPluggableDiscovery
      [("vid.01", "0x2341"), ("pid.01", "0x0043")]).GetOk "upload_port.0.vid" = none ∧
    convertVidPidIdentificationPropertiesToPluggableDiscovery
      [("vid.01", "0x2341"), ("pid.01", "0x0043")] = [("vid.01", "0x2341"), ("pid.01", "0x0043")] := by
  decide

/-- C11 (amended): let `P` be the pair `(vid, pid)` if both unindexed keys are present,
followed by, for each key `vid.N` in key order with `N` a decimal number that fits in
64 bits, of value `idx`, the values of `vid.<idx>` and `pid.<idx>` (the index written
in decimal) when both keys are present.  After the conversion `upload_port.k.vid` and
`upload_port.k.pid` equal `P[k]` for every `k < |P|`, and every other key has the
value it had: the emitted indices are exactly `0..|P|-1`, and a `vid.N` without a
matching `pid.N` emits nothing and consumes no index. -/
theorem convertVidPid_emits_pairs_at_fresh_indices (m : properties.Map) :
    (∀ (k : Nat) (hk : k < (vidPidPairs m).length),
      (convertVidPidIdentificationPropertiesToPluggableDiscovery m).GetOk
          ("upload_port." ++ toString k ++ ".vid") = some ((vidPidPairs m).get ⟨k, hk⟩).1 ∧
      (convertVidPidIdentificationPropertiesToPluggableDiscovery m).GetOk
          ("upload_port." ++ toString k ++ ".pid") = some ((vidPidPairs m).get ⟨k, hk⟩).2) ∧
    (∀ key : String,
      (∀ k, k < (vidPidPairs m).length → key ≠ "upload_port." ++ toString k ++ ".vid" ∧
        key ≠ "upload_port." ++ toString k ++ ".pid") →
      (convertVidPidIdentificationPropertiesToPluggableDiscovery m).GetOk key = m.GetOk key) := by
  rw [convertVidPid_eq_emit]
  have h := outputVidPid_fold_spec (vidPidPairs m) (m, 0)
  simp only [Nat.zero_add] at h
  exact h

end packagemanager

/-! ## Theorems: network upload tools and boards -/

namespace packagemanager

theorem firstFreeIndex_spec (props : properties.Map) (fuel i : Nat) :
    (∀ j, i ≤ j → j < firstFreeIndex props fuel i →
      props.ContainsKey ("upload_port." ++ toString j ++ ".vid") = true) ∧
    (props.ContainsKey ("upload_port." ++ toString (firstFreeIndex props fuel i) ++ ".vid") = false ∨
      firstFreeIndex props fuel i = i + fuel) := by
  induction fuel generalizing i with
  | zero =>
    simp only [firstFreeIndex]
    exact ⟨fun j h1 h2 => absurd h2 (by omega), Or.inr rfl⟩
  | succ fuel ih =>
    simp only [firstFreeIndex]
    by_cases hc : props.ContainsKey ("upload_port." ++ toString i ++ ".vid") = true
    · simp only [hc, Bool.not_true, Bool.false_eq_true, if_false]
      refine ⟨fun j h1 h2 => ?_, ?_⟩
      · by_cases hji : j = i
        · subst hji
          exact hc
        · exact (ih (i + 1)).1 j (by omega) h2
      · rcases (ih (i + 1)).2 with h | h
        · exact Or.inl h
        · exact Or.inr (by omega)
    · have hc' : props.ContainsKey ("upload_port." ++ toString i ++ ".vid") = false := by
        simpa using hc
      have hK : (if (!props.ContainsKey ("upload_port." ++ toString i ++ ".vid")) = true then i
          else firstFreeIndex props fuel (i + 1)) = i := by
        rw [hc']; rfl
      rw [hK]
      exact ⟨fun j h1 h2 => absurd h2 (by omega), Or.inl hc'⟩

theorem containsKey_mem_keys (props : properties.Map) (k : String)
    (h : props.ContainsKey k = true) : k ∈ props.map Prod.fst := by
  by_contra hn
  have := (assocGet_eq_none_iff props k).2 hn
  simp [properties.Map.ContainsKey, this] at h

/-- The search for the first free index ends within `Size + 1` rounds: the index it
returns is free and every smaller index is taken. -/
theorem firstFreeIndex_least (props : properties.Map) :
    props.ContainsKey ("upload_port." ++
      toString (firstFreeIndex props (props.Size + 1) 0) ++ ".vid") = false ∧
    ∀ j, j < firstFreeIndex props (props.Size + 1) 0 →
      props.ContainsKey ("upload_port." ++ toString j ++ ".vid") = true := by
  have h := firstFreeIndex_spec props (props.Size + 1) 0
  refine ⟨?_, fun j hj => h.1 j (Nat.zero_le _) hj⟩
  rcases h.2 with h2 | h2
  · exact h2
  · exfalso
    have hall : ∀ j, j < props.Size + 1 →
        props.ContainsKey ("upload_port." ++ toString j ++ ".vid") = true := by
      intro j hj
      exact h.1 j (Nat.zero_le _) (by omega)
    have hnodup : ((List.range (props.Size + 1)).map
        fun j => "upload_port." ++ toString j ++ ".vid").Nodup := by
      refine List.Nodup.map ?_ (List.nodup_range _)
      intro a b hab
      exact upload_port_key_inj a b ".vid" hab
    have hsub : ((List.range (props.Size + 1)).map
        fun j => "upload_port." ++ toString j ++ ".vid") ⊆ props.map Prod.fst := by
      intro k hk
      obtain ⟨j, hj, rfl⟩ := List.mem_map.1 hk
      exact containsKey_mem_keys props _ (hall j (List.mem_range.1 hj))
    have hlen := (hnodup.subperm hsub).length_le
    simp [properties.Map.Size] at hlen

end packagemanager

theorem upload_port_key_ne_network (x y : String) :
    "upload_port." ++ x ++ y ≠ "upload.tool.network" := by
  intro h
  have h2 := congrArg (fun s => (s.data.drop 6).head?) h
  simp [String.data_append] at h2

namespace packagemanager

theorem convertLegacyPlatform_fold_boards (tools : List (String × properties.Map))
    (pl : cores.PlatformRelease) :
    (tools.foldl (fun (pl : cores.PlatformRelease) e =>
      if !e.2.ContainsKey "upload.network_pattern" then pl
      else
        { pl with
          Properties := pl.Properties.Merge
            ((convertLegacyNetworkPatternToPluggableDiscovery e.2
              (e.1 ++ "__pluggable_network")).getD properties.NewMap)
          Boards := pl.Boards.map fun b =>
            (b.1, addNetworkUpload e.1 (e.1 ++ "__pluggable_network") b.2) }) pl).Boards =
      pl.Boards.map fun b => (b.1,
        ((tools.filter fun e => e.2.ContainsKey "upload.network_pattern").map Prod.fst).foldl
          (fun bd T => addNetworkUpload T (T ++ "__pluggable_network") bd) b.2) := by
  induction tools generalizing pl with
  | nil => simp
  | cons e tools ih =>
    simp only [List.foldl_cons]
    rw [ih]
    by_cases hc : e.2.ContainsKey "upload.network_pattern" = true
    · simp [hc, List.filter_cons, Function.comp]
    · have hc' : e.2.ContainsKey "upload.network_pattern" = false := by simpa using hc
      simp [hc', List.filter_cons]

theorem convertLegacyPlatform_boards_eq (platform : cores.PlatformRelease) :
    (convertLegacyPlatformToPluggableDiscovery platform).Boards =
      platform.Boards.map fun b => (b.1,
        (networkUploadTools platform).foldl
          (fun bd T => addNetworkUpload T (T ++ "__pluggable_network") bd) b.2) :=
  convertLegacyPlatform_fold_boards _ platform

theorem addNetworkUpload_done (T c : String) (b : cores.Board)
    (h : b.Properties.ContainsKey "upload.tool.network" = true) :
    addNetworkUpload T c b = b := by
  simp [addNetworkUpload, h]

theorem addNetworkUpload_other (T c : String) (b : cores.Board)
    (h : b.Properties.Get "upload.tool" ≠ T) :
    addNetworkUpload T c b = b := by
  simp [addNetworkUpload, h]

theorem addNetworkUpload_apply (T c : String) (b : cores.Board)
    (h1 : b.Properties.Get "upload.tool" = T)
    (h2 : b.Properties.ContainsKey "upload.tool.network" = false) :
    addNetworkUpload T c b =
      { b with
        Properties := (b.Properties.Set "upload.tool.network" c).Set
          ("upload_port." ++ toString (firstFreeIndex (b.Properties.Set "upload.tool.network" c)
            ((b.Properties.Set "upload.tool.network" c).Size + 1) 0) ++ ".board") b.BoardID } := by
  unfold addNetworkUpload
  rw [if_pos]
  simp [h1, h2]

theorem addNetworkUpload_defines (T c : String) (b : cores.Board)
    (h1 : b.Properties.Get "upload.tool" = T)
    (h2 : b.Properties.ContainsKey "upload.tool.network" = false) :
    (addNetworkUpload T c b).Properties.ContainsKey "upload.tool.network" = true := by
  rw [addNetworkUpload_apply T c b h1 h2]
  simp only [properties.Map.ContainsKey, properties.Map.Set]
  rw [assocGet_assocSet_ne _ _ _ _ (fun h => upload_port_key_ne_network _ _ h),
    assocGet_assocSet_self]
  rfl

theorem addNetworkUpload_fold_done (tools : List String) (b : cores.Board)
    (h : b.Properties.ContainsKey "upload.tool.network" = true) :
    tools.foldl (fun bd T => addNetworkUpload T (T ++ "__pluggable_network") bd) b = b := by
  induction tools with
  | nil => rfl
  | cons T tools ih =>
    simp only [List.foldl_cons]
    rw [addNetworkUpload_done _ _ _ h]
    exact ih

theorem addNetworkUpload_fold (tools : List String) (b : cores.Board) :
    tools.foldl (fun bd T => addNetworkUpload T (T ++ "__pluggable_network") bd) b =
      if b.Properties.Get "upload.tool" ∈ tools ∧
          b.Properties.ContainsKey "upload.tool.network" = false then
        addNetworkUpload (b.Properties.Get "upload.tool")
          (b.Properties.Get "upload.tool" ++ "__pluggable_network") b
      else b := by
  by_cases hdef : b.Properties.ContainsKey "upload.tool.network" = true
  · rw [addNetworkUpload_fold_done tools b hdef]
    simp [hdef]
  · have hdef' : b.Properties.ContainsKey "upload.tool.network" = false := by simpa using hdef
    induction tools with
    | nil => simp
    | cons T tools ih =>
      simp only [List.foldl_cons]
      by_cases hT : b.Properties.Get "upload.tool" = T
      · subst hT
        rw [addNetworkUpload_fold_done tools _ (addNetworkUpload_defines _ _ b rfl hdef')]
        simp [hdef']
      · rw [addNetworkUpload_other _ _ _ hT, ih]
        simp [hT, hdef']

end packagemanager

namespace packagemanager

/-- C16: after `convertLegacyPlatformToPluggableDiscovery`, a board whose `upload.tool`
is a tool `T` of the platform with `upload.network_pattern` and that did not define
`upload.tool.network` has its properties extended with
`upload.tool.network = T__pluggable_network` and `upload_port.K.board = <boardID>`,
where `K` is the least index for which the board has no key `upload_port.K.vid`; a
board whose `upload.tool` is no such tool, or that already defined
`upload.tool.network`, is unchanged. -/
theorem convertLegacyPlatform_network_upload_of_boards (platform : cores.PlatformRelease)
    (id : String) (b : cores.Board) (hb : assocGet platform.Boards id = some b) :
    (b.Properties.Get "upload.tool" ∈ networkUploadTools platform →
      b.Properties.ContainsKey "upload.tool.network" = false →
      ∃ K : Nat,
        b.Properties.ContainsKey ("upload_port." ++ toString K ++ ".vid") = false ∧
        (∀ j, j < K → b.Properties.ContainsKey ("upload_port." ++ toString j ++ ".vid") = true) ∧
        assocGet (convertLegacyPlatformToPluggableDiscovery platform).Boards id =
          some { b with
            Properties := (b.Properties.Set "upload.tool.network"
              (b.Properties.Get "upload.tool" ++ "__pluggable_network")).Set
                ("upload_port." ++ toString K ++ ".board") b.BoardID }) ∧
    (b.Properties.Get "upload.tool" ∉ networkUploadTools platform ∨
        b.Properties.ContainsKey "upload.tool.network" = true →
      assocGet (convertLegacyPlatformToPluggableDiscovery platform).Boards id = some b) := by
  have hget : assocGet (convertLegacyPlatformToPluggableDiscovery platform).Boards id =
      some ((networkUploadTools platform).foldl
        (fun bd T => addNetworkUpload T (T ++ "__pluggable_network") bd) b) := by
    rw [convertLegacyPlatform_boards_eq]
    refine (assocGet_map_snd platform.Boards (fun bd => (networkUploadTools platform).foldl
      (fun bd T => addNetworkUpload T (T ++ "__pluggable_network") bd) bd) id).trans ?_
    rw [hb]
    rfl
  rw [hget, addNetworkUpload_fold]
  constructor
  · intro hmem hdef
    rw [if_pos ⟨hmem, hdef⟩, addNetworkUpload_apply _ _ b rfl hdef]
    have hleast := firstFreeIndex_least (b.Properties.Set "upload.tool.network"
      (b.Properties.Get "upload.tool" ++ "__pluggable_network"))
    have hsame : ∀ j : Nat, (b.Properties.Set "upload.tool.network"
        (b.Properties.Get "upload.tool" ++ "__pluggable_network")).ContainsKey
          ("upload_port." ++ toString j ++ ".vid") =
        b.Properties.ContainsKey ("upload_port." ++ toString j ++ ".vid") := by
      intro j
      simp only [properties.Map.ContainsKey, properties.Map.Set]
      rw [assocGet_assocSet_ne _ _ _ _ (Ne.symm (upload_port_key_ne_network _ _))]
    refine ⟨_, ?_, ?_, rfl⟩
    · rw [← hsame]
      exact hleast.1
    · intro j hj
      rw [← hsame]
      exact hleast.2 j hj
  · intro h
    rw [if_neg]
    rintro ⟨hmem, hdef⟩
    rcases h with h | h
    · exact h hmem
    · rw [hdef] at h
      exact absurd h (by decide)

/-- Witness of C16: the board `uno` uploads with `avrdude`, which has a network
pattern, and already has the identification entry 0; it gets the entry 1. -/
theorem convertLegacyPlatform_network_upload_of_boards_witness :
    assocGet (convertLegacyPlatformToPluggableDiscovery
      { sampleRelease ["p"] with
        Properties := samplePlatformTxt
        Boards := [("uno", { BoardID := "uno", Properties := [("upload.tool", "avrdude"),
          ("upload_port.0.vid", "0x2341"), ("upload_port.0.pid", "0x0043")] })] }).Boards "uno" =
      some { BoardID := "uno", Properties := [("upload.tool", "avrdude"),
          ("upload_port.0.vid", "0x2341"), ("upload_port.0.pid", "0x0043"),
          ("upload.tool.network", "avrdude__pluggable_network"),
          ("upload_port.1.board", "uno")] } := by
  obtain ⟨K, hfree, hleast, hres⟩ := (convertLegacyPlatform_network_upload_of_boards
    { sampleRelease ["p"] with
      Properties := samplePlatformTxt
      Boards := [("uno", { BoardID := "uno", Properties := [("upload.tool", "avrdude"),
        ("upload_port.0.vid", "0x2341"), ("upload_port.0.pid", "0x0043")] })] }
    "uno" { BoardID := "uno", Properties := [("upload.tool", "avrdude"),
        ("upload_port.0.vid", "0x2341"), ("upload_port.0.pid", "0x0043")] } rfl).1
    (by decide) (by decide)
  have hK : K = 1 := by
    rcases Nat.lt_or_ge K 2 with h | h
    · interval_cases K
      · exact absurd hfree (by decide)
      · rfl
    · exact absurd (hleast 1 (by omega)) (by decide)
  subst hK
  exact hres.trans (by decide)

end packagemanager

/-! ## Theorems: the defaults of the upload tools -/

namespace strings

theorem splitChars_five (sep : Char) (s : List Char) (h : (splitChars sep s).length = 5) :
    ∃ a b c d e : List Char, sep ∉ a ∧ sep ∉ b ∧ sep ∉ c ∧ sep ∉ d ∧ sep ∉ e ∧
      splitChars sep s = [a, b, c, d, e] ∧
      s = a ++ sep :: (b ++ sep :: (c ++ sep :: (d ++ sep :: e))) := by
  match hs : splitChars sep s, h with
  | [a, b, c, d, e], _ =>
    obtain ⟨t1, h1, hs1, ha⟩ := splitChars_cons sep s a [b, c, d, e] (by simp) hs
    obtain ⟨t2, h2, hs2, hb⟩ := splitChars_cons sep t1 b [c, d, e] (by simp) hs1
    obtain ⟨t3, h3, hs3, hc⟩ := splitChars_cons sep t2 c [d, e] (by simp) hs2
    obtain ⟨t4, h4, hs4, hd⟩ := splitChars_cons sep t3 d [e] (by simp) hs3
    obtain ⟨h5, he⟩ := splitChars_singleton sep t4 e hs4
    subst h5 h4 h3 h2 h1
    exact ⟨a, b, c, d, t4, ha, hb, hc, hd, he, rfl, rfl⟩

theorem splitChars_five_of (sep : Char) (a b c d e : List Char)
    (ha : sep ∉ a) (hb : sep ∉ b) (hc : sep ∉ c) (hd : sep ∉ d) (he : sep ∉ e) :
    splitChars sep (a ++ sep :: (b ++ sep :: (c ++ sep :: (d ++ sep :: e)))) = [a, b, c, d, e] := by
  rw [splitChars_append sep a _ ha, splitChars_append sep b _ hb, splitChars_append sep c _ hc,
    splitChars_append sep d _ hd, splitChars_of_not_mem sep e he]

end strings

/-- The key of a menu entry with the given last part. -/
theorem menu_key_data (id item rest : String) :
    ("menu." ++ id ++ "." ++ item ++ "." ++ rest).data =
      "menu".data ++ '.' :: (id.data ++ '.' :: (item.data ++ '.' :: rest.data)) := by
  simp [String.data_append]

namespace packagemanager

/-- When the loop over the entries sets a key: exactly for the keys
`menu.<id>.<item>.<action>.tool` of five segments, and the key it sets is
`menu.<id>.<item>.<action>.tool.default`. -/
theorem menuToolDefaultKey_eq_some (A key k : String) (hA : '.' ∉ A.data) :
    menuToolDefaultKey (A ++ ".tool") key = some k ↔
      ∃ id item : String, '.' ∉ id.data ∧ '.' ∉ item.data ∧
        key = "menu." ++ id ++ "." ++ item ++ "." ++ (A ++ ".tool") ∧
        k = "menu." ++ id ++ "." ++ item ++ "." ++ (A ++ ".tool" ++ ".default") := by
  constructor
  · intro h
    unfold menuToolDefaultKey at h
    by_cases hp : strings.HasPrefix key "menu." = true
    · simp only [hp, Bool.not_true, Bool.false_eq_true, if_false] at h
      by_cases hc : ((strings.Split key '.').length ≠ 5 ||
          (strings.Split key '.').getD 3 "" ++ "." ++ (strings.Split key '.').getD 4 ""
            ≠ A ++ ".tool") = true
      · rw [if_pos hc] at h
        cases h
      · rw [if_neg hc] at h
        simp only [Bool.or_eq_true, decide_eq_true_eq, not_or, not_not] at hc
        obtain ⟨hlen, h34⟩ := hc
        have hlen' : (strings.splitChars '.' key.data).length = 5 := by
          simpa [strings.Split] using hlen
        obtain ⟨a, b, c, d, e, ha, hb, hc', hd, he, hs, hkey⟩ :=
          strings.splitChars_five '.' key.data hlen'
        have hsplit : strings.Split key '.' = [⟨a⟩, ⟨b⟩, ⟨c⟩, ⟨d⟩, ⟨e⟩] := by
          simp [strings.Split, hs]
        rw [hsplit] at h h34
        simp only [List.getD_cons_zero, List.getD_cons_succ, Option.some.injEq] at h h34
        -- the first segment is `menu`
        have ha' : a = "menu".data := by
          obtain ⟨t, ht⟩ := (strings.HasPrefix_iff key "menu.").1 hp
          have h1 := congrArg (fun s => strings.cutChars '.' s.data) ht
          simp only [String.data_append] at h1
          rw [hkey, strings.cutChars_append '.' a _ ha] at h1
          have h2 : strings.cutChars '.' ("menu.".data ++ t.data)
              = some ("menu".data, t.data) :=
            strings.cutChars_append '.' "menu".data t.data (by decide)
          rw [h2] at h1
          simp only [Option.some.injEq, Prod.mk.injEq] at h1
          exact h1.1
        have hde := (dotted_key_eq_iff A ⟨d⟩ "tool" ⟨e⟩ hA hd).1
          (by rw [h34]; exact String.ext (by simp [String.data_append]))
        have hd' : d = A.data := congrArg String.data hde.1
        have he' : e = "tool".data := congrArg String.data hde.2
        refine ⟨⟨b⟩, ⟨c⟩, hb, hc', ?_, ?_⟩
        · apply String.ext
          rw [menu_key_data, hkey, ha', hd', he']
          simp [String.data_append]
        · rw [← h]
          apply String.ext
          rw [menu_key_data]
          simp [String.data_append, ha']
    · have hp' : strings.HasPrefix key "menu." = false := by simpa using hp
      simp [hp'] at h
  · rintro ⟨id, item, hid, hitem, rfl, rfl⟩
    have hsplit : strings.Split ("menu." ++ id ++ "." ++ item ++ "." ++ (A ++ ".tool")) '.' =
        ["menu", id, item, A, "tool"] := by
      unfold strings.Split
      rw [menu_key_data]
      have : (A ++ ".tool").data = A.data ++ '.' :: "tool".data := by
        simp [String.data_append]
      rw [this, strings.splitChars_five_of '.' _ _ _ _ _ (by decide) hid hitem hA (by decide)]
      rfl
    have hp : strings.HasPrefix ("menu." ++ id ++ "." ++ item ++ "." ++ (A ++ ".tool")) "menu."
        = true := by
      rw [strings.HasPrefix_iff]
      exact ⟨id ++ "." ++ item ++ "." ++ (A ++ ".tool"), by simp only [String.append_assoc]⟩
    unfold menuToolDefaultKey
    simp only [hp, hsplit, Bool.not_true, Bool.false_eq_true, if_false]
    have h34 : A ++ "." ++ "tool" = A ++ ".tool" := by
      apply String.ext; simp [String.data_append]
    simp only [List.length_cons, List.length_nil, List.getD_cons_zero, List.getD_cons_succ, h34]
    simp

end packagemanager

theorem keyed_fold_frame (g : String → Option String) (l : List (String × String))
    (acc : properties.Map) (key : String) (h : ∀ e ∈ l, g e.1 ≠ some key) :
    (l.foldl (fun (acc : properties.Map) e =>
      match g e.1 with
      | none => acc
      | some k => acc.Set k e.2) acc).GetOk key = acc.GetOk key := by
  induction l generalizing acc with
  | nil => rfl
  | cons e l ih =>
    simp only [List.foldl_cons]
    rw [ih _ (fun e' he' => h e' (List.mem_cons_of_mem _ he'))]
    have he := h e (List.mem_cons_self _ _)
    cases hg : g e.1 with
    | none => rfl
    | some k =>
      have hk : k ≠ key := fun hx => he (by rw [hg, hx])
      simp only [properties.Map.GetOk, properties.Map.Set]
      exact assocGet_assocSet_ne _ _ _ _ hk

theorem keyed_fold_value (g : String → Option String) (l : List (String × String))
    (hinj : ∀ k1 k2 x, g k1 = some x → g k2 = some x → k1 = k2)
    (hn : (l.map Prod.fst).Nodup) (acc : properties.Map) (e : String × String) (he : e ∈ l)
    (k : String) (hk : g e.1 = some k) :
    (l.foldl (fun (acc : properties.Map) e =>
      match g e.1 with
      | none => acc
      | some k => acc.Set k e.2) acc).GetOk k = some e.2 := by
  induction l generalizing acc with
  | nil => cases he
  | cons e0 l ih =>
    simp only [List.map_cons, List.nodup_cons] at hn
    simp only [List.foldl_cons]
    rcases List.mem_cons.1 he with h0 | hin
    · subst h0
      rw [keyed_fold_frame g l _ k]
      · simp only [hk, properties.Map.GetOk, properties.Map.Set]
        exact assocGet_assocSet_self _ _ _
      · intro e' he' hg
        have := hinj _ _ _ hg hk
        exact hn.1 (List.mem_map.2 ⟨e', he', this⟩)
    · exact ih hn.2 _ hin

namespace packagemanager

theorem tool_default_split (A : String) (hA : '.' ∉ A.data) :
    strings.Split (A ++ ".tool" ++ ".default") '.' = [A, "tool", "default"] := by
  unfold strings.Split
  have : (A ++ ".tool" ++ ".default").data = A.data ++ '.' :: ("tool".data ++ '.' :: "default".data) := by
    simp [String.data_append]
  rw [this, strings.splitChars_append '.' _ _ hA, strings.splitChars_append '.' _ _ (by decide),
    strings.splitChars_of_not_mem '.' _ (by decide)]
  rfl

theorem menu_default_split (id item A : String) (hid : '.' ∉ id.data) (hitem : '.' ∉ item.data)
    (hA : '.' ∉ A.data) :
    strings.Split ("menu." ++ id ++ "." ++ item ++ "." ++ (A ++ ".tool" ++ ".default")) '.' =
      ["menu", id, item, A, "tool", "default"] := by
  unfold strings.Split
  rw [menu_key_data]
  have : (A ++ ".tool" ++ ".default").data = A.data ++ '.' :: ("tool".data ++ '.' :: "default".data) := by
    simp [String.data_append]
  rw [this, strings.splitChars_append '.' _ _ (by decide), strings.splitChars_append '.' _ _ hid,
    strings.splitChars_append '.' _ _ hitem, strings.splitChars_append '.' _ _ hA,
    strings.splitChars_append '.' _ _ (by decide), strings.splitChars_of_not_mem '.' _ (by decide)]
  rfl

theorem tool_default_inj (A B : String) (hA : '.' ∉ A.data) (hB : '.' ∉ B.data)
    (h : A ++ ".tool" ++ ".default" = B ++ ".tool" ++ ".default") : A = B := by
  have h2 := congrArg (fun s => strings.Split s '.') h
  simp only [tool_default_split A hA, tool_default_split B hB] at h2
  simpa using h2

theorem tool_default_ne_menu (A B id item : String) (hA : '.' ∉ A.data) (hB : '.' ∉ B.data)
    (hid : '.' ∉ id.data) (hitem : '.' ∉ item.data) :
    "menu." ++ id ++ "." ++ item ++ "." ++ (B ++ ".tool" ++ ".default") ≠
      A ++ ".tool" ++ ".default" := by
  intro h
  have h2 := congrArg (fun s => (strings.Split s '.').length) h
  simp only [tool_default_split A hA, menu_default_split id item B hid hitem hB] at h2
  simp at h2

theorem menu_default_inj (A B id item id' item' : String) (hA : '.' ∉ A.data)
    (hB : '.' ∉ B.data) (hid : '.' ∉ id.data) (hitem : '.' ∉ item.data)
    (hid' : '.' ∉ id'.data) (hitem' : '.' ∉ item'.data)
    (h : "menu." ++ id ++ "." ++ item ++ "." ++ (A ++ ".tool" ++ ".default") =
      "menu." ++ id' ++ "." ++ item' ++ "." ++ (B ++ ".tool" ++ ".default")) :
    id = id' ∧ item = item' ∧ A = B := by
  have h2 := congrArg (fun s => strings.Split s '.') h
  simp only [menu_default_split id item A hid hitem hA,
    menu_default_split id' item' B hid' hitem' hB] at h2
  simpa using h2

theorem menuToolDefaultKey_inj (A : String) (hA : '.' ∉ A.data) (k1 k2 x : String)
    (h1 : menuToolDefaultKey (A ++ ".tool") k1 = some x)
    (h2 : menuToolDefaultKey (A ++ ".tool") k2 = some x) : k1 = k2 := by
  obtain ⟨id, item, hid, hitem, rfl, rfl⟩ := (menuToolDefaultKey_eq_some A k1 x hA).1 h1
  obtain ⟨id', item', hid', hitem', rfl, hx⟩ := (menuToolDefaultKey_eq_some A k2 _ hA).1 h2
  obtain ⟨e1, e2, -⟩ := menu_default_inj A A id item id' item' hA hA hid hitem hid' hitem' hx
  rw [e1, e2]

/-- The loop body of `convertUploadToolsToPluggableDiscovery` for one action touches
only the keys of that action. -/
theorem toolDefaultsToAdd_frame (m acc : properties.Map) (A key : String) (hA : '.' ∉ A.data)
    (h1 : key ≠ A ++ ".tool" ++ ".default")
    (h2 : ∀ id item : String, '.' ∉ id.data → '.' ∉ item.data →
      key ≠ "menu." ++ id ++ "." ++ item ++ "." ++ (A ++ ".tool" ++ ".default")) :
    (toolDefaultsToAdd m acc A).GetOk key = acc.GetOk key := by
  unfold toolDefaultsToAdd
  split_ifs
  · have hfold := keyed_fold_frame (menuToolDefaultKey (A ++ ".tool")) m.AsMap acc key (by
      intro e _ hg
      obtain ⟨id, item, hid, hitem, -, hk⟩ := (menuToolDefaultKey_eq_some A e.1 key hA).1 hg
      exact h2 id item hid hitem hk)
    dsimp only
    split
    · exact hfold
    · simp only [properties.Map.GetOk, properties.Map.Set]
      rw [assocGet_assocSet_ne _ _ _ _ (Ne.symm h1)]
      exact hfold
  · rfl

theorem toolDefaultsToAdd_present (m acc : properties.Map) (A : String)
    (h : m.ContainsKey (A ++ ".tool" ++ ".default") = true) :
    toolDefaultsToAdd m acc A = acc := by
  simp [toolDefaultsToAdd, h]

theorem toolDefaultsToAdd_value (m acc : properties.Map) (A : String) (hA : '.' ∉ A.data)
    (hn : (m.map Prod.fst).Nodup)
    (h : m.ContainsKey (A ++ ".tool" ++ ".default") = false) :
    (∀ tool, m.GetOk (A ++ ".tool") = some tool →
      (toolDefaultsToAdd m acc A).GetOk (A ++ ".tool" ++ ".default") = some tool) ∧
    (m.GetOk (A ++ ".tool") = none →
      (toolDefaultsToAdd m acc A).GetOk (A ++ ".tool" ++ ".default")
        = acc.GetOk (A ++ ".tool" ++ ".default")) ∧
    (∀ id item v : String, '.' ∉ id.data → '.' ∉ item.data →
      m.GetOk ("menu." ++ id ++ "." ++ item ++ "." ++ (A ++ ".tool")) = some v →
      (toolDefaultsToAdd m acc A).GetOk
        ("menu." ++ id ++ "." ++ item ++ "." ++ (A ++ ".tool" ++ ".default")) = some v) := by
  unfold toolDefaultsToAdd
  simp only [h, Bool.not_false, if_true]
  refine ⟨?_, ?_, ?_⟩
  · intro tool ht
    simp only [ht]
    simp only [properties.Map.GetOk, properties.Map.Set]
    exact assocGet_assocSet_self _ _ _
  · intro ht
    simp only [ht]
    refine keyed_fold_frame (menuToolDefaultKey (A ++ ".tool")) m.AsMap acc _ ?_
    intro e _ hg
    obtain ⟨id, item, hid, hitem, -, hk⟩ := (menuToolDefaultKey_eq_some A e.1 _ hA).1 hg
    exact tool_default_ne_menu A A id item hA hA hid hitem hk.symm
  · intro id item v hid hitem hv
    have hmem := assocGet_eq_some_mem _ _ _ hv
    have hval := keyed_fold_value (menuToolDefaultKey (A ++ ".tool")) m.AsMap
      (menuToolDefaultKey_inj A hA) hn acc _ hmem
      ("menu." ++ id ++ "." ++ item ++ "." ++ (A ++ ".tool" ++ ".default"))
      ((menuToolDefaultKey_eq_some A _ _ hA).2 ⟨id, item, hid, hitem, rfl, rfl⟩)
    split
    · exact hval
    · simp only [properties.Map.GetOk, properties.Map.Set]
      rw [assocGet_assocSet_ne _ _ _ _ (Ne.symm (tool_default_ne_menu A A id item hA hA hid hitem))]
      exact hval

end packagemanager

namespace packagemanager

/-- The conversion written with the loop body `toolDefaultsToAdd`. -/
theorem convertUploadTools_eq (m : properties.Map) :
    convertUploadToolsToPluggableDiscovery m =
      m.Merge (["upload", "bootloader", "program"].foldl (toolDefaultsToAdd m)
        properties.NewMap) := by
  have hstep : ∀ A : String, (fun (acc : properties.Map) (e : String × String) =>
      if !strings.HasPrefix e.1 "menu." then acc
      else
        let split := strings.Split e.1 '.'
        if split.length ≠ 5 || split.getD 3 "" ++ "." ++ split.getD 4 "" ≠ A ++ ".tool" then acc
        else
          acc.Set (split.getD 0 "" ++ "." ++ split.getD 1 "" ++ "." ++ split.getD 2 "" ++ "."
            ++ (A ++ ".tool" ++ ".default")) e.2) =
      (fun (acc : properties.Map) (e : String × String) =>
        match menuToolDefaultKey (A ++ ".tool") e.1 with
        | none => acc
        | some k => acc.Set k e.2) := by
    intro A
    funext acc e
    unfold menuToolDefaultKey
    by_cases hp : strings.HasPrefix e.1 "menu." = true
    · simp only [hp, Bool.not_true, Bool.false_eq_true, if_false]
      split_ifs <;> rfl
    · have hp' : strings.HasPrefix e.1 "menu." = false := by simpa using hp
      simp only [hp', Bool.not_false, if_true]
  unfold convertUploadToolsToPluggableDiscovery toolDefaultsToAdd
  simp only [hstep]

theorem toolDefaultsToAdd_nodupKeys (m acc : properties.Map) (A : String)
    (h : (acc.map Prod.fst).Nodup) : ((toolDefaultsToAdd m acc A).map Prod.fst).Nodup := by
  unfold toolDefaultsToAdd
  have hfold : ((m.AsMap.foldl (fun (acc : properties.Map) e =>
      match menuToolDefaultKey (A ++ ".tool") e.1 with
      | none => acc
      | some k => acc.Set k e.2) acc).map Prod.fst).Nodup := by
    refine foldl_invariant (fun acc : properties.Map => (acc.map Prod.fst).Nodup) _ _ _ h ?_
    intro acc e _ hacc
    dsimp only
    split
    · exact hacc
    · exact properties.Set_nodupKeys _ _ _ hacc
  split_ifs
  · dsimp only
    split
    · exact hfold
    · exact properties.Set_nodupKeys _ _ _ hfold
  · exact h

/-- What the conversion leaves under a key: the value collected in `propsToAdd`, or
else the value the map had. -/
theorem convertUploadTools_GetOk (m : properties.Map) (key : String) :
    (convertUploadToolsToPluggableDiscovery m).GetOk key =
      ((["upload", "bootloader", "program"].foldl (toolDefaultsToAdd m)
        properties.NewMap).GetOk key).orElse fun _ => m.GetOk key := by
  rw [convertUploadTools_eq, properties.GetOk_Merge]
  have hn : ((["upload", "bootloader", "program"].foldl (toolDefaultsToAdd m)
      properties.NewMap).map Prod.fst).Nodup :=
    foldl_invariant (fun acc : properties.Map => (acc.map Prod.fst).Nodup) _ _ _
      (by simp [properties.NewMap]) (fun acc A _ h => toolDefaultsToAdd_nodupKeys m acc A h)
  rw [assocGet_reverse_nodup _ _ hn]
  rfl

theorem toolDefaultsToAdd_fold_frame (m : properties.Map) (L : List String)
    (acc : properties.Map) (key : String) (hL : ∀ B ∈ L, '.' ∉ B.data)
    (h : ∀ B ∈ L, key ≠ B ++ ".tool" ++ ".default" ∧
      ∀ id item : String, '.' ∉ id.data → '.' ∉ item.data →
        key ≠ "menu." ++ id ++ "." ++ item ++ "." ++ (B ++ ".tool" ++ ".default")) :
    (L.foldl (toolDefaultsToAdd m) acc).GetOk key = acc.GetOk key := by
  induction L generalizing acc with
  | nil => rfl
  | cons B L ih =>
    simp only [List.foldl_cons]
    rw [ih _ (fun B' hB' => hL B' (List.mem_cons_of_mem _ hB'))
      (fun B' hB' => h B' (List.mem_cons_of_mem _ hB'))]
    exact toolDefaultsToAdd_frame m acc B key (hL B (List.mem_cons_self _ _))
      (h B (List.mem_cons_self _ _)).1 (h B (List.mem_cons_self _ _)).2

/-- A key of the action `A` is decided by the loop body for `A` alone. -/
theorem toolDefaultsToAdd_fold_at (m : properties.Map) (L : List String) (acc : properties.Map)
    (A key : String) (hL : ∀ B ∈ L, '.' ∉ B.data) (hnd : L.Nodup) (hA : A ∈ L)
    (hkey : key = A ++ ".tool" ++ ".default" ∨
      ∃ id item : String, '.' ∉ id.data ∧ '.' ∉ item.data ∧
        key = "menu." ++ id ++ "." ++ item ++ "." ++ (A ++ ".tool" ++ ".default")) :
    ∃ acc' : properties.Map, acc'.GetOk key = acc.GetOk key ∧
      (L.foldl (toolDefaultsToAdd m) acc).GetOk key = (toolDefaultsToAdd m acc' A).GetOk key := by
  have hAd : '.' ∉ A.data := hL A hA
  have hother : ∀ B, '.' ∉ B.data → B ≠ A → key ≠ B ++ ".tool" ++ ".default" ∧
      ∀ id item : String, '.' ∉ id.data → '.' ∉ item.data →
        key ≠ "menu." ++ id ++ "." ++ item ++ "." ++ (B ++ ".tool" ++ ".default") := by
    intro B hB hne
    rcases hkey with hk | ⟨id0, item0, hid0, hitem0, hk⟩
    · subst hk
      refine ⟨fun h => hne (tool_default_inj A B hAd hB h).symm, fun id item hid hitem h => ?_⟩
      exact tool_default_ne_menu A B id item hAd hB hid hitem h.symm
    · subst hk
      refine ⟨tool_default_ne_menu B A id0 item0 hB hAd hid0 hitem0, fun id item hid hitem h => ?_⟩
      exact hne (menu_default_inj A B id0 item0 id item hAd hB hid0 hitem0 hid hitem h).2.2.symm
  induction L generalizing acc with
  | nil => cases hA
  | cons B L ih =>
    simp only [List.foldl_cons]
    simp only [List.nodup_cons] at hnd
    by_cases hBA : B = A
    · subst hBA
      refine ⟨acc, rfl, ?_⟩
      refine toolDefaultsToAdd_fold_frame m L _ key
        (fun B' hB' => hL B' (List.mem_cons_of_mem _ hB')) ?_
      intro B' hB'
      exact hother B' (hL B' (List.mem_cons_of_mem _ hB')) (fun h => hnd.1 (h ▸ hB'))
    · have hA' : A ∈ L := by
        rcases List.mem_cons.1 hA with h | h
        · exact absurd h.symm hBA
        · exact h
      obtain ⟨acc', h1, h2⟩ := ih (toolDefaultsToAdd m acc B)
        (fun B' hB' => hL B' (List.mem_cons_of_mem _ hB')) hnd.2 hA'
      refine ⟨acc', h1.trans ?_, h2⟩
      have ho := hother B (hL B (List.mem_cons_self _ _)) hBA
      exact toolDefaultsToAdd_frame m acc B key (hL B (List.mem_cons_self _ _)) ho.1 ho.2

end packagemanager

namespace packagemanager

theorem actions_dotfree : ∀ B ∈ ["upload", "bootloader", "program"], '.' ∉ B.data := by
  intro B hB
  simp only [List.mem_cons, List.mem_singleton, List.not_mem_nil, or_false] at hB
  rcases hB with rfl | rfl | rfl <;> decide

/-- C12: for a property map (with no key twice) and an action among `upload`,
`bootloader`, `program`.  If `<action>.tool.default` was absent: afterwards it
equals `<action>.tool` when that key exists and is still absent when
`<action>.tool` is missing (no failure), and for every five-segment key
`menu.<id>.<item>.<action>.tool` the key `menu.<id>.<item>.<action>.tool.default`
has the same value.  If `<action>.tool.default` was present, the keys of that
action keep what they had.  Every key that is not `<B>.tool.default` or
`menu.<id>.<item>.<B>.tool.default` for one of the three actions `B` keeps what it
had (present with the same value, or absent). -/
theorem convertUploadTools_sets_tool_defaults (m : properties.Map)
    (hn : (m.map Prod.fst).Nodup) (action : String)
    (hA : action ∈ ["upload", "bootloader", "program"]) :
    (m.ContainsKey (action ++ ".tool" ++ ".default") = false →
      (∀ tool, m.GetOk (action ++ ".tool") = some tool →
        (convertUploadToolsToPluggableDiscovery m).GetOk (action ++ ".tool" ++ ".default")
          = some tool) ∧
      (m.GetOk (action ++ ".tool") = none →
        (convertUploadToolsToPluggableDiscovery m).GetOk (action ++ ".tool" ++ ".default")
          = none) ∧
      (∀ id item value : String, '.' ∉ id.data → '.' ∉ item.data →
        m.GetOk ("menu." ++ id ++ "." ++ item ++ "." ++ (action ++ ".tool")) = some value →
        (convertUploadToolsToPluggableDiscovery m).GetOk
          ("menu." ++ id ++ "." ++ item ++ "." ++ (action ++ ".tool" ++ ".default"))
            = some value)) ∧
    (m.ContainsKey (action ++ ".tool" ++ ".default") = true →
      (convertUploadToolsToPluggableDiscovery m).GetOk (action ++ ".tool" ++ ".default")
        = m.GetOk (action ++ ".tool" ++ ".default") ∧
      (∀ id item : String, '.' ∉ id.data → '.' ∉ item.data →
        (convertUploadToolsToPluggableDiscovery m).GetOk
          ("menu." ++ id ++ "." ++ item ++ "." ++ (action ++ ".tool" ++ ".default")) =
        m.GetOk ("menu." ++ id ++ "." ++ item ++ "." ++ (action ++ ".tool" ++ ".default")))) ∧
    (∀ key : String,
      (∀ B ∈ ["upload", "bootloader", "program"], key ≠ B ++ ".tool" ++ ".default" ∧
        ∀ id item : String, '.' ∉ id.data → '.' ∉ item.data →
          key ≠ "menu." ++ id ++ "." ++ item ++ "." ++ (B ++ ".tool" ++ ".default")) →
      (convertUploadToolsToPluggableDiscovery m).GetOk key = m.GetOk key) := by
  have hAd := actions_dotfree action hA
  have hat := fun key hkey => toolDefaultsToAdd_fold_at m ["upload", "bootloader", "program"]
    properties.NewMap action key actions_dotfree (by decide) hA hkey
  refine ⟨fun habs => ⟨?_, ?_, ?_⟩, fun hpres => ⟨?_, ?_⟩, ?_⟩
  · intro tool ht
    obtain ⟨acc', -, h2⟩ := hat _ (Or.inl rfl)
    rw [convertUploadTools_GetOk, h2, (toolDefaultsToAdd_value m acc' action hAd hn habs).1 tool ht]
    rfl
  · intro ht
    obtain ⟨acc', h1, h2⟩ := hat _ (Or.inl rfl)
    rw [convertUploadTools_GetOk, h2, (toolDefaultsToAdd_value m acc' action hAd hn habs).2.1 ht,
      h1]
    have : m.GetOk (action ++ ".tool" ++ ".default") = none := by
      simp only [properties.Map.ContainsKey, properties.Map.GetOk] at habs ⊢
      cases hg : assocGet m (action ++ ".tool" ++ ".default") with
      | none => rfl
      | some v => rw [hg] at habs; cases habs
    rw [this]
    rfl
  · intro id item value hid hitem hv
    obtain ⟨acc', -, h2⟩ := hat _ (Or.inr ⟨id, item, hid, hitem, rfl⟩)
    rw [convertUploadTools_GetOk, h2,
      (toolDefaultsToAdd_value m acc' action hAd hn habs).2.2 id item value hid hitem hv]
    rfl
  · obtain ⟨acc', h1, h2⟩ := hat _ (Or.inl rfl)
    rw [convertUploadTools_GetOk, h2, toolDefaultsToAdd_present m acc' action hpres, h1]
    rfl
  · intro id item hid hitem
    obtain ⟨acc', h1, h2⟩ := hat _ (Or.inr ⟨id, item, hid, hitem, rfl⟩)
    rw [convertUploadTools_GetOk, h2, toolDefaultsToAdd_present m acc' action hpres, h1]
    rfl
  · intro key hkey
    rw [convertUploadTools_GetOk, toolDefaultsToAdd_fold_frame m _ _ key actions_dotfree hkey]
    rfl

/-- Witness of C12: a board whose menu item `cpu.fast` selects another upload tool. -/
theorem convertUploadTools_sets_tool_defaults_witness :
    (convertUploadToolsToPluggableDiscovery
      [("name", "Uno"), ("upload.tool", "avrdude"),
       ("menu.cpu.fast.upload.tool", "bossac")]).GetOk "upload.tool.default" = some "avrdude" ∧
    (convertUploadToolsToPluggableDiscovery
      [("name", "Uno"), ("upload.tool", "avrdude"),
       ("menu.cpu.fast.upload.tool", "bossac")]).GetOk "menu.cpu.fast.upload.tool.default"
        = some "bossac" :=
  ⟨((convertUploadTools_sets_tool_defaults
      [("name", "Uno"), ("upload.tool", "avrdude"), ("menu.cpu.fast.upload.tool", "bossac")]
      (by decide) "upload" (by decide)).1 (by decide)).1 "avrdude" (by decide),
   ((convertUploadTools_sets_tool_defaults
      [("name", "Uno"), ("upload.tool", "avrdude"), ("menu.cpu.fast.upload.tool", "bossac")]
      (by decide) "upload" (by decide)).1 (by decide)).2.2 "cpu" "fast" "bossac"
        (by decide) (by decide) (by decide)⟩

end packagemanager

/-! ## Theorems: the conversion of a network upload tool -/

theorem assocGet_assocErase {α : Type} (m : List (String × α)) (k k' : String) :
    assocGet (assocErase m k) k' = if k = k' then none else assocGet m k' := by
  unfold assocErase
  induction m with
  | nil => simp [assocGet]
  | cons e m ih =>
    obtain ⟨a, b⟩ := e
    rw [List.filter_cons]
    by_cases ha : a = k
    · subst ha
      have : decide ((a, b).1 ≠ a) = false := by simp
      rw [this]
      simp only [Bool.false_eq_true, if_false]
      rw [ih]
      by_cases hk : a = k'
      · simp [hk]
      · simp [assocGet, hk]
    · have : decide ((a, b).1 ≠ k) = true := by simp [ha]
      rw [this]
      simp only [if_true, assocGet]
      by_cases hak : a = k'
      · subst hak
        have hk : ¬ k = a := fun h => ha h.symm
        simp [hk]
      · simp only [hak, if_false, ih]

namespace packagemanager

theorem prefixed_fold_GetOk (m : properties.Map) (pfx : String) (ks : List String)
    (acc : properties.Map) (k : String) :
    (ks.foldl (fun (res : properties.Map) k => res.Set (pfx ++ k) (m.Get k)) acc).GetOk (pfx ++ k) =
      if k ∈ ks then some (m.Get k) else acc.GetOk (pfx ++ k) := by
  induction ks generalizing acc with
  | nil => simp
  | cons k0 ks ih =>
    simp only [List.foldl_cons, ih, List.mem_cons]
    by_cases hin : k ∈ ks
    · simp [hin]
    · simp only [hin, if_false, or_false]
      simp only [properties.Map.GetOk, properties.Map.Set, assocGet_assocSet]
      by_cases hk : k = k0
      · subst hk
        simp
      · have : ¬ pfx ++ k0 = pfx ++ k := fun h => hk (string_append_left_cancel _ _ _ h).symm
        simp [hk, this]

theorem prefixed_fold_keys (m : properties.Map) (pfx : String) (ks : List String)
    (acc : properties.Map) (key : String) (h : ∀ k, key ≠ pfx ++ k) :
    (ks.foldl (fun (res : properties.Map) k => res.Set (pfx ++ k) (m.Get k)) acc).GetOk key =
      acc.GetOk key := by
  induction ks generalizing acc with
  | nil => rfl
  | cons k0 ks ih =>
    simp only [List.foldl_cons, ih]
    simp only [properties.Map.GetOk, properties.Map.Set]
    exact assocGet_assocSet_ne _ _ _ _ (Ne.symm (h k0))

theorem Get_of_GetOk (m : properties.Map) (k : String) :
    (if k ∈ m.Keys then some (m.Get k) else none) = m.GetOk k := by
  simp only [properties.Map.Keys, properties.Map.Get, properties.Map.GetOk]
  cases h : assocGet m k with
  | none =>
    have := (assocGet_eq_none_iff m k).1 h
    simp [this]
  | some v =>
    have hmem : k ∈ m.map Prod.fst := by
      by_contra hn
      rw [(assocGet_eq_none_iff m k).2 hn] at h
      cases h
    simp [hmem]

/-- The result of `convertLegacyNetworkPatternToPluggableDiscovery`: `nil` without
`upload.network_pattern`; otherwise the map that has, under `tools.<new>.k`, what the
converted tool has under `k`, and nothing else. -/
theorem convertLegacyNetworkPattern_spec (props : properties.Map) (newToolName : String) :
    (props.GetOk "upload.network_pattern" = none →
      convertLegacyNetworkPatternToPluggableDiscovery props newToolName = none) ∧
    (∀ pattern0, props.GetOk "upload.network_pattern" = some pattern0 →
      ∃ res, convertLegacyNetworkPatternToPluggableDiscovery props newToolName = some res ∧
        (∀ k, res.GetOk ("tools." ++ newToolName ++ "." ++ k)
          = (networkToolProperties props pattern0).GetOk k) ∧
        (∀ key, (∀ k, key ≠ "tools." ++ newToolName ++ "." ++ k) → res.GetOk key = none)) := by
  constructor
  · intro h
    simp [convertLegacyNetworkPatternToPluggableDiscovery, h]
  · intro pattern0 h
    refine ⟨(networkToolProperties props pattern0).Keys.foldl
      (fun (res : properties.Map) k => res.Set ("tools." ++ newToolName ++ "." ++ k)
        ((networkToolProperties props pattern0).Get k)) properties.NewMap, ?_, ?_, ?_⟩
    · simp only [convertLegacyNetworkPatternToPluggableDiscovery, h]
      rfl
    · intro k
      rw [prefixed_fold_GetOk]
      exact Get_of_GetOk _ k
    · intro key hkey
      rw [prefixed_fold_keys _ _ _ _ key hkey]
      rfl

end packagemanager

theorem tools_key_form (T k : String) :
    "tools" ++ "." ++ (T ++ "." ++ k) = "tools." ++ T ++ "." ++ k := by
  apply String.ext
  simp [String.data_append]

theorem pluggable_name_dotfree (T : String) (hT : '.' ∉ T.data) :
    '.' ∉ (T ++ "__pluggable_network").data := by
  simp only [String.data_append, List.mem_append, not_or]
  exact ⟨hT, by decide⟩

theorem tools_key_inj (X X' k k' : String) (hX : '.' ∉ X.data) (hX' : '.' ∉ X'.data)
    (h : "tools." ++ X ++ "." ++ k = "tools." ++ X' ++ "." ++ k') : X = X' ∧ k = k' := by
  have h2 : X ++ "." ++ k = X' ++ "." ++ k' := by
    apply string_append_left_cancel "tools."
    simpa only [String.append_assoc] using h
  exact (dotted_key_eq_iff X' X k' k hX' hX).1 h2

namespace packagemanager

theorem convertLegacyPlatform_fold_props (tools : List (String × properties.Map))
    (pl : cores.PlatformRelease) :
    (tools.foldl (fun (pl : cores.PlatformRelease) e =>
      if !e.2.ContainsKey "upload.network_pattern" then pl
      else
        { pl with
          Properties := pl.Properties.Merge
            ((convertLegacyNetworkPatternToPluggableDiscovery e.2
              (e.1 ++ "__pluggable_network")).getD properties.NewMap)
          Boards := pl.Boards.map fun b =>
            (b.1, addNetworkUpload e.1 (e.1 ++ "__pluggable_network") b.2) }) pl).Properties =
      tools.foldl (fun (props : properties.Map) e =>
        if !e.2.ContainsKey "upload.network_pattern" then props
        else props.Merge
          ((convertLegacyNetworkPatternToPluggableDiscovery e.2
            (e.1 ++ "__pluggable_network")).getD properties.NewMap)) pl.Properties := by
  induction tools generalizing pl with
  | nil => rfl
  | cons e tools ih =>
    simp only [List.foldl_cons]
    rw [ih]
    split_ifs <;> rfl

theorem convertedProps_nodupKeys (props : properties.Map) (newToolName : String) :
    (((convertLegacyNetworkPatternToPluggableDiscovery props newToolName).getD
      properties.NewMap).map Prod.fst).Nodup := by
  unfold convertLegacyNetworkPatternToPluggableDiscovery
  split
  · simp [properties.NewMap]
  · simp only [Option.getD_some]
    exact foldl_invariant (fun res : properties.Map => (res.map Prod.fst).Nodup) _ _ _
      (by simp [properties.NewMap]) (fun res k _ h => properties.Set_nodupKeys _ _ _ h)

/-- One round of the loop over the tools, on the properties of the platform. -/
theorem mergeConverted_GetOk (props tp : properties.Map) (T key : String) :
    (props.Merge ((convertLegacyNetworkPatternToPluggableDiscovery tp
        (T ++ "__pluggable_network")).getD properties.NewMap)).GetOk key =
      (((convertLegacyNetworkPatternToPluggableDiscovery tp
        (T ++ "__pluggable_network")).getD properties.NewMap).GetOk key).orElse
          fun _ => props.GetOk key := by
  rw [properties.GetOk_Merge, assocGet_reverse_nodup _ _ (convertedProps_nodupKeys tp _)]
  rfl

theorem mergeConverted_frame (props tp : properties.Map) (T key : String)
    (h : ∀ k, key ≠ "tools." ++ (T ++ "__pluggable_network") ++ "." ++ k) :
    (props.Merge ((convertLegacyNetworkPatternToPluggableDiscovery tp
        (T ++ "__pluggable_network")).getD properties.NewMap)).GetOk key = props.GetOk key := by
  rw [mergeConverted_GetOk]
  cases hp : tp.GetOk "upload.network_pattern" with
  | none =>
    rw [(convertLegacyNetworkPattern_spec tp _).1 hp]
    rfl
  | some p0 =>
    obtain ⟨res, hres, -, hnone⟩ := (convertLegacyNetworkPattern_spec tp
      (T ++ "__pluggable_network")).2 p0 hp
    rw [hres, Option.getD_some, hnone key h]
    rfl

theorem mergeConverted_at (props tp : properties.Map) (T k p0 : String)
    (hp : tp.GetOk "upload.network_pattern" = some p0) :
    (props.Merge ((convertLegacyNetworkPatternToPluggableDiscovery tp
        (T ++ "__pluggable_network")).getD properties.NewMap)).GetOk
          ("tools." ++ (T ++ "__pluggable_network") ++ "." ++ k) =
      ((networkToolProperties tp p0).GetOk k).orElse
        fun _ => props.GetOk ("tools." ++ (T ++ "__pluggable_network") ++ "." ++ k) := by
  rw [mergeConverted_GetOk]
  obtain ⟨res, hres, hget, -⟩ := (convertLegacyNetworkPattern_spec tp
    (T ++ "__pluggable_network")).2 p0 hp
  rw [hres, Option.getD_some, hget k]

/-- A key that is under no `tools.<T>__pluggable_network.` keeps its value through the
loop over the tools. -/
theorem convertLegacy_props_frame (tools : List (String × properties.Map))
    (props : properties.Map) (key : String)
    (h : ∀ e ∈ tools, e.2.ContainsKey "upload.network_pattern" = true →
      ∀ k, key ≠ "tools." ++ (e.1 ++ "__pluggable_network") ++ "." ++ k) :
    (tools.foldl (fun (props : properties.Map) e =>
        if !e.2.ContainsKey "upload.network_pattern" then props
        else props.Merge
          ((convertLegacyNetworkPatternToPluggableDiscovery e.2
            (e.1 ++ "__pluggable_network")).getD properties.NewMap)) props).GetOk key =
      props.GetOk key := by
  induction tools generalizing props with
  | nil => rfl
  | cons e tools ih =>
    simp only [List.foldl_cons]
    rw [ih _ (fun e' he' => h e' (List.mem_cons_of_mem _ he'))]
    by_cases hc : e.2.ContainsKey "upload.network_pattern" = true
    · simp only [hc, Bool.not_true, Bool.false_eq_true, if_false]
      exact mergeConverted_frame props e.2 e.1 key (h e (List.mem_cons_self _ _) hc)
    · have hc' : e.2.ContainsKey "upload.network_pattern" = false := by simpa using hc
      simp only [hc', Bool.not_false, if_true]

/-- The keys under `tools.<T>__pluggable_network.` are decided by the round of the
tool `T` alone. -/
theorem convertLegacy_props_at (tools : List (String × properties.Map))
    (props : properties.Map) (T : String) (tp : properties.Map) (k p0 : String)
    (hd : ∀ e ∈ tools, '.' ∉ e.1.data) (hn : (tools.map Prod.fst).Nodup)
    (he : (T, tp) ∈ tools) (hp : tp.GetOk "upload.network_pattern" = some p0) :
    (tools.foldl (fun (props : properties.Map) e =>
        if !e.2.ContainsKey "upload.network_pattern" then props
        else props.Merge
          ((convertLegacyNetworkPatternToPluggableDiscovery e.2
            (e.1 ++ "__pluggable_network")).getD properties.NewMap)) props).GetOk
          ("tools." ++ (T ++ "__pluggable_network") ++ "." ++ k) =
      ((networkToolProperties tp p0).GetOk k).orElse
        fun _ => props.GetOk ("tools." ++ (T ++ "__pluggable_network") ++ "." ++ k) := by
  have hTd : '.' ∉ T.data := hd (T, tp) he
  have hother : ∀ e ∈ tools, e.1 ≠ T →
      ∀ k', "tools." ++ (T ++ "__pluggable_network") ++ "." ++ k ≠
        "tools." ++ (e.1 ++ "__pluggable_network") ++ "." ++ k' := by
    intro e hmem hne k' heq
    have h1 := (tools_key_inj _ _ _ _ (pluggable_name_dotfree T hTd)
      (pluggable_name_dotfree e.1 (hd e hmem)) heq).1
    exact hne (string_append_right_cancel _ _ _ h1).symm
  induction tools generalizing props with
  | nil => cases he
  | cons e tools ih =>
    simp only [List.foldl_cons]
    simp only [List.map_cons, List.nodup_cons] at hn
    rcases List.mem_cons.1 he with h0 | hin
    · subst h0
      have hc : properties.Map.ContainsKey tp "upload.network_pattern" = true := by
        simp only [properties.Map.ContainsKey, properties.Map.GetOk] at hp ⊢
        rw [hp]; rfl
      simp only [hc, Bool.not_true, Bool.false_eq_true, if_false]
      rw [convertLegacy_props_frame tools _ _ ?_]
      · exact mergeConverted_at props tp T k p0 hp
      · intro e' he' _ k'
        refine hother e' (List.mem_cons_of_mem _ he') ?_ k'
        intro heq
        exact hn.1 (List.mem_map.2 ⟨e', he', heq⟩)
    · have hne : e.1 ≠ T := by
        intro heq
        exact hn.1 (List.mem_map.2 ⟨(T, tp), hin, heq.symm⟩)
      rw [ih _ (fun e' he' => hd e' (List.mem_cons_of_mem _ he')) hn.2 hin
        (fun e' he' => hother e' (List.mem_cons_of_mem _ he'))]
      congr 1
      funext _
      by_cases hc : e.2.ContainsKey "upload.network_pattern" = true
      · simp only [hc, Bool.not_true, Bool.false_eq_true, if_false]
        exact mergeConverted_frame props e.2 e.1 _
          (hother e (List.mem_cons_self _ _) hne)
      · have hc' : e.2.ContainsKey "upload.network_pattern" = false := by simpa using hc
        simp only [hc', Bool.not_false, if_true]

end packagemanager

namespace packagemanager

theorem mem_networkUploadTools (platform : cores.PlatformRelease) (T : String) :
    T ∈ networkUploadTools platform ↔
      ∃ tp, (T, tp) ∈ (platform.Properties.SubTree "tools").FirstLevelOf ∧
        tp.ContainsKey "upload.network_pattern" = true := by
  unfold networkUploadTools
  simp only [List.mem_map, List.mem_filter]
  constructor
  · rintro ⟨e, ⟨he, hc⟩, rfl⟩
    exact ⟨e.2, he, hc⟩
  · rintro ⟨tp, he, hc⟩
    exact ⟨(T, tp), ⟨he, hc⟩, rfl⟩

/-- The properties of a tool, as the loop over the tools sees them, are the entries
`tools.<T>.k` of the platform. -/
theorem toolProps_GetOk (M : properties.Map) (hn : (M.map Prod.fst).Nodup) (T : String)
    (tp : properties.Map) (he : (T, tp) ∈ (M.SubTree "tools").FirstLevelOf) (k : String) :
    tp.GetOk k = M.GetOk ("tools." ++ T ++ "." ++ k) := by
  have hTd := properties.FirstLevelOf_keys_dotfree _ _ he
  have hget := assocGet_of_mem_nodup _ T tp (properties.FirstLevelOf_nodupKeys _) he
  have h1 := properties.FirstLevelOf_GetOk (M.SubTree "tools") T k hTd
    (properties.SubTree_nodupKeys M "tools")
  rw [hget, Option.getD_some, properties.SubTree_GetOk M "tools" _ hn, tools_key_form] at h1
  exact h1

theorem networkToolProperties_GetOk (tp : properties.Map) (p0 k : String)
    (h1 : k ≠ "upload.network_pattern") (h2 : k ≠ "upload.pattern")
    (h3 : k ≠ "upload.field.password") (h4 : k ≠ "upload.field.password.secret") :
    (networkToolProperties tp p0).GetOk k = tp.GetOk k := by
  unfold networkToolProperties
  simp only [properties.Map.GetOk, properties.Map.Set, properties.Map.Remove]
  rw [assocGet_assocSet_ne _ _ _ _ (Ne.symm h2)]
  split_ifs
  · rw [assocGet_assocSet_ne _ _ _ _ (Ne.symm h4), assocGet_assocSet_ne _ _ _ _ (Ne.symm h3),
      assocGet_assocErase, if_neg (Ne.symm h1)]
  · rw [assocGet_assocErase, if_neg (Ne.symm h1)]

theorem networkToolProperties_no_network_pattern (tp : properties.Map) (p0 : String) :
    (networkToolProperties tp p0).GetOk "upload.network_pattern" = none := by
  unfold networkToolProperties
  simp only [properties.Map.GetOk, properties.Map.Set, properties.Map.Remove]
  rw [assocGet_assocSet_ne _ _ _ _ (by decide)]
  split_ifs
  · rw [assocGet_assocSet_ne _ _ _ _ (by decide), assocGet_assocSet_ne _ _ _ _ (by decide),
      assocGet_assocErase, if_pos rfl]
  · rw [assocGet_assocErase, if_pos rfl]

/-- C14: for a legacy platform (no key twice) in which no key is under
`tools.<T'>__pluggable_network.` for a tool `T'` with `upload.network_pattern`, and
for every tool `T` that has `upload.network_pattern`, after
`convertLegacyPlatformToPluggableDiscovery`: each property `k` of `T` other than
`upload.network_pattern`, `upload.pattern` and the two password fields is found with
its value under `tools.<T>__pluggable_network.k`; there is no key
`tools.<T>__pluggable_network.upload.network_pattern`; every key `tools.<T>.k` has
what it had (so `tools.<T>.upload.network_pattern` keeps its value); and every key
whose lookup changed is under `tools.<T'>__pluggable_network.` for such a tool
`T'`. -/
theorem convertLegacyPlatform_network_tool_keys (platform : cores.PlatformRelease) (T : String)
    (hn : (platform.Properties.map Prod.fst).Nodup)
    (hT : T ∈ networkUploadTools platform)
    (hfresh : ∀ T' ∈ networkUploadTools platform, ∀ key ∈ platform.Properties.Keys,
      strings.HasPrefix key ("tools." ++ (T' ++ "__pluggable_network") ++ ".") = false) :
    (∀ k v, platform.Properties.GetOk ("tools." ++ T ++ "." ++ k) = some v →
      k ≠ "upload.network_pattern" → k ≠ "upload.pattern" →
      k ≠ "upload.field.password" → k ≠ "upload.field.password.secret" →
      (convertLegacyPlatformToPluggableDiscovery platform).Properties.GetOk
        ("tools." ++ (T ++ "__pluggable_network") ++ "." ++ k) = some v) ∧
    (convertLegacyPlatformToPluggableDiscovery platform).Properties.GetOk
      ("tools." ++ (T ++ "__pluggable_network") ++ "." ++ "upload.network_pattern") = none ∧
    (∀ k, (convertLegacyPlatformToPluggableDiscovery platform).Properties.GetOk
        ("tools." ++ T ++ "." ++ k) = platform.Properties.GetOk ("tools." ++ T ++ "." ++ k)) ∧
    (∀ key, (convertLegacyPlatformToPluggableDiscovery platform).Properties.GetOk key
        ≠ platform.Properties.GetOk key →
      ∃ T' ∈ networkUploadTools platform,
        strings.HasPrefix key ("tools." ++ (T' ++ "__pluggable_network") ++ ".") = true) := by
  obtain ⟨tp, he, hc⟩ := (mem_networkUploadTools platform T).1 hT
  have hTd := properties.FirstLevelOf_keys_dotfree _ _ he
  have hout : (convertLegacyPlatformToPluggableDiscovery platform).Properties = _ :=
    convertLegacyPlatform_fold_props (platform.Properties.SubTree "tools").FirstLevelOf platform
  obtain ⟨p0, hp0⟩ : ∃ p0, tp.GetOk "upload.network_pattern" = some p0 := by
    simp only [properties.Map.ContainsKey, properties.Map.GetOk] at hc ⊢
    exact Option.isSome_iff_exists.1 hc
  have hat := fun k => convertLegacy_props_at (platform.Properties.SubTree "tools").FirstLevelOf
    platform.Properties T tp k p0 (fun e he' => properties.FirstLevelOf_keys_dotfree _ _ he')
    (properties.FirstLevelOf_nodupKeys _) he hp0
  have hnew : ∀ T' ∈ networkUploadTools platform, ∀ k,
      platform.Properties.GetOk ("tools." ++ (T' ++ "__pluggable_network") ++ "." ++ k) = none := by
    intro T' hT' k
    cases hg : platform.Properties.GetOk ("tools." ++ (T' ++ "__pluggable_network") ++ "." ++ k) with
    | none => rfl
    | some v =>
      have hmem : ("tools." ++ (T' ++ "__pluggable_network") ++ "." ++ k) ∈
          platform.Properties.Keys := by
        have := assocGet_eq_some_mem _ _ _ hg
        exact List.mem_map.2 ⟨_, this, rfl⟩
      have := hfresh T' hT' _ hmem
      rw [strings.HasPrefix_append] at this
      cases this
  have hframe : ∀ key, (∀ T' ∈ networkUploadTools platform,
        strings.HasPrefix key ("tools." ++ (T' ++ "__pluggable_network") ++ ".") = false) →
      (convertLegacyPlatformToPluggableDiscovery platform).Properties.GetOk key
        = platform.Properties.GetOk key := by
    intro key hkey
    rw [hout]
    refine convertLegacy_props_frame _ _ key ?_
    intro e he' hc' k heq
    have := hkey e.1 ((mem_networkUploadTools platform e.1).2 ⟨e.2, he', hc'⟩)
    rw [heq, strings.HasPrefix_append] at this
    cases this
  refine ⟨?_, ?_, ?_, ?_⟩
  · intro k v hv h1 h2 h3 h4
    rw [hout, hat k, networkToolProperties_GetOk tp p0 k h1 h2 h3 h4,
      toolProps_GetOk platform.Properties hn T tp he k, hv]
    rfl
  · rw [hout, hat, networkToolProperties_no_network_pattern, hnew T hT]
    rfl
  · intro k
    apply hframe
    intro T' hT'
    cases hpre : strings.HasPrefix ("tools." ++ T ++ "." ++ k)
        ("tools." ++ (T' ++ "__pluggable_network") ++ ".") with
    | false => rfl
    | true =>
      exfalso
      obtain ⟨t, ht⟩ := (strings.HasPrefix_iff _ _).1 hpre
      obtain ⟨tp', he', -⟩ := (mem_networkUploadTools platform T').1 hT'
      have hT'd := properties.FirstLevelOf_keys_dotfree _ _ he'
      have hTT := (tools_key_inj T (T' ++ "__pluggable_network") k t hTd
        (pluggable_name_dotfree T' hT'd) ht).1
      have hpat : platform.Properties.GetOk ("tools." ++ T ++ "." ++ "upload.network_pattern")
          = some p0 := by
        rw [← toolProps_GetOk platform.Properties hn T tp he]
        exact hp0
      rw [hTT, hnew T' hT'] at hpat
      cases hpat
  · intro key hne
    by_contra hall
    apply hne
    apply hframe
    intro T' hT'
    cases hpre : strings.HasPrefix key ("tools." ++ (T' ++ "__pluggable_network") ++ ".") with
    | false => rfl
    | true => exact absurd ⟨T', hT', hpre⟩ hall

/-- Witness of C14: the platform of the examples, whose tool `avrdude` has a network
pattern; the property `upload.protocol` of the tool is copied. -/
theorem convertLegacyPlatform_network_tool_keys_witness :
    (convertLegacyPlatformToPluggableDiscovery
      { sampleRelease ["p"] with
        Properties := samplePlatformTxt ++ [("tools.avrdude.upload.protocol", "arduino")] }
      ).Properties.GetOk "tools.avrdude__pluggable_network.upload.protocol" = some "arduino" :=
  (convertLegacyPlatform_network_tool_keys
    { sampleRelease ["p"] with
      Properties := samplePlatformTxt ++ [("tools.avrdude.upload.protocol", "arduino")] }
    "avrdude" (by decide) (by decide) (by decide)).1 "upload.protocol" "arduino"
      (by decide) (by decide) (by decide) (by decide) (by decide)

end packagemanager

/-! ## Theorems: texts cut at their opening braces -/

namespace packagemanager

theorem scanRewrite_skip (D : List Char → Option (Nat × List Char)) (k : Nat) (s : List Char) :
    scanRewrite D k s = scanRewrite D 0 (s.drop k) := by
  induction s generalizing k with
  | nil => cases k <;> simp [scanRewrite]
  | cons c cs ih =>
    cases k with
    | zero => rfl
    | succ k => simp only [scanRewrite, List.drop_succ_cons, ih k]

/-- A scan that rewrites only at opening braces copies a text without opening
brace. -/
theorem scanRewrite_append_of_not_mem (D : List Char → Option (Nat × List Char))
    (hD : ∀ s n e, D s = some (n, e) → s.head? = some '\x7b') (a r : List Char)
    (ha : '\x7b' ∉ a) :
    scanRewrite D 0 (a ++ r) = a ++ scanRewrite D 0 r := by
  induction a with
  | nil => rfl
  | cons c cs ih =>
    simp only [List.mem_cons, not_or] at ha
    have hnone : D (c :: (cs ++ r)) = none := by
      cases h : D (c :: (cs ++ r)) with
      | none => rfl
      | some ne =>
        have := hD _ ne.1 ne.2 h
        simp only [List.head?_cons, Option.some.injEq] at this
        exact absurd this.symm ha.1
    show scanRewrite D 0 (c :: (cs ++ r)) = _
    rw [scanRewrite, hnone]
    simp only [List.cons_append, ih ha.2]

theorem replaceChars_eq_scanRewrite (old new : List Char) (k : Nat) (s : List Char) :
    strings.replaceChars old new k s =
      scanRewrite (fun t => if old.isPrefixOf t then some (old.length, new) else none) k s := by
  induction s generalizing k with
  | nil => cases k <;> simp [strings.replaceChars, scanRewrite]
  | cons c cs ih =>
    cases k with
    | zero =>
      simp only [strings.replaceChars, scanRewrite]
      split_ifs with h
      · simp only [ih]
      · simp only [ih]
    | succ k => simp only [strings.replaceChars, scanRewrite, ih]

/-- Every text is a text without opening brace followed by blocks. -/
theorem exists_braceBlocks (s : List Char) :
    ∃ (b0 : List Char) (bs : List (List Char)), s = b0 ++ braceBlocks bs ∧ '\x7b' ∉ b0 ∧
      ∀ b ∈ bs, '\x7b' ∉ b := by
  induction s with
  | nil => exact ⟨[], [], rfl, by simp, by simp⟩
  | cons c cs ih =>
    obtain ⟨b0, bs, hs, h0, hbs⟩ := ih
    by_cases hc : c = '\x7b'
    · subst hc
      refine ⟨[], b0 :: bs, ?_, by simp, ?_⟩
      · simp [braceBlocks, hs]
      · intro b hb
        rcases List.mem_cons.1 hb with h | h
        · rw [h]; exact h0
        · exact hbs b h
    · refine ⟨c :: b0, bs, by simp [hs], ?_, hbs⟩
      simp only [List.mem_cons, not_or]
      exact ⟨fun h => hc h.symm, h0⟩

/-- A text without opening brace that begins a block followed by blocks begins the
block itself. -/
theorem isPrefixOf_block (z b : List Char) (rest : List (List Char)) (hz : '\x7b' ∉ z) :
    z.isPrefixOf (b ++ braceBlocks rest) = z.isPrefixOf b := by
  induction b generalizing z with
  | nil =>
    cases z with
    | nil => simp
    | cons c z =>
      simp only [List.mem_cons, not_or] at hz
      cases rest with
      | nil => simp [braceBlocks]
      | cons b' rest =>
        have : (c == '\x7b') = false := by simpa using fun h => hz.1 h.symm
        simp [braceBlocks, List.isPrefixOf, this]
  | cons x b ih =>
    cases z with
    | nil => simp
    | cons c z =>
      simp only [List.mem_cons, not_or] at hz
      simp only [List.cons_append, List.isPrefixOf, List.append_eq, ih z hz.2]

/-- The scan, block by block. -/
theorem scanRewrite_braceBlocks (D : List Char → Option (Nat × List Char))
    (hD : ∀ s n e, D s = some (n, e) → s.head? = some '\x7b')
    (hloc : ∀ (b : List Char) (rest : List (List Char)) n e, '\x7b' ∉ b →
      D ('\x7b' :: (b ++ braceBlocks rest)) = some (n, e) →
        n - 1 ≤ b.length ∧ e.head? = some '\x7b')
    (bs : List (List Char)) (hbs : ∀ b ∈ bs, '\x7b' ∉ b) :
    scanRewrite D 0 (braceBlocks bs) = braceBlocks (rewriteBlocks D bs) := by
  induction bs with
  | nil => rfl
  | cons b rest ih =>
    have hb := hbs b (List.mem_cons_self _ _)
    have ih' := ih (fun x hx => hbs x (List.mem_cons_of_mem _ hx))
    simp only [braceBlocks, rewriteBlocks, scanRewrite]
    cases hd : D ('\x7b' :: (b ++ braceBlocks rest)) with
    | none =>
      simp only [scanRewrite_append_of_not_mem D hD b _ hb, ih']
    | some ne =>
      obtain ⟨n, e⟩ := ne
      obtain ⟨hn, he⟩ := hloc b rest n e hb hd
      simp only
      rw [scanRewrite_skip, List.drop_append_of_le_length hn,
        scanRewrite_append_of_not_mem D hD _ _ (fun h => hb (List.mem_of_mem_drop h)), ih']
      cases e with
      | nil => simp at he
      | cons x e =>
        simp only [List.head?_cons, Option.some.injEq] at he
        subst he
        simp

theorem rewriteBlocks_length (D : List Char → Option (Nat × List Char))
    (bs : List (List Char)) : (rewriteBlocks D bs).length = bs.length := by
  induction bs with
  | nil => rfl
  | cons b rest ih => simp [rewriteBlocks, ih]

/-- Where a brace token can occur: at the beginning of a block. -/
theorem containsChars_braceBlocks (z b0 : List Char) (bs : List (List Char))
    (hz : '\x7b' ∉ z) (h0 : '\x7b' ∉ b0) (hbs : ∀ b ∈ bs, '\x7b' ∉ b) :
    strings.containsChars ('\x7b' :: z) (b0 ++ braceBlocks bs) = bs.any fun b => z.isPrefixOf b := by
  have hcopy : ∀ (a r : List Char), '\x7b' ∉ a →
      strings.containsChars ('\x7b' :: z) (a ++ r) = strings.containsChars ('\x7b' :: z) r := by
    intro a r ha
    induction a with
    | nil => rfl
    | cons c cs ih =>
      simp only [List.mem_cons, not_or] at ha
      have : ('\x7b' == c) = false := by simpa using ha.1
      simp only [List.cons_append, strings.containsChars, List.isPrefixOf, this, Bool.false_and,
        Bool.false_or, List.append_eq, ih ha.2]
  rw [hcopy b0 _ h0]
  induction bs with
  | nil => simp [braceBlocks, strings.containsChars]
  | cons b rest ih =>
    simp only [braceBlocks, strings.containsChars, List.any_cons]
    rw [hcopy b _ (hbs b (List.mem_cons_self _ _)),
      ih (fun x hx => hbs x (List.mem_cons_of_mem _ hx))]
    simp only [List.isPrefixOf, beq_self_eq_true, Bool.true_and, isPrefixOf_block z b rest hz]

end packagemanager

namespace packagemanager

theorem mem_append_singleton_brace (c : Char) (x : List Char) (hx : c ∉ x) (y : Char) (hy : c ≠ y) :
    c ∉ x ++ [y] := by
  simp only [List.mem_append, List.mem_singleton, not_or]
  exact ⟨hx, hy⟩

/-- What `ReplaceAll` of a brace token by a brace token does to a block. -/
theorem rewriteBlocks_token (t u : List Char) (bs : List (List Char)) (ht : '\x7b' ∉ t) :
    rewriteBlocks (fun s => if ('\x7b' :: t).isPrefixOf s
      then some (('\x7b' :: t).length, '\x7b' :: u) else none) bs =
      bs.map fun b => if t.isPrefixOf b then u ++ b.drop t.length else b := by
  induction bs with
  | nil => rfl
  | cons b rest ih =>
    simp only [rewriteBlocks, List.map_cons, ih, List.isPrefixOf, beq_self_eq_true, Bool.true_and,
      isPrefixOf_block t b rest ht]
    split_ifs <;> simp

theorem isPrefixOf_length_le (a b : List Char) (h : a.isPrefixOf b = true) :
    a.length ≤ b.length :=
  (List.isPrefixOf_iff_prefix.1 h).length_le

theorem isPrefixOf_eq_append (a b : List Char) (h : a.isPrefixOf b = true) :
    b = a ++ b.drop a.length := by
  obtain ⟨r, hr⟩ := List.isPrefixOf_iff_prefix.1 h
  rw [← hr, List.drop_left]

/-- The function `ReplaceAll` of a brace token by a brace token, block by block. -/
theorem replaceChars_braceBlocks (t u b0 : List Char) (bs : List (List Char))
    (ht : '\x7b' ∉ t) (h0 : '\x7b' ∉ b0) (hbs : ∀ b ∈ bs, '\x7b' ∉ b) :
    strings.replaceChars ('\x7b' :: t) ('\x7b' :: u) 0 (b0 ++ braceBlocks bs) =
      b0 ++ braceBlocks (bs.map fun b => if t.isPrefixOf b then u ++ b.drop t.length else b) := by
  have hD : ∀ (s : List Char) (n : Nat) (e : List Char),
      (fun s => if ('\x7b' :: t).isPrefixOf s
        then some (('\x7b' :: t).length, '\x7b' :: u) else none) s = some (n, e) →
      s.head? = some '\x7b' := by
    intro s n e h
    cases s with
    | nil => simp [List.isPrefixOf] at h
    | cons c cs =>
      simp only [List.isPrefixOf, Bool.and_eq_true, beq_iff_eq] at h
      split_ifs at h with hc
      rw [hc.1]
      rfl
  rw [replaceChars_eq_scanRewrite, scanRewrite_append_of_not_mem _ hD b0 _ h0,
    scanRewrite_braceBlocks _ hD ?_ bs hbs, rewriteBlocks_token t u bs ht]
  intro b rest n e hb h
  simp only [List.isPrefixOf, beq_self_eq_true, Bool.true_and, isPrefixOf_block t b rest ht] at h
  split_ifs at h with hp
  simp only [Option.some.injEq, Prod.mk.injEq] at h
  obtain ⟨rfl, rfl⟩ := h
  exact ⟨by simpa using isPrefixOf_length_le t b hp, rfl⟩

theorem map_token_braceFree (t u : List Char) (bs : List (List Char)) (hu : '\x7b' ∉ u)
    (hbs : ∀ b ∈ bs, '\x7b' ∉ b) :
    ∀ b ∈ bs.map (fun b => if t.isPrefixOf b then u ++ b.drop t.length else b), '\x7b' ∉ b := by
  intro b hb
  obtain ⟨b', hb', rfl⟩ := List.mem_map.1 hb
  split_ifs
  · simp only [List.mem_append, not_or]
    exact ⟨hu, fun h => hbs b' hb' (List.mem_of_mem_drop h)⟩
  · exact hbs b' hb'

/-- A token body with its closing brace begins a text that begins with such a body
only if the two bodies are equal. -/
theorem closed_isPrefixOf (z t r : List Char) (hz : '\x7d' ∉ z) (ht : '\x7d' ∉ t)
    (h : (z ++ ['\x7d']).isPrefixOf (t ++ '\x7d' :: r) = true) : z = t := by
  induction z generalizing t with
  | nil =>
    cases t with
    | nil => rfl
    | cons d t =>
      simp only [List.mem_cons, not_or] at ht
      simp only [List.nil_append, List.cons_append, List.isPrefixOf, Bool.and_eq_true,
        beq_iff_eq] at h
      exact absurd h.1 ht.1
  | cons c z ih =>
    simp only [List.mem_cons, not_or] at hz
    cases t with
    | nil =>
      simp only [List.nil_append, List.cons_append, List.isPrefixOf, Bool.and_eq_true,
        beq_iff_eq] at h
      exact absurd h.1.symm hz.1
    | cons d t =>
      simp only [List.mem_cons, not_or] at ht
      simp only [List.cons_append, List.isPrefixOf, Bool.and_eq_true, beq_iff_eq] at h
      rw [h.1, ih t hz.2 ht.2 h.2]

theorem token_block_ne (z t u b : List Char) (hz : '\x7d' ∉ z) (ht : '\x7d' ∉ t)
    (hu : '\x7d' ∉ u) (h1 : z ≠ t) (h2 : z ≠ u) :
    (z ++ ['\x7d']).isPrefixOf
        (if (t ++ ['\x7d']).isPrefixOf b then (u ++ ['\x7d']) ++ b.drop (t ++ ['\x7d']).length else b)
      = (z ++ ['\x7d']).isPrefixOf b := by
  split_ifs with hp
  · have hb := isPrefixOf_eq_append _ b hp
    have hl : (z ++ ['\x7d']).isPrefixOf b = false := by
      cases h : (z ++ ['\x7d']).isPrefixOf b with
      | false => rfl
      | true =>
        rw [hb, List.append_assoc] at h
        exact absurd (closed_isPrefixOf z t _ hz ht h) h1
    rw [hl]
    cases h : (z ++ ['\x7d']).isPrefixOf (u ++ ['\x7d'] ++ b.drop (t ++ ['\x7d']).length) with
    | false => rfl
    | true =>
      rw [List.append_assoc] at h
      exact absurd (closed_isPrefixOf z u _ hz hu h) h2
  · rfl

theorem token_block_self (t u b : List Char) (ht : '\x7d' ∉ t) (hu : '\x7d' ∉ u) (h : t ≠ u) :
    (t ++ ['\x7d']).isPrefixOf
        (if (t ++ ['\x7d']).isPrefixOf b then (u ++ ['\x7d']) ++ b.drop (t ++ ['\x7d']).length else b)
      = false := by
  split_ifs with hp
  · cases h' : (t ++ ['\x7d']).isPrefixOf (u ++ ['\x7d'] ++ b.drop (t ++ ['\x7d']).length) with
    | false => rfl
    | true =>
      rw [List.append_assoc] at h'
      exact absurd (closed_isPrefixOf t u _ ht hu h') h
  · exact Bool.eq_false_iff.2 hp

/-- Replacing every occurrence of a brace token by another brace token neither
creates nor removes an occurrence of a third brace token. -/
theorem containsChars_replaceChars_other (z t u s : List Char)
    (hz : '\x7b' ∉ z ∧ '\x7d' ∉ z) (ht : '\x7b' ∉ t ∧ '\x7d' ∉ t) (hu : '\x7b' ∉ u ∧ '\x7d' ∉ u)
    (h1 : z ≠ t) (h2 : z ≠ u) :
    strings.containsChars ('\x7b' :: (z ++ ['\x7d']))
        (strings.replaceChars ('\x7b' :: (t ++ ['\x7d'])) ('\x7b' :: (u ++ ['\x7d'])) 0 s) =
      strings.containsChars ('\x7b' :: (z ++ ['\x7d'])) s := by
  obtain ⟨b0, bs, rfl, h0, hbs⟩ := exists_braceBlocks s
  have hz' := mem_append_singleton_brace '\x7b' z hz.1 '\x7d' (by decide)
  have ht' := mem_append_singleton_brace '\x7b' t ht.1 '\x7d' (by decide)
  have hu' := mem_append_singleton_brace '\x7b' u hu.1 '\x7d' (by decide)
  rw [replaceChars_braceBlocks _ _ b0 bs ht' h0 hbs,
    containsChars_braceBlocks _ b0 _ hz' h0 (map_token_braceFree _ _ bs hu' hbs),
    containsChars_braceBlocks _ b0 bs hz' h0 hbs, List.any_map]
  congr 1
  funext b
  exact token_block_ne z t u b hz.2 ht.2 hu.2 h1 h2

/-- After replacing every occurrence of a brace token by another one, the token
does not occur. -/
theorem containsChars_replaceChars_self (t u s : List Char)
    (ht : '\x7b' ∉ t ∧ '\x7d' ∉ t) (hu : '\x7b' ∉ u ∧ '\x7d' ∉ u) (h : t ≠ u) :
    strings.containsChars ('\x7b' :: (t ++ ['\x7d']))
        (strings.replaceChars ('\x7b' :: (t ++ ['\x7d'])) ('\x7b' :: (u ++ ['\x7d'])) 0 s) = false := by
  obtain ⟨b0, bs, rfl, h0, hbs⟩ := exists_braceBlocks s
  have ht' := mem_append_singleton_brace '\x7b' t ht.1 '\x7d' (by decide)
  have hu' := mem_append_singleton_brace '\x7b' u hu.1 '\x7d' (by decide)
  rw [replaceChars_braceBlocks _ _ b0 bs ht' h0 hbs,
    containsChars_braceBlocks _ b0 _ ht' h0 (map_token_braceFree _ _ bs hu' hbs), List.any_map]
  rw [List.any_eq_false]
  intro b _
  simp only [Function.comp]
  rw [token_block_self t u b ht.2 hu.2 h]
  simp

end packagemanager

namespace packagemanager

/-- The test `strings.Contains(pattern, "\x7bnetwork.password\x7d")` gives the same
answer after the first two replacements as on the pattern itself. -/
theorem contains_password_after_replacements (p : String) :
    strings.Contains
      (strings.ReplaceAll
        (strings.ReplaceAll p "\x7bserial.port\x7d" "\x7bupload.port.address\x7d")
        "\x7bnetwork.port\x7d" "\x7bupload.port.properties.port\x7d")
      "\x7bnetwork.password\x7d" = strings.Contains p "\x7bnetwork.password\x7d" := by
  have h1 := containsChars_replaceChars_other "network.password".data "serial.port".data
    "upload.port.address".data p.data (by decide) (by decide) (by decide) (by decide) (by decide)
  have h2 := containsChars_replaceChars_other "network.password".data "network.port".data
    "upload.port.properties.port".data
    (strings.replaceChars ('\x7b' :: ("serial.port".data ++ ['\x7d']))
      ('\x7b' :: ("upload.port.address".data ++ ['\x7d'])) 0 p.data)
    (by decide) (by decide) (by decide) (by decide) (by decide)
  exact h2.trans h1

/-- C15: when the tool has `upload.network_pattern = p`, the synthesized tool has
`upload.field.password = Password` and `upload.field.password.secret = true` if `p`
contains `\x7bnetwork.password\x7d`; if `p` does not contain it, both keys of the
synthesized tool are as they were in the properties of the original tool (absent
if they were absent). -/
theorem convertLegacyNetworkPattern_password_field (props : properties.Map)
    (newToolName p : String) (hp : props.GetOk "upload.network_pattern" = some p) :
    ∃ res, convertLegacyNetworkPatternToPluggableDiscovery props newToolName = some res ∧
      (strings.Contains p "\x7bnetwork.password\x7d" = true →
        res.GetOk ("tools." ++ newToolName ++ "." ++ "upload.field.password")
          = some "Password" ∧
        res.GetOk ("tools." ++ newToolName ++ "." ++ "upload.field.password.secret")
          = some "true") ∧
      (strings.Contains p "\x7bnetwork.password\x7d" = false →
        res.GetOk ("tools." ++ newToolName ++ "." ++ "upload.field.password")
          = props.GetOk "upload.field.password" ∧
        res.GetOk ("tools." ++ newToolName ++ "." ++ "upload.field.password.secret")
          = props.GetOk "upload.field.password.secret") := by
  obtain ⟨res, hres, hget, -⟩ := (convertLegacyNetworkPattern_spec props newToolName).2 p hp
  refine ⟨res, hres, ?_, ?_⟩
  · intro hc
    rw [hget, hget]
    unfold networkToolProperties
    simp only [contains_password_after_replacements, hc, if_true, properties.Map.GetOk,
      properties.Map.Set]
    constructor
    · rw [assocGet_assocSet_ne _ _ _ _ (by decide), assocGet_assocSet_ne _ _ _ _ (by decide),
        assocGet_assocSet_self]
    · rw [assocGet_assocSet_ne _ _ _ _ (by decide), assocGet_assocSet_self]
  · intro hc
    rw [hget, hget]
    unfold networkToolProperties
    simp only [contains_password_after_replacements, hc, Bool.false_eq_true, if_false,
      properties.Map.GetOk, properties.Map.Set, properties.Map.Remove]
    constructor
    · rw [assocGet_assocSet_ne _ _ _ _ (by decide), assocGet_assocErase, if_neg (by decide)]
    · rw [assocGet_assocSet_ne _ _ _ _ (by decide), assocGet_assocErase, if_neg (by decide)]

/-- Witness of C15: the network pattern of a tool that asks for the password. -/
theorem convertLegacyNetworkPattern_password_field_witness :
    ∃ res, convertLegacyNetworkPatternToPluggableDiscovery
        [("upload.network_pattern", "ota -a \x7bnetwork.password\x7d"), ("upload.protocol", "ota")]
        "ota__pluggable_network" = some res ∧
      res.GetOk "tools.ota__pluggable_network.upload.field.password" = some "Password" ∧
      res.GetOk "tools.ota__pluggable_network.upload.field.password.secret" = some "true" := by
  obtain ⟨res, hres, hyes, -⟩ := convertLegacyNetworkPattern_password_field
    [("upload.network_pattern", "ota -a \x7bnetwork.password\x7d"), ("upload.protocol", "ota")]
    "ota__pluggable_network" "ota -a \x7bnetwork.password\x7d" rfl
  exact ⟨res, hres, (hyes (by decide)).1, (hyes (by decide)).2⟩

end packagemanager

/-! ## Theorems: the loop over `netPropRegexp` -/

namespace packagemanager

theorem findNetProp_cons (c : Char) (cs : List Char) :
    findNetProp (c :: cs) =
      match netPropAt (c :: cs) with
      | some name => some name
      | none => findNetProp cs := by
  rw [findNetProp]
  unfold netPropAt
  dsimp only
  split_ifs <;> rfl

/-- The test that follows the fixed part of `netPropRegexp`: at least one character
other than the closing brace, then a closing brace. -/
theorem closing_test (r : List Char) :
    (!(r.takeWhile fun x => x ≠ '\x7d').isEmpty &&
      (r.drop (r.takeWhile fun x => x ≠ '\x7d').length).head? = some '\x7d') =
    closesAfter r := by
  unfold closesAfter
  have hdrop : ∀ r : List Char,
      decide ((r.drop (r.takeWhile fun x => x ≠ '\x7d').length).head? = some '\x7d') =
        decide ('\x7d' ∈ r) := by
    intro r
    induction r with
    | nil => simp
    | cons x r ih =>
      by_cases hx : x = '\x7d'
      · subst hx
        simp
      · have hx' : ¬ '\x7d' = x := fun h => hx h.symm
        simp only [List.takeWhile_cons, ne_eq, hx, not_false_eq_true, decide_True, if_true,
          List.length_cons, List.drop_succ_cons, List.mem_cons, hx', false_or]
        exact ih
  cases r with
  | nil => simp
  | cons x r =>
    by_cases hx : x = '\x7d'
    · subst hx
      simp
    · have h := hdrop (x :: r)
      simp only [List.takeWhile_cons, ne_eq, hx, not_false_eq_true, decide_True, if_true,
        List.isEmpty_cons, Bool.not_false, Bool.true_and] at h ⊢
      exact h

theorem netPropAt_isSome (s : List Char) :
    (netPropAt s).isSome =
      ("\x7bupload.network.".data.isPrefixOf s && closesAfter (s.drop 16)) := by
  unfold netPropAt
  dsimp only
  rw [← closing_test (s.drop 16)]
  split_ifs with h
  · simp only [Option.isSome_some]
    rw [Bool.and_assoc] at h
    exact h.symm
  · simp only [Option.isSome_none]
    rw [Bool.and_assoc] at h
    exact (Bool.eq_false_iff.2 h).symm

/-- A match of `netPropRegexp` at the beginning of the text: the name is not empty,
has no closing brace, and the text begins with the whole token. -/
theorem netPropAt_some (s X : List Char) (h : netPropAt s = some X) :
    X ≠ [] ∧ '\x7d' ∉ X ∧
      ("\x7bupload.network.".data ++ (X ++ ['\x7d'])).isPrefixOf s = true := by
  unfold netPropAt at h
  dsimp only at h
  split_ifs at h with hc
  simp only [Option.some.injEq] at h
  simp only [Bool.and_eq_true, Bool.not_eq_true', decide_eq_true_eq] at hc
  obtain ⟨⟨hp, hne⟩, hhead⟩ := hc
  subst h
  refine ⟨?_, ?_, ?_⟩
  · intro h0
    rw [h0] at hne
    simp at hne
  · intro hmem
    have := List.mem_takeWhile_imp hmem
    simp at this
  · have hs := isPrefixOf_eq_append _ s hp
    have hsplit : ∀ l : List Char, l = l.takeWhile (fun x => x ≠ '\x7d') ++
        l.drop (l.takeWhile fun x => x ≠ '\x7d').length := by
      intro l
      induction l with
      | nil => rfl
      | cons x l ih =>
        by_cases hx : x = '\x7d'
        · simp [hx]
        · simp only [List.takeWhile_cons, ne_eq, hx, not_false_eq_true, decide_True, if_true,
            List.length_cons, List.drop_succ_cons, List.cons_append]
          rw [← ih]
    have hr := hsplit (s.drop 16)
    cases hd : (s.drop 16).drop ((s.drop 16).takeWhile fun x => x ≠ '\x7d').length with
    | nil => rw [hd] at hhead; simp at hhead
    | cons y r' =>
      rw [hd] at hhead hr
      simp only [List.head?_cons, Option.some.injEq] at hhead
      subst hhead
      rw [List.isPrefixOf_iff_prefix]
      refine ⟨r', ?_⟩
      conv_rhs => rw [hs]
      have h16 : "\x7bupload.network.".data.length = 16 := by decide
      rw [h16]
      conv_rhs => rw [hr]
      simp

end packagemanager

namespace packagemanager

theorem scanRewrite_copy (D : List Char → Option (Nat × List Char)) (Y r : List Char)
    (h : ∀ Y1 Y2 : List Char, Y = Y1 ++ Y2 → Y2 ≠ [] → D (Y2 ++ r) = none) :
    scanRewrite D 0 (Y ++ r) = Y ++ scanRewrite D 0 r := by
  induction Y with
  | nil => rfl
  | cons y Y ih =>
    have h0 := h [] (y :: Y) rfl (by simp)
    show scanRewrite D 0 (y :: (Y ++ r)) = _
    rw [scanRewrite]
    simp only [List.cons_append] at h0
    rw [h0]
    simp only [List.cons_append]
    rw [ih (fun Y1 Y2 hY hne => h (y :: Y1) Y2 (by rw [hY]; rfl) hne)]

/-- A token that ends with its only closing brace does not begin inside itself. -/
theorem token_no_overlap (A Y0 Y1 Y2 r : List Char) (hA : A ≠ [])
    (hcl : '\x7d' ∉ A ++ Y0) (hY : Y0 ++ ['\x7d'] = Y1 ++ Y2) (hne : Y2 ≠ []) :
    (A ++ (Y0 ++ ['\x7d'])).isPrefixOf (Y2 ++ r) = false := by
  rcases List.eq_nil_or_concat Y2 with h | ⟨L, b, h⟩
  · exact absurd h hne
  · subst h
    rw [List.concat_eq_append] at hY hne ⊢
    rw [← List.append_assoc] at hY
    obtain ⟨hY0, hb⟩ := List.append_inj' hY rfl
    simp only [List.cons.injEq, and_true] at hb
    subst hb
    cases hp : (A ++ (Y0 ++ ['\x7d'])).isPrefixOf (L ++ ['\x7d'] ++ r) with
    | false => rfl
    | true =>
      exfalso
      rw [← List.append_assoc, List.append_assoc L] at hp
      have hL : '\x7d' ∉ L := by
        intro hmem
        apply hcl
        rw [hY0]
        simp [hmem]
      have heq := closed_isPrefixOf (A ++ Y0) L _ hcl hL hp
      have hlen := congrArg List.length heq
      rw [hY0] at hlen
      simp only [List.length_append] at hlen
      have : 0 < A.length := List.length_pos.2 hA
      omega

/-- Replacing every occurrence of `A ++ Y` by `A' ++ Y` is replacing `A` by `A'` where
`A ++ Y` begins, when `Y` ends with the only closing brace of `A ++ Y`. -/
theorem replaceChars_common_suffix (A A' Y0 : List Char) (hA : A ≠ [])
    (hcl : '\x7d' ∉ A ++ Y0) (s : List Char) :
    strings.replaceChars (A ++ (Y0 ++ ['\x7d'])) (A' ++ (Y0 ++ ['\x7d'])) 0 s =
      scanRewrite (fun t => if (A ++ (Y0 ++ ['\x7d'])).isPrefixOf t
        then some (A.length, A') else none) 0 s := by
  rw [replaceChars_eq_scanRewrite]
  generalize hn : s.length = n
  induction n using Nat.strong_induction_on generalizing s with
  | _ n ih =>
    cases s with
    | nil => rfl
    | cons c cs =>
      simp only [scanRewrite]
      by_cases hp : (A ++ (Y0 ++ ['\x7d'])).isPrefixOf (c :: cs) = true
      · simp only [hp, if_true]
        have hs := isPrefixOf_eq_append _ _ hp
        generalize hr : (c :: cs).drop (A ++ (Y0 ++ ['\x7d'])).length = r at hs
        have hcs1 : cs.drop ((A ++ (Y0 ++ ['\x7d'])).length - 1) = r := by
          rw [← hr]
          have : 0 < (A ++ (Y0 ++ ['\x7d'])).length := by simp
          obtain ⟨m, hm⟩ := Nat.exists_eq_succ_of_ne_zero (Nat.pos_iff_ne_zero.1 this)
          rw [hm]
          rfl
        have hcs2 : cs.drop (A.length - 1) = (Y0 ++ ['\x7d']) ++ r := by
          have hpos : 0 < A.length := List.length_pos.2 hA
          obtain ⟨m, hm⟩ := Nat.exists_eq_succ_of_ne_zero (Nat.pos_iff_ne_zero.1 hpos)
          have : (c :: cs).drop A.length = (Y0 ++ ['\x7d']) ++ r := by
            rw [hs, List.append_assoc, List.drop_left]
          rw [hm] at this ⊢
          exact this
        rw [scanRewrite_skip, hcs1, scanRewrite_skip _ (A.length - 1), hcs2,
          scanRewrite_copy _ (Y0 ++ ['\x7d']) r ?_]
        · have hlen : r.length < n := by
            rw [← hn, hs]
            simp only [List.length_append, List.length_cons, List.length_nil]
            omega
          rw [ih r.length hlen r rfl]
          simp only [List.append_assoc]
        · intro Y1 Y2 hY hne
          simp only [token_no_overlap A Y0 Y1 Y2 r hA hcl hY hne, Bool.false_eq_true, if_false]
      · have hlen : cs.length < n := by
          rw [← hn]
          simp
        simp only [hp, Bool.false_eq_true, if_false]
        rw [ih cs.length hlen cs rfl]

end packagemanager

namespace packagemanager

theorem network_prefix_mismatch (w : List Char) :
    "upload.network.".data.isPrefixOf ("upload.port.properties.".data ++ w) = false := rfl

/-- The scans that write `\x7bupload.port.properties.` for `\x7bupload.network.`, block by block:
each block keeps its closing braces, and a rewritten block begins with
`upload.port.properties.`. -/
theorem rewriteBlocks_network (D : List Char → Option (Nat × List Char))
    (hD : ∀ t n e, D t = some (n, e) →
      n = 16 ∧ e = "\x7bupload.port.properties.".data ∧
        "\x7bupload.network.".data.isPrefixOf t = true)
    (b : List Char) (rest : List (List Char)) :
    (∀ n e, D ('\x7b' :: (b ++ braceBlocks rest)) = some (n, e) →
      "upload.network.".data.isPrefixOf b = true ∧
      e.tail ++ b.drop (n - 1) = "upload.port.properties.".data ++ b.drop 15) := by
  intro n e h
  obtain ⟨rfl, rfl, hp⟩ := hD _ n e h
  have hp' : "upload.network.".data.isPrefixOf (b ++ braceBlocks rest) = true := hp
  rw [isPrefixOf_block _ b rest (by decide)] at hp'
  exact ⟨hp', rfl⟩

theorem block_close_iff (D : List Char → Option (Nat × List Char))
    (hD : ∀ t n e, D t = some (n, e) →
      n = 16 ∧ e = "\x7bupload.port.properties.".data ∧
        "\x7bupload.network.".data.isPrefixOf t = true)
    (bs : List (List Char)) :
    '\x7d' ∈ braceBlocks (rewriteBlocks D bs) ↔ '\x7d' ∈ braceBlocks bs := by
  induction bs with
  | nil => rfl
  | cons b rest ih =>
    simp only [rewriteBlocks, braceBlocks, List.mem_cons, List.mem_append, ih]
    have hb : '\x7d' ∈ (match D ('\x7b' :: (b ++ braceBlocks rest)) with
        | some (n, e) => e.tail ++ b.drop (n - 1)
        | none => b) ↔ '\x7d' ∈ b := by
      cases hd : D ('\x7b' :: (b ++ braceBlocks rest)) with
      | none => rfl
      | some ne =>
        obtain ⟨n, e⟩ := ne
        obtain ⟨hp, hg⟩ := rewriteBlocks_network D hD b rest n e hd
        simp only
        rw [hg]
        have hbeq := isPrefixOf_eq_append _ b hp
        have h15 : "upload.network.".data.length = 15 := by decide
        rw [h15] at hbeq
        conv_rhs => rw [hbeq]
        simp only [List.mem_append]
        constructor
        · rintro (h | h)
          · exact absurd h (by decide)
          · exact Or.inr h
        · rintro (h | h)
          · exact absurd h (by decide)
          · exact Or.inr h
    exact or_congr Iff.rfl (or_congr hb Iff.rfl)

theorem rewriteBlocks_network_braceFree (D : List Char → Option (Nat × List Char))
    (hD : ∀ t n e, D t = some (n, e) →
      n = 16 ∧ e = "\x7bupload.port.properties.".data ∧
        "\x7bupload.network.".data.isPrefixOf t = true)
    (bs : List (List Char)) (hbs : ∀ b ∈ bs, '\x7b' ∉ b) :
    ∀ b ∈ rewriteBlocks D bs, '\x7b' ∉ b := by
  induction bs with
  | nil => simp [rewriteBlocks]
  | cons b rest ih =>
    intro x hx
    simp only [rewriteBlocks, List.mem_cons] at hx
    rcases hx with h | h
    · subst h
      cases hd : D ('\x7b' :: (b ++ braceBlocks rest)) with
      | none => exact hbs b (List.mem_cons_self _ _)
      | some ne =>
        obtain ⟨n, e⟩ := ne
        obtain ⟨-, hg⟩ := rewriteBlocks_network D hD b rest n e hd
        simp only
        rw [hg]
        simp only [List.mem_append, not_or]
        exact ⟨by decide, fun h => hbs b (List.mem_cons_self _ _) (List.mem_of_mem_drop h)⟩
    · exact ih (fun y hy => hbs y (List.mem_cons_of_mem _ hy)) x h

/-- Such a scan, block by block. -/
theorem scanRewrite_network_blocks (D : List Char → Option (Nat × List Char))
    (hD : ∀ t n e, D t = some (n, e) →
      n = 16 ∧ e = "\x7bupload.port.properties.".data ∧
        "\x7bupload.network.".data.isPrefixOf t = true)
    (b0 : List Char) (bs : List (List Char)) (h0 : '\x7b' ∉ b0) (hbs : ∀ b ∈ bs, '\x7b' ∉ b) :
    scanRewrite D 0 (b0 ++ braceBlocks bs) = b0 ++ braceBlocks (rewriteBlocks D bs) := by
  have hanch : ∀ (s : List Char) (n : Nat) (e : List Char), D s = some (n, e) →
      s.head? = some '\x7b' := by
    intro s n e h
    obtain ⟨-, -, hp⟩ := hD s n e h
    cases s with
    | nil => simp [List.isPrefixOf] at hp
    | cons c cs =>
      have hc : ('\x7b' == c) = true := by
        have : ('\x7b' == c && "upload.network.".data.isPrefixOf cs) = true := hp
        exact (Bool.and_eq_true _ _ ▸ this).1
      rw [eq_of_beq hc]
      rfl
  rw [scanRewrite_append_of_not_mem D hanch b0 _ h0, scanRewrite_braceBlocks D hanch ?_ bs hbs]
  intro b rest n e _ h
  obtain ⟨hn, he, -⟩ := hD _ n e h
  obtain ⟨hp, -⟩ := rewriteBlocks_network D hD b rest n e h
  subst hn he
  exact ⟨isPrefixOf_length_le _ b hp, rfl⟩

end packagemanager

namespace packagemanager

theorem closing_after_blocks (D : List Char → Option (Nat × List Char))
    (hD : ∀ t n e, D t = some (n, e) →
      n = 16 ∧ e = "\x7bupload.port.properties.".data ∧
        "\x7bupload.network.".data.isPrefixOf t = true)
    (r0 : List Char) (rest : List (List Char)) :
    closesAfter (r0 ++ braceBlocks (rewriteBlocks D rest)) =
      closesAfter (r0 ++ braceBlocks rest) := by
  have hmem := block_close_iff D hD rest
  cases r0 with
  | cons x r0 =>
    simp only [closesAfter, List.cons_append, List.mem_cons, List.mem_append, hmem]
  | nil =>
    cases rest with
    | nil => rfl
    | cons b rest =>
      simp only [List.nil_append]
      show (decide ('\x7b' ≠ '\x7d') && decide ('\x7d' ∈ braceBlocks (rewriteBlocks D (b :: rest))))
        = (decide ('\x7b' ≠ '\x7d') && decide ('\x7d' ∈ braceBlocks (b :: rest)))
      rw [decide_eq_decide.2 hmem]

/-- Whether `netPropRegexp` matches at the beginning of a block does not change
when later blocks are rewritten. -/
theorem netPropAt_after_blocks (D : List Char → Option (Nat × List Char))
    (hD : ∀ t n e, D t = some (n, e) →
      n = 16 ∧ e = "\x7bupload.port.properties.".data ∧
        "\x7bupload.network.".data.isPrefixOf t = true)
    (b : List Char) (rest : List (List Char)) :
    (netPropAt ('\x7b' :: (b ++ braceBlocks (rewriteBlocks D rest)))).isSome =
      (netPropAt ('\x7b' :: (b ++ braceBlocks rest))).isSome := by
  rw [netPropAt_isSome, netPropAt_isSome]
  have hp : ∀ B : List (List Char),
      "\x7bupload.network.".data.isPrefixOf ('\x7b' :: (b ++ braceBlocks B)) =
        "upload.network.".data.isPrefixOf b := by
    intro B
    have : "\x7bupload.network.".data.isPrefixOf ('\x7b' :: (b ++ braceBlocks B)) =
        "upload.network.".data.isPrefixOf (b ++ braceBlocks B) := rfl
    rw [this, isPrefixOf_block _ b B (by decide)]
  rw [hp, hp]
  cases hb : "upload.network.".data.isPrefixOf b with
  | false => rfl
  | true =>
    have hlen : 15 ≤ b.length := isPrefixOf_length_le _ b hb
    have hdrop : ∀ B : List (List Char),
        ('\x7b' :: (b ++ braceBlocks B)).drop 16 = b.drop 15 ++ braceBlocks B := by
      intro B
      show (b ++ braceBlocks B).drop 15 = _
      exact List.drop_append_of_le_length hlen
    rw [hdrop, hdrop, closing_after_blocks D hD]

theorem netPropAt_rewritten_block (w : List Char) :
    netPropAt ('\x7b' :: ("upload.port.properties.".data ++ w)) = none := by
  cases h : netPropAt ('\x7b' :: ("upload.port.properties.".data ++ w)) with
  | none => rfl
  | some X =>
    have h2 := netPropAt_isSome ('\x7b' :: ("upload.port.properties.".data ++ w))
    rw [h] at h2
    have h3 : "\x7bupload.network.".data.isPrefixOf
        ('\x7b' :: ("upload.port.properties.".data ++ w)) = false := network_prefix_mismatch w
    rw [h3] at h2
    simp at h2

/-- Rewriting first at some of the matches of `netPropRegexp` and then at all of
them is rewriting at all of them. -/
theorem rewriteBlocks_network_absorb (D : List Char → Option (Nat × List Char))
    (hD : ∀ t n e, D t = some (n, e) →
      n = 16 ∧ e = "\x7bupload.port.properties.".data ∧
        "\x7bupload.network.".data.isPrefixOf t = true)
    (hsub : ∀ t n e, D t = some (n, e) → (netPropAt t).isSome = true)
    (bs : List (List Char)) :
    rewriteBlocks (fun t =>
        if (netPropAt t).isSome then some (16, "\x7bupload.port.properties.".data) else none)
      (rewriteBlocks D bs) =
    rewriteBlocks (fun t =>
        if (netPropAt t).isSome then some (16, "\x7bupload.port.properties.".data) else none)
      bs := by
  induction bs with
  | nil => rfl
  | cons b rest ih =>
    show rewriteBlocks _ (_ :: rewriteBlocks D rest) = _
    rw [rewriteBlocks, rewriteBlocks, ih]
    congr 1
    cases hd : D ('\x7b' :: (b ++ braceBlocks rest)) with
    | none =>
      simp only [netPropAt_after_blocks D hD b rest]
    | some ne =>
      obtain ⟨n, e⟩ := ne
      obtain ⟨-, hg⟩ := rewriteBlocks_network D hD b rest n e hd
      have hs := hsub _ n e hd
      simp only [hg, hs, if_true]
      rw [List.append_assoc, netPropAt_rewritten_block]
      rfl

end packagemanager

namespace packagemanager

theorem netProp_scan_spec (t : List Char) (n : Nat) (e : List Char)
    (h : (if (netPropAt t).isSome then some (16, "\x7bupload.port.properties.".data) else none)
      = some (n, e)) :
    n = 16 ∧ e = "\x7bupload.port.properties.".data ∧
      "\x7bupload.network.".data.isPrefixOf t = true := by
  split_ifs at h with hs
  simp only [Option.some.injEq, Prod.mk.injEq] at h
  rw [netPropAt_isSome, Bool.and_eq_true] at hs
  exact ⟨h.1.symm, h.2.symm, hs.1⟩

theorem isPrefixOf_append_left (a b t : List Char) (h : (a ++ b).isPrefixOf t = true) :
    a.isPrefixOf t = true := by
  rw [List.isPrefixOf_iff_prefix] at h ⊢
  exact (List.prefix_append a b).trans h

/-- A text that begins with `\x7bupload.network.X\x7d`, `X` not empty and without closing
brace, is matched by `netPropRegexp` at its beginning. -/
theorem netPropAt_of_token (X t : List Char) (hX : X ≠ []) (hcl : '\x7d' ∉ X)
    (h : ("\x7bupload.network.".data ++ (X ++ ['\x7d'])).isPrefixOf t = true) :
    (netPropAt t).isSome = true := by
  rw [netPropAt_isSome, isPrefixOf_append_left _ _ t h, Bool.true_and]
  have ht := isPrefixOf_eq_append _ t h
  generalize t.drop ("\x7bupload.network.".data ++ (X ++ ['\x7d'])).length = r at ht
  have hd : t.drop 16 = X ++ '\x7d' :: r := by
    rw [ht, List.append_assoc]
    have : "\x7bupload.network.".data.length = 16 := by decide
    rw [← this, List.drop_left]
    simp
  rw [hd]
  cases X with
  | nil => exact absurd rfl hX
  | cons x X =>
    simp only [List.mem_cons, not_or] at hcl
    have hx : x ≠ '\x7d' := fun h => hcl.1 h.symm
    simp [closesAfter, hx]

/-- The scan that rewrites every match of `netPropRegexp`, block by block. -/
theorem replaceEveryNetProp_blocks (b0 : List Char) (bs : List (List Char)) (h0 : '\x7b' ∉ b0)
    (hbs : ∀ b ∈ bs, '\x7b' ∉ b) :
    replaceEveryNetProp (b0 ++ braceBlocks bs) =
      b0 ++ braceBlocks (rewriteBlocks (fun t =>
        if (netPropAt t).isSome then some (16, "\x7bupload.port.properties.".data) else none)
        bs) :=
  scanRewrite_network_blocks _ netProp_scan_spec b0 bs h0 hbs

/-- One round of the loop over `netPropRegexp` does not change what the rewriting of
every match gives. -/
theorem replaceEveryNetProp_after_round (X s : List Char) (hX : X ≠ []) (hcl : '\x7d' ∉ X) :
    replaceEveryNetProp
      (strings.replaceChars ("\x7bupload.network.".data ++ (X ++ ['\x7d']))
        ("\x7bupload.port.properties.".data ++ (X ++ ['\x7d'])) 0 s) = replaceEveryNetProp s := by
  have hD : ∀ (t : List Char) (n : Nat) (e : List Char),
      (fun t => if ("\x7bupload.network.".data ++ (X ++ ['\x7d'])).isPrefixOf t
        then some ("\x7bupload.network.".data.length, "\x7bupload.port.properties.".data)
        else none) t = some (n, e) →
      n = 16 ∧ e = "\x7bupload.port.properties.".data ∧
        "\x7bupload.network.".data.isPrefixOf t = true := by
    intro t n e h
    simp only at h
    split_ifs at h with hp
    simp only [Option.some.injEq, Prod.mk.injEq] at h
    exact ⟨h.1.symm, h.2.symm, isPrefixOf_append_left _ _ t hp⟩
  have hsub : ∀ (t : List Char) (n : Nat) (e : List Char),
      (fun t => if ("\x7bupload.network.".data ++ (X ++ ['\x7d'])).isPrefixOf t
        then some ("\x7bupload.network.".data.length, "\x7bupload.port.properties.".data)
        else none) t = some (n, e) → (netPropAt t).isSome = true := by
    intro t n e h
    simp only at h
    split_ifs at h with hp
    exact netPropAt_of_token X t hX hcl hp
  have hcl' : '\x7d' ∉ "\x7bupload.network.".data ++ X := by
    simp only [List.mem_append, not_or]
    exact ⟨by decide, hcl⟩
  rw [replaceChars_common_suffix _ _ X (by decide) hcl' s]
  obtain ⟨b0, bs, rfl, h0, hbs⟩ := exists_braceBlocks s
  rw [scanRewrite_network_blocks _ hD b0 bs h0 hbs,
    replaceEveryNetProp_blocks b0 _ h0 (rewriteBlocks_network_braceFree _ hD bs hbs),
    replaceEveryNetProp_blocks b0 bs h0 hbs, rewriteBlocks_network_absorb _ hD hsub bs]

/-- Without a match of `netPropRegexp` the rewriting changes nothing. -/
theorem replaceEveryNetProp_of_no_match (s : List Char) (h : findNetProp s = none) :
    replaceEveryNetProp s = s := by
  unfold replaceEveryNetProp
  induction s with
  | nil => rfl
  | cons c cs ih =>
    rw [findNetProp_cons] at h
    cases hn : netPropAt (c :: cs) with
    | some X => rw [hn] at h; cases h
    | none =>
      rw [hn] at h
      simp only [scanRewrite, hn, Option.isSome_none, Bool.false_eq_true, if_false]
      rw [ih h]

theorem findNetProp_some (s X : List Char) (h : findNetProp s = some X) :
    X ≠ [] ∧ '\x7d' ∉ X ∧
      strings.containsChars ("\x7bupload.network.".data ++ (X ++ ['\x7d'])) s = true := by
  induction s with
  | nil => simp [findNetProp] at h
  | cons c cs ih =>
    rw [findNetProp_cons] at h
    cases hn : netPropAt (c :: cs) with
    | some Y =>
      rw [hn] at h
      simp only [Option.some.injEq] at h
      subst h
      obtain ⟨h1, h2, h3⟩ := netPropAt_some _ _ hn
      refine ⟨h1, h2, ?_⟩
      simp only [strings.containsChars, h3, Bool.true_or]
    | none =>
      rw [hn] at h
      obtain ⟨h1, h2, h3⟩ := ih h
      refine ⟨h1, h2, ?_⟩
      simp only [strings.containsChars, h3, Bool.or_true]

theorem replaceChars_length_ge (old new : List Char) (hpos : 0 < old.length)
    (hlen : old.length ≤ new.length) (k : Nat) (s : List Char) :
    s.length ≤ (strings.replaceChars old new k s).length + k := by
  induction s generalizing k with
  | nil => simp [strings.replaceChars]
  | cons c cs ih =>
    cases k with
    | succ k =>
      simp only [strings.replaceChars, List.length_cons]
      have := ih k
      omega
    | zero =>
      simp only [strings.replaceChars]
      split_ifs with hp
      · have := ih (old.length - 1)
        simp only [List.length_append, List.length_cons]
        omega
      · have := ih 0
        simp only [List.length_cons]
        omega

/-- The function `ReplaceAll` with a longer text lengthens a text in which the old
text occurs. -/
theorem replaceChars_length_gt (old new : List Char) (d : Nat) (hpos : 0 < old.length)
    (hlen : old.length + d ≤ new.length) (s : List Char)
    (h : strings.containsChars old s = true) :
    s.length + d ≤ (strings.replaceChars old new 0 s).length := by
  induction s with
  | nil =>
    cases old with
    | nil => simp at hpos
    | cons _ _ => simp [strings.containsChars] at h
  | cons c cs ih =>
    simp only [strings.replaceChars]
    split_ifs with hp
    · have := replaceChars_length_ge old new hpos (by omega) (old.length - 1) cs
      simp only [List.length_append, List.length_cons]
      omega
    · simp only [strings.containsChars, Bool.or_eq_true] at h
      rcases h with h | h
      · exact absurd h hp
      · have := ih h
        simp only [List.length_cons]
        omega

theorem scanRewrite_length_ge (D : List Char → Option (Nat × List Char))
    (hD : ∀ t n e, D t = some (n, e) → 1 ≤ n ∧ n ≤ e.length) (k : Nat) (s : List Char) :
    s.length ≤ (scanRewrite D k s).length + k := by
  induction s generalizing k with
  | nil => simp [scanRewrite]
  | cons c cs ih =>
    cases k with
    | succ k =>
      simp only [scanRewrite, List.length_cons]
      have := ih k
      omega
    | zero =>
      simp only [scanRewrite]
      cases hd : D (c :: cs) with
      | none =>
        have := ih 0
        simp only [List.length_cons]
        omega
      | some ne =>
        obtain ⟨n, e⟩ := ne
        have := ih (n - 1)
        have := hD _ n e hd
        simp only [List.length_append, List.length_cons]
        omega

theorem scanRewrite_length_le (D : List Char → Option (Nat × List Char))
    (hD : ∀ t n e, D t = some (n, e) → n = 16 ∧ e.length = 24 ∧ 16 ≤ t.length)
    (k : Nat) (s : List Char) (hk : k ≤ s.length) :
    2 * (scanRewrite D k s).length + 3 * k ≤ 3 * s.length := by
  induction s generalizing k with
  | nil =>
    simp only [List.length_nil, Nat.le_zero] at hk
    subst hk
    simp [scanRewrite]
  | cons c cs ih =>
    cases k with
    | succ k =>
      simp only [scanRewrite, List.length_cons]
      have := ih k (by simpa using hk)
      omega
    | zero =>
      simp only [scanRewrite]
      cases hd : D (c :: cs) with
      | none =>
        have := ih 0 (Nat.zero_le _)
        simp only [List.length_cons]
        omega
      | some ne =>
        obtain ⟨n, e⟩ := ne
        obtain ⟨hn, he, hl⟩ := hD _ n e hd
        subst hn
        simp only [List.length_cons] at hl
        have := ih 15 (by omega)
        have h15 : 16 - 1 = 15 := rfl
        simp only [List.length_append, List.length_cons, he, h15]
        omega

theorem netProp_scan_lengths (t : List Char) (n : Nat) (e : List Char)
    (h : (if (netPropAt t).isSome then some (16, "\x7bupload.port.properties.".data) else none)
      = some (n, e)) :
    n = 16 ∧ e.length = 24 ∧ 16 ≤ t.length := by
  obtain ⟨hn, he, hp⟩ := netProp_scan_spec t n e h
  refine ⟨hn, by rw [he]; decide, ?_⟩
  exact isPrefixOf_length_le _ _ hp

theorem replaceEveryNetProp_length_ge (s : List Char) :
    s.length ≤ (replaceEveryNetProp s).length := by
  have := scanRewrite_length_ge _ (fun t n e h => by
    obtain ⟨hn, he, -⟩ := netProp_scan_lengths t n e h
    omega) 0 s
  simpa [replaceEveryNetProp] using this

theorem replaceEveryNetProp_length_le (s : List Char) :
    2 * (replaceEveryNetProp s).length ≤ 3 * s.length := by
  have := scanRewrite_length_le _ netProp_scan_lengths 0 s (Nat.zero_le _)
  simpa [replaceEveryNetProp] using this

end packagemanager

namespace packagemanager

theorem netProp_round_data (s : String) (X : List Char) :
    (strings.ReplaceAll s ("\x7bupload.network." ++ String.mk X ++ "\x7d")
      ("\x7bupload.port.properties." ++ String.mk X ++ "\x7d")).data =
    strings.replaceChars ("\x7bupload.network.".data ++ (X ++ ['\x7d']))
      ("\x7bupload.port.properties.".data ++ (X ++ ['\x7d'])) 0 s.data := by
  unfold strings.ReplaceAll
  simp only [String.data_append, List.append_assoc]

/-- The loop `for netPropRegexp.MatchString(pattern)` with enough rounds: it ends
without a match left, and its result is the text with every match rewritten. -/
theorem replaceNetProps_spec (fuel : Nat) (s : String)
    (h : (replaceEveryNetProp s.data).length ≤ s.data.length + 8 * fuel) :
    (replaceNetProps fuel s).data = replaceEveryNetProp s.data ∧
      findNetProp (replaceNetProps fuel s).data = none := by
  have hround : ∀ (s : String) (X : List Char), findNetProp s.data = some X →
      replaceEveryNetProp (strings.ReplaceAll s ("\x7bupload.network." ++ String.mk X ++ "\x7d")
        ("\x7bupload.port.properties." ++ String.mk X ++ "\x7d")).data
          = replaceEveryNetProp s.data ∧
      s.data.length + 8 ≤ (strings.ReplaceAll s
        ("\x7bupload.network." ++ String.mk X ++ "\x7d")
        ("\x7bupload.port.properties." ++ String.mk X ++ "\x7d")).data.length := by
    intro s X hX
    obtain ⟨h1, h2, h3⟩ := findNetProp_some s.data X hX
    rw [netProp_round_data]
    refine ⟨replaceEveryNetProp_after_round X s.data h1 h2, ?_⟩
    refine replaceChars_length_gt _ _ 8 (by simp) ?_ s.data h3
    have h16 : "\x7bupload.network.".data.length = 16 := by decide
    have h24 : "\x7bupload.port.properties.".data.length = 24 := by decide
    simp only [List.length_append, h16, h24, List.length_cons, List.length_nil]
    omega
  induction fuel generalizing s with
  | zero =>
    rw [replaceNetProps]
    cases hf : findNetProp s.data with
    | none => exact ⟨(replaceEveryNetProp_of_no_match s.data hf).symm, rfl⟩
    | some X =>
      exfalso
      obtain ⟨h1, h2⟩ := hround s X hf
      have h3 := replaceEveryNetProp_length_ge (strings.ReplaceAll s
        ("\x7bupload.network." ++ String.mk X ++ "\x7d")
        ("\x7bupload.port.properties." ++ String.mk X ++ "\x7d")).data
      rw [h1] at h3
      omega
  | succ fuel ih =>
    rw [replaceNetProps]
    cases hf : findNetProp s.data with
    | none => exact ⟨(replaceEveryNetProp_of_no_match s.data hf).symm, hf⟩
    | some X =>
      obtain ⟨h1, h2⟩ := hround s X hf
      have := ih (strings.ReplaceAll s ("\x7bupload.network." ++ String.mk X ++ "\x7d")
        ("\x7bupload.port.properties." ++ String.mk X ++ "\x7d")) (by rw [h1]; omega)
      simp only
      rw [h1] at this
      exact this

theorem replaceChars_of_not_contains (old new s : List Char)
    (h : strings.containsChars old s = false) : strings.replaceChars old new 0 s = s := by
  induction s with
  | nil => rfl
  | cons c cs ih =>
    simp only [strings.containsChars, Bool.or_eq_false_iff] at h
    simp only [strings.replaceChars, h.1, Bool.false_eq_true, if_false, ih h.2]

/-- The pattern that the conversion stores is the pattern with every placeholder
replaced. -/
theorem networkUploadPattern_eq (p : String) :
    networkUploadPattern p = replacedNetworkPattern p := by
  unfold networkUploadPattern replacedNetworkPattern
  dsimp only
  have h3 : (if strings.Contains (strings.ReplaceAll (strings.ReplaceAll p "\x7bserial.port\x7d"
        "\x7bupload.port.address\x7d") "\x7bnetwork.port\x7d" "\x7bupload.port.properties.port\x7d")
        "\x7bnetwork.password\x7d" = true
      then strings.ReplaceAll (strings.ReplaceAll (strings.ReplaceAll p "\x7bserial.port\x7d"
        "\x7bupload.port.address\x7d") "\x7bnetwork.port\x7d" "\x7bupload.port.properties.port\x7d")
        "\x7bnetwork.password\x7d" "\x7bupload.field.password\x7d"
      else strings.ReplaceAll (strings.ReplaceAll p "\x7bserial.port\x7d"
        "\x7bupload.port.address\x7d") "\x7bnetwork.port\x7d" "\x7bupload.port.properties.port\x7d") =
      strings.ReplaceAll (strings.ReplaceAll (strings.ReplaceAll p "\x7bserial.port\x7d"
        "\x7bupload.port.address\x7d") "\x7bnetwork.port\x7d" "\x7bupload.port.properties.port\x7d")
        "\x7bnetwork.password\x7d" "\x7bupload.field.password\x7d" := by
    split_ifs with hc
    · rfl
    · have hc' := Bool.eq_false_iff.2 hc
      apply String.ext
      exact (replaceChars_of_not_contains _ _ _ hc').symm
  rw [h3]
  apply String.ext
  refine (replaceNetProps_spec _ _ ?_).1
  have := replaceEveryNetProp_length_le (strings.ReplaceAll (strings.ReplaceAll
    (strings.ReplaceAll p "\x7bserial.port\x7d" "\x7bupload.port.address\x7d")
    "\x7bnetwork.port\x7d" "\x7bupload.port.properties.port\x7d")
    "\x7bnetwork.password\x7d" "\x7bupload.field.password\x7d").data
  omega

end packagemanager

namespace packagemanager

theorem rewriteBlocks_network_any (D : List Char → Option (Nat × List Char))
    (hD : ∀ t n e, D t = some (n, e) →
      n = 16 ∧ e = "\x7bupload.port.properties.".data ∧
        "\x7bupload.network.".data.isPrefixOf t = true)
    (c : Char) (z : List Char) (hc : c ≠ 'u') (bs : List (List Char)) :
    ((rewriteBlocks D bs).any fun b => (c :: z).isPrefixOf b) =
      bs.any fun b => (c :: z).isPrefixOf b := by
  induction bs with
  | nil => rfl
  | cons b rest ih =>
    rw [rewriteBlocks, List.any_cons, List.any_cons, ih]
    congr 1
    cases hd : D ('\x7b' :: (b ++ braceBlocks rest)) with
    | none => rfl
    | some ne =>
      obtain ⟨n, e⟩ := ne
      obtain ⟨hp, hg⟩ := rewriteBlocks_network D hD b rest n e hd
      simp only
      rw [hg]
      have hb := isPrefixOf_eq_append _ b hp
      have h15 : "upload.network.".data.length = 15 := by decide
      rw [h15] at hb
      have hcu : (c == 'u') = false := by simpa using hc
      have h1 : (c :: z).isPrefixOf ("upload.port.properties.".data ++ b.drop 15) = false := by
        show (c == 'u' && _) = false
        rw [hcu]
        rfl
      have h2 : (c :: z).isPrefixOf b = false := by
        rw [hb]
        show (c == 'u' && _) = false
        rw [hcu]
        rfl
      rw [h1, h2]

/-- Rewriting the matches of `netPropRegexp` neither creates nor removes an
occurrence of a brace token whose body does not begin with `u`. -/
theorem containsChars_replaceEveryNetProp (c : Char) (z s : List Char) (hc : c ≠ 'u')
    (hz : '\x7b' ∉ c :: z) :
    strings.containsChars ('\x7b' :: c :: z) (replaceEveryNetProp s) =
      strings.containsChars ('\x7b' :: c :: z) s := by
  obtain ⟨b0, bs, rfl, h0, hbs⟩ := exists_braceBlocks s
  rw [replaceEveryNetProp_blocks b0 bs h0 hbs,
    containsChars_braceBlocks _ b0 _ hz h0
      (rewriteBlocks_network_braceFree _ netProp_scan_spec bs hbs),
    containsChars_braceBlocks _ b0 bs hz h0 hbs]
  exact rewriteBlocks_network_any _ netProp_scan_spec c z hc bs

theorem no_netProp_token (s : List Char) (h : findNetProp s = none) (X : List Char)
    (hX : X ≠ []) (hcl : '\x7d' ∉ X) :
    strings.containsChars ("\x7bupload.network.".data ++ (X ++ ['\x7d'])) s = false := by
  induction s with
  | nil => rfl
  | cons c cs ih =>
    rw [findNetProp_cons] at h
    cases hn : netPropAt (c :: cs) with
    | some Y => rw [hn] at h; cases h
    | none =>
      rw [hn] at h
      simp only [strings.containsChars, ih h, Bool.or_false]
      cases hp : ("\x7bupload.network.".data ++ (X ++ ['\x7d'])).isPrefixOf (c :: cs) with
      | false => rfl
      | true =>
        have := netPropAt_of_token X (c :: cs) hX hcl hp
        rw [hn] at this
        cases this

/-- C13: when the tool has `upload.network_pattern = p`, the `upload.pattern` of the
synthesized tool is `p` with every `\x7bserial.port\x7d` replaced by
`\x7bupload.port.address\x7d`, every `\x7bnetwork.port\x7d` by
`\x7bupload.port.properties.port\x7d`, every `\x7bnetwork.password\x7d` by
`\x7bupload.field.password\x7d` and every `\x7bupload.network.X\x7d` by
`\x7bupload.port.properties.X\x7d` (`replacedNetworkPattern`: the three replacements one
after the other, then one scan for the tokens `\x7bupload.network.X\x7d`); the loop of
the code over the regular expression ends within the rounds it is given.  The
resulting pattern contains no `\x7bserial.port\x7d`, no `\x7bnetwork.port\x7d`, no
`\x7bnetwork.password\x7d` and no `\x7bupload.network.X\x7d` for any property name `X` (not
empty, without closing brace). -/
theorem convertLegacyNetworkPattern_upload_pattern (props : properties.Map)
    (newToolName p : String) (hp : props.GetOk "upload.network_pattern" = some p) :
    ∃ res, convertLegacyNetworkPatternToPluggableDiscovery props newToolName = some res ∧
      res.GetOk ("tools." ++ newToolName ++ "." ++ "upload.pattern")
        = some (replacedNetworkPattern p) ∧
      strings.Contains (replacedNetworkPattern p) "\x7bserial.port\x7d" = false ∧
      strings.Contains (replacedNetworkPattern p) "\x7bnetwork.port\x7d" = false ∧
      strings.Contains (replacedNetworkPattern p) "\x7bnetwork.password\x7d" = false ∧
      ∀ X : String, X.data ≠ [] → '\x7d' ∉ X.data →
        strings.Contains (replacedNetworkPattern p) ("\x7bupload.network." ++ X ++ "\x7d")
          = false := by
  obtain ⟨res, hres, hget, -⟩ := (convertLegacyNetworkPattern_spec props newToolName).2 p hp
  refine ⟨res, hres, ?_, ?_, ?_, ?_, ?_⟩
  · rw [hget]
    unfold networkToolProperties
    simp only [properties.Map.GetOk, properties.Map.Set]
    rw [assocGet_assocSet_self, networkUploadPattern_eq]
  · have h1 := containsChars_replaceEveryNetProp 's' "erial.port\x7d".data
      (strings.ReplaceAll (strings.ReplaceAll (strings.ReplaceAll p "\x7bserial.port\x7d"
        "\x7bupload.port.address\x7d") "\x7bnetwork.port\x7d" "\x7bupload.port.properties.port\x7d")
        "\x7bnetwork.password\x7d" "\x7bupload.field.password\x7d").data (by decide) (by decide)
    have h2 := containsChars_replaceChars_other "serial.port".data "network.password".data
      "upload.field.password".data
      (strings.ReplaceAll (strings.ReplaceAll p "\x7bserial.port\x7d"
        "\x7bupload.port.address\x7d") "\x7bnetwork.port\x7d"
        "\x7bupload.port.properties.port\x7d").data
      (by decide) (by decide) (by decide) (by decide) (by decide)
    have h3 := containsChars_replaceChars_other "serial.port".data "network.port".data
      "upload.port.properties.port".data
      (strings.ReplaceAll p "\x7bserial.port\x7d" "\x7bupload.port.address\x7d").data
      (by decide) (by decide) (by decide) (by decide) (by decide)
    have h4 := containsChars_replaceChars_self "serial.port".data "upload.port.address".data
      p.data (by decide) (by decide) (by decide)
    exact h1.trans (h2.trans (h3.trans h4))
  · have h1 := containsChars_replaceEveryNetProp 'n' "etwork.port\x7d".data
      (strings.ReplaceAll (strings.ReplaceAll (strings.ReplaceAll p "\x7bserial.port\x7d"
        "\x7bupload.port.address\x7d") "\x7bnetwork.port\x7d" "\x7bupload.port.properties.port\x7d")
        "\x7bnetwork.password\x7d" "\x7bupload.field.password\x7d").data (by decide) (by decide)
    have h2 := containsChars_replaceChars_other "network.port".data "network.password".data
      "upload.field.password".data
      (strings.ReplaceAll (strings.ReplaceAll p "\x7bserial.port\x7d"
        "\x7bupload.port.address\x7d") "\x7bnetwork.port\x7d"
        "\x7bupload.port.properties.port\x7d").data
      (by decide) (by decide) (by decide) (by decide) (by decide)
    have h3 := containsChars_replaceChars_self "network.port".data
      "upload.port.properties.port".data
      (strings.ReplaceAll p "\x7bserial.port\x7d" "\x7bupload.port.address\x7d").data
      (by decide) (by decide) (by decide)
    exact h1.trans (h2.trans h3)
  · have h1 := containsChars_replaceEveryNetProp 'n' "etwork.password\x7d".data
      (strings.ReplaceAll (strings.ReplaceAll (strings.ReplaceAll p "\x7bserial.port\x7d"
        "\x7bupload.port.address\x7d") "\x7bnetwork.port\x7d" "\x7bupload.port.properties.port\x7d")
        "\x7bnetwork.password\x7d" "\x7bupload.field.password\x7d").data (by decide) (by decide)
    have h2 := containsChars_replaceChars_self "network.password".data
      "upload.field.password".data
      (strings.ReplaceAll (strings.ReplaceAll p "\x7bserial.port\x7d"
        "\x7bupload.port.address\x7d") "\x7bnetwork.port\x7d"
        "\x7bupload.port.properties.port\x7d").data
      (by decide) (by decide) (by decide)
    exact h1.trans h2
  · intro X hX hcl
    have hfind : findNetProp (replacedNetworkPattern p).data = none := by
      rw [← networkUploadPattern_eq]
      unfold networkUploadPattern
      dsimp only
      refine (replaceNetProps_spec _ _ ?_).2
      have := replaceEveryNetProp_length_le (if strings.Contains (strings.ReplaceAll
        (strings.ReplaceAll p "\x7bserial.port\x7d" "\x7bupload.port.address\x7d")
        "\x7bnetwork.port\x7d" "\x7bupload.port.properties.port\x7d") "\x7bnetwork.password\x7d" = true
        then strings.ReplaceAll (strings.ReplaceAll (strings.ReplaceAll p "\x7bserial.port\x7d"
          "\x7bupload.port.address\x7d") "\x7bnetwork.port\x7d" "\x7bupload.port.properties.port\x7d")
          "\x7bnetwork.password\x7d" "\x7bupload.field.password\x7d"
        else strings.ReplaceAll (strings.ReplaceAll p "\x7bserial.port\x7d"
          "\x7bupload.port.address\x7d") "\x7bnetwork.port\x7d"
          "\x7bupload.port.properties.port\x7d").data
      omega
    have := no_netProp_token _ hfind X.data hX hcl
    unfold strings.Contains
    simp only [String.data_append, List.append_assoc]
    exact this

/-- Witness of C13: a network pattern with the four kinds of placeholders. -/
theorem convertLegacyNetworkPattern_upload_pattern_witness :
    ∃ res, convertLegacyNetworkPatternToPluggableDiscovery
        [("upload.network_pattern",
          "ota \x7bserial.port\x7d:\x7bnetwork.port\x7d \x7bnetwork.password\x7d \x7bupload.network.sync\x7d")]
        "ota__pluggable_network" = some res ∧
      res.GetOk "tools.ota__pluggable_network.upload.pattern" = some
        "ota \x7bupload.port.address\x7d:\x7bupload.port.properties.port\x7d \x7bupload.field.password\x7d \x7bupload.port.properties.sync\x7d" := by
  obtain ⟨res, hres, hpat, -⟩ := convertLegacyNetworkPattern_upload_pattern
    [("upload.network_pattern",
      "ota \x7bserial.port\x7d:\x7bnetwork.port\x7d \x7bnetwork.password\x7d \x7bupload.network.sync\x7d")]
    "ota__pluggable_network"
    "ota \x7bserial.port\x7d:\x7bnetwork.port\x7d \x7bnetwork.password\x7d \x7bupload.network.sync\x7d" rfl
  exact ⟨res, hres, hpat.trans (by decide)⟩

end packagemanager
/-! ## Theorems: the events of a run and the second loop -/

namespace builder

/-- Running one command leaves the settings of the context alone and appends only
messages to its events. -/
theorem Run_events (w : World) (c : Command) (ctx : Context) :
    ∃ E : List Event, (c.Run w ctx).1 = { ctx with events := ctx.events ++ E } ∧
      ∀ e ∈ E, (∃ m, e = .info m) ∨ (∃ m, e = .warn m) := by
  have h0 : ∃ E : List Event, ctx = { ctx with events := ctx.events ++ E } ∧
      ∀ e ∈ E, (∃ m, e = Event.info m) ∨ (∃ m, e = Event.warn m) :=
    ⟨[], by simp, by simp⟩
  have h1 : ∀ e0 : Event, ((∃ m, e0 = .info m) ∨ (∃ m, e0 = .warn m)) →
      ∃ E : List Event, ctx.emit e0 = { ctx with events := ctx.events ++ E } ∧
        ∀ e ∈ E, (∃ m, e = Event.info m) ∨ (∃ m, e = Event.warn m) := by
    intro e0 he0
    exact ⟨[e0], rfl, by simpa using he0⟩
  cases c <;> simp only [Command.Run, containerBuildOptions, logIfVerbose] <;>
    (try split_ifs) <;> first
      | exact h0
      | exact h1 _ (Or.inl ⟨_, rfl⟩)
      | exact h1 _ (Or.inr ⟨_, rfl⟩)

/-- The events of a loop: they are appended to those of the context, the settings
are kept, the flush of the compilation database is not among them, the commands
announced are commands of the list, and the first event announces the first
command. -/
theorem runLoop_events (w : World) (cs : List Command) (ctx : Context) :
    ∃ E : List Event, (runLoop w cs ctx).1 = { ctx with events := ctx.events ++ E } ∧
      Event.saveToFile ∉ E ∧ (∀ c, Event.running c ∈ E → c ∈ cs) ∧
      E.head? = cs.head?.map Event.running := by
  induction cs generalizing ctx with
  | nil => exact ⟨[], by simp [runLoop], by simp, by simp, rfl⟩
  | cons a cs ih =>
    obtain ⟨E1, hE1, hm⟩ := Run_events w a (ctx.emit (.running a))
    have hno : Event.saveToFile ∉ E1 := by
      intro h
      rcases hm _ h with ⟨m, hm⟩ | ⟨m, hm⟩ <;> cases hm
    have hrun : ∀ c, Event.running c ∉ E1 := by
      intro c h
      rcases hm _ h with ⟨m, hm⟩ | ⟨m, hm⟩ <;> cases hm
    simp only [runLoop]
    cases hr : (a.Run w (ctx.emit (.running a))).2 with
    | some err =>
      refine ⟨Event.running a :: E1, ?_, ?_, ?_, rfl⟩
      · rw [hE1]
        simp only [Context.emit, List.append_assoc, List.singleton_append]
      · simpa using hno
      · intro c hc
        rcases List.mem_cons.1 hc with h | h
        · cases h
          exact List.mem_cons_self _ _
        · exact absurd h (hrun c)
    | none =>
      obtain ⟨E2, hE2, hno2, hrun2, -⟩ := ih (((a.Run w (ctx.emit (.running a))).1.emit
        .completeStep).emit .pushProgress)
      refine ⟨Event.running a :: (E1 ++ Event.completeStep :: Event.pushProgress :: E2),
        ?_, ?_, ?_, rfl⟩
      · rw [hE2, hE1]
        simp only [Context.emit, List.append_assoc, List.singleton_append, List.cons_append,
          List.nil_append]
      · simp only [List.mem_cons, List.mem_append, not_or]
        exact ⟨by simp, hno, by simp, by simp, hno2⟩
      · intro c hc
        simp only [List.mem_cons, List.mem_append] at hc
        rcases hc with h | h | h | h | h
        · cases h
          exact List.mem_cons_self _ _
        · exact absurd h (hrun c)
        · cases h
        · cases h
        · exact List.mem_cons_of_mem _ (hrun2 c h)

/-- No command of the second list is in the first list. -/
theorem secondary_not_primary (f : Bool) (c : Command) (h : c ∈ secondaryCommands f) :
    c ∉ primaryCommands := by
  cases f <;>
    · simp only [secondaryCommands, List.mem_cons, List.mem_singleton, List.not_mem_nil,
        or_false] at h
      rcases h with h | h | h | h <;> (subst h; decide)

/-- C22: in every run of `Builder.Run` in which the build directory was created, the
events of the run are those of the first loop (`E1`), then the flush
`CompilationDatabase.SaveToFile()` if and only if `ctx.CompilationDatabase` is set,
then those of the second loop (`E2`).  Neither loop flushes, so the flush happens
exactly once when the database is set and never otherwise; every primary command
that was started is announced in `E1`, before the flush, and every secondary command
in `E2`, after it, the first event of `E2` being the start of the first secondary
command.  This holds whether the first loop failed or not. -/
theorem Run_saves_compilation_database_between_loops (w : World) (ctx : Context)
    (hmk : w.MkdirAll ctx = none) :
    ∃ E1 E2 : List Event,
      (runLoop w primaryCommands (afterMkdir ctx)).1.events = ctx.events ++ E1 ∧
      (Builder.Run w ctx).1.events = ctx.events ++ E1 ++
        (if ctx.CompilationDatabase then [Event.saveToFile] else []) ++ E2 ∧
      Event.saveToFile ∉ E1 ∧ Event.saveToFile ∉ E2 ∧
      (E1 ++ (if ctx.CompilationDatabase then [Event.saveToFile] else []) ++ E2).count
        Event.saveToFile = (if ctx.CompilationDatabase then 1 else 0) ∧
      (∀ c, Event.running c ∈ E1 → c ∈ primaryCommands) ∧
      (∀ c, Event.running c ∈ E2 →
        c ∈ secondaryCommands (runLoop w primaryCommands (afterMkdir ctx)).2.isSome) ∧
      (∀ c ∈ primaryCommands, Event.running c ∉ E2) ∧
      E2.head? = some (Event.running (Command.printUsedAndNotUsedLibraries
        (runLoop w primaryCommands (afterMkdir ctx)).2.isSome)) := by
  obtain ⟨E1, h1, hno1, hrun1, -⟩ := runLoop_events w primaryCommands (afterMkdir ctx)
  obtain ⟨E2, h2, hno2, hrun2, hhead⟩ := runLoop_events w
    (secondaryCommands (runLoop w primaryCommands (afterMkdir ctx)).2.isSome)
    (saveCompilationDatabase (runLoop w primaryCommands (afterMkdir ctx)).1)
  have hdb : (runLoop w primaryCommands (afterMkdir ctx)).1.CompilationDatabase
      = ctx.CompilationDatabase := by rw [h1]; rfl
  have hsave : (saveCompilationDatabase (runLoop w primaryCommands (afterMkdir ctx)).1).events
      = ctx.events ++ (Event.addSubSteps (primaryCommands.length + 5) :: E1) ++
        (if ctx.CompilationDatabase then [Event.saveToFile] else []) := by
    unfold saveCompilationDatabase
    rw [hdb]
    split_ifs
    · rw [h1]
      simp [Context.emit, afterMkdir]
    · rw [h1]
      simp [Context.emit, afterMkdir]
  have hE2 : E2 ≠ [] := by
    intro h
    rw [h] at hhead
    simp [secondaryCommands] at hhead
  have hcount1 : (Event.addSubSteps (primaryCommands.length + 5) :: E1).count Event.saveToFile
      = 0 := List.count_eq_zero.2 (by simpa using hno1)
  have hcount2 : (E2 ++ [Event.removeSubSteps]).count Event.saveToFile = 0 :=
    List.count_eq_zero.2 (by simpa using hno2)
  refine ⟨Event.addSubSteps (primaryCommands.length + 5) :: E1, E2 ++ [Event.removeSubSteps],
    ?_, ?_, by simpa using hno1, by simpa using hno2, ?_, ?_, ?_, ?_, ?_⟩
  · rw [h1]
    simp [Context.emit, afterMkdir]
  · have hrun : (Builder.Run w ctx).1 = (runLoop w
        (secondaryCommands (runLoop w primaryCommands (afterMkdir ctx)).2.isSome)
        (saveCompilationDatabase (runLoop w primaryCommands (afterMkdir ctx)).1)).1.emit
          .removeSubSteps := by
      simp only [Builder.Run, hmk]
    rw [hrun, h2]
    simp only [Context.emit, hsave, List.append_assoc]
  · rw [List.count_append, List.count_append, hcount1, hcount2]
    split_ifs <;> simp
  · intro c hc
    rcases List.mem_cons.1 hc with h | h
    · cases h
    · exact hrun1 c h
  · intro c hc
    rcases List.mem_append.1 hc with h | h
    · exact hrun2 c h
    · simp at h
  · intro c hc hmem
    have hsec : c ∈ secondaryCommands (runLoop w primaryCommands (afterMkdir ctx)).2.isSome := by
      rcases List.mem_append.1 hmem with h | h
      · exact hrun2 c h
      · simp at h
    exact secondary_not_primary _ c hsec hc
  · rw [List.head?_append_of_ne_nil _ hE2, hhead]
    rfl

/-- Witness of C22: the core builder fails and the database is set; the flush stands
between the events of the two loops. -/
theorem Run_saves_compilation_database_between_loops_witness :
    ∃ E1 E2 : List Event,
      (Builder.Run { sampleWorld false "" with CoreBuilder := fun _ => some (.ext "core") }
        sampleContext).1.events = sampleContext.events ++ E1 ++ [Event.saveToFile] ++ E2 ∧
      Event.saveToFile ∉ E1 ∧ Event.saveToFile ∉ E2 := by
  obtain ⟨E1, E2, -, h, h1, h2, -⟩ := Run_saves_compilation_database_between_loops
    { sampleWorld false "" with CoreBuilder := fun _ => some (.ext "core") } sampleContext
    (by decide)
  exact ⟨E1, E2, h, h1, h2⟩

/-- No command occurs twice in the second list. -/
theorem secondaryCommands_nodup (f : Bool) : (secondaryCommands f).Nodup := by
  cases f <;> decide

/-- C28: the second loop of `Builder.Run` stops at its first failing command.  If the
second list is `pre ++ c :: post`, the commands of `pre` return no error and `c`
returns `e`, then the loop ends with `e` (with its stack) as the secondary error,
the commands started by the whole run are those of the first loop followed by `pre`
and `c` only, so that nothing of `post` is started (when `c` is the CMake export,
`post` is the sizer), and `Run` returns this error when the first loop had none.
The two library reports never return an error, hence `c` is the CMake export or the
sizer. -/
theorem Run_secondary_stops_at_first_error (w : World) (ctx ctx2 ctx3 : Context)
    (pre post : List Command) (c : Command) (e : Error)
    (hmk : w.MkdirAll ctx = none)
    (hsplit : secondaryCommands (runLoop w primaryCommands (afterMkdir ctx)).2.isSome
      = pre ++ c :: post)
    (hpre : runLoop w pre (saveCompilationDatabase
      (runLoop w primaryCommands (afterMkdir ctx)).1) = (ctx2, none))
    (hc : c.Run w (ctx2.emit (.running c)) = (ctx3, some e)) :
    runLoop w (secondaryCommands (runLoop w primaryCommands (afterMkdir ctx)).2.isSome)
      (saveCompilationDatabase (runLoop w primaryCommands (afterMkdir ctx)).1)
        = (ctx3, some (.withStack e)) ∧
    (Builder.Run w ctx).1.started
      = (runLoop w primaryCommands (afterMkdir ctx)).1.started ++ pre ++ [c] ∧
    (∃ k, (runLoop w primaryCommands (afterMkdir ctx)).1.started
      = ctx.started ++ primaryCommands.take k) ∧
    (∀ d ∈ post, d ∉ pre ++ [c] ∧ d ∉ primaryCommands) ∧
    (∀ f, c = Command.exportProjectCMake f → post = [Command.sizer f]) ∧
    ((runLoop w primaryCommands (afterMkdir ctx)).2 = none →
      (Builder.Run w ctx).2 = some (.withStack e)) ∧
    (∀ f ctx0, (Command.Run w (Command.printUsedAndNotUsedLibraries f) ctx0).2 = none ∧
      (Command.Run w Command.printUsedLibrariesIfVerbose ctx0).2 = none) ∧
    (c = Command.exportProjectCMake (runLoop w primaryCommands (afterMkdir ctx)).2.isSome ∨
      c = Command.sizer (runLoop w primaryCommands (afterMkdir ctx)).2.isSome) := by
  have h := runLoop_first_failure w pre post c _ ctx2 ctx3 e hpre hc
  rw [← hsplit] at h
  have hst : ctx3.started
      = (runLoop w primaryCommands (afterMkdir ctx)).1.started ++ pre ++ [c] := by
    have h1 := runLoop_started_ok w pre _ ctx2 hpre
    have h2 := started_Run w c (ctx2.emit (.running c))
    rw [hc] at h2
    simp only at h2
    rw [h2, started_emit_running, h1, started_saveCompilationDatabase]
  have hnd := secondaryCommands_nodup (runLoop w primaryCommands (afterMkdir ctx)).2.isSome
  rw [hsplit] at hnd
  have hcases : (c = Command.exportProjectCMake
        (runLoop w primaryCommands (afterMkdir ctx)).2.isSome ∧
        post = [Command.sizer (runLoop w primaryCommands (afterMkdir ctx)).2.isSome]) ∨
      (c = Command.sizer (runLoop w primaryCommands (afterMkdir ctx)).2.isSome ∧
        post = []) := by
    generalize (runLoop w primaryCommands (afterMkdir ctx)).2.isSome = f at hsplit
    simp only [secondaryCommands] at hsplit
    rcases pre with _ | ⟨a, _ | ⟨b, _ | ⟨c1, _ | ⟨d, pre⟩⟩⟩⟩
    · simp only [List.nil_append, List.cons.injEq] at hsplit
      rw [← hsplit.1] at hc
      simp [Command.Run] at hc
    · simp only [List.cons_append, List.nil_append, List.cons.injEq] at hsplit
      rw [← hsplit.2.1] at hc
      simp [Command.Run] at hc
    · simp only [List.cons_append, List.nil_append, List.cons.injEq] at hsplit
      exact Or.inl ⟨hsplit.2.2.1.symm, hsplit.2.2.2.symm⟩
    · simp only [List.cons_append, List.nil_append, List.cons.injEq] at hsplit
      exact Or.inr ⟨hsplit.2.2.2.1.symm, hsplit.2.2.2.2.symm⟩
    · simp only [List.cons_append, List.cons.injEq] at hsplit
      have := hsplit.2.2.2.2
      cases pre <;> simp at this
  refine ⟨h, ?_, ?_, ?_, ?_, ?_, ?_, ?_⟩
  · have hrun : (Builder.Run w ctx).1 = ctx3.emit .removeSubSteps := by
      simp only [Builder.Run, hmk, h]
    rw [hrun, started_emit_other _ _ (by intro c h; cases h), hst]
  · obtain ⟨k, -, hk, -, -⟩ := runLoop_started w primaryCommands (afterMkdir ctx)
    exact ⟨k, by rw [hk, started_afterMkdir]⟩
  · intro d hd
    constructor
    · intro hmem
      rw [List.nodup_append] at hnd
      rcases List.mem_append.1 hmem with hp | hp
      · exact hnd.2.2 hp (List.mem_cons_of_mem _ hd)
      · rw [List.mem_singleton] at hp
        subst hp
        exact (List.nodup_cons.1 hnd.2.1).1 hd
    · refine secondary_not_primary (runLoop w primaryCommands (afterMkdir ctx)).2.isSome d ?_
      rw [hsplit]
      exact List.mem_append_right _ (List.mem_cons_of_mem _ hd)
  · intro f hf
    rcases hcases with ⟨h1, h2⟩ | ⟨h1, -⟩
    · rw [h1] at hf
      cases hf
      exact h2
    · rw [h1] at hf
      cases hf
  · intro hnone
    have h2 := congrArg Prod.snd h
    simp only [Builder.Run, hmk]
    rw [h2]
    simp [hnone]
  · intro f ctx0
    exact ⟨rfl, rfl⟩
  · rcases hcases with ⟨h1, -⟩ | ⟨h1, -⟩
    · exact Or.inl h1
    · exact Or.inr h1

/-- Witness of C28: the CMake export fails after a successful first loop; the sizer
is not started and the error of the export is returned. -/
theorem Run_secondary_stops_at_first_error_witness :
    (Builder.Run { sampleWorld false "" with ExportProjectCMake := fun _ _ => some (.ext "cmake") }
      sampleContext).2 = some (.withStack (.ext "cmake")) :=
  (Run_secondary_stops_at_first_error
    { sampleWorld false "" with ExportProjectCMake := fun _ _ => some (.ext "cmake") }
    sampleContext
    (runLoop { sampleWorld false "" with ExportProjectCMake := fun _ _ => some (.ext "cmake") }
      ((secondaryCommands false).take 2)
      (saveCompilationDatabase (runLoop
        { sampleWorld false "" with ExportProjectCMake := fun _ _ => some (.ext "cmake") }
        primaryCommands (afterMkdir sampleContext)).1)).1
    ((runLoop { sampleWorld false "" with ExportProjectCMake := fun _ _ => some (.ext "cmake") }
      ((secondaryCommands false).take 2)
      (saveCompilationDatabase (runLoop
        { sampleWorld false "" with ExportProjectCMake := fun _ _ => some (.ext "cmake") }
        primaryCommands (afterMkdir sampleContext)).1)).1.emit
          (.running (.exportProjectCMake false)))
    ((secondaryCommands false).take 2) [.sizer false] (.exportProjectCMake false) (.ext "cmake")
    (by decide) (by decide) (Prod.ext rfl rfl) rfl).2.2.2.2.2.1 (by decide)

end builder

/-! ## Theorems: the wipe of the build directory -/

namespace builder

/-- C21: `WipeoutBuildPathIfBuildOptionsChanged` called with `clean = false` on an
existing build directory returns no error in both cases of the test.  When the
previous build-options JSON is not empty and differs from the new one, the
directory is still there afterwards and has no entry (no file such as
`should_be_deleted.txt` is left); when there is no previous build-options JSON, the
directory is unchanged, so every file present before is still present. -/
theorem WipeoutBuildPath_wipes_only_changed_options (buildPath : BuildPath)
    (buildOptionsJson buildOptionsJsonPrevious : String) (buildProperties : properties.Map)
    (hex : buildPath.exist = true) :
    (buildOptionsJsonPrevious ≠ "" → buildOptionsJsonPrevious ≠ buildOptionsJson →
      (WipeoutBuildPathIfBuildOptionsChanged false buildPath buildOptionsJson
        buildOptionsJsonPrevious buildProperties).1 = none ∧
      (WipeoutBuildPathIfBuildOptionsChanged false buildPath buildOptionsJson
        buildOptionsJsonPrevious buildProperties).2.exist = true ∧
      (WipeoutBuildPathIfBuildOptionsChanged false buildPath buildOptionsJson
        buildOptionsJsonPrevious buildProperties).2.entries.length = 0 ∧
      ∀ file, file ∉ (WipeoutBuildPathIfBuildOptionsChanged false buildPath buildOptionsJson
        buildOptionsJsonPrevious buildProperties).2.entries) ∧
    ((WipeoutBuildPathIfBuildOptionsChanged false buildPath buildOptionsJson ""
        buildProperties).1 = none ∧
      (WipeoutBuildPathIfBuildOptionsChanged false buildPath buildOptionsJson ""
        buildProperties).2.exist = true ∧
      (WipeoutBuildPathIfBuildOptionsChanged false buildPath buildOptionsJson ""
        buildProperties).2.entries = buildPath.entries ∧
      ∀ file ∈ buildPath.entries, file ∈ (WipeoutBuildPathIfBuildOptionsChanged false
        buildPath buildOptionsJson "" buildProperties).2.entries) := by
  constructor
  · intro h1 h2
    simp [WipeoutBuildPathIfBuildOptionsChanged, h1, h2, hex]
  · simp [WipeoutBuildPathIfBuildOptionsChanged, hex]

/-- Witness of C21: the two cases of the test, a directory holding
`should_be_deleted.txt` with changed options and one holding
`should_not_be_deleted.txt` without previous options. -/
theorem WipeoutBuildPath_wipes_only_changed_options_witness :
    (WipeoutBuildPathIfBuildOptionsChanged false
      { exist := true, entries := ["should_be_deleted.txt"] }
      "\x7b \"new\":\"new\" \x7d" "\x7b \"old\":\"old\" \x7d" []).2.entries.length = 0 ∧
    "should_not_be_deleted.txt" ∈ (WipeoutBuildPathIfBuildOptionsChanged false
      { exist := true, entries := ["should_not_be_deleted.txt"] }
      "\x7b \"new\":\"new\" \x7d" "" []).2.entries :=
  ⟨((WipeoutBuildPath_wipes_only_changed_options
      { exist := true, entries := ["should_be_deleted.txt"] }
      "\x7b \"new\":\"new\" \x7d" "\x7b \"old\":\"old\" \x7d" [] rfl).1
        (by decide) (by decide)).2.2.1,
    (WipeoutBuildPath_wipes_only_changed_options
      { exist := true, entries := ["should_not_be_deleted.txt"] }
      "\x7b \"new\":\"new\" \x7d" "\x7b \"old\":\"old\" \x7d" [] rfl).2.2.2.2 _
        (List.mem_singleton.2 rfl)⟩

end builder

/-! ## Theorems: the menu name of a board key -/

namespace packagemanager

/-- The pieces of a key that starts with `menu.`: the text `menu` and then the pieces
of the rest of the key. -/
theorem Split_menu_key (key : String) (h : strings.HasPrefix key "menu." = true) :
    ∃ t : String, key = "menu." ++ t ∧
      strings.Split key '.' = "menu" :: strings.Split t '.' := by
  obtain ⟨t, rfl⟩ := (strings.HasPrefix_iff _ _).1 h
  refine ⟨t, rfl, ?_⟩
  unfold strings.Split
  have hd : ("menu." ++ t).data = "menu".data ++ '.' :: t.data := by
    simp [String.data_append]
  rw [hd, strings.splitChars_append '.' "menu".data t.data (by decide)]
  rfl

/-- Counterexample to C23: the top-level key `menu.` of `boards.txt` declares the menu
with the empty name.  The board `uno` has the key `menu.`, whose second element is
the empty text; this name is a key of the menus of the release, so the board is not
skipped: `loadBoards` returns no error and the board is loaded. -/
theorem loadBoards_empty_menu_name_can_be_declared :
    strings.Split "menu." '.' = ["menu", ""] ∧
    ("menu.", "x") ∈ (assocGet (boardDefinitions
      [("menu.", "Empty"), ("uno.menu.", "x"), ("uno.name", "Uno")] []) "uno").getD [] ∧
    (declaredMenus [("menu.", "Empty"), ("uno.menu.", "x"), ("uno.name", "Uno")]
      []).ContainsKey "" = true ∧
    (loadBoards (sampleEnv (.dir [("p", sampleReleaseDir
        [("menu.", "Empty"), ("uno.menu.", "x"), ("uno.name", "Uno")])]) [] []) "acme" "avr"
      (sampleRelease ["p"])).2 = none ∧
    (assocGet (loadBoards (sampleEnv (.dir [("p", sampleReleaseDir
        [("menu.", "Empty"), ("uno.menu.", "x"), ("uno.name", "Uno")])]) [] []) "acme" "avr"
      (sampleRelease ["p"])).1.Boards "uno").isSome = true := by
  refine ⟨by decide, by decide, by decide, by decide, by decide⟩

/-- C23 (amended): in `loadBoards` the indexing `strings.Split(key, ".")[1]` is never
out of range: a key that starts with `menu.` splits on the dot into `menu` followed
by at least one more element, so the element at index 1 exists and is the menu name
that the scan looks up.  For the key `menu.` this element is the empty text; a board
definition that has this key is skipped when the empty name is not a key of the menus
of the release, and the key does not make it skipped when the empty name is one. -/
theorem loadBoards_menu_index_in_range (key : String)
    (h : strings.HasPrefix key "menu." = true) :
    2 ≤ (strings.Split key '.').length ∧
    (strings.Split key '.').head? = some "menu" ∧
    (strings.Split key '.')[1]? = some ((strings.Split key '.').getD 1 "") ∧
    strings.Split "menu." '.' = ["menu", ""] ∧
    (∀ (menus boardProperties : properties.Map) (value : String),
      ("menu.", value) ∈ boardProperties → menus.ContainsKey "" = false →
      hasUnknownMenu menus boardProperties = true) ∧
    (∀ (menus : properties.Map) (value : String), menus.ContainsKey "" = true →
      hasUnknownMenu menus [("menu.", value)] = false) := by
  obtain ⟨t, -, hs⟩ := Split_menu_key key h
  have hne : strings.Split t '.' ≠ [] := by
    unfold strings.Split
    intro hnil
    exact strings.splitChars_ne_nil '.' t.data (List.map_eq_nil_iff.1 hnil)
  obtain ⟨a, rest, hrest⟩ := List.exists_cons_of_ne_nil hne
  have hsplit : strings.Split "menu." '.' = ["menu", ""] := by decide
  refine ⟨?_, ?_, ?_, hsplit, ?_, ?_⟩
  · rw [hs, hrest]
    simp
  · rw [hs]
    rfl
  · rw [hs, hrest]
    simp
  · intro menus boardProperties value hmem hmenus
    refine (hasUnknownMenu_iff menus boardProperties).2 ⟨("menu.", value), hmem,
      strings.HasPrefix_append "menu." "", ?_⟩
    show menus.ContainsKey ((strings.Split "menu." '.').getD 1 "") = false
    rw [hsplit]
    exact hmenus
  · intro menus value hmenus
    simp [hasUnknownMenu, properties.Map.AsMap, hsplit, hmenus]

/-- Witness of C23: the key `menu.cpu.328p.build.mcu`. -/
theorem loadBoards_menu_index_in_range_witness :
    (strings.Split "menu.cpu.328p.build.mcu" '.')[1]?
      = some ((strings.Split "menu.cpu.328p.build.mcu" '.').getD 1 "") :=
  (loadBoards_menu_index_in_range "menu.cpu.328p.build.mcu" (by decide)).2.2.1

end packagemanager

/-! ## Theorems: the early return of `loadPlatformRelease` after `loadBoards` -/

namespace packagemanager

/-- The release that the pointer of `loadPlatformRelease` reaches once the
`installed.json` step has succeeded: the release of the call with its install
directory set. -/
theorem installedJSON_step_release (env : Env) (pm pmj : Builder)
    (packager arch version : String) (path : paths.Path) (idx : packageindex.Index)
    (hstep : (if Exist env (path.Join "installed.json")
        then (pm.updateRelease packager arch version fun r =>
          { r with InstallDir := some path }).LoadPackageIndexFromFile env
            (path.Join "installed.json")
        else (pm.updateRelease packager arch version fun r =>
          { r with InstallDir := some path }, .ok [])) = (pmj, .ok idx)) :
    ((pmj.packages.package packager).platform arch).release version =
      { ((pm.packages.package packager).platform arch).release version with
        InstallDir := some path } := by
  have h0 : (((pm.updateRelease packager arch version fun r =>
        { r with InstallDir := some path }).packages.package packager).platform arch).release
          version =
      { ((pm.packages.package packager).platform arch).release version with
        InstallDir := some path } := by
    unfold Builder.updateRelease
    rw [platform_updatePlatform, release_GetOrCreateRelease]
  split_ifs at hstep with hex
  · unfold Builder.LoadPackageIndexFromFile at hstep
    cases hl : LoadIndex env (path.Join "installed.json") with
    | error e =>
      rw [hl] at hstep
      cases hstep
    | ok index =>
      rw [hl] at hstep
      have hpm := congrArg Prod.fst hstep
      dsimp only at hpm
      rw [← hpm]
      have hm := MergeIntoPackages_frame index (pm.updateRelease packager arch version fun r =>
        { r with InstallDir := some path }).packages packager arch
      exact (hm.2.2.2 version).trans h0
  · have hpm := congrArg Prod.fst hstep
    dsimp only at hpm
    rw [← hpm]
    exact h0

/-- The outcome of `loadPlatformRelease` once the `installed.json` step has succeeded:
the error and the release are those of `loadPlatformReleaseFiles`. -/
theorem loadPlatformRelease_of_step (env : Env) (pm pmj : Builder)
    (packager arch version : String) (path : paths.Path) (idx : packageindex.Index)
    (hstep : (if Exist env (path.Join "installed.json")
        then (pm.updateRelease packager arch version fun r =>
          { r with InstallDir := some path }).LoadPackageIndexFromFile env
            (path.Join "installed.json")
        else (pm.updateRelease packager arch version fun r =>
          { r with InstallDir := some path }, .ok [])) = (pmj, .ok idx)) :
    (loadPlatformRelease env pm packager arch version path).2 =
      (loadPlatformReleaseFiles env (pmj.packages.package packager).Name
        ((pmj.packages.package packager).platform arch).Architecture
        ((pmj.packages.package packager).platform arch).Name
        { ((pm.packages.package packager).platform arch).release version with
          InstallDir := some path } path).2 ∧
    (((loadPlatformRelease env pm packager arch version path).1.packages.package
        packager).platform arch).release version =
      (loadPlatformReleaseFiles env (pmj.packages.package packager).Name
        ((pmj.packages.package packager).platform arch).Architecture
        ((pmj.packages.package packager).platform arch).Name
        { ((pm.packages.package packager).platform arch).release version with
          InstallDir := some path } path).1.2 := by
  have hrel := installedJSON_step_release env pm pmj packager arch version path idx hstep
  unfold loadPlatformRelease
  dsimp only
  rw [hstep]
  dsimp only
  rw [platform_updatePlatform, release_GetOrCreateRelease, hrel]
  exact ⟨rfl, rfl⟩

end packagemanager

namespace packagemanager

/-- The loop over the programmers changes the programmers only. -/
theorem loadProgrammers_fields (platform : cores.PlatformRelease) (pp : properties.Map) :
    (loadProgrammers platform pp).InstallDir = platform.InstallDir ∧
    (loadProgrammers platform pp).Boards = platform.Boards ∧
    (loadProgrammers platform pp).Monitors = platform.Monitors ∧
    (loadProgrammers platform pp).MonitorsDevRecipes = platform.MonitorsDevRecipes := by
  unfold loadProgrammers
  exact foldl_invariant (fun rel : cores.PlatformRelease =>
    rel.InstallDir = platform.InstallDir ∧ rel.Boards = platform.Boards ∧
    rel.Monitors = platform.Monitors ∧ rel.MonitorsDevRecipes = platform.MonitorsDevRecipes)
    _ _ _ ⟨rfl, rfl, rfl, rfl⟩ (fun rel e _ hrel => hrel)

/-- The awareness block changes the properties and the flag only. -/
theorem markAwareOrInjectDefaults_fields (platform : cores.PlatformRelease) :
    (markAwareOrInjectDefaults platform).InstallDir = platform.InstallDir ∧
    (markAwareOrInjectDefaults platform).Boards = platform.Boards ∧
    (markAwareOrInjectDefaults platform).Monitors = platform.Monitors ∧
    (markAwareOrInjectDefaults platform).MonitorsDevRecipes = platform.MonitorsDevRecipes ∧
    (markAwareOrInjectDefaults platform).Programmers = platform.Programmers := by
  unfold markAwareOrInjectDefaults
  split_ifs <;> exact ⟨rfl, rfl, rfl, rfl, rfl⟩

/-- The method `loadBoards` leaves the monitors and the programmers alone. -/
theorem loadBoards_fields (env : Env) (pk arch : String) (platform : cores.PlatformRelease) :
    (loadBoards env pk arch platform).1.Monitors = platform.Monitors ∧
    (loadBoards env pk arch platform).1.MonitorsDevRecipes = platform.MonitorsDevRecipes ∧
    (loadBoards env pk arch platform).1.Programmers = platform.Programmers := by
  unfold loadBoards
  split
  · exact ⟨rfl, rfl, rfl⟩
  · split
    · exact ⟨rfl, rfl, rfl⟩
    · split
      · exact ⟨rfl, rfl, rfl⟩
      · dsimp only
        split_ifs <;> (rw [loadBoard_fold_frame]; exact ⟨rfl, rfl, rfl⟩)

/-- The release and the error that `loadPlatformReleaseFiles` returns when the
platform files and `programmers.txt` have been read and `loadBoards` returned an
error: the release is the one `loadBoards` left and the error is that of
`loadBoards` after the words `loading boards: `. -/
theorem loadPlatformReleaseFiles_at_boards_error (env : Env) (pk arch name : String)
    (platform0 platform6 : cores.PlatformRelease) (path : paths.Path)
    (p pl pp : properties.Map) (err : Error)
    (h1 : SafeLoad env (path.Join "platform.txt") = .ok p)
    (h2 : SafeLoad env (path.Join "platform.local.txt") = .ok pl)
    (h3 : SafeLoad env (path.Join "programmers.txt") = .ok pp)
    (h4 : loadBoards env pk arch (loadProgrammers (markAwareOrInjectDefaults { platform0 with
        Properties := (platform0.Properties.Clone.Merge p).Merge pl }) pp) = (platform6, some err)) :
    (loadPlatformReleaseFiles env pk arch name platform0 path).2 =
      some (.new ("loading boards: " ++ err.message)) ∧
    (loadPlatformReleaseFiles env pk arch name platform0 path).1.2 = platform6 := by
  unfold loadPlatformReleaseFiles
  simp only [h1, h2, h3, h4, and_self]

end packagemanager

namespace packagemanager

/-- C27: when the `installed.json` step has succeeded, the platform files and
`programmers.txt` have been read, and `loadBoards` skips at least one board,
`loadPlatformRelease` returns at once with the error of `loadBoards` after the words
`loading boards: `.  The release is left as `loadBoards` left it: its properties and
its flag are those set by the awareness block (nothing was merged by
`convertLegacyPlatformToPluggableDiscovery`), its boards are those of `loadBoards`
(no `upload.tool.network` was added), `Monitors` and `MonitorsDevRecipes` are those
it had before the call, and every board definition that was not skipped is merged
into its board. -/
theorem loadPlatformRelease_returns_at_skipped_boards (env : Env) (pm pmj : Builder)
    (packager arch version : String) (path : paths.Path) (idx : packageindex.Index)
    (p pl pp bp lp : properties.Map)
    (hstep : (if Exist env (path.Join "installed.json")
        then (pm.updateRelease packager arch version fun r =>
          { r with InstallDir := some path }).LoadPackageIndexFromFile env
            (path.Join "installed.json")
        else (pm.updateRelease packager arch version fun r =>
          { r with InstallDir := some path }, .ok [])) = (pmj, .ok idx))
    (h1 : SafeLoad env (path.Join "platform.txt") = .ok p)
    (h2 : SafeLoad env (path.Join "platform.local.txt") = .ok pl)
    (h3 : SafeLoad env (path.Join "programmers.txt") = .ok pp)
    (hb : LoadFromPath env (path.Join "boards.txt") = .ok bp)
    (hl : SafeLoad env (path.Join "boards.local.txt") = .ok lp)
    (pk ar : String) (hpk : pk = (pmj.packages.package packager).Name)
    (har : ar = ((pmj.packages.package packager).platform arch).Architecture)
    (hskip : skippedBoards pk ar bp lp ≠ [])
    (before platform4 out : cores.PlatformRelease)
    (hbefore : before = ((pm.packages.package packager).platform arch).release version)
    (h4 : platform4 = markAwareOrInjectDefaults { before with
      InstallDir := some path
      Properties := (before.Properties.Clone.Merge p).Merge pl })
    (hout : out = (((loadPlatformRelease env pm packager arch version path).1.packages.package
      packager).platform arch).release version) :
    (loadPlatformRelease env pm packager arch version path).2 =
      some (.new ("loading boards: " ++ ("skipping loading of boards "
        ++ strings.Join (skippedBoards pk ar bp lp) ", "
        ++ ": malformed custom board options"))) ∧
    out = (loadBoards env pk ar (loadProgrammers platform4 pp)).1 ∧
    out.Properties = platform4.Properties ∧
    out.PluggableDiscoveryAware = platform4.PluggableDiscoveryAware ∧
    out.Monitors = before.Monitors ∧
    out.MonitorsDevRecipes = before.MonitorsDevRecipes ∧
    (∀ e ∈ boardDefinitions bp lp, hasUnknownMenu (declaredMenus bp lp) e.2 = false →
      assocGet out.Boards e.1 =
        some { (assocGet before.Boards e.1).getD (cores.newBoard e.1) with
          Properties := ((assocGet before.Boards e.1).getD (cores.newBoard e.1)).Properties.Merge
            (preparedBoardProperties platform4.PluggableDiscoveryAware e.1 e.2) }) := by
  obtain ⟨herr, hrel⟩ := loadPlatformRelease_of_step env pm pmj packager arch version path idx
    hstep
  rw [← hpk, ← har, ← hbefore] at herr hrel
  rw [← hout] at hrel
  have hmark := markAwareOrInjectDefaults_fields { before with
      InstallDir := some path
      Properties := (before.Properties.Clone.Merge p).Merge pl }
  rw [← h4] at hmark
  have hprog := loadProgrammers_fields platform4 pp
  have hprogf := loadProgrammers_frame platform4 pp
  have hdir : (loadProgrammers platform4 pp).InstallDir = some path := by
    rw [hprog.1, hmark.1]
  have hsnd := loadBoards_snd env pk ar (loadProgrammers platform4 pp) path bp lp hdir hb hl
  have hfilter : ((assocErase (bp.Merge lp).FirstLevelOf "menu").filter fun e =>
      hasUnknownMenu ((assocGet (bp.Merge lp).FirstLevelOf "menu").getD properties.NewMap)
        e.2) ≠ [] := by
    intro hnil
    apply hskip
    unfold skippedBoards boardDefinitions declaredMenus
    rw [hnil]
    rfl
  rw [if_neg hfilter] at hsnd
  have hlb : loadBoards env pk ar (loadProgrammers platform4 pp) =
      ((loadBoards env pk ar (loadProgrammers platform4 pp)).1,
        some (.new ("skipping loading of boards "
          ++ strings.Join (skippedBoards pk ar bp lp) ", "
          ++ ": malformed custom board options"))) := Prod.ext rfl hsnd
  have hlb2 : loadBoards env pk ar (loadProgrammers (markAwareOrInjectDefaults
      { ({ before with InstallDir := some path } : cores.PlatformRelease) with
        Properties := (({ before with InstallDir := some path } :
          cores.PlatformRelease).Properties.Clone.Merge p).Merge pl }) pp) =
      ((loadBoards env pk ar (loadProgrammers platform4 pp)).1,
        some (.new ("skipping loading of boards "
          ++ strings.Join (skippedBoards pk ar bp lp) ", "
          ++ ": malformed custom board options"))) := by
    have hdef : markAwareOrInjectDefaults
        { ({ before with InstallDir := some path } : cores.PlatformRelease) with
          Properties := (({ before with InstallDir := some path } :
            cores.PlatformRelease).Properties.Clone.Merge p).Merge pl } = platform4 := h4.symm
    rw [hdef]
    exact hlb
  obtain ⟨hE, hR⟩ := loadPlatformReleaseFiles_at_boards_error env pk ar
    ((pmj.packages.package packager).platform arch).Name
    { before with InstallDir := some path } _ path p pl pp _ h1 h2 h3 hlb2
  rw [hE] at herr
  rw [hR] at hrel
  have hframe := loadBoards_frame env pk ar (loadProgrammers platform4 pp)
  have hfields := loadBoards_fields env pk ar (loadProgrammers platform4 pp)
  refine ⟨herr, hrel, ?_, ?_, ?_, ?_, ?_⟩
  · rw [hrel, hframe.1, hprogf.1]
  · rw [hrel, hframe.2, hprogf.2]
  · rw [hrel, hfields.1, hprog.2.2.1, hmark.2.2.1]
  · rw [hrel, hfields.2.1, hprog.2.2.2, hmark.2.2.2.1]
  · intro e he hok
    have hn : ((boardDefinitions bp lp).map Prod.fst).Nodup :=
      assocErase_nodupKeys _ "menu" (properties.FirstLevelOf_nodupKeys (bp.Merge lp))
    rw [hrel, loadBoards_fst env pk ar (loadProgrammers platform4 pp) path bp lp hdir hb hl]
    refine (loadBoard_fold_loaded pk ar (boardDefinitions bp lp)
      (({ loadProgrammers platform4 pp with
          Menus := (assocGet (bp.Merge lp).FirstLevelOf "menu").getD properties.NewMap } :
        cores.PlatformRelease), []) hn e he hok).trans ?_
    dsimp only
    rw [hprog.2.1, hmark.2.1, hprogf.2]

end packagemanager

namespace packagemanager

/-- Witness of C27: in the sample release the board `due` is skipped; the call
returns the error of `loadBoards` and the release has no monitor. -/
theorem loadPlatformRelease_returns_at_skipped_boards_witness :
    (loadPlatformRelease (sampleEnv (.dir [("p", sampleReleaseDir sampleBoardsTxt)]) [] [])
      emptyBuilder "acme" "avr" "1.2.3" ["p"]).2 = some (.new
        "loading boards: skipping loading of boards acme:avr:due: malformed custom board options") ∧
    ((((loadPlatformRelease (sampleEnv (.dir [("p", sampleReleaseDir sampleBoardsTxt)]) [] [])
      emptyBuilder "acme" "avr" "1.2.3" ["p"]).1.packages.package "acme").platform
        "avr").release "1.2.3").Monitors = [] :=
  ⟨(loadPlatformRelease_returns_at_skipped_boards
      (sampleEnv (.dir [("p", sampleReleaseDir sampleBoardsTxt)]) [] []) emptyBuilder
      (emptyBuilder.updateRelease "acme" "avr" "1.2.3" fun r => { r with InstallDir := some ["p"] })
      "acme" "avr" "1.2.3" ["p"] [] samplePlatformTxt [] [] sampleBoardsTxt [] rfl rfl rfl rfl
      rfl rfl "acme" "avr" rfl rfl (by decide) _ _ _ rfl rfl rfl).1.trans (by decide),
    (loadPlatformRelease_returns_at_skipped_boards
      (sampleEnv (.dir [("p", sampleReleaseDir sampleBoardsTxt)]) [] []) emptyBuilder
      (emptyBuilder.updateRelease "acme" "avr" "1.2.3" fun r => { r with InstallDir := some ["p"] })
      "acme" "avr" "1.2.3" ["p"] [] samplePlatformTxt [] [] sampleBoardsTxt [] rfl rfl rfl rfl
      rfl rfl "acme" "avr" rfl rfl (by decide) _ _ _ rfl rfl rfl).2.2.2.2.1⟩

end packagemanager

/-! ## Theorems: the awareness flag over two loads -/

theorem assocSet_length_pos {α : Type} (m : List (String × α)) (k : String) (v : α) :
    0 < (assocSet m k v).length := by
  cases m with
  | nil => simp [assocSet]
  | cons e m =>
    obtain ⟨k1, v1⟩ := e
    simp only [assocSet]
    split_ifs <;> simp

namespace properties

/-- A subtree is not empty exactly when some key starts with its root and a dot. -/
theorem SubTree_size_pos_iff (m : Map) (root : String) :
    0 < (m.SubTree root).Size ↔ ∃ e ∈ m, strings.HasPrefix e.1 (root ++ ".") = true := by
  unfold Map.SubTree Map.Size
  have key : ∀ (l : Map) (acc : Map),
      0 < (l.foldl (fun (acc : Map) e =>
        if strings.HasPrefix e.1 (root ++ ".")
        then acc.Set ⟨e.1.data.drop (root ++ ".").data.length⟩ e.2 else acc) acc).length ↔
      0 < acc.length ∨ ∃ e ∈ l, strings.HasPrefix e.1 (root ++ ".") = true := by
    intro l
    induction l with
    | nil => intro acc; simp
    | cons x l ih =>
      intro acc
      simp only [List.foldl_cons]
      rw [ih]
      by_cases hx : strings.HasPrefix x.1 (root ++ ".") = true
      · simp only [hx, if_true, Map.Set]
        constructor
        · intro _
          exact Or.inr ⟨x, List.mem_cons_self _ _, hx⟩
        · intro _
          exact Or.inl (assocSet_length_pos _ _ _)
      · simp only [hx, Bool.false_eq_true, if_false]
        constructor
        · rintro (h | ⟨e, he, hp⟩)
          · exact Or.inl h
          · exact Or.inr ⟨e, List.mem_cons_of_mem _ he, hp⟩
        · rintro (h | ⟨e, he, hp⟩)
          · exact Or.inl h
          · rcases List.mem_cons.1 he with h | h
            · subst h
              exact absurd hp hx
            · exact Or.inr ⟨e, h, hp⟩
  rw [key m NewMap]
  simp [NewMap]

/-- A key of a map is still a key after a merge. -/
theorem ContainsKey_Merge (m other : Map) (k : String) (h : m.ContainsKey k = true) :
    (m.Merge other).ContainsKey k = true := by
  unfold Map.Merge
  refine foldl_invariant (fun acc : Map => acc.ContainsKey k = true) _ _ _ h ?_
  intro acc e _ hacc
  simp only [Map.ContainsKey, Map.Set] at hacc ⊢
  rw [assocGet_assocSet]
  split_ifs
  · rfl
  · exact hacc

end properties

namespace packagemanager

/-- The release that `loadPlatformReleaseFiles` returns when `programmers.txt` cannot
be read: the one left by the awareness block. -/
theorem loadPlatformReleaseFiles_at_programmers_error (env : Env) (pk arch name : String)
    (platform0 : cores.PlatformRelease) (path : paths.Path) (p pl : properties.Map) (err : Error)
    (h1 : SafeLoad env (path.Join "platform.txt") = .ok p)
    (h2 : SafeLoad env (path.Join "platform.local.txt") = .ok pl)
    (h3 : SafeLoad env (path.Join "programmers.txt") = .error err) :
    (loadPlatformReleaseFiles env pk arch name platform0 path).1.2 =
      markAwareOrInjectDefaults { platform0 with
        Properties := (platform0.Properties.Clone.Merge p).Merge pl } := by
  unfold loadPlatformReleaseFiles
  simp only [h1, h2, h3]

/-- The programmers, the boards and the flag that `loadPlatformReleaseFiles` leaves
when `loadBoards` returned no error: those of the release after the step
`if !platform.PluggableDiscoveryAware \x7b convertLegacyPlatformToPluggableDiscovery(platform) \x7d`. -/
theorem loadPlatformReleaseFiles_at_monitors_fields (env : Env) (pk arch name : String)
    (platform0 platform6 : cores.PlatformRelease) (path : paths.Path)
    (p pl pp : properties.Map)
    (h1 : SafeLoad env (path.Join "platform.txt") = .ok p)
    (h2 : SafeLoad env (path.Join "platform.local.txt") = .ok pl)
    (h3 : SafeLoad env (path.Join "programmers.txt") = .ok pp)
    (h4 : loadBoards env pk arch (loadProgrammers (markAwareOrInjectDefaults { platform0 with
        Properties := (platform0.Properties.Clone.Merge p).Merge pl }) pp) = (platform6, none)) :
    (loadPlatformReleaseFiles env pk arch name platform0 path).1.2.Programmers =
      (if !platform6.PluggableDiscoveryAware
        then convertLegacyPlatformToPluggableDiscovery platform6
        else platform6).Programmers ∧
    (loadPlatformReleaseFiles env pk arch name platform0 path).1.2.Boards =
      (if !platform6.PluggableDiscoveryAware
        then convertLegacyPlatformToPluggableDiscovery platform6
        else platform6).Boards := by
  unfold loadPlatformReleaseFiles
  simp only [h1, h2, h3, h4]
  split
  · exact ⟨rfl, rfl⟩
  · exact ⟨rfl, rfl⟩

end packagemanager

namespace packagemanager

theorem programmers_fold_untouched (l : List (String × properties.Map))
    (platform : cores.PlatformRelease) (k : String) (hk : ∀ e ∈ l, e.1 ≠ k) :
    assocGet (l.foldl (fun (rel : cores.PlatformRelease) e =>
      { rel with Programmers := assocSet rel.Programmers e.1 (loadProgrammer
          (if !rel.PluggableDiscoveryAware then convertUploadToolsToPluggableDiscovery e.2
           else e.2)) }) platform).Programmers k = assocGet platform.Programmers k := by
  induction l generalizing platform with
  | nil => rfl
  | cons x l ih =>
    simp only [List.foldl_cons]
    rw [ih _ (fun e he => hk e (List.mem_cons_of_mem _ he))]
    exact assocGet_assocSet_ne _ _ _ _ (hk x (List.mem_cons_self _ _))

theorem programmers_fold_get (l : List (String × properties.Map))
    (platform : cores.PlatformRelease) (hn : (l.map Prod.fst).Nodup)
    (e : String × properties.Map) (he : e ∈ l) :
    assocGet (l.foldl (fun (rel : cores.PlatformRelease) e =>
      { rel with Programmers := assocSet rel.Programmers e.1 (loadProgrammer
          (if !rel.PluggableDiscoveryAware then convertUploadToolsToPluggableDiscovery e.2
           else e.2)) }) platform).Programmers e.1 =
      some (loadProgrammer
        (if !platform.PluggableDiscoveryAware then convertUploadToolsToPluggableDiscovery e.2
         else e.2)) := by
  induction l generalizing platform with
  | nil => simp at he
  | cons x l ih =>
    simp only [List.foldl_cons]
    simp only [List.map_cons, List.nodup_cons] at hn
    rcases List.mem_cons.1 he with h | h
    · subst h
      rw [programmers_fold_untouched]
      · exact assocGet_assocSet_self _ _ _
      · intro e' he' hk'
        exact hn.1 (List.mem_map.2 ⟨e', he', hk'⟩)
    · exact ih _ hn.2 h

/-- The programmer that `loadPlatformRelease` stores for a group of
`programmers.txt`: its properties go through `convertUploadToolsToPluggableDiscovery`
exactly when the release is not aware. -/
theorem loadProgrammers_get (platform : cores.PlatformRelease) (pp : properties.Map)
    (e : String × properties.Map) (he : e ∈ pp.FirstLevelOf) :
    assocGet (loadProgrammers platform pp).Programmers e.1 =
      some (loadProgrammer
        (if !platform.PluggableDiscoveryAware then convertUploadToolsToPluggableDiscovery e.2
         else e.2)) :=
  programmers_fold_get pp.FirstLevelOf platform (properties.FirstLevelOf_nodupKeys pp) e he

/-- The loading of a release that the awareness block left aware: the properties are
those of the block, the programmers those of the loop over `programmers.txt` and the
boards those of `loadBoards`; `convertLegacyPlatformToPluggableDiscovery` is not
applied. -/
theorem loadPlatformReleaseFiles_aware_load (env : Env) (pk arch name : String)
    (platform0 platform4 : cores.PlatformRelease) (path : paths.Path) (p pl : properties.Map)
    (h1 : SafeLoad env (path.Join "platform.txt") = .ok p)
    (h2 : SafeLoad env (path.Join "platform.local.txt") = .ok pl)
    (h4 : platform4 = markAwareOrInjectDefaults { platform0 with
        Properties := (platform0.Properties.Clone.Merge p).Merge pl })
    (haware : platform4.PluggableDiscoveryAware = true) :
    (loadPlatformReleaseFiles env pk arch name platform0 path).1.2.Properties
      = platform4.Properties ∧
    ∀ pp, SafeLoad env (path.Join "programmers.txt") = .ok pp →
      (loadPlatformReleaseFiles env pk arch name platform0 path).1.2.Programmers
        = (loadProgrammers platform4 pp).Programmers ∧
      (loadPlatformReleaseFiles env pk arch name platform0 path).1.2.Boards
        = (loadBoards env pk arch (loadProgrammers platform4 pp)).1.Boards := by
  cases h3 : SafeLoad env (path.Join "programmers.txt") with
  | error err =>
    refine ⟨?_, fun pp hpp => by cases hpp⟩
    rw [loadPlatformReleaseFiles_at_programmers_error env pk arch name platform0 path p pl err
      h1 h2 h3, h4]
  | ok pp0 =>
    have hframe := loadBoards_frame env pk arch (loadProgrammers platform4 pp0)
    have hfields := loadBoards_fields env pk arch (loadProgrammers platform4 pp0)
    have hprog := loadProgrammers_frame platform4 pp0
    have h6 : (loadBoards env pk arch (loadProgrammers platform4 pp0)).1.PluggableDiscoveryAware
        = true := by rw [hframe.2, hprog.2, haware]
    cases hlb : loadBoards env pk arch (loadProgrammers platform4 pp0) with
    | mk platform6 oerr =>
      rw [hlb] at hframe hfields h6
      dsimp only at hframe hfields h6
      have hlb2 := hlb
      rw [h4] at hlb2
      cases oerr with
      | some err =>
        have hR := (loadPlatformReleaseFiles_at_boards_error env pk arch name platform0
          platform6 path p pl pp0 err h1 h2 h3 hlb2).2
        rw [hR]
        refine ⟨by rw [hframe.1, hprog.1], ?_⟩
        intro pp hpp
        cases hpp
        exact ⟨hfields.2.2, by rw [hlb]⟩
      | none =>
        have hM := loadPlatformReleaseFiles_at_monitors env pk arch name platform0
          platform6 path p pl pp0 h1 h2 h3 hlb2
        have hF := loadPlatformReleaseFiles_at_monitors_fields env pk arch name platform0
          platform6 path p pl pp0 h1 h2 h3 hlb2
        simp only [h6, Bool.not_true, Bool.false_eq_true, if_false] at hM hF
        refine ⟨by rw [hM.2.2.1, hframe.1, hprog.1], ?_⟩
        intro pp hpp
        cases hpp
        exact ⟨hF.1.trans hfields.2.2, by rw [hlb]; exact hF.2⟩

end packagemanager

namespace packagemanager

/-- The `installed.json` step of `loadPlatformRelease` succeeds when the file is
absent or parses. -/
theorem installedJSON_step_ok (env : Env) (pm : Builder) (packager arch version : String)
    (path : paths.Path)
    (hinst : Exist env (path.Join "installed.json") = true →
      ∃ idx, LoadIndex env (path.Join "installed.json") = .ok idx) :
    ∃ (pmj : Builder) (idx : packageindex.Index),
      (if Exist env (path.Join "installed.json")
        then (pm.updateRelease packager arch version fun r =>
          { r with InstallDir := some path }).LoadPackageIndexFromFile env
            (path.Join "installed.json")
        else (pm.updateRelease packager arch version fun r =>
          { r with InstallDir := some path }, .ok [])) = (pmj, .ok idx) := by
  by_cases hex : Exist env (path.Join "installed.json") = true
  · obtain ⟨idx, hidx⟩ := hinst hex
    simp only [hex, if_true, Builder.LoadPackageIndexFromFile, hidx]
    exact ⟨_, _, rfl⟩
  · have hex2 : Exist env (path.Join "installed.json") = false := by simpa using hex
    simp only [hex2, Bool.false_eq_true, if_false]
    exact ⟨_, _, rfl⟩

/-- The flag that the awareness block leaves. -/
theorem markAwareOrInjectDefaults_aware (platform : cores.PlatformRelease) :
    (markAwareOrInjectDefaults platform).PluggableDiscoveryAware = true ↔
      platform.PluggableDiscoveryAware = true ∨
        ∃ key ∈ platform.Properties.Keys, strings.HasPrefix key "pluggable_discovery." = true := by
  have hiff := properties.SubTree_size_pos_iff platform.Properties "pluggable_discovery"
  have hkeys : (∃ e ∈ platform.Properties,
      strings.HasPrefix e.1 ("pluggable_discovery" ++ ".") = true) ↔
      ∃ key ∈ platform.Properties.Keys, strings.HasPrefix key "pluggable_discovery." = true := by
    constructor
    · rintro ⟨e, he, hp⟩
      exact ⟨e.1, List.mem_map.2 ⟨e, he, rfl⟩, hp⟩
    · rintro ⟨key, hk, hp⟩
      obtain ⟨e, he, rfl⟩ := List.mem_map.1 hk
      exact ⟨e, he, hp⟩
  rw [← hkeys, ← hiff]
  unfold markAwareOrInjectDefaults
  split_ifs with hs
  · simp [hs]
  · simp [hs]

/-- The awareness block on a release whose properties have a key under
`pluggable_discovery.`: the flag is set and nothing else changes. -/
theorem markAwareOrInjectDefaults_of_key (platform : cores.PlatformRelease) (key : String)
    (hk : platform.Properties.ContainsKey key = true)
    (hp : strings.HasPrefix key "pluggable_discovery." = true) :
    markAwareOrInjectDefaults platform = { platform with PluggableDiscoveryAware := true } := by
  have hs : 0 < (platform.Properties.SubTree "pluggable_discovery").Size := by
    rw [properties.SubTree_size_pos_iff]
    cases hg : assocGet platform.Properties key with
    | none => simp [properties.Map.ContainsKey, hg] at hk
    | some v => exact ⟨(key, v), assocGet_eq_some_mem _ _ _ hg, hp⟩
  unfold markAwareOrInjectDefaults
  rw [if_pos hs]

end packagemanager

namespace packagemanager

/-- No step of `loadPlatformReleaseFiles` clears the flag `PluggableDiscoveryAware`. -/
theorem loadPlatformReleaseFiles_keeps_aware (env : Env) (pk arch name : String)
    (platform0 : cores.PlatformRelease) (path : paths.Path)
    (h : platform0.PluggableDiscoveryAware = true) :
    (loadPlatformReleaseFiles env pk arch name platform0 path).1.2.PluggableDiscoveryAware
      = true := by
  have hmark : ∀ q : cores.PlatformRelease, q.PluggableDiscoveryAware = true →
      (markAwareOrInjectDefaults q).PluggableDiscoveryAware = true := by
    intro q hq
    unfold markAwareOrInjectDefaults
    split_ifs
    · rfl
    · exact hq
  unfold loadPlatformReleaseFiles
  dsimp only
  split
  · exact h
  · split
    · exact h
    · split
      · exact hmark _ h
      · rename_i pp _
        split
        · rename_i platform6 err heq
          have hfst := congrArg Prod.fst heq
          dsimp only at hfst ⊢
          rw [← hfst, (loadBoards_frame _ _ _ _).2, (loadProgrammers_frame _ _).2]
          exact hmark _ h
        · rename_i platform6 heq
          have hfst := congrArg Prod.fst heq
          dsimp only at hfst
          have h6 : platform6.PluggableDiscoveryAware = true := by
            rw [← hfst, (loadBoards_frame _ _ _ _).2, (loadProgrammers_frame _ _).2]
            exact hmark _ h
          have h7 : (if (!platform6.PluggableDiscoveryAware) = true
              then convertLegacyPlatformToPluggableDiscovery platform6
              else platform6).PluggableDiscoveryAware = true := by
            rw [h6]
            exact h6
          split <;> exact h7

/-- On every path `loadPlatformRelease` leaves an aware release aware. -/
theorem loadPlatformRelease_keeps_aware (env : Env) (pm : Builder)
    (packager arch version : String) (path : paths.Path)
    (h : (((pm.packages.package packager).platform arch).release
      version).PluggableDiscoveryAware = true) :
    ((((loadPlatformRelease env pm packager arch version path).1.packages.package
      packager).platform arch).release version).PluggableDiscoveryAware = true := by
  have h1 : ((((pm.updateRelease packager arch version fun r =>
        { r with InstallDir := some path }).packages.package packager).platform arch).release
          version).PluggableDiscoveryAware = true := by
    unfold Builder.updateRelease
    rw [platform_updatePlatform, release_GetOrCreateRelease]
    exact h
  unfold loadPlatformRelease
  dsimp only
  by_cases hex : Exist env (path.Join "installed.json") = true
  · simp only [hex, if_true]
    unfold Builder.LoadPackageIndexFromFile
    cases hl : LoadIndex env (path.Join "installed.json") with
    | error e => exact h1
    | ok index =>
      dsimp only
      rw [platform_updatePlatform, release_GetOrCreateRelease]
      have hm := MergeIntoPackages_frame index (pm.updateRelease packager arch version fun r =>
        { r with InstallDir := some path }).packages packager arch
      refine loadPlatformReleaseFiles_keeps_aware _ _ _ _ _ _ ?_
      rw [hm.2.2.2 version]
      exact h1
  · have hex2 : Exist env (path.Join "installed.json") = false := by simpa using hex
    simp only [hex2, Bool.false_eq_true, if_false]
    rw [platform_updatePlatform, release_GetOrCreateRelease]
    exact loadPlatformReleaseFiles_keeps_aware _ _ _ _ _ _ h1

/-- C26: `loadPlatformRelease` never resets the flag: on every path a release that
was aware before the call is aware after it.  When `installed.json` is absent or
parses and `platform.txt` and `platform.local.txt` have been read, the release is
aware after the call if and only if it was aware before or some key of its previous
properties merged with the two files starts with `pluggable_discovery.`: the flag is
decided on the merged properties.  Hence loading is not idempotent: if the first
load left the release non-aware, a second load of it leaves it aware, because the
defaults set by the first load are among its properties.  That second load skips the
legacy conversions: its properties are those of the first load merged with the two
files and nothing more, every programmer of `programmers.txt` is stored with its
properties as read, and every board definition that is not skipped is merged with
only `_id` set. -/
theorem loadPlatformRelease_second_load_is_aware (env : Env) (pm : Builder)
    (packager arch version : String) (path : paths.Path)
    (before first second : cores.PlatformRelease)
    (hbefore : before = ((pm.packages.package packager).platform arch).release version)
    (hfirst : first = (((loadPlatformRelease env pm packager arch version
      path).1.packages.package packager).platform arch).release version)
    (hsecond : second = (((loadPlatformRelease env
      (loadPlatformRelease env pm packager arch version path).1 packager arch version
      path).1.packages.package packager).platform arch).release version) :
    (before.PluggableDiscoveryAware = true → first.PluggableDiscoveryAware = true) ∧
    ∀ p pl : properties.Map,
      (Exist env (path.Join "installed.json") = true →
        ∃ idx, LoadIndex env (path.Join "installed.json") = .ok idx) →
      SafeLoad env (path.Join "platform.txt") = .ok p →
      SafeLoad env (path.Join "platform.local.txt") = .ok pl →
      (first.PluggableDiscoveryAware = true ↔
        before.PluggableDiscoveryAware = true ∨
          ∃ key ∈ ((before.Properties.Merge p).Merge pl).Keys,
            strings.HasPrefix key "pluggable_discovery." = true) ∧
      (first.PluggableDiscoveryAware = false →
        second.PluggableDiscoveryAware = true ∧
        second.Properties = (first.Properties.Merge p).Merge pl ∧
        (∀ pp, SafeLoad env (path.Join "programmers.txt") = .ok pp →
          ∀ e ∈ pp.FirstLevelOf, assocGet second.Programmers e.1 = some (loadProgrammer e.2)) ∧
        (∀ pp bp lp, SafeLoad env (path.Join "programmers.txt") = .ok pp →
          LoadFromPath env (path.Join "boards.txt") = .ok bp →
          SafeLoad env (path.Join "boards.local.txt") = .ok lp →
          ∀ e ∈ boardDefinitions bp lp, hasUnknownMenu (declaredMenus bp lp) e.2 = false →
            assocGet second.Boards e.1 =
              some { (assocGet first.Boards e.1).getD (cores.newBoard e.1) with
                Properties := ((assocGet first.Boards e.1).getD
                  (cores.newBoard e.1)).Properties.Merge (e.2.Set "_id" e.1) })) := by
  refine ⟨fun h => ?_, fun p pl hinst h1 h2 => ?_⟩
  · rw [hfirst]
    exact loadPlatformRelease_keeps_aware env pm packager arch version path (hbefore ▸ h)
  obtain ⟨pmj, idx, hstep⟩ := installedJSON_step_ok env pm packager arch version path hinst
  obtain ⟨pmj2, idx2, hstep2⟩ := installedJSON_step_ok env
    (loadPlatformRelease env pm packager arch version path).1 packager arch version path hinst
  have hrel := (loadPlatformRelease_of_step env pm pmj packager arch version path idx hstep).2
  have hrel2 := (loadPlatformRelease_of_step env _ pmj2 packager arch version path idx2
    hstep2).2
  rw [← hbefore, ← hfirst] at hrel
  rw [← hfirst, ← hsecond] at hrel2
  generalize (pmj.packages.package packager).Name = pk1 at hrel
  generalize ((pmj.packages.package packager).platform arch).Architecture = ar1 at hrel
  generalize ((pmj.packages.package packager).platform arch).Name = nm1 at hrel
  generalize (pmj2.packages.package packager).Name = pk2 at hrel2
  generalize ((pmj2.packages.package packager).platform arch).Architecture = ar2 at hrel2
  generalize ((pmj2.packages.package packager).platform arch).Name = nm2 at hrel2
  have hd1 := fun k hk => loadPlatformReleaseFiles_after_defaults env pk1 ar1 nm1
    { before with InstallDir := some path } path p pl h1 h2 k hk
  rw [← hrel] at hd1
  constructor
  · rw [(hd1 "pluggable_discovery.required.0" (by decide)).2,
      markAwareOrInjectDefaults_aware]
    rfl
  · intro hnon
    have hspec := markAwareOrInjectDefaults_spec _
      ((hd1 "pluggable_discovery.required.0" (by decide)).2.symm.trans hnon)
    have hkey : first.Properties.GetOk "pluggable_discovery.required.0"
        = some "builtin:serial-discovery" :=
      (hd1 "pluggable_discovery.required.0" (by decide)).1.trans hspec.1
    have hcont : ((first.Properties.Merge p).Merge pl).ContainsKey
        "pluggable_discovery.required.0" = true := by
      refine properties.ContainsKey_Merge _ _ _ (properties.ContainsKey_Merge _ _ _ ?_)
      simp only [properties.Map.ContainsKey, properties.Map.GetOk] at hkey ⊢
      rw [hkey]
      rfl
    have hmark : markAwareOrInjectDefaults
        { ({ first with InstallDir := some path } : cores.PlatformRelease) with
          Properties := (({ first with InstallDir := some path } :
            cores.PlatformRelease).Properties.Clone.Merge p).Merge pl } =
        { first with
          InstallDir := some path
          Properties := (first.Properties.Merge p).Merge pl
          PluggableDiscoveryAware := true } :=
      markAwareOrInjectDefaults_of_key _ "pluggable_discovery.required.0" hcont (by decide)
    obtain ⟨hprops, hrest⟩ := loadPlatformReleaseFiles_aware_load env pk2 ar2 nm2
      { first with InstallDir := some path }
      { first with
        InstallDir := some path
        Properties := (first.Properties.Merge p).Merge pl
        PluggableDiscoveryAware := true } path p pl h1 h2 hmark.symm rfl
    rw [← hrel2] at hprops hrest
    have hd2 := (loadPlatformReleaseFiles_after_defaults env pk2 ar2 nm2
      { first with InstallDir := some path } path p pl h1 h2
      "pluggable_discovery.required.0" (by decide)).2
    rw [← hrel2, hmark] at hd2
    refine ⟨hd2, hprops, ?_, ?_⟩
    · intro pp hpp e he
      rw [(hrest pp hpp).1, loadProgrammers_get _ pp e he]
      rfl
    · intro pp bp lp hpp hb hl e he hok
      have hprog := loadProgrammers_fields
        ({ first with
          InstallDir := some path
          Properties := (first.Properties.Merge p).Merge pl
          PluggableDiscoveryAware := true } : cores.PlatformRelease) pp
      have hprogf := loadProgrammers_frame
        ({ first with
          InstallDir := some path
          Properties := (first.Properties.Merge p).Merge pl
          PluggableDiscoveryAware := true } : cores.PlatformRelease) pp
      have hn : ((boardDefinitions bp lp).map Prod.fst).Nodup :=
        assocErase_nodupKeys _ "menu" (properties.FirstLevelOf_nodupKeys (bp.Merge lp))
      rw [(hrest pp hpp).2, loadBoards_fst env pk2 ar2 _ path bp lp hprog.1 hb hl]
      refine (loadBoard_fold_loaded pk2 ar2 (boardDefinitions bp lp) _ hn e he hok).trans ?_
      dsimp only
      rw [hprog.2.1, hprogf.2]
      rfl

end packagemanager

namespace packagemanager

/-- Witness of C26: the sample release is left non-aware by a first load and aware by
a second one. -/
theorem loadPlatformRelease_second_load_is_aware_witness :
    ((((loadPlatformRelease (sampleEnv (.dir [("p", sampleReleaseDir [("uno.name", "Uno")])]) [] [])
      emptyBuilder "acme" "avr" "1.2.3" ["p"]).1.packages.package "acme").platform
        "avr").release "1.2.3").PluggableDiscoveryAware = false ∧
    ((((loadPlatformRelease (sampleEnv (.dir [("p", sampleReleaseDir [("uno.name", "Uno")])]) [] [])
      (loadPlatformRelease (sampleEnv (.dir [("p", sampleReleaseDir [("uno.name", "Uno")])]) [] [])
        emptyBuilder "acme" "avr" "1.2.3" ["p"]).1 "acme" "avr" "1.2.3"
          ["p"]).1.packages.package "acme").platform
        "avr").release "1.2.3").PluggableDiscoveryAware = true :=
  ⟨by decide,
    (((loadPlatformRelease_second_load_is_aware
      (sampleEnv (.dir [("p", sampleReleaseDir [("uno.name", "Uno")])]) [] [])
      emptyBuilder "acme" "avr" "1.2.3" ["p"] _ _ _ rfl rfl rfl).2 samplePlatformTxt []
      (fun h => absurd h (by decide)) rfl rfl).2 (by decide)).1⟩

end packagemanager

/-! ## Theorems: the upload-tool conversion applied twice -/

theorem assocSet_of_get {α : Type} (m : List (String × α)) (k : String) (v : α)
    (h : assocGet m k = some v) : assocSet m k v = m := by
  induction m with
  | nil => simp [assocGet] at h
  | cons e m ih =>
    obtain ⟨a, b⟩ := e
    by_cases hk : a = k
    · subst hk
      simp only [assocGet, if_true, Option.some.injEq] at h
      subst h
      simp [assocSet]
    · simp only [assocGet, hk, if_false] at h
      simp [assocSet, hk, ih h]

namespace properties

/-- Merging entries that a map already has leaves the map as it is. -/
theorem Merge_of_present (m other : Map) (h : ∀ e ∈ other, m.GetOk e.1 = some e.2) :
    m.Merge other = m := by
  unfold Map.Merge
  induction other with
  | nil => rfl
  | cons e other ih =>
    simp only [List.foldl_cons]
    have he : m.Set e.1 e.2 = m := assocSet_of_get m e.1 e.2 (h e (List.mem_cons_self _ _))
    rw [he]
    exact ih (fun e' he' => h e' (List.mem_cons_of_mem _ he'))

end properties

namespace packagemanager

theorem tool_split (A : String) (hA : '.' ∉ A.data) :
    strings.Split (A ++ ".tool") '.' = [A, "tool"] := by
  unfold strings.Split
  have : (A ++ ".tool").data = A.data ++ '.' :: "tool".data := by
    simp [String.data_append]
  rw [this, strings.splitChars_append '.' _ _ hA,
    strings.splitChars_of_not_mem '.' _ (by decide)]
  rfl

theorem menu_tool_split (id item A : String) (hid : '.' ∉ id.data) (hitem : '.' ∉ item.data)
    (hA : '.' ∉ A.data) :
    strings.Split ("menu." ++ id ++ "." ++ item ++ "." ++ (A ++ ".tool")) '.' =
      ["menu", id, item, A, "tool"] := by
  unfold strings.Split
  rw [menu_key_data]
  have : (A ++ ".tool").data = A.data ++ '.' :: "tool".data := by
    simp [String.data_append]
  rw [this, strings.splitChars_five_of '.' _ _ _ _ _ (by decide) hid hitem hA (by decide)]
  rfl

/-- The keys `<action>.tool` and `menu.<id>.<item>.<action>.tool` are not among the
keys that the conversion sets. -/
theorem tool_key_not_default (A B : String) (hA : '.' ∉ A.data) (hB : '.' ∉ B.data)
    (key : String)
    (hkey : key = A ++ ".tool" ∨ ∃ id item : String, '.' ∉ id.data ∧ '.' ∉ item.data ∧
      key = "menu." ++ id ++ "." ++ item ++ "." ++ (A ++ ".tool")) :
    key ≠ B ++ ".tool" ++ ".default" ∧
      ∀ id item : String, '.' ∉ id.data → '.' ∉ item.data →
        key ≠ "menu." ++ id ++ "." ++ item ++ "." ++ (B ++ ".tool" ++ ".default") := by
  have hlen : (strings.Split key '.').length = 2 ∨ (strings.Split key '.').length = 5 := by
    rcases hkey with rfl | ⟨id, item, hid, hitem, rfl⟩
    · rw [tool_split A hA]
      exact Or.inl rfl
    · rw [menu_tool_split id item A hid hitem hA]
      exact Or.inr rfl
  constructor
  · intro h
    rw [h, tool_default_split B hB] at hlen
    simp at hlen
  · intro id item hid hitem h
    rw [h, menu_default_split id item B hid hitem hB] at hlen
    simp at hlen

/-- A menu key without tool entry gets no default from the loop body. -/
theorem toolDefaultsToAdd_menu_absent (m acc : properties.Map) (A id item : String)
    (hA : '.' ∉ A.data) (hid : '.' ∉ id.data) (hitem : '.' ∉ item.data)
    (h : m.GetOk ("menu." ++ id ++ "." ++ item ++ "." ++ (A ++ ".tool")) = none) :
    (toolDefaultsToAdd m acc A).GetOk
        ("menu." ++ id ++ "." ++ item ++ "." ++ (A ++ ".tool" ++ ".default")) =
      acc.GetOk ("menu." ++ id ++ "." ++ item ++ "." ++ (A ++ ".tool" ++ ".default")) := by
  unfold toolDefaultsToAdd
  split_ifs
  · have hfold := keyed_fold_frame (menuToolDefaultKey (A ++ ".tool")) m.AsMap acc
      ("menu." ++ id ++ "." ++ item ++ "." ++ (A ++ ".tool" ++ ".default")) (by
      intro e he hg
      obtain ⟨id1, item1, hid1, hitem1, hk, hd⟩ := (menuToolDefaultKey_eq_some A e.1 _ hA).1 hg
      obtain ⟨h1, h2, -⟩ := menu_default_inj A A id item id1 item1 hA hA hid hitem hid1 hitem1 hd
      subst h1 h2
      have hmem : e.1 ∈ m.map Prod.fst := List.mem_map.2 ⟨e, he, rfl⟩
      rw [hk] at hmem
      exact absurd ((assocGet_eq_none_iff m _).1 h) (not_not.2 hmem))
    dsimp only
    split
    · exact hfold
    · simp only [properties.Map.GetOk, properties.Map.Set]
      rw [assocGet_assocSet_ne _ _ _ _
        (Ne.symm (tool_default_ne_menu A A id item hA hA hid hitem))]
      exact hfold
  · rfl

end packagemanager

namespace packagemanager

theorem GetOk_none_of_not_contains (m : properties.Map) (k : String)
    (h : m.ContainsKey k = false) : m.GetOk k = none := by
  simp only [properties.Map.ContainsKey, properties.Map.GetOk] at h ⊢
  cases hg : assocGet m k with
  | none => rfl
  | some v => rw [hg] at h; cases h

/-- What the conversion adds, read at an action whose default is absent: the value
of `<action>.tool` and the value of each `menu.<id>.<item>.<action>.tool`. -/
theorem toolDefaults_of_source (m : properties.Map) (hn : (m.map Prod.fst).Nodup)
    (A : String) (hA : A ∈ ["upload", "bootloader", "program"])
    (habs : m.ContainsKey (A ++ ".tool" ++ ".default") = false) (v : String) :
    (m.GetOk (A ++ ".tool") = some v →
      (["upload", "bootloader", "program"].foldl (toolDefaultsToAdd m)
        properties.NewMap).GetOk (A ++ ".tool" ++ ".default") = some v) ∧
    (∀ id item : String, '.' ∉ id.data → '.' ∉ item.data →
      m.GetOk ("menu." ++ id ++ "." ++ item ++ "." ++ (A ++ ".tool")) = some v →
      (["upload", "bootloader", "program"].foldl (toolDefaultsToAdd m)
        properties.NewMap).GetOk
          ("menu." ++ id ++ "." ++ item ++ "." ++ (A ++ ".tool" ++ ".default")) = some v) := by
  have hAd := actions_dotfree A hA
  have hat := fun key hkey => toolDefaultsToAdd_fold_at m ["upload", "bootloader", "program"]
    properties.NewMap A key actions_dotfree (by decide) hA hkey
  constructor
  · intro ht
    obtain ⟨acc', -, h2⟩ := hat _ (Or.inl rfl)
    rw [h2]
    exact (toolDefaultsToAdd_value m acc' A hAd hn habs).1 v ht
  · intro id item hid hitem hv
    obtain ⟨acc', -, h2⟩ := hat _ (Or.inr ⟨id, item, hid, hitem, rfl⟩)
    rw [h2]
    exact (toolDefaultsToAdd_value m acc' A hAd hn habs).2.2 id item v hid hitem hv

/-- Every entry that the conversion adds comes from `<action>.tool` or from a key
`menu.<id>.<item>.<action>.tool` of an action whose default is absent. -/
theorem toolDefaults_source (m : properties.Map) (hn : (m.map Prod.fst).Nodup)
    (key v : String)
    (h : (["upload", "bootloader", "program"].foldl (toolDefaultsToAdd m)
      properties.NewMap).GetOk key = some v) :
    ∃ A ∈ ["upload", "bootloader", "program"],
      m.ContainsKey (A ++ ".tool" ++ ".default") = false ∧
      ((key = A ++ ".tool" ++ ".default" ∧ m.GetOk (A ++ ".tool") = some v) ∨
        ∃ id item : String, '.' ∉ id.data ∧ '.' ∉ item.data ∧
          key = "menu." ++ id ++ "." ++ item ++ "." ++ (A ++ ".tool" ++ ".default") ∧
          m.GetOk ("menu." ++ id ++ "." ++ item ++ "." ++ (A ++ ".tool")) = some v) := by
  by_cases hshape : ∃ A ∈ ["upload", "bootloader", "program"],
      key = A ++ ".tool" ++ ".default" ∨
        ∃ id item : String, '.' ∉ id.data ∧ '.' ∉ item.data ∧
          key = "menu." ++ id ++ "." ++ item ++ "." ++ (A ++ ".tool" ++ ".default")
  · obtain ⟨A, hA, hkey⟩ := hshape
    have hAd := actions_dotfree A hA
    obtain ⟨acc', h1, h2⟩ := toolDefaultsToAdd_fold_at m ["upload", "bootloader", "program"]
      properties.NewMap A key actions_dotfree (by decide) hA hkey
    have hacc : acc'.GetOk key = none := h1
    rw [h2] at h
    rcases Bool.eq_false_or_eq_true (m.ContainsKey (A ++ ".tool" ++ ".default")) with habs | habs
    · rw [toolDefaultsToAdd_present m acc' A habs, hacc] at h
      cases h
    · refine ⟨A, hA, habs, ?_⟩
      have hval := toolDefaultsToAdd_value m acc' A hAd hn habs
      rcases hkey with hk | ⟨id, item, hid, hitem, hk⟩
      · subst hk
        rcases Option.eq_none_or_eq_some (m.GetOk (A ++ ".tool")) with ht | ⟨tool, ht⟩
        · rw [hval.2.1 ht, hacc] at h
          cases h
        · rw [hval.1 tool ht] at h
          exact Or.inl ⟨rfl, ht.trans h⟩
      · subst hk
        rcases Option.eq_none_or_eq_some
          (m.GetOk ("menu." ++ id ++ "." ++ item ++ "." ++ (A ++ ".tool"))) with ht | ⟨tool, ht⟩
        · rw [toolDefaultsToAdd_menu_absent m acc' A id item hAd hid hitem ht, hacc] at h
          cases h
        · rw [hval.2.2 id item tool hid hitem ht] at h
          exact Or.inr ⟨id, item, hid, hitem, rfl, ht.trans h⟩
  · exfalso
    have hframe := toolDefaultsToAdd_fold_frame m ["upload", "bootloader", "program"]
      properties.NewMap key actions_dotfree (by
        intro B hB
        refine ⟨fun hk => hshape ⟨B, hB, Or.inl hk⟩, fun id item hid hitem hk => ?_⟩
        exact hshape ⟨B, hB, Or.inr ⟨id, item, hid, hitem, hk⟩⟩)
    rw [hframe] at h
    cases h

/-- The value of `<action>.tool` and of `menu.<id>.<item>.<action>.tool` is not touched
by the conversion. -/
theorem convertUploadTools_keeps_tool (m : properties.Map) (A : String)
    (hA : A ∈ ["upload", "bootloader", "program"]) (key : String)
    (hkey : key = A ++ ".tool" ∨ ∃ id item : String, '.' ∉ id.data ∧ '.' ∉ item.data ∧
      key = "menu." ++ id ++ "." ++ item ++ "." ++ (A ++ ".tool")) :
    (convertUploadToolsToPluggableDiscovery m).GetOk key = m.GetOk key := by
  rw [convertUploadTools_GetOk, toolDefaultsToAdd_fold_frame m _ _ key actions_dotfree
    (fun B hB => tool_key_not_default A B (actions_dotfree A hA) (actions_dotfree B hB) key hkey)]
  rfl

end packagemanager

namespace packagemanager

theorem toolDefaults_fold_nodupKeys (m : properties.Map) (L : List String)
    (acc : properties.Map) (h : (acc.map Prod.fst).Nodup) :
    ((L.foldl (toolDefaultsToAdd m) acc).map Prod.fst).Nodup :=
  foldl_invariant (fun acc : properties.Map => (acc.map Prod.fst).Nodup) _ _ _ h
    (fun acc A _ hacc => toolDefaultsToAdd_nodupKeys m acc A hacc)

/-- An entry that the conversion would add from its source is in the converted map. -/
theorem convertUploadTools_has_default (m : properties.Map) (hn : (m.map Prod.fst).Nodup)
    (A : String) (hA : A ∈ ["upload", "bootloader", "program"])
    (habs : (convertUploadToolsToPluggableDiscovery m).ContainsKey
      (A ++ ".tool" ++ ".default") = false) (v : String) :
    ((convertUploadToolsToPluggableDiscovery m).GetOk (A ++ ".tool") = some v →
      (convertUploadToolsToPluggableDiscovery m).GetOk (A ++ ".tool" ++ ".default") = some v) ∧
    (∀ id item : String, '.' ∉ id.data → '.' ∉ item.data →
      (convertUploadToolsToPluggableDiscovery m).GetOk
        ("menu." ++ id ++ "." ++ item ++ "." ++ (A ++ ".tool")) = some v →
      (convertUploadToolsToPluggableDiscovery m).GetOk
        ("menu." ++ id ++ "." ++ item ++ "." ++ (A ++ ".tool" ++ ".default")) = some v) := by
  have habs0 : m.ContainsKey (A ++ ".tool" ++ ".default") = false := by
    rcases Bool.eq_false_or_eq_true (m.ContainsKey (A ++ ".tool" ++ ".default")) with h | h
    · have := properties.ContainsKey_Merge m
        (["upload", "bootloader", "program"].foldl (toolDefaultsToAdd m) properties.NewMap) _ h
      rw [← convertUploadTools_eq, habs] at this
      cases this
    · exact h
  have hsrc := toolDefaults_of_source m hn A hA habs0 v
  constructor
  · intro ht
    rw [convertUploadTools_keeps_tool m A hA _ (Or.inl rfl)] at ht
    rw [convertUploadTools_GetOk, hsrc.1 ht]
    rfl
  · intro id item hid hitem ht
    rw [convertUploadTools_keeps_tool m A hA _ (Or.inr ⟨id, item, hid, hitem, rfl⟩)] at ht
    rw [convertUploadTools_GetOk, hsrc.2 id item hid hitem ht]
    rfl

/-- C25: `convertUploadToolsToPluggableDiscovery` is idempotent on a property map
(with no key twice): converting the converted map changes nothing, so the map
converted twice has the same keys, in the same order, and the same value for every
key as the map converted once. -/
theorem convertUploadTools_idempotent (m : properties.Map) (hn : (m.map Prod.fst).Nodup) :
    convertUploadToolsToPluggableDiscovery (convertUploadToolsToPluggableDiscovery m) =
      convertUploadToolsToPluggableDiscovery m ∧
    (convertUploadToolsToPluggableDiscovery (convertUploadToolsToPluggableDiscovery m)).Keys =
      (convertUploadToolsToPluggableDiscovery m).Keys ∧
    ∀ key, (convertUploadToolsToPluggableDiscovery
        (convertUploadToolsToPluggableDiscovery m)).GetOk key =
      (convertUploadToolsToPluggableDiscovery m).GetOk key := by
  have hn1 := convertUploadTools_nodupKeys m hn
  have heq : convertUploadToolsToPluggableDiscovery (convertUploadToolsToPluggableDiscovery m) =
      convertUploadToolsToPluggableDiscovery m := by
    rw [convertUploadTools_eq (convertUploadToolsToPluggableDiscovery m)]
    apply properties.Merge_of_present
    intro e he
    have hget : (["upload", "bootloader", "program"].foldl
        (toolDefaultsToAdd (convertUploadToolsToPluggableDiscovery m)) properties.NewMap).GetOk e.1
          = some e.2 :=
      assocGet_of_mem_nodup _ e.1 e.2
        (toolDefaults_fold_nodupKeys _ _ properties.NewMap List.nodup_nil) he
    obtain ⟨A, hA, habs, hcase⟩ := toolDefaults_source _ hn1 e.1 e.2 hget
    have hdef := convertUploadTools_has_default m hn A hA habs e.2
    rcases hcase with ⟨hk, hv⟩ | ⟨id, item, hid, hitem, hk, hv⟩
    · rw [hk]
      exact hdef.1 hv
    · rw [hk]
      exact hdef.2 id item hid hitem hv
  exact ⟨heq, by rw [heq], fun key => by rw [heq]⟩

/-- Witness of C25: a board with an upload tool and a menu item that selects another
one. -/
theorem convertUploadTools_idempotent_witness :
    convertUploadToolsToPluggableDiscovery (convertUploadToolsToPluggableDiscovery
      [("name", "Uno"), ("upload.tool", "avrdude"), ("menu.cpu.fast.upload.tool", "bossac"),
       ("menu.cpu.fast.program.tool", "isp")]) =
    convertUploadToolsToPluggableDiscovery
      [("name", "Uno"), ("upload.tool", "avrdude"), ("menu.cpu.fast.upload.tool", "bossac"),
       ("menu.cpu.fast.program.tool", "isp")] :=
  (convertUploadTools_idempotent
    [("name", "Uno"), ("upload.tool", "avrdude"), ("menu.cpu.fast.upload.tool", "bossac"),
     ("menu.cpu.fast.program.tool", "isp")] (by decide)).1

end packagemanager

/-! ## Theorems: the loop over `netPropRegexp` terminates -/

namespace packagemanager

/-- A text without opening brace in front does not add occurrences of a text that
begins with an opening brace. -/
theorem occurrences_append_of_not_mem (z a r : List Char) (ha : '\x7b' ∉ a) :
    occurrences ('\x7b' :: z) (a ++ r) = occurrences ('\x7b' :: z) r := by
  induction a with
  | nil => rfl
  | cons c cs ih =>
    simp only [List.mem_cons, not_or] at ha
    have : ('\x7b' == c) = false := by simpa using ha.1
    simp only [List.cons_append, occurrences, List.isPrefixOf, this, Bool.false_and,
      Bool.false_eq_true, if_false, Nat.zero_add, List.append_eq, ih ha.2]

/-- The occurrences of a text that begins with an opening brace, counted block by
block. -/
theorem occurrences_braceBlocks (z b0 : List Char) (bs : List (List Char))
    (hz : '\x7b' ∉ z) (h0 : '\x7b' ∉ b0) (hbs : ∀ b ∈ bs, '\x7b' ∉ b) :
    occurrences ('\x7b' :: z) (b0 ++ braceBlocks bs) = bs.countP fun b => z.isPrefixOf b := by
  rw [occurrences_append_of_not_mem z b0 _ h0]
  induction bs with
  | nil => rfl
  | cons b rest ih =>
    simp only [braceBlocks, occurrences, List.countP_cons]
    rw [occurrences_append_of_not_mem z b _ (hbs b (List.mem_cons_self _ _)),
      ih (fun x hx => hbs x (List.mem_cons_of_mem _ hx))]
    simp only [List.isPrefixOf, beq_self_eq_true, Bool.true_and, isPrefixOf_block z b rest hz]
    omega

theorem countP_cons_le {α : Type} (p : α → Bool) (x y : α) (l k : List α)
    (h : k.countP p ≤ l.countP p ∧ (k.countP p = l.countP p → k = l))
    (hx : y = x ∨ (p x = true ∧ p y = false)) :
    (y :: k).countP p ≤ (x :: l).countP p ∧
      ((y :: k).countP p = (x :: l).countP p → y :: k = x :: l) := by
  rcases hx with rfl | ⟨h1, h2⟩
  · simp only [List.countP_cons]
    refine ⟨by omega, fun he => ?_⟩
    rw [h.2 (by omega)]
  · simp only [List.countP_cons, h1, h2, if_true, Bool.false_eq_true, if_false]
    refine ⟨by omega, fun he => ?_⟩
    omega

/-- A scan that writes `\x7bupload.port.properties.` for `\x7bupload.network.` does not
add blocks that begin with `upload.network.`, and it removes one unless it leaves
the blocks as they are. -/
theorem rewriteBlocks_network_countP (D : List Char → Option (Nat × List Char))
    (hD : ∀ t n e, D t = some (n, e) →
      n = 16 ∧ e = "\x7bupload.port.properties.".data ∧
        "\x7bupload.network.".data.isPrefixOf t = true)
    (bs : List (List Char)) :
    ((rewriteBlocks D bs).countP fun b => "upload.network.".data.isPrefixOf b) ≤
        (bs.countP fun b => "upload.network.".data.isPrefixOf b) ∧
    (((rewriteBlocks D bs).countP fun b => "upload.network.".data.isPrefixOf b) =
        (bs.countP fun b => "upload.network.".data.isPrefixOf b) →
      rewriteBlocks D bs = bs) := by
  induction bs with
  | nil => exact ⟨Nat.le_refl _, fun _ => rfl⟩
  | cons b rest ih =>
    rw [rewriteBlocks]
    refine countP_cons_le _ b _ rest _ ih ?_
    cases hd : D ('\x7b' :: (b ++ braceBlocks rest)) with
    | none => exact Or.inl rfl
    | some ne =>
      obtain ⟨n, e⟩ := ne
      obtain ⟨hp, hg⟩ := rewriteBlocks_network D hD b rest n e hd
      refine Or.inr ⟨hp, ?_⟩
      show "upload.network.".data.isPrefixOf (e.tail ++ b.drop (n - 1)) = false
      rw [hg]
      exact network_prefix_mismatch _

end packagemanager

namespace packagemanager

/-- One round of the loop removes at least one occurrence of `\x7bupload.network.`. -/
theorem netProp_round_occurrences (s X : List Char) (h : findNetProp s = some X) :
    occurrences "\x7bupload.network.".data
        (strings.replaceChars ("\x7bupload.network.".data ++ (X ++ ['\x7d']))
          ("\x7bupload.port.properties.".data ++ (X ++ ['\x7d'])) 0 s) <
      occurrences "\x7bupload.network.".data s := by
  obtain ⟨hX, hcl, hcont⟩ := findNetProp_some s X h
  have hgrow := replaceChars_length_gt ("\x7bupload.network.".data ++ (X ++ ['\x7d']))
    ("\x7bupload.port.properties.".data ++ (X ++ ['\x7d'])) 8 (by simp) (by
      have h16 : "\x7bupload.network.".data.length = 16 := by decide
      have h24 : "\x7bupload.port.properties.".data.length = 24 := by decide
      simp only [List.length_append, h16, h24, List.length_cons, List.length_nil]
      omega) s hcont
  have hclP : '\x7d' ∉ "\x7bupload.network.".data ++ X := by
    simp only [List.mem_append, not_or]
    exact ⟨by decide, hcl⟩
  have hD : ∀ (t : List Char) (n : Nat) (e : List Char),
      (if ("\x7bupload.network.".data ++ (X ++ ['\x7d'])).isPrefixOf t
        then some ("\x7bupload.network.".data.length, "\x7bupload.port.properties.".data)
        else none) = some (n, e) →
      n = 16 ∧ e = "\x7bupload.port.properties.".data ∧
        "\x7bupload.network.".data.isPrefixOf t = true := by
    intro t n e ht
    split_ifs at ht with hp
    simp only [Option.some.injEq, Prod.mk.injEq] at ht
    exact ⟨ht.1.symm.trans (by decide), ht.2.symm, isPrefixOf_append_left _ _ t hp⟩
  obtain ⟨b0, bs, hs, h0, hbs⟩ := exists_braceBlocks s
  have hscan : strings.replaceChars ("\x7bupload.network.".data ++ (X ++ ['\x7d']))
      ("\x7bupload.port.properties.".data ++ (X ++ ['\x7d'])) 0 s =
      b0 ++ braceBlocks (rewriteBlocks (fun t =>
        if ("\x7bupload.network.".data ++ (X ++ ['\x7d'])).isPrefixOf t
        then some ("\x7bupload.network.".data.length, "\x7bupload.port.properties.".data)
        else none) bs) := by
    rw [replaceChars_common_suffix _ _ X (by decide) hclP, hs,
      scanRewrite_network_blocks _ hD b0 bs h0 hbs]
  have hcount := rewriteBlocks_network_countP _ hD bs
  have hfree := rewriteBlocks_network_braceFree _ hD bs hbs
  have hocc1 := occurrences_braceBlocks "upload.network.".data b0 bs (by decide) h0 hbs
  have hocc2 := occurrences_braceBlocks "upload.network.".data b0 _ (by decide) h0 hfree
  have hP : "\x7bupload.network.".data = '\x7b' :: "upload.network.".data := rfl
  rw [hscan, hP, hocc2]
  conv_rhs => rw [hs, hocc1]
  rcases Nat.lt_or_ge
    ((rewriteBlocks (fun t =>
        if ("\x7bupload.network.".data ++ (X ++ ['\x7d'])).isPrefixOf t
        then some ("\x7bupload.network.".data.length, "\x7bupload.port.properties.".data)
        else none) bs).countP fun b => "upload.network.".data.isPrefixOf b)
    (bs.countP fun b => "upload.network.".data.isPrefixOf b) with hlt | hge
  · exact hlt
  · exfalso
    have hsame := hcount.2 (Nat.le_antisymm hcount.1 hge)
    rw [hsame, ← hs] at hscan
    rw [hscan] at hgrow
    omega

end packagemanager

namespace packagemanager

theorem occurrences_le_length (sub s : List Char) : occurrences sub s ≤ s.length := by
  induction s with
  | nil => exact Nat.le_refl _
  | cons c cs ih =>
    simp only [occurrences, List.length_cons]
    split_ifs <;> omega

/-- The loop leaves no match once it has as many rounds as the pattern has
occurrences of `\x7bupload.network.`. -/
theorem replaceNetProps_ends (fuel : Nat) (s : String)
    (h : occurrences "\x7bupload.network.".data s.data ≤ fuel) :
    findNetProp (replaceNetProps fuel s).data = none := by
  induction fuel generalizing s with
  | zero =>
    rw [replaceNetProps]
    rcases Option.eq_none_or_eq_some (findNetProp s.data) with hf | ⟨X, hf⟩
    · exact hf
    · have := netProp_round_occurrences s.data X hf
      omega
  | succ fuel ih =>
    rw [replaceNetProps]
    cases hf : findNetProp s.data with
    | none => exact hf
    | some X =>
      have hlt := netProp_round_occurrences s.data X hf
      rw [← netProp_round_data] at hlt
      exact ih _ (by omega)

/-- Rounds beyond the exit of the loop change nothing. -/
theorem replaceNetProps_more_fuel (n k : Nat) (s : String)
    (h : findNetProp (replaceNetProps n s).data = none) :
    replaceNetProps (n + k) s = replaceNetProps n s := by
  induction n generalizing s with
  | zero =>
    rw [replaceNetProps] at h
    rw [Nat.zero_add, replaceNetProps]
    cases k with
    | zero => rw [replaceNetProps]
    | succ k => rw [replaceNetProps, h]
  | succ n ih =>
    rw [Nat.succ_add, replaceNetProps, replaceNetProps]
    rw [replaceNetProps] at h
    cases hf : findNetProp s.data with
    | none => rfl
    | some X =>
      rw [hf] at h
      exact ih _ h

/-- C24: the loop `for netPropRegexp.MatchString(pattern)` of
`convertLegacyNetworkPatternToPluggableDiscovery` terminates for every pattern,
whatever the matched property name contains.  Each round, which replaces every
`\x7bupload.network.X\x7d` for the first match `X`, leaves strictly fewer occurrences
of `\x7bupload.network.` in the pattern.  Hence after as many rounds as the pattern
has such occurrences no match is left and further rounds change nothing; this number
is at most the length of the pattern, the bound of rounds of the embedding. -/
theorem replaceNetProps_terminates (pattern : String) :
    (∀ netProp : List Char, findNetProp pattern.data = some netProp →
      occurrences "\x7bupload.network.".data
          (strings.ReplaceAll pattern ("\x7bupload.network." ++ String.mk netProp ++ "\x7d")
            ("\x7bupload.port.properties." ++ String.mk netProp ++ "\x7d")).data <
        occurrences "\x7bupload.network.".data pattern.data) ∧
    (∀ fuel, occurrences "\x7bupload.network.".data pattern.data ≤ fuel →
      findNetProp (replaceNetProps fuel pattern).data = none ∧
      replaceNetProps fuel pattern =
        replaceNetProps (occurrences "\x7bupload.network.".data pattern.data) pattern) ∧
    occurrences "\x7bupload.network.".data pattern.data ≤ pattern.data.length ∧
    findNetProp (replaceNetProps pattern.data.length pattern).data = none := by
  refine ⟨?_, ?_, occurrences_le_length _ _, ?_⟩
  · intro netProp hf
    rw [netProp_round_data]
    exact netProp_round_occurrences pattern.data netProp hf
  · intro fuel hfuel
    refine ⟨replaceNetProps_ends fuel pattern hfuel, ?_⟩
    obtain ⟨k, rfl⟩ := Nat.exists_eq_add_of_le hfuel
    exact replaceNetProps_more_fuel _ k pattern (replaceNetProps_ends _ pattern (Nat.le_refl _))
  · exact replaceNetProps_ends _ pattern (occurrences_le_length _ _)

/-- Witness of C24: a pattern whose first match captures a name that itself holds
`\x7bupload.network.`; the round takes the two occurrences down to one. -/
theorem replaceNetProps_terminates_witness :
    occurrences "\x7bupload.network.".data
        (strings.ReplaceAll "\x7bupload.network.\x7bupload.network.a\x7d"
          ("\x7bupload.network." ++ String.mk "\x7bupload.network.a".data ++ "\x7d")
          ("\x7bupload.port.properties." ++ String.mk "\x7bupload.network.a".data ++ "\x7d")).data <
      occurrences "\x7bupload.network.".data "\x7bupload.network.\x7bupload.network.a\x7d".data :=
  (replaceNetProps_terminates "\x7bupload.network.\x7bupload.network.a\x7d").1
    "\x7bupload.network.a".data (by decide)

end packagemanager

/-! ## Theorems: the platform name and `installed.json` -/

namespace packagemanager

/-- The name of a platform after an index has been merged: the name the index gives
it, or else the name it had. -/
theorem MergeIntoPackages_platform_name (index : packageindex.Index)
    (packages : cores.Packages) (p a : String) :
    (((index.MergeIntoPackages packages).package p).platform a).Name =
      (index.platformName p a).getD ((packages.package p).platform a).Name := by
  unfold packageindex.Index.MergeIntoPackages packageindex.Index.platformName
  have inner : ∀ (l : List packageindex.indexPlatformRelease) (pk : cores.Package)
      (acc : Option String) (orig : String), (pk.platform a).Name = acc.getD orig →
      ((l.foldl (fun (pk : cores.Package) inPlatform =>
        pk.GetOrCreatePlatform inPlatform.Architecture fun pl =>
          ({ pl with Name := inPlatform.Name } : cores.Platform).GetOrCreateRelease
            inPlatform.Version id) pk).platform a).Name =
        (l.foldl (fun acc inPlatform =>
          if inPlatform.Architecture = a then some inPlatform.Name else acc) acc).getD orig := by
    intro l
    induction l with
    | nil => intro pk acc orig h; exact h
    | cons x l ih =>
      intro pk acc orig h
      simp only [List.foldl_cons]
      apply ih
      rw [cores.Package.platform_GetOrCreatePlatform]
      split_ifs with hx
      · rfl
      · exact h
  have tools : ∀ (l : List packageindex.indexToolRelease) (pk : cores.Package),
      (l.foldl (fun (pk : cores.Package) inTool =>
        pk.GetOrCreateTool inTool.Name fun t => t.GetOrCreateRelease inTool.Version id)
        pk).platform a = pk.platform a := by
    intro l
    induction l with
    | nil => intro pk; rfl
    | cons x l ih =>
      intro pk
      simp only [List.foldl_cons]
      rw [ih]
      rfl
  have outer : ∀ (l : packageindex.Index) (out : cores.Packages) (acc : Option String)
      (orig : String), ((out.package p).platform a).Name = acc.getD orig →
      (((l.foldl (fun acc inPackage =>
        acc.GetOrCreatePackage inPackage.Name fun outPackage =>
          let p1 := inPackage.Tools.foldl (fun (pk : cores.Package) inTool =>
            pk.GetOrCreateTool inTool.Name fun t => t.GetOrCreateRelease inTool.Version id)
            outPackage
          inPackage.Platforms.foldl (fun (pk : cores.Package) inPlatform =>
            pk.GetOrCreatePlatform inPlatform.Architecture fun pl =>
              ({ pl with Name := inPlatform.Name } : cores.Platform).GetOrCreateRelease
                inPlatform.Version id) p1) out).package p).platform a).Name =
        (l.foldl (fun acc inPackage =>
          if inPackage.Name = p then
            inPackage.Platforms.foldl (fun acc inPlatform =>
              if inPlatform.Architecture = a then some inPlatform.Name else acc) acc
          else acc) acc).getD orig := by
    intro l
    induction l with
    | nil => intro out acc orig h; exact h
    | cons x l ih =>
      intro out acc orig h
      simp only [List.foldl_cons]
      apply ih
      rw [cores.Packages.package_GetOrCreatePackage]
      split_ifs with hx
      · subst hx
        apply inner
        rw [tools]
        exact h
      · exact h
  exact outer index packages none _ rfl

end packagemanager

namespace packagemanager

/-- What the pointers of `loadPlatformRelease` reach once the `installed.json` step has
succeeded: the package keeps its name and the platform its architecture, and the
platform has the name that the index gives it, or else the name it had at the
call. -/
theorem installedJSON_step_names (env : Env) (pm pmj : Builder)
    (packager arch version : String) (path : paths.Path) (idx : packageindex.Index)
    (hstep : (if Exist env (path.Join "installed.json")
        then (pm.updateRelease packager arch version fun r =>
          { r with InstallDir := some path }).LoadPackageIndexFromFile env
            (path.Join "installed.json")
        else (pm.updateRelease packager arch version fun r =>
          { r with InstallDir := some path }, .ok [])) = (pmj, .ok idx)) :
    (pmj.packages.package packager).Name = (pm.packages.package packager).Name ∧
    ((pmj.packages.package packager).platform arch).Architecture
      = ((pm.packages.package packager).platform arch).Architecture ∧
    ((pmj.packages.package packager).platform arch).Name =
      (idx.platformName packager arch).getD ((pm.packages.package packager).platform arch).Name := by
  have h0 : ((pm.updateRelease packager arch version fun r =>
        { r with InstallDir := some path }).packages.package packager).Name
        = (pm.packages.package packager).Name ∧
      (((pm.updateRelease packager arch version fun r =>
        { r with InstallDir := some path }).packages.package packager).platform
          arch).Architecture = ((pm.packages.package packager).platform arch).Architecture ∧
      (((pm.updateRelease packager arch version fun r =>
        { r with InstallDir := some path }).packages.package packager).platform arch).Name
          = ((pm.packages.package packager).platform arch).Name := by
    refine ⟨?_, ?_, ?_⟩
    · simp [Builder.updateRelease, Builder.updatePlatform, Builder.updatePackage,
        cores.Packages.GetOrCreatePackage, cores.Packages.package,
        cores.Package.GetOrCreatePlatform, assocGet_assocSet_self]
    · unfold Builder.updateRelease
      rw [platform_updatePlatform]
      rfl
    · unfold Builder.updateRelease
      rw [platform_updatePlatform]
      rfl
  split_ifs at hstep with hex
  · unfold Builder.LoadPackageIndexFromFile at hstep
    cases hl : LoadIndex env (path.Join "installed.json") with
    | error e =>
      rw [hl] at hstep
      cases hstep
    | ok index =>
      rw [hl] at hstep
      have hpm := congrArg Prod.fst hstep
      have hix : index = idx := by
        have := congrArg Prod.snd hstep
        simpa using this
      dsimp only at hpm
      subst hix
      rw [← hpm]
      have hm := MergeIntoPackages_frame index (pm.updateRelease packager arch version fun r =>
        { r with InstallDir := some path }).packages packager arch
      refine ⟨hm.1.trans h0.1, hm.2.2.1.trans h0.2.1, ?_⟩
      show (((index.MergeIntoPackages _).package packager).platform arch).Name = _
      rw [MergeIntoPackages_platform_name, h0.2.2]
  · have hpm := congrArg Prod.fst hstep
    have hix : ([] : packageindex.Index) = idx := by
      have := congrArg Prod.snd hstep
      simpa using this
    dsimp only at hpm
    subst hix
    rw [← hpm]
    exact ⟨h0.1, h0.2.1, h0.2.2⟩

end packagemanager

namespace packagemanager

/-- Counterexample to C20: the platform `acme:avr` is called `Old Name` when
`loadPlatformRelease` is called, and the `installed.json` of the release declares it
with the name `New Name`.  The call succeeds and the platform is called `New Name`
afterwards: the non-empty name was not left unchanged. -/
theorem loadPlatformRelease_installed_json_renames_platform :
    (((emptyBuilder.updatePlatform "acme" "avr" fun pl =>
      { pl with Name := "Old Name" }).packages.package "acme").platform "avr").Name
        = "Old Name" ∧
    (loadPlatformRelease (sampleEnv (.dir [("p", .dir [
        ("boards.txt", .file (.properties [("uno.name", "Uno")])),
        ("platform.txt", .file (.properties samplePlatformTxt)),
        ("installed.json", .file (.index [
          { Name := "acme", Tools := [],
            Platforms := [{ Name := "New Name", Architecture := "avr",
                            Version := "1.2.3" }] }]))])]) [] [])
      (emptyBuilder.updatePlatform "acme" "avr" fun pl => { pl with Name := "Old Name" })
      "acme" "avr" "1.2.3" ["p"]).2 = none ∧
    (((loadPlatformRelease (sampleEnv (.dir [("p", .dir [
        ("boards.txt", .file (.properties [("uno.name", "Uno")])),
        ("platform.txt", .file (.properties samplePlatformTxt)),
        ("installed.json", .file (.index [
          { Name := "acme", Tools := [],
            Platforms := [{ Name := "New Name", Architecture := "avr",
                            Version := "1.2.3" }] }]))])]) [] [])
      (emptyBuilder.updatePlatform "acme" "avr" fun pl => { pl with Name := "Old Name" })
      "acme" "avr" "1.2.3" ["p"]).1.packages.package "acme").platform "avr").Name
        = "New Name" := by
  refine ⟨by decide, by decide, by decide⟩

/-- C20 (amended): once the `installed.json` step of `loadPlatformRelease` has
succeeded (the file is absent, or it parsed as the index `idx` and was merged,
leaving the catalog `pmj`) and `platform.txt` and `platform.local.txt` have been
read.  The name of the platform in `pmj` is the name that `installed.json` gives to
this platform when it declares a release of it, and the name the platform had at the
call otherwise; the package name, the architecture and the properties of the release
are those of the call.  The name of the platform at the end of the call is: the name
in `pmj` when that is not empty; otherwise the value of the key `name` of the merged
properties (those of the release, then `platform.txt`, then `platform.local.txt`)
when the key is present; otherwise the name of the package, `-`, and the
architecture.  In particular a name that is not empty at the call is left unchanged
when `installed.json` is absent or does not declare the platform.  This holds
whether or not the later steps of the loading fail. -/
theorem loadPlatformRelease_sets_platform_name (env : Env) (pm pmj : Builder)
    (packager arch version : String) (path : paths.Path) (idx : packageindex.Index)
    (p pl : properties.Map)
    (hstep : (if Exist env (path.Join "installed.json")
        then (pm.updateRelease packager arch version fun r =>
          { r with InstallDir := some path }).LoadPackageIndexFromFile env
            (path.Join "installed.json")
        else (pm.updateRelease packager arch version fun r =>
          { r with InstallDir := some path }, .ok [])) = (pmj, .ok idx))
    (h1 : SafeLoad env (path.Join "platform.txt") = .ok p)
    (h2 : SafeLoad env (path.Join "platform.local.txt") = .ok pl) :
    (((loadPlatformRelease env pm packager arch version path).1.packages.package
        packager).platform arch).Name =
      (if ((pmj.packages.package packager).platform arch).Name ≠ ""
       then ((pmj.packages.package packager).platform arch).Name
       else
        match (((((pmj.packages.package packager).platform arch).release
          version).Properties.Merge p).Merge pl).GetOk "name" with
        | some n => n
        | none => (pmj.packages.package packager).Name ++ "-" ++
            ((pmj.packages.package packager).platform arch).Architecture) ∧
    (Exist env (path.Join "installed.json") = false →
      ((pmj.packages.package packager).platform arch).Name =
        ((pm.packages.package packager).platform arch).Name) ∧
    ((pmj.packages.package packager).platform arch).Name =
      (idx.platformName packager arch).getD
        ((pm.packages.package packager).platform arch).Name ∧
    (pmj.packages.package packager).Name = (pm.packages.package packager).Name ∧
    ((pmj.packages.package packager).platform arch).Architecture
      = ((pm.packages.package packager).platform arch).Architecture ∧
    (((pmj.packages.package packager).platform arch).release version).Properties
      = (((pm.packages.package packager).platform arch).release version).Properties ∧
    (idx.platformName packager arch = none →
      ((pm.packages.package packager).platform arch).Name ≠ "" →
      (((loadPlatformRelease env pm packager arch version path).1.packages.package
          packager).platform arch).Name =
        ((pm.packages.package packager).platform arch).Name) ∧
    (Exist env (path.Join "installed.json") = false → idx.platformName packager arch = none) := by
  have hnames := installedJSON_step_names env pm pmj packager arch version path idx hstep
  have hrel := installedJSON_step_release env pm pmj packager arch version path idx hstep
  have hfinal : (((loadPlatformRelease env pm packager arch version path).1.packages.package
        packager).platform arch).Name =
      (if ((pmj.packages.package packager).platform arch).Name ≠ ""
       then ((pmj.packages.package packager).platform arch).Name
       else
        match (((((pmj.packages.package packager).platform arch).release
          version).Properties.Merge p).Merge pl).GetOk "name" with
        | some n => n
        | none => (pmj.packages.package packager).Name ++ "-" ++
            ((pmj.packages.package packager).platform arch).Architecture) := by
    unfold loadPlatformRelease
    dsimp only
    rw [hstep]
    dsimp only
    rw [platform_updatePlatform]
    show (loadPlatformReleaseFiles env _ _ _ _ path).1.1 = _
    rw [loadPlatformReleaseFiles_name env _ _ _ _ path p pl h1 h2]
    by_cases hn : ((pmj.packages.package packager).platform arch).Name = ""
    · simp [hn]
    · simp [hn]
  have hempty : Exist env (path.Join "installed.json") = false → idx = [] := by
    intro hex
    rw [hex] at hstep
    simp only [Bool.false_eq_true, if_false] at hstep
    have := congrArg Prod.snd hstep
    simpa using this.symm
  refine ⟨hfinal, ?_, hnames.2.2, hnames.1, hnames.2.1, ?_, ?_, ?_⟩
  · intro hex
    rw [hnames.2.2, hempty hex]
    rfl
  · rw [hrel]
  · intro hnone hne
    have hj : ((pmj.packages.package packager).platform arch).Name
        = ((pm.packages.package packager).platform arch).Name := by
      rw [hnames.2.2, hnone]
      rfl
    rw [hfinal, if_pos (by rw [hj]; exact hne), hj]
  · intro hex
    rw [hempty hex]
    rfl

/-- Witness of C20: the platform `acme:avr` is called `Old Name` at the call and the
`installed.json` of the release declares only the platform `acme:sam`; the name is
left unchanged. -/
theorem loadPlatformRelease_sets_platform_name_witness :
    (((loadPlatformRelease (sampleEnv (.dir [("p", .dir [
        ("boards.txt", .file (.properties [("uno.name", "Uno")])),
        ("platform.txt", .file (.properties samplePlatformTxt)),
        ("installed.json", .file (.index [
          { Name := "acme", Tools := [],
            Platforms := [{ Name := "Acme SAM", Architecture := "sam",
                            Version := "1.0.0" }] }]))])]) [] [])
      (emptyBuilder.updatePlatform "acme" "avr" fun pl => { pl with Name := "Old Name" })
      "acme" "avr" "1.2.3" ["p"]).1.packages.package "acme").platform "avr").Name
        = "Old Name" :=
  ((loadPlatformRelease_sets_platform_name
    (sampleEnv (.dir [("p", .dir [
        ("boards.txt", .file (.properties [("uno.name", "Uno")])),
        ("platform.txt", .file (.properties samplePlatformTxt)),
        ("installed.json", .file (.index [
          { Name := "acme", Tools := [],
            Platforms := [{ Name := "Acme SAM", Architecture := "sam",
                            Version := "1.0.0" }] }]))])]) [] [])
    (emptyBuilder.updatePlatform "acme" "avr" fun pl => { pl with Name := "Old Name" })
    _ "acme" "avr" "1.2.3" ["p"] _ samplePlatformTxt [] rfl rfl rfl).2.2.2.2.2.2.1
      (by decide) (by decide)).trans (by decide)

end packagemanager
